import Mathlib

/-!
# Lisp interpreter: data model, environments, evaluator, reader

A shallow embedding of `lisp_interpreter.c`.  Every `Sexp*` of the C program is an
address into an explicit store; every constructor call (`make_number`, `cons`, ...)
allocates a fresh cell; the two in-place writes of the program (`env_set`, and the tail
patching of `read_list`) are store updates.  Functions that the C code writes over the
heap take the store as an argument and, when they allocate or write, return the new one.
-/

namespace Lisp

/-! ## Numbers -/

/-- The C type `double` (IEEE 754 binary64).  A finite value is the rational number it
stands for; the operations round their exact result with `Dbl.round`, so that finite operands
that are doubles give the double that the machine gives.  The sign of zero is not modelled;
the two infinities and NaN are kept, because `strtod` reads the tokens `inf` and `nan` and
the arithmetic produces them. -/
inductive Dbl where
  | fin (q : ℚ)
  | inf (neg : Bool)
  | nan
  deriving DecidableEq, Repr

namespace Dbl

/-- The quotient `n / d` rounded to the nearest natural number, a tie to the even one. -/
def roundEven (n d : Nat) : Nat :=
  if 2 * (n % d) < d then n / d
  else if d < 2 * (n % d) then n / d + 1
  else if n / d % 2 = 0 then n / d else n / d + 1

/-- The number of times that a natural number can be halved before it is below `2`, at most
`fuel` times; `halvings n n` is the integer part of the binary logarithm of a positive
`n`. -/
def halvings : Nat → Nat → Nat
  | 0, _ => 0
  | fuel + 1, n => if n < 2 then 0 else halvings fuel (n / 2) + 1

/-- The integer `b` with `2 ^ b ≤ n / d < 2 ^ (b + 1)`, for positive `n` and `d`: with
`k` the difference of the binary logarithms the quotient lies between `2 ^ (k - 1)` and
`2 ^ (k + 1)`. -/
def binade (n d : Nat) : Int :=
  let k : Int := (halvings n n : Int) - (halvings d d : Int)
  if n * 2 ^ (-k).toNat < d * 2 ^ k.toNat then k - 1 else k

/-- The double nearest to a rational number (IEEE 754 binary64 with the default rounding,
to nearest with ties to even).  An integer of magnitude at most `2 ^ 53` is a double.
Otherwise, with `b` the binade of the magnitude, the doubles around it are the multiples
`m * 2 ^ e` of the unit in the last place, `e = max (b - 52) (-1074)` (the lower bound is the
exponent of the subnormal numbers), and `m` is the magnitude over `2 ^ e` rounded to the
nearest integer, at most `2 ^ 53`; a magnitude that rounds to `2 ^ 1024` or more overflows to
an infinity, and one below half of `2 ^ (-1074)` underflows to zero. -/
def round (q : ℚ) : Dbl :=
  if q.den = 1 ∧ q.num.natAbs ≤ 2 ^ 53 then fin q
  else
    let e : Int := max (binade q.num.natAbs q.den - 52) (-1074)
    let m : Nat := roundEven (q.num.natAbs * 2 ^ (-e).toNat) (q.den * 2 ^ e.toNat)
    if 971 < e ∨ (e = 971 ∧ m = 2 ^ 53) then inf (decide (q < 0))
    else
      let r : ℚ := ((m * 2 ^ e.toNat : Nat) : ℚ) / ((2 ^ (-e).toNat : Nat) : ℚ)
      fin (if q < 0 then -r else r)

/-- C `a + b` on doubles. -/
def add : Dbl → Dbl → Dbl
  | fin a, fin b => round (a + b)
  | nan, _ => nan
  | _, nan => nan
  | inf s, inf t => if s = t then inf s else nan
  | inf s, fin _ => inf s
  | fin _, inf t => inf t

/-- C unary minus on doubles. -/
def neg : Dbl → Dbl
  | fin a => fin (-a)
  | inf s => inf (!s)
  | nan => nan

/-- C `a - b` on doubles. -/
def sub (a b : Dbl) : Dbl := add a (neg b)

/-- C `a * b` on doubles. -/
def mul : Dbl → Dbl → Dbl
  | fin a, fin b => round (a * b)
  | nan, _ => nan
  | _, nan => nan
  | inf s, inf t => inf (xor s t)
  | inf s, fin b => if b = 0 then nan else inf (xor s (decide (b < 0)))
  | fin a, inf t => if a = 0 then nan else inf (xor (decide (a < 0)) t)

/-- C `a / b` on doubles.  A finite value over zero is infinite (or NaN for `0 / 0`);
`divide` never reaches that case because it tests the divisor first. -/
def div : Dbl → Dbl → Dbl
  | fin a, fin b =>
    if b = 0 then (if a = 0 then nan else inf (decide (a < 0))) else round (a / b)
  | nan, _ => nan
  | _, nan => nan
  | inf _, inf _ => nan
  | inf s, fin b => inf (xor s (decide (b < 0)))
  | fin _, inf _ => fin 0

/-- C `a == b` on doubles: NaN is equal to nothing, itself included. -/
def eqb : Dbl → Dbl → Bool
  | fin a, fin b => decide (a = b)
  | inf s, inf t => s == t
  | _, _ => false

/-- C `a < b` on doubles: false whenever an operand is NaN. -/
def ltb : Dbl → Dbl → Bool
  | fin a, fin b => decide (a < b)
  | inf s, fin _ => s
  | fin _, inf t => !t
  | inf s, inf t => s && !t
  | _, _ => false

/-- C `a <= b` on doubles. -/
def leb (a b : Dbl) : Bool := ltb a b || eqb a b

/-- C `a > b` on doubles. -/
def gtb (a b : Dbl) : Bool := ltb b a

/-- C `a >= b` on doubles. -/
def geb (a b : Dbl) : Bool := leb b a

/-- Lower bound of the C type `int` (32 bits). -/
def INT_MIN : Int := -2147483648

/-- Upper bound of the C type `int` (32 bits). -/
def INT_MAX : Int := 2147483647

/-- The cast `(int)d`: truncation toward zero.  The C standard leaves the cast undefined
when the truncated value does not fit in an `int` (and for infinities and NaN): `none`. -/
def toInt : Dbl → Option Int
  | fin q =>
    let t := Int.tdiv q.num q.den
    if INT_MIN ≤ t ∧ t ≤ INT_MAX then some t else none
  | _ => none

/-- The implicit conversion from `int` to `double`, which is exact. -/
def ofInt (i : Int) : Dbl := fin i

/-- C `x % y` on `int`: remainder of the division truncated toward zero; undefined for a
zero divisor and for `INT_MIN % -1`, whose quotient overflows: `none`. -/
def intRem (x y : Int) : Option Int :=
  if y = 0 then none
  else if x = INT_MIN ∧ y = -1 then none
  else some (Int.tmod x y)

end Dbl

/-! ## Cells and the store -/

/-- A `Sexp*`: the address of a cell.  Address `0` is the `NIL` singleton. -/
abbrev Ptr := Nat

/-- The values of a `PrimitiveFunc`: the fourteen wrapper functions `prim_*`. -/
inductive Prim where
  | prim_add | prim_sub | prim_mul | prim_div | prim_mod
  | prim_lt | prim_gt | prim_lte | prim_gte
  | prim_eq | prim_not | prim_cons | prim_car | prim_cdr
  deriving DecidableEq, Repr

/-- The struct `Sexp`: the tag `SexpType` with the member of the union that goes with it,
in the order of the enum. -/
inductive Cell where
  | number (d : Dbl)
  | symbol (s : String)
  | string (s : String)
  | cons (car cdr : Ptr)
  | nil
  | lambda (params body env : Ptr)
  | primitive (f : Prim)
  deriving DecidableEq, Repr

/-- The enum `SexpType`. -/
inductive SexpType where
  | ATOM_NUMBER | ATOM_SYMBOL | ATOM_STRING | CONS_CELL | NIL_TYPE | LAMBDA_TYPE
  | PRIMITIVE_TYPE
  deriving DecidableEq, Repr

/-- The field `type` of a cell. -/
def Cell.type : Cell → SexpType
  | Cell.number _ => SexpType.ATOM_NUMBER
  | Cell.symbol _ => SexpType.ATOM_SYMBOL
  | Cell.string _ => SexpType.ATOM_STRING
  | Cell.cons _ _ => SexpType.CONS_CELL
  | Cell.nil => SexpType.NIL_TYPE
  | Cell.lambda _ _ _ => SexpType.LAMBDA_TYPE
  | Cell.primitive _ => SexpType.PRIMITIVE_TYPE

/-- The heap.  `cells` holds the cells handed out by `allocate_sexp` after the `NIL`
singleton, in allocation order: the cell at address `k + 1` is `cells[k]`.  Nothing is
ever freed. -/
structure Store where
  cells : List Cell
  deriving DecidableEq, Repr

/-- The address of the `NIL` singleton, allocated by the first call of `nil()` in `main`. -/
def NILP : Ptr := 0

namespace Store

/-- The heap right after `nil()` has run for the first time. -/
def empty : Store := ⟨[]⟩

/-- Number of cells allocated after `NIL`. -/
def size (st : Store) : Nat := st.cells.length

/-- The cell at an address.  The `NIL` cell keeps its tag for ever (no code writes a tag
after construction); an address that was never handed out reads as `NIL` too, which keeps
the accessors total. -/
def read (st : Store) : Ptr → Cell
  | 0 => Cell.nil
  | k + 1 => st.cells.getD k Cell.nil

/-- The function `allocate_sexp` followed by the initialisation of the new cell. -/
def alloc (st : Store) (c : Cell) : Ptr × Store :=
  (st.cells.length + 1, ⟨st.cells ++ [c]⟩)

/-- An in-place update of an allocated cell. -/
def write (st : Store) (p : Ptr) (c : Cell) : Store :=
  match p with
  | 0 => st
  | k + 1 => ⟨st.cells.set k c⟩

end Store

/-! ## Constructors -/

/-- The function `nil`. -/
def nil : Ptr := NILP

/-- The function `make_number`. -/
def make_number (st : Store) (value : Dbl) : Ptr × Store := st.alloc (Cell.number value)

/-- The function `make_symbol`. -/
def make_symbol (st : Store) (value : String) : Ptr × Store := st.alloc (Cell.symbol value)

/-- The function `make_string`. -/
def make_string (st : Store) (value : String) : Ptr × Store := st.alloc (Cell.string value)

/-- The function `cons`. -/
def cons (st : Store) (car cdr : Ptr) : Ptr × Store := st.alloc (Cell.cons car cdr)

/-- The function `make_lambda`. -/
def make_lambda (st : Store) (params body env : Ptr) : Ptr × Store :=
  st.alloc (Cell.lambda params body env)

/-- The function `make_primitive`. -/
def make_primitive (st : Store) (func : Prim) : Ptr × Store := st.alloc (Cell.primitive func)

/-! ## Predicates -/

/-- The function `isNil`: `s == nil() || s->type == NIL_TYPE`. -/
def isNil (st : Store) (s : Ptr) : Bool :=
  s == nil || (match st.read s with | Cell.nil => true | _ => false)

/-- The function `isNumber`. -/
def isNumber (st : Store) (s : Ptr) : Bool :=
  match st.read s with | Cell.number _ => true | _ => false

/-- The function `isSymbol`. -/
def isSymbol (st : Store) (s : Ptr) : Bool :=
  match st.read s with | Cell.symbol _ => true | _ => false

/-- The function `isString`. -/
def isString (st : Store) (s : Ptr) : Bool :=
  match st.read s with | Cell.string _ => true | _ => false

/-- The test `s->type == CONS_CELL`. -/
def isCons (st : Store) (s : Ptr) : Bool :=
  match st.read s with | Cell.cons _ _ => true | _ => false

/-- The function `isList`. -/
def isList (st : Store) (s : Ptr) : Bool := isNil st s || isCons st s

/-- The function `isTrueSexp`. -/
def isTrueSexp (st : Store) (s : Ptr) : Bool := !isNil st s

/-- The function `isLambda`. -/
def isLambda (st : Store) (s : Ptr) : Bool :=
  match st.read s with | Cell.lambda _ _ _ => true | _ => false

/-- The function `isPrimitive`. -/
def isPrimitive (st : Store) (s : Ptr) : Bool :=
  match st.read s with | Cell.primitive _ => true | _ => false

/-! ## Accessors

The message that `car` and `cdr` print on `stderr` for a non-pair is not part of the
model; only the returned value is. -/

/-- The function `car`. -/
def car (st : Store) (s : Ptr) : Ptr :=
  match st.read s with | Cell.cons a _ => a | _ => nil

/-- The function `cdr`. -/
def cdr (st : Store) (s : Ptr) : Ptr :=
  match st.read s with | Cell.cons _ d => d | _ => nil

/-- The function `cadr`. -/
def cadr (st : Store) (s : Ptr) : Ptr := car st (cdr st s)

/-- The function `caddr`. -/
def caddr (st : Store) (s : Ptr) : Ptr := car st (cdr st (cdr st s))

/-- The function `cadddr`. -/
def cadddr (st : Store) (s : Ptr) : Ptr := car st (cdr st (cdr st (cdr st s)))

/-! ## Equality -/

/-- The function `eq`.  `strcmp(..) == 0` is equality of the texts; `a == b` on pointers is
equality of the addresses; the `default` branch takes closures and primitives. -/
def eq (st : Store) (a b : Ptr) : Bool :=
  if isNil st a && isNil st b then true
  else if isNil st a || isNil st b then false
  else
    match st.read a, st.read b with
    | Cell.number x, Cell.number y => Dbl.eqb x y
    | Cell.symbol s, Cell.symbol t => decide (s = t)
    | Cell.string s, Cell.string t => decide (s = t)
    | Cell.cons _ _, Cell.cons _ _ => decide (a = b)
    | _, _ => false

/-- The function `null`. -/
def null (st : Store) (s : Ptr) : Bool := isNil st s

/-! ## Results of fallible computations -/

/-- What a call of the C program can do: return a value (with the heap it leaves), run into
behaviour the C standard leaves undefined (`fault`), or, in the model only, use up the step
budget before it returns (`fuel`). -/
inductive Res where
  | ok (v : Ptr) (st : Store)
  | fault
  | fuel
  deriving DecidableEq, Repr

namespace Res

/-- A total call, seen as a fallible one. -/
def ofPair (r : Ptr × Store) : Res := ok r.1 r.2

/-- Sequencing: run `k` on the value and heap that `r` returns. -/
def bind (r : Res) (k : Ptr → Store → Res) : Res :=
  match r with
  | ok v st => k v st
  | fault => fault
  | fuel => fuel

end Res

/-! ## Arithmetic and comparison -/

/-- The function `add`. -/
def add (st : Store) (a b : Ptr) : Ptr × Store :=
  match st.read a, st.read b with
  | Cell.number x, Cell.number y => make_number st (Dbl.add x y)
  | _, _ => make_symbol st "ERROR:NOT_A_NUMBER"

/-- The function `sub`. -/
def sub (st : Store) (a b : Ptr) : Ptr × Store :=
  match st.read a, st.read b with
  | Cell.number x, Cell.number y => make_number st (Dbl.sub x y)
  | _, _ => make_symbol st "ERROR:NOT_A_NUMBER"

/-- The function `mul`. -/
def mul (st : Store) (a b : Ptr) : Ptr × Store :=
  match st.read a, st.read b with
  | Cell.number x, Cell.number y => make_number st (Dbl.mul x y)
  | _, _ => make_symbol st "ERROR:NOT_A_NUMBER"

/-- The function `divide`. -/
def divide (st : Store) (a b : Ptr) : Ptr × Store :=
  match st.read a, st.read b with
  | Cell.number x, Cell.number y =>
    if Dbl.eqb y (Dbl.fin 0) then make_symbol st "ERROR:DIVISION_BY_ZERO"
    else make_number st (Dbl.div x y)
  | _, _ => make_symbol st "ERROR:NOT_A_NUMBER"

/-- The function `mod`.  After the two type tests and the test `b->data.number == 0` on the
double, it computes `(int)a->data.number % (int)b->data.number`: both casts and the integer
remainder can be undefined, in which case the call is a `fault`. -/
def mod (st : Store) (a b : Ptr) : Res :=
  match st.read a, st.read b with
  | Cell.number x, Cell.number y =>
    if Dbl.eqb y (Dbl.fin 0) then Res.ofPair (make_symbol st "ERROR:DIVISION_BY_ZERO")
    else
      match Dbl.toInt x, Dbl.toInt y with
      | some i, some j =>
        match Dbl.intRem i j with
        | some r => Res.ofPair (make_number st (Dbl.ofInt r))
        | none => Res.fault
      | _, _ => Res.fault
  | _, _ => Res.ofPair (make_symbol st "ERROR:NOT_A_NUMBER")

/-- The function `lt`. -/
def lt (st : Store) (a b : Ptr) : Ptr × Store :=
  match st.read a, st.read b with
  | Cell.number x, Cell.number y => if Dbl.ltb x y then make_symbol st "T" else (nil, st)
  | _, _ => make_symbol st "ERROR:NOT_A_NUMBER"

/-- The function `gt`. -/
def gt (st : Store) (a b : Ptr) : Ptr × Store :=
  match st.read a, st.read b with
  | Cell.number x, Cell.number y => if Dbl.gtb x y then make_symbol st "T" else (nil, st)
  | _, _ => make_symbol st "ERROR:NOT_A_NUMBER"

/-- The function `lte`. -/
def lte (st : Store) (a b : Ptr) : Ptr × Store :=
  match st.read a, st.read b with
  | Cell.number x, Cell.number y => if Dbl.leb x y then make_symbol st "T" else (nil, st)
  | _, _ => make_symbol st "ERROR:NOT_A_NUMBER"

/-- The function `gte`. -/
def gte (st : Store) (a b : Ptr) : Ptr × Store :=
  match st.read a, st.read b with
  | Cell.number x, Cell.number y => if Dbl.geb x y then make_symbol st "T" else (nil, st)
  | _, _ => make_symbol st "ERROR:NOT_A_NUMBER"

/-- The function `not`. -/
def not (st : Store) (s : Ptr) : Ptr × Store :=
  if isNil st s then make_symbol st "T" else (nil, st)

/-! ## Environments -/

/-- The function `make_env`: the inner `cons` (the frame) is allocated first. -/
def make_env (st : Store) (symbols values parent : Ptr) : Ptr × Store :=
  let fr := cons st symbols values
  cons fr.2 fr.1 parent

/-- The function `env_symbols`. -/
def env_symbols (st : Store) (env : Ptr) : Ptr :=
  if isNil st env then nil else car st (car st env)

/-- The function `env_values`. -/
def env_values (st : Store) (env : Ptr) : Ptr :=
  if isNil st env then nil else cdr st (car st env)

/-- The function `env_parent`. -/
def env_parent (st : Store) (env : Ptr) : Ptr :=
  if isNil st env then nil else cdr st env

/-- The function `env_set`.  The assignment `env->data.cons.car = ...` updates a pair in
place.  On the `NIL` cell it lands in the unused payload, which nothing reads.  On a cell
of any other type it overwrites a member of the union that belongs to another variant: what
that does depends on the layout of the union and is a `fault` here. -/
def env_set (st : Store) (env symbol value : Ptr) : Res :=
  let symbols := env_symbols st env
  let values := env_values st env
  let new_symbols := cons st symbol symbols
  let new_values := cons new_symbols.2 value values
  let fr := cons new_values.2 new_symbols.1 new_values.1
  match fr.2.read env with
  | Cell.cons _ d => Res.ok value (fr.2.write env (Cell.cons fr.1 d))
  | Cell.nil => Res.ok value fr.2
  | _ => Res.fault

/-- The text `s->data.symbol` of a symbol cell. -/
def symbolText (st : Store) (s : Ptr) : String :=
  match st.read s with | Cell.symbol t => t | _ => ""

/-- The inner `while` loop of `env_lookup`, one iteration per unit of fuel: `none` when the
fuel runs out, `some none` when the symbol list ends without a match, `some (some v)` for
the value returned at the first match. -/
def env_lookup_frame : Nat → Store → Ptr → Ptr → Ptr → Option (Option Ptr)
  | 0, _, _, _, _ => none
  | n + 1, st, symbols, values, symbol =>
    if isNil st symbols then some none
    else if isSymbol st (car st symbols) && isSymbol st symbol
        && decide (symbolText st (car st symbols) = symbolText st symbol) then
      some (some (car st values))
    else env_lookup_frame n st (cdr st symbols) (cdr st values) symbol

/-- The function `env_lookup`: the outer `while` loop over the chain of frames, one frame
per unit of fuel. -/
def env_lookup : Nat → Store → Ptr → Ptr → Res
  | 0, _, _, _ => Res.fuel
  | n + 1, st, env, symbol =>
    if isNil st env then Res.ofPair (make_symbol st "UNDEFINED")
    else
      match env_lookup_frame n st (env_symbols st env) (env_values st env) symbol with
      | none => Res.fuel
      | some (some v) => Res.ok v st
      | some none => env_lookup n st (env_parent st env) symbol

/-! ## Primitive wrappers -/

/-- The call `func->data.primitive(args, env)` for each of the wrappers `prim_*`. -/
def callPrim (f : Prim) (st : Store) (args _env : Ptr) : Res :=
  match f with
  | Prim.prim_add => Res.ofPair (add st (car st args) (cadr st args))
  | Prim.prim_sub => Res.ofPair (sub st (car st args) (cadr st args))
  | Prim.prim_mul => Res.ofPair (mul st (car st args) (cadr st args))
  | Prim.prim_div => Res.ofPair (divide st (car st args) (cadr st args))
  | Prim.prim_mod => mod st (car st args) (cadr st args)
  | Prim.prim_lt => Res.ofPair (lt st (car st args) (cadr st args))
  | Prim.prim_gt => Res.ofPair (gt st (car st args) (cadr st args))
  | Prim.prim_lte => Res.ofPair (lte st (car st args) (cadr st args))
  | Prim.prim_gte => Res.ofPair (gte st (car st args) (cadr st args))
  | Prim.prim_eq =>
    if eq st (car st args) (cadr st args) then Res.ofPair (make_symbol st "T")
    else Res.ok nil st
  | Prim.prim_not => Res.ofPair (not st (car st args))
  | Prim.prim_cons => Res.ofPair (cons st (car st args) (cadr st args))
  | Prim.prim_car => Res.ok (car st (car st args)) st
  | Prim.prim_cdr => Res.ok (cdr st (car st args)) st

/-- The body of `init_global_env` after `make_env`: the nineteen calls of `env_set`, each
with a fresh symbol and a fresh primitive cell, in source order. -/
def globalBindings : List (String × Prim) :=
  [("+", Prim.prim_add), ("-", Prim.prim_sub), ("*", Prim.prim_mul), ("/", Prim.prim_div),
   ("%", Prim.prim_mod), ("<", Prim.prim_lt), (">", Prim.prim_gt), ("<=", Prim.prim_lte),
   (">=", Prim.prim_gte), ("eq", Prim.prim_eq), ("not", Prim.prim_not),
   ("cons", Prim.prim_cons), ("car", Prim.prim_car), ("cdr", Prim.prim_cdr),
   ("add", Prim.prim_add), ("sub", Prim.prim_sub), ("mul", Prim.prim_mul),
   ("div", Prim.prim_div), ("mod", Prim.prim_mod)]

/-- One statement `env_set(GLOBAL_ENV, make_symbol(name), make_primitive(f))`.  The order in
which the two arguments are allocated does not matter to anything but their addresses; the
symbol is taken first. -/
def registerPrim (env : Ptr) (r : Res) (b : String × Prim) : Res :=
  r.bind fun _ st =>
    let s := make_symbol st b.1
    let p := make_primitive s.2 b.2
    env_set p.2 env s.1 p.1

/-- The function `init_global_env`, run on a heap: returns `GLOBAL_ENV` and the new heap. -/
def init_global_env (st : Store) : Res :=
  let g := make_env st nil nil nil
  (globalBindings.foldl (registerPrim g.1) (Res.ok g.1 g.2)).bind fun _ st1 => Res.ok g.1 st1

/-! ## The evaluator -/

/-- The order in which the compiled program evaluates the two arguments of the call
`cons(eval(car(list), env), eval_list(cdr(list), env))` in `eval_list`.  C leaves the order
of evaluation of function arguments unspecified (C11 6.5.2.2 §10): a compiler may run the
`eval` first (`leftFirst`, as clang does) or the `eval_list` first (`rightFirst`, as gcc
does on x86-64). -/
inductive ArgOrder where
  | leftFirst
  | rightFirst
  deriving DecidableEq, Repr

mutual

/-- The function `eval`.  One unit of fuel per C call frame. -/
def eval : Nat → ArgOrder → Store → Ptr → Ptr → Res
  | 0, _, _, _, _ => Res.fuel
  | n + 1, ord, st, sexp, env =>
    if isNil st sexp then Res.ok nil st
    else if isNumber st sexp || isString st sexp then Res.ok sexp st
    else if isSymbol st sexp then env_lookup n st env sexp
    else if isList st sexp then
      let first := car st sexp
      let call : Res :=
        (eval n ord st first env).bind fun func st1 =>
          (eval_list n ord st1 (cdr st1 sexp) env).bind fun args st2 =>
            apply n ord st2 func args env
      if isSymbol st first then
        let sym := symbolText st first
        if sym = "quote" then Res.ok (cadr st sexp) st
        else if sym = "set" then
          let symbol := cadr st sexp
          (eval n ord st (caddr st sexp) env).bind fun value st1 =>
            env_set st1 env symbol value
        else if sym = "define" then
          let name := cadr st sexp
          let params := caddr st sexp
          let body := cadddr st sexp
          let lambda := make_lambda st params body env
          env_set lambda.2 env name lambda.1
        else if sym = "lambda" then
          let params := cadr st sexp
          let body := caddr st sexp
          Res.ofPair (make_lambda st params body env)
        else if sym = "if" then
          (eval n ord st (cadr st sexp) env).bind fun test st1 =>
            if isTrueSexp st1 test then eval n ord st1 (caddr st1 sexp) env
            else eval n ord st1 (cadddr st1 sexp) env
        else if sym = "and" then
          (eval n ord st (cadr st sexp) env).bind fun e1 st1 =>
            if isNil st1 e1 then Res.ok nil st1
            else eval n ord st1 (caddr st1 sexp) env
        else if sym = "or" then
          (eval n ord st (cadr st sexp) env).bind fun e1 st1 =>
            if !isNil st1 e1 then Res.ofPair (make_symbol st1 "T")
            else eval n ord st1 (caddr st1 sexp) env
        else if sym = "cond" then eval_cond n ord st (cdr st sexp) env
        else call
      else call
    else Res.ok sexp st

/-- The function `eval_list`. -/
def eval_list : Nat → ArgOrder → Store → Ptr → Ptr → Res
  | 0, _, _, _, _ => Res.fuel
  | n + 1, ord, st, list, env =>
    if isNil st list then Res.ok nil st
    else
      match ord with
      | ArgOrder.leftFirst =>
        (eval n ord st (car st list) env).bind fun v st1 =>
          (eval_list n ord st1 (cdr st1 list) env).bind fun vs st2 =>
            Res.ofPair (cons st2 v vs)
      | ArgOrder.rightFirst =>
        (eval_list n ord st (cdr st list) env).bind fun vs st1 =>
          (eval n ord st1 (car st1 list) env).bind fun v st2 =>
            Res.ofPair (cons st2 v vs)

/-- The function `apply`. -/
def apply : Nat → ArgOrder → Store → Ptr → Ptr → Ptr → Res
  | 0, _, _, _, _, _ => Res.fuel
  | n + 1, ord, st, func, args, env =>
    match st.read func with
    | Cell.primitive f => callPrim f st args env
    | Cell.lambda params body cenv =>
      let new_env := make_env st params args cenv
      eval n ord new_env.2 body new_env.1
    | _ => Res.ofPair (make_symbol st "ERROR:NOT_A_FUNCTION")

/-- The `while` loop of the `cond` branch of `eval`, one clause per unit of fuel. -/
def eval_cond : Nat → ArgOrder → Store → Ptr → Ptr → Res
  | 0, _, _, _, _ => Res.fuel
  | n + 1, ord, st, clauses, env =>
    if isNil st clauses then Res.ok nil st
    else
      let clause := car st clauses
      (eval n ord st (car st clause) env).bind fun test st1 =>
        if isTrueSexp st1 test then eval n ord st1 (cadr st1 clause) env
        else eval_cond n ord st1 (cdr st1 clauses) env

end

/-! ## Expressions and sessions -/

/-- The tree of an expression: what the reader allocates for a text, without the
addresses. -/
inductive SExpr where
  | nil
  | num (q : ℚ)
  | sym (s : String)
  | str (s : String)
  | pair (a d : SExpr)
  | inf (neg : Bool)
  | nan
  deriving DecidableEq, Repr

namespace SExpr

/-- The proper list of the given elements: `(x1 ... xn)`. -/
def list (xs : List SExpr) : SExpr := xs.foldr pair nil

/-- The tree of a Number. -/
def ofDbl : Dbl → SExpr
  | Dbl.fin q => num q
  | Dbl.inf s => inf s
  | Dbl.nan => nan

end SExpr

/-- Allocation of the cells of an expression tree with the constructors `make_number`,
`make_symbol`, `make_string` and `cons`: the heap structure that stands for the text of the
expression. -/
def build (st : Store) : SExpr → Ptr × Store
  | SExpr.nil => (nil, st)
  | SExpr.num q => make_number st (Dbl.fin q)
  | SExpr.sym s => make_symbol st s
  | SExpr.str s => make_string st s
  | SExpr.pair a d =>
    let ra := build st a
    let rd := build ra.2 d
    cons rd.2 ra.1 rd.1
  | SExpr.inf s => make_number st (Dbl.inf s)
  | SExpr.nan => make_number st Dbl.nan

/-- One round of the loop of `repl`: the expression is allocated and evaluated in
`GLOBAL_ENV`. -/
def replStep (fuel : Nat) (ord : ArgOrder) (genv : Ptr) (r : Res) (e : SExpr) : Res :=
  r.bind fun _ st =>
    let b := build st e
    eval fuel ord b.2 b.1 genv

/-- The function `main` followed by the rounds of `repl` for the given inputs: `nil()`,
`init_global_env()`, then each expression evaluated in `GLOBAL_ENV`.  The result is the
value of the last expression and the final heap. -/
def session (fuel : Nat) (ord : ArgOrder) (es : List SExpr) : Res :=
  (init_global_env Store.empty).bind fun genv st =>
    es.foldl (replStep fuel ord genv) (Res.ok nil st)

/-- The cell that a result points to, when there is a result. -/
def Res.cell : Res → Option Cell
  | Res.ok v st => some (st.read v)
  | _ => none

/-! ## Lists and environments in the heap -/

/-- The addresses of the first `n` cells on the `cdr` chain that starts at `p`. -/
def spine (st : Store) : Ptr → Nat → List Ptr
  | _, 0 => []
  | p, n + 1 => p :: spine st (cdr st p) n

/-- Cell `p` is a well-formed list holding the elements `xs`: a chain of pairs that ends in
`NIL`, whose elements are allocated cells. -/
def IsList (st : Store) : Ptr → List Ptr → Prop
  | p, [] => p = nil
  | p, x :: xs => isCons st p = true ∧ car st p = x ∧ x ≤ st.size ∧ IsList st (cdr st p) xs

/-- Cell `p` is a chain of pairs that ends in `NIL` and holds the elements `xs`, which need
not be allocated cells. -/
def IsChain (st : Store) : Ptr → List Ptr → Prop
  | p, [] => p = nil
  | p, x :: xs => isCons st p = true ∧ car st p = x ∧ IsChain st (cdr st p) xs

/-- The values of the expressions `es` as `eval_list` takes them: each is the result of
`eval` in the heap that the steps before it left.  Under `leftFirst` the expressions are
evaluated from the first to the last and the pairs of the list of values are then allocated
from the last to the first; under `rightFirst` they are evaluated from the last to the
first, the pair of each value allocated right after it.  Returns the values in the order of
the expressions, the cell of their list and the heap; `none` when an evaluation does not
return. -/
def evalArgs (n : Nat) (ord : ArgOrder) (env : Ptr) :
    Store → List Ptr → Option (List Ptr × Ptr × Store)
  | st, [] => some ([], nil, st)
  | st, e :: es =>
    match ord with
    | ArgOrder.leftFirst =>
      match eval n ord st e env with
      | Res.ok v st1 =>
        match evalArgs n ord env st1 es with
        | some (vs, l, st2) => some (v :: vs, (cons st2 v l).1, (cons st2 v l).2)
        | none => none
      | _ => none
    | ArgOrder.rightFirst =>
      match evalArgs n ord env st es with
      | some (vs, l, st1) =>
        match eval n ord st1 e env with
        | Res.ok v st2 => some (v :: vs, (cons st2 v l).1, (cons st2 v l).2)
        | _ => none
      | none => none

/-- Cell `env` is an environment whose frames, from the innermost to the root, hold the
given symbol lists and value lists: a chain of pairs `(frame, parent)` that ends in `NIL`,
each frame a pair `(symbols, values)` of two well-formed lists. -/
def IsEnv (st : Store) : Ptr → List (List Ptr × List Ptr) → Prop
  | env, [] => env = nil
  | env, f :: rest =>
    isCons st env = true ∧ isCons st (car st env) = true ∧
      IsList st (env_symbols st env) f.1 ∧
      IsList st (env_values st env) f.2 ∧ IsEnv st (env_parent st env) rest

/-- The heap cells that make up the structure of an environment: for every frame, the pair
of the environment, the pair of the frame, and the chains of its two lists. -/
def envCells (st : Store) : Ptr → List (List Ptr × List Ptr) → List Ptr
  | _, [] => []
  | env, f :: rest =>
    env :: car st env :: (spine st (env_symbols st env) f.1.length
      ++ spine st (env_values st env) f.2.length ++ envCells st (env_parent st env) rest)

/-- The cells of the structure of an environment other than its own pair and the pair of
its innermost frame: the chains of the two lists of that frame, and the cells of the
ancestors. -/
def envInner (st : Store) (env : Ptr) : List (List Ptr × List Ptr) → List Ptr
  | [] => []
  | f :: rest =>
    spine st (env_symbols st env) f.1.length
      ++ spine st (env_values st env) f.2.length ++ envCells st (env_parent st env) rest

/-- The heap that `env_set` leaves when `env` is a pair: three fresh pairs (the extended
symbol list, the extended value list, the new frame), and the frame of `env` replaced. -/
def bindStore (st : Store) (env symbol value : Ptr) : Store :=
  let new_symbols := cons st symbol (env_symbols st env)
  let new_values := cons new_symbols.2 value (env_values st env)
  let fr := cons new_values.2 new_symbols.1 new_values.1
  fr.2.write env (Cell.cons fr.1 (cdr st env))

/-- The symbol lists of the frames, concatenated from the innermost frame outward. -/
def allSymbols : List (List Ptr × List Ptr) → List Ptr
  | [] => []
  | f :: rest => f.1 ++ allSymbols rest

/-- The value lists of the frames, concatenated from the innermost frame outward. -/
def allValues : List (List Ptr × List Ptr) → List Ptr
  | [] => []
  | f :: rest => f.2 ++ allValues rest

/-- The test "is a Symbol with this text". -/
def hasText (st : Store) (text : String) (p : Ptr) : Bool :=
  decide (st.read p = Cell.symbol text)

/-- The result of a lookup whose outcome is known: the value found, with the heap as it
was, or a fresh symbol `UNDEFINED`. -/
def lookupResult (st : Store) : Option Ptr → Res
  | some v => Res.ok v st
  | none => Res.ofPair (make_symbol st "UNDEFINED")

/-- Lookup as the specification words it: the value at the position of the first symbol
with the given text in the concatenated symbol lists. -/
def specLookup (st : Store) (frames : List (List Ptr × List Ptr)) (text : String) :
    Option Ptr :=
  ((allSymbols frames).findIdx? (hasText st text)).map fun i => (allValues frames).getD i nil

/-- The scan of one frame with the value list advanced in step, whatever its length: the
first symbol with the given text selects the `car` of what is left of the values. -/
def frameScan (st : Store) (text : String) : List Ptr → Ptr → Option Ptr
  | [], _ => none
  | x :: xs, values =>
    if hasText st text x then some (car st values) else frameScan st text xs (cdr st values)

/-- The scan of one frame on the lists of its elements: the first symbol with the given
text selects the value at the same position (`NIL` when the values have run out). -/
def scanLists (st : Store) (text : String) : List Ptr → List Ptr → Option Ptr
  | [], _ => none
  | x :: xs, ys =>
    if hasText st text x then some (ys.headD nil) else scanLists st text xs ys.tail

/-- The scan of the frames from the innermost outward: the first frame that holds the
symbol decides. -/
def envScan (st : Store) (text : String) : List (List Ptr × List Ptr) → Option Ptr
  | [] => none
  | f :: rest => (scanLists st text f.1 f.2).or (envScan st text rest)

/-- Fuel that is enough for `env_lookup` on an environment with the given frames. -/
def lookupFuel (frames : List (List Ptr × List Ptr)) : Nat :=
  (allSymbols frames).length + frames.length + 2

/-- Decision procedure for `IsList`. -/
def IsList.dec (st : Store) : (p : Ptr) → (xs : List Ptr) → Decidable (IsList st p xs)
  | p, [] => inferInstanceAs (Decidable (p = nil))
  | p, x :: xs =>
    have : Decidable (IsList st (cdr st p) xs) := IsList.dec st (cdr st p) xs
    inferInstanceAs
      (Decidable (isCons st p = true ∧ car st p = x ∧ x ≤ st.size ∧ IsList st (cdr st p) xs))

instance (st : Store) (p : Ptr) (xs : List Ptr) : Decidable (IsList st p xs) :=
  IsList.dec st p xs

/-- Decision procedure for `IsChain`. -/
def IsChain.dec (st : Store) : (p : Ptr) → (xs : List Ptr) → Decidable (IsChain st p xs)
  | p, [] => inferInstanceAs (Decidable (p = nil))
  | p, x :: xs =>
    have : Decidable (IsChain st (cdr st p) xs) := IsChain.dec st (cdr st p) xs
    inferInstanceAs (Decidable (isCons st p = true ∧ car st p = x ∧ IsChain st (cdr st p) xs))

instance (st : Store) (p : Ptr) (xs : List Ptr) : Decidable (IsChain st p xs) :=
  IsChain.dec st p xs

/-- Decision procedure for `IsEnv`. -/
def IsEnv.dec (st : Store) :
    (env : Ptr) → (frames : List (List Ptr × List Ptr)) → Decidable (IsEnv st env frames)
  | env, [] => inferInstanceAs (Decidable (env = nil))
  | env, f :: rest =>
    have : Decidable (IsEnv st (env_parent st env) rest) := IsEnv.dec st (env_parent st env) rest
    inferInstanceAs
      (Decidable (isCons st env = true ∧ isCons st (car st env) = true ∧
        IsList st (env_symbols st env) f.1 ∧
        IsList st (env_values st env) f.2 ∧ IsEnv st (env_parent st env) rest))

instance (st : Store) (env : Ptr) (frames : List (List Ptr × List Ptr)) :
    Decidable (IsEnv st env frames) :=
  IsEnv.dec st env frames

/-- A result is at least as defined as another: the first ran out of fuel, or the two are
the same. -/
def Res.Le (r r2 : Res) : Prop := r = Res.fuel ∨ r = r2

/-- The heap `st2` keeps every cell of `st` except possibly the one at `e`, which stays a
pair if it was one. -/
def KeepsExcept (st st2 : Store) (e : Ptr) : Prop :=
  st.size ≤ st2.size ∧ (∀ q, q ≤ st.size → q ≠ e → st2.read q = st.read q) ∧
    (isCons st e = true → isCons st2 e = true)

/-- The heap `st2` keeps every cell of `st`. -/
def Keeps (st st2 : Store) : Prop :=
  st.size ≤ st2.size ∧ ∀ q, q ≤ st.size → st2.read q = st.read q

/-- A call leaves the heap framed: when it returns, every cell that existed before is
unchanged, except possibly the one at `e`. -/
def Res.Framed (st : Store) (e : Ptr) (r : Res) : Prop :=
  ∀ v st2, r = Res.ok v st2 → KeepsExcept st st2 e

/-- A call leaves the heap intact: when it returns, every cell that existed before is
unchanged. -/
def Res.Pure (st : Store) (r : Res) : Prop :=
  ∀ v st2, r = Res.ok v st2 → Keeps st st2

/-- The special-form keywords that `eval` tests for before it treats a list as a call. -/
def keywords : List String := ["quote", "set", "define", "lambda", "if", "and", "or", "cond"]

/-- A small heap for examples: the numbers `3` and `3`, the symbols `a` and `b`, the two
pairs `(a . b)` built separately, a closure `(lambda (a) b)` over no environment, the
primitive `prim_add`, NaN, the number `1` and the number `1/2`. -/
def sampleHeap : Store :=
  ⟨[Cell.number (Dbl.fin 3), Cell.number (Dbl.fin 3), Cell.symbol "a", Cell.symbol "b",
    Cell.cons 3 4, Cell.cons 3 4, Cell.cons 3 0, Cell.lambda 7 4 0,
    Cell.primitive Prim.prim_add, Cell.number Dbl.nan, Cell.number (Dbl.fin 1),
    Cell.number (Dbl.fin (1 / 2))]⟩

/-- The branches of `eval`, in the order in which it tests for them. -/
inductive Form where
  | nil | self | symbol | quote | set | define | lambda | ifForm | andForm | orForm | cond
  | call | other
  deriving DecidableEq, Repr

/-- The branch of `eval` that an expression takes: the chain of type tests and keyword
comparisons of `eval`, without the bodies. -/
def classify (st : Store) (sexp : Ptr) : Form :=
  if isNil st sexp then Form.nil
  else if isNumber st sexp || isString st sexp then Form.self
  else if isSymbol st sexp then Form.symbol
  else if isList st sexp then
    if isSymbol st (car st sexp) then
      if symbolText st (car st sexp) = "quote" then Form.quote
      else if symbolText st (car st sexp) = "set" then Form.set
      else if symbolText st (car st sexp) = "define" then Form.define
      else if symbolText st (car st sexp) = "lambda" then Form.lambda
      else if symbolText st (car st sexp) = "if" then Form.ifForm
      else if symbolText st (car st sexp) = "and" then Form.andForm
      else if symbolText st (car st sexp) = "or" then Form.orForm
      else if symbolText st (car st sexp) = "cond" then Form.cond
      else Form.call
    else Form.call
  else Form.other

/-- A heap with an environment of two frames: the inner frame binds `x` to `1`; the outer,
root frame binds `y` to `2` and `x` to `3`.  The inner environment is cell 16, the outer
one cell 15. -/
def sampleEnvHeap : Store :=
  ⟨[Cell.symbol "x", Cell.number (Dbl.fin 1), Cell.symbol "y", Cell.number (Dbl.fin 2),
    Cell.symbol "x", Cell.number (Dbl.fin 3),
    Cell.cons 1 0, Cell.cons 2 0, Cell.cons 7 8,
    Cell.cons 5 0, Cell.cons 3 10, Cell.cons 6 0, Cell.cons 4 12, Cell.cons 11 13,
    Cell.cons 14 0, Cell.cons 9 15]⟩

/-- The frames of the inner environment of `sampleEnvHeap`. -/
def sampleFrames : List (List Ptr × List Ptr) := [([1], [2]), ([3, 5], [4, 6])]

/-- The heap `sampleEnvHeap` followed by the cells of the expression `(set x 5)`, which is
cell 22; its symbol `x` is cell 18 and its number `5` cell 19. -/
def sampleSetHeap : Store :=
  ⟨sampleEnvHeap.cells ++
    [Cell.symbol "set", Cell.symbol "x", Cell.number (Dbl.fin 5),
     Cell.cons 19 0, Cell.cons 18 20, Cell.cons 17 21]⟩

/-- The heap `sampleSetHeap` followed by a closure with no parameters, the body
`(set x 5)` and the inner environment of `sampleEnvHeap` as captured environment: cell 23. -/
def sampleClosureHeap : Store :=
  ⟨sampleSetHeap.cells ++ [Cell.lambda 0 22 16]⟩

/-- The heap `sampleEnvHeap` followed by: the symbol `z` (cell 17); a closure with no
parameters and body `z` over the root environment (cell 18); and a caller's environment
that binds `z` to the number `9` (cell 24). -/
def sampleScopeHeap : Store :=
  ⟨sampleEnvHeap.cells ++
    [Cell.symbol "z", Cell.lambda 0 17 15,
     Cell.symbol "z", Cell.number (Dbl.fin 9), Cell.cons 19 0, Cell.cons 20 0,
     Cell.cons 21 22, Cell.cons 23 0]⟩

/-- The expression `(define fact (n) (if (<= n 1) 1 (* n (fact (- n 1)))))`. -/
def defineFact : SExpr :=
  SExpr.list [SExpr.sym "define", SExpr.sym "fact", SExpr.list [SExpr.sym "n"],
    SExpr.list [SExpr.sym "if", SExpr.list [SExpr.sym "<=", SExpr.sym "n", SExpr.num 1],
      SExpr.num 1,
      SExpr.list [SExpr.sym "*", SExpr.sym "n",
        SExpr.list [SExpr.sym "fact", SExpr.list [SExpr.sym "-", SExpr.sym "n", SExpr.num 1]]]]]

/-- The expression `(define square (x) (* x x))`. -/
def defineSquare : SExpr :=
  SExpr.list [SExpr.sym "define", SExpr.sym "square", SExpr.list [SExpr.sym "x"],
    SExpr.list [SExpr.sym "*", SExpr.sym "x", SExpr.sym "x"]]

/-- The expression `(define id (x) x)`. -/
def defineId : SExpr :=
  SExpr.list [SExpr.sym "define", SExpr.sym "id", SExpr.list [SExpr.sym "x"], SExpr.sym "x"]

/-- The expression `(define if (x) x)`: a procedure named like a special form. -/
def defineIf : SExpr :=
  SExpr.list [SExpr.sym "define", SExpr.sym "if", SExpr.list [SExpr.sym "x"], SExpr.sym "x"]

/-- The expression `((lambda (x) (* x 2)) 5)`. -/
def lambdaDouble : SExpr :=
  SExpr.list [SExpr.list [SExpr.sym "lambda", SExpr.list [SExpr.sym "x"],
    SExpr.list [SExpr.sym "*", SExpr.sym "x", SExpr.num 2]], SExpr.num 5]

/-- The expression `(+ (set x 5) x)`: the first argument binds what the second reads. -/
def setThenRead : SExpr :=
  SExpr.list [SExpr.sym "+", SExpr.list [SExpr.sym "set", SExpr.sym "x", SExpr.num 5],
    SExpr.sym "x"]

/-- The heap `sampleEnvHeap` followed by the cells of `(define f (x) x)`, which is cell 24;
the name `f` is cell 18, the parameter list `(x)` cell 20, the body `x` cell 19. -/
def sampleDefineHeap : Store :=
  ⟨sampleEnvHeap.cells ++
    [Cell.symbol "define", Cell.symbol "f", Cell.symbol "x", Cell.cons 19 0,
     Cell.cons 19 0, Cell.cons 20 21, Cell.cons 18 22, Cell.cons 17 23]⟩

/-- The expression `(+ 2 3)`. -/
def plusTwoThree : SExpr := SExpr.list [SExpr.sym "+", SExpr.num 2, SExpr.num 3]

/-- The expression `(* (+ 1 2) (- 5 2))`. -/
def nestedArith : SExpr :=
  SExpr.list [SExpr.sym "*", SExpr.list [SExpr.sym "+", SExpr.num 1, SExpr.num 2],
    SExpr.list [SExpr.sym "-", SExpr.num 5, SExpr.num 2]]

/-! ## The structure of a heap value -/

/-- Cell `p` of the heap `st` is the root of the expression tree `e`: the types, payloads
and pair structure agree, whatever the addresses. -/
def HasShape (st : Store) : Ptr → SExpr → Prop
  | p, SExpr.nil => st.read p = Cell.nil
  | p, SExpr.num q => st.read p = Cell.number (Dbl.fin q)
  | p, SExpr.sym s => st.read p = Cell.symbol s
  | p, SExpr.str s => st.read p = Cell.string s
  | p, SExpr.pair a d => isCons st p = true ∧ HasShape st (car st p) a ∧ HasShape st (cdr st p) d
  | p, SExpr.inf s => st.read p = Cell.number (Dbl.inf s)
  | p, SExpr.nan => st.read p = Cell.number Dbl.nan

/-- Decision procedure for `HasShape`. -/
def HasShape.dec (st : Store) : (p : Ptr) → (e : SExpr) → Decidable (HasShape st p e)
  | p, SExpr.nil => inferInstanceAs (Decidable (st.read p = Cell.nil))
  | p, SExpr.num q => inferInstanceAs (Decidable (st.read p = Cell.number (Dbl.fin q)))
  | p, SExpr.sym s => inferInstanceAs (Decidable (st.read p = Cell.symbol s))
  | p, SExpr.str s => inferInstanceAs (Decidable (st.read p = Cell.string s))
  | p, SExpr.pair a d =>
    have : Decidable (HasShape st (car st p) a) := HasShape.dec st (car st p) a
    have : Decidable (HasShape st (cdr st p) d) := HasShape.dec st (cdr st p) d
    inferInstanceAs
      (Decidable (isCons st p = true ∧ HasShape st (car st p) a ∧ HasShape st (cdr st p) d))
  | p, SExpr.inf s => inferInstanceAs (Decidable (st.read p = Cell.number (Dbl.inf s)))
  | p, SExpr.nan => inferInstanceAs (Decidable (st.read p = Cell.number Dbl.nan))

instance (st : Store) (p : Ptr) (e : SExpr) : Decidable (HasShape st p e) :=
  HasShape.dec st p e

/-- A call returns a value with the structure of the tree `e`. -/
def Res.Yields (r : Res) (e : SExpr) : Prop :=
  match r with
  | Res.ok v st => HasShape st v e
  | _ => False

instance (r : Res) (e : SExpr) : Decidable (r.Yields e) := by
  unfold Res.Yields
  cases r <;> infer_instance

/-! ## The heap at the first prompt -/

/-- The address of the environment that `init_global_env` stores in `GLOBAL_ENV` when it
runs on the empty heap: the second cell allocated. -/
def GLOBAL_ENV : Ptr := 2

/-- The heap when `main` has run `nil()` and `init_global_env()`. -/
def globalHeap : Store :=
  match init_global_env Store.empty with
  | Res.ok _ st => st
  | _ => Store.empty

/-- The single frame of the global environment at the first prompt: each `env_set` of
`init_global_env` allocates five cells, the symbol first and the primitive second, and puts
its binding in front of the earlier ones. -/
def globalFrames : List (List Ptr × List Ptr) :=
  [(((List.range 19).map fun i => 3 + 5 * i).reverse,
    ((List.range 19).map fun i => 4 + 5 * i).reverse)]

/-! ## Sample heaps and expressions for calls and special forms -/

/-- The heap after `eval_list` has allocated the list of two values. -/
def argStore (st : Store) (v1 v2 : Ptr) : Store :=
  (cons (cons st v2 nil).2 v1 (cons st v2 nil).1).2

/-- The heap `sampleEnvHeap` followed by the cells of the expression `(7 y)`, which is cell
20: its head, the number `7`, is cell 17 and its argument `y` cell 18. -/
def sampleCallHeap : Store :=
  ⟨sampleEnvHeap.cells ++
    [Cell.number (Dbl.fin 7), Cell.symbol "y", Cell.cons 18 0, Cell.cons 17 19]⟩

/-- The expression `(if c (set x 1) (set y 2))` for a test `c`. -/
def ifSets (c : SExpr) : SExpr :=
  SExpr.list [SExpr.sym "if", c,
    SExpr.list [SExpr.sym "set", SExpr.sym "x", SExpr.num 1],
    SExpr.list [SExpr.sym "set", SExpr.sym "y", SExpr.num 2]]

/-- The heap `sampleEnvHeap` followed by the cells of the expression `(if x y z)`, which is
cell 24; its test `x` is cell 18, its branches `y` and `z` are cells 19 and 20. -/
def sampleIfHeap : Store :=
  ⟨sampleEnvHeap.cells ++
    [Cell.symbol "if", Cell.symbol "x", Cell.symbol "y", Cell.symbol "z",
     Cell.cons 20 0, Cell.cons 19 21, Cell.cons 18 22, Cell.cons 17 23]⟩

/-- The expression `(k c (set x 1))` for a keyword `k` and a first operand `c`. -/
def thenSet (k : String) (c : SExpr) : SExpr :=
  SExpr.list [SExpr.sym k, c, SExpr.list [SExpr.sym "set", SExpr.sym "x", SExpr.num 1]]

/-- The heap `sampleEnvHeap` followed by the cells of `(and x y)`, which is cell 22, and of
`(or x y)`, which is cell 28; both first operands `x` (cells 18 and 24) have the value `1`,
both second operands `y` (cells 19 and 25) the value `2`. -/
def sampleAndOrHeap : Store :=
  ⟨sampleEnvHeap.cells ++
    [Cell.symbol "and", Cell.symbol "x", Cell.symbol "y",
     Cell.cons 19 0, Cell.cons 18 20, Cell.cons 17 21,
     Cell.symbol "or", Cell.symbol "x", Cell.symbol "y",
     Cell.cons 25 0, Cell.cons 24 26, Cell.cons 23 27]⟩

/-- The heap `sampleEnvHeap` followed by: the symbols `p` and `q` (cells 17 and 18); the
parameter list `(p q)` (cell 20); a closure with these parameters and the body `q` over the
inner environment of `sampleEnvHeap` (cell 21); the numbers `8`, `9`, `10` (cells 22 to 24);
the argument list `(8)` (cell 25) and the argument list `(8 9 10)` (cell 28). -/
def sampleArityHeap : Store :=
  ⟨sampleEnvHeap.cells ++
    [Cell.symbol "p", Cell.symbol "q", Cell.cons 18 0, Cell.cons 17 19, Cell.lambda 20 18 16,
     Cell.number (Dbl.fin 8), Cell.number (Dbl.fin 9), Cell.number (Dbl.fin 10),
     Cell.cons 22 0, Cell.cons 24 0, Cell.cons 23 26, Cell.cons 22 27]⟩

/-- A heap with a procedure and a call of it.  The environment, cell 11, has one frame, which
binds `f` (cell 1) to the closure of cell 12, whose parameters are `(p q r)` (cell 7), whose
body is `r` (cell 4) and which captures the environment; the numbers `8`, `9`, `10` are
cells 14 to 16, their list `(8 9 10)` is cell 19, the expression `(f 8 9 10)` is cell 20,
and the expression `((lambda (p q r) r) 8 9 10)` is cell 25. -/
def sampleProcHeap : Store :=
  ⟨[Cell.symbol "f", Cell.symbol "p", Cell.symbol "q", Cell.symbol "r",
    Cell.cons 4 0, Cell.cons 3 5, Cell.cons 2 6,
    Cell.cons 1 0, Cell.cons 12 0, Cell.cons 8 9, Cell.cons 10 0,
    Cell.lambda 7 4 11,
    Cell.symbol "f", Cell.number (Dbl.fin 8), Cell.number (Dbl.fin 9),
    Cell.number (Dbl.fin 10),
    Cell.cons 16 0, Cell.cons 15 17, Cell.cons 14 18, Cell.cons 13 19,
    Cell.symbol "lambda", Cell.cons 4 0, Cell.cons 7 22, Cell.cons 21 23,
    Cell.cons 24 19]⟩

/-- The heap `sampleProcHeap` after `eval_list` has evaluated the arguments of `(f 8 9 10)`:
the list of the three values is cell 28. -/
def sampleArgsHeap : Store :=
  ⟨sampleProcHeap.cells ++ [Cell.cons 16 0, Cell.cons 15 26, Cell.cons 14 27]⟩

/-- The expression `(define third (a b c) c)`. -/
def defineThird : SExpr :=
  SExpr.list [SExpr.sym "define", SExpr.sym "third",
    SExpr.list [SExpr.sym "a", SExpr.sym "b", SExpr.sym "c"], SExpr.sym "c"]

/-- The expression `(id)`: a call of `id` with no argument. -/
def callIdNoArg : SExpr := SExpr.list [SExpr.sym "id"]

/-! ## The clauses of `cond` -/

/-- Cell `p` is a well-formed list of `cond` clauses: each element is a list of at least two
elements, a test and a consequent; `cls` holds the tests and the consequents in order. -/
def IsClauses (st : Store) : Ptr → List (Ptr × Ptr) → Prop
  | p, [] => p = nil
  | p, tc :: rest =>
    isCons st p = true ∧ isCons st (car st p) = true ∧ car st (car st p) = tc.1 ∧
      isCons st (cdr st (car st p)) = true ∧ cadr st (car st p) = tc.2 ∧
      IsClauses st (cdr st p) rest

/-- Decision procedure for `IsClauses`. -/
def IsClauses.dec (st : Store) :
    (p : Ptr) → (cls : List (Ptr × Ptr)) → Decidable (IsClauses st p cls)
  | p, [] => inferInstanceAs (Decidable (p = nil))
  | p, tc :: rest =>
    have : Decidable (IsClauses st (cdr st p) rest) := IsClauses.dec st (cdr st p) rest
    inferInstanceAs
      (Decidable (isCons st p = true ∧ isCons st (car st p) = true ∧ car st (car st p) = tc.1 ∧
        isCons st (cdr st (car st p)) = true ∧ cadr st (car st p) = tc.2 ∧
        IsClauses st (cdr st p) rest))

instance (st : Store) (p : Ptr) (cls : List (Ptr × Ptr)) : Decidable (IsClauses st p cls) :=
  IsClauses.dec st p cls

/-- The cells that make up the first `n` clauses of a clause list: for each clause the pair
of the list, the pair of the clause, and the pair that holds the consequent. -/
def clauseCells (st : Store) : Ptr → Nat → List Ptr
  | _, 0 => []
  | p, n + 1 => p :: car st p :: cdr st (car st p) :: clauseCells st (cdr st p) n

/-- The tests of the given clauses, evaluated in order, each in the heap that the one before
left: `some st2` when every one returns Nil, with the heap `st2` that the last one leaves. -/
def testsNil (n : Nat) (ord : ArgOrder) (env : Ptr) : Store → List (Ptr × Ptr) → Option Store
  | st, [] => some st
  | st, tc :: rest =>
    match eval n ord st tc.1 env with
    | Res.ok v st1 => if isNil st1 v then testsNil n ord env st1 rest else none
    | _ => none

/-- The expression `(cond ((< 5 3) 'first) ((> 5 3) 'second) (T 'third))`. -/
def condExample : SExpr :=
  SExpr.list [SExpr.sym "cond",
    SExpr.list [SExpr.list [SExpr.sym "<", SExpr.num 5, SExpr.num 3],
      SExpr.list [SExpr.sym "quote", SExpr.sym "first"]],
    SExpr.list [SExpr.list [SExpr.sym ">", SExpr.num 5, SExpr.num 3],
      SExpr.list [SExpr.sym "quote", SExpr.sym "second"]],
    SExpr.list [SExpr.sym "T", SExpr.list [SExpr.sym "quote", SExpr.sym "third"]]]

/-- The expression `(cond ((set a ()) 1) ((set b 2) 3) ((set c 4) 5))`: the first test binds
`a` and is Nil, the second binds `b` and is not. -/
def condSets : SExpr :=
  SExpr.list [SExpr.sym "cond",
    SExpr.list [SExpr.list [SExpr.sym "set", SExpr.sym "a", SExpr.nil], SExpr.num 1],
    SExpr.list [SExpr.list [SExpr.sym "set", SExpr.sym "b", SExpr.num 2], SExpr.num 3],
    SExpr.list [SExpr.list [SExpr.sym "set", SExpr.sym "c", SExpr.num 4], SExpr.num 5]]

/-- The heap `sampleEnvHeap` followed by the cells of `(cond (() x) (y x))`, which is cell
26; its list of clauses is cell 25, the test `y` of the second clause is cell 19 and the
consequent `x` of both clauses is cell 18. -/
def sampleCondHeap : Store :=
  ⟨sampleEnvHeap.cells ++
    [Cell.symbol "cond", Cell.symbol "x", Cell.symbol "y",
     Cell.cons 18 0, Cell.cons 0 20, Cell.cons 18 0, Cell.cons 19 22,
     Cell.cons 23 0, Cell.cons 21 24, Cell.cons 17 25]⟩

/-! ## The reader -/

/-- The character `'`, which abbreviates `quote`. -/
def quoteChar : Char := Char.ofNat 39

/-- The character `"`, which delimits a string literal. -/
def dquoteChar : Char := Char.ofNat 34

/-- The C library function `isspace` in the "C" locale: space, `\t`, `\n`, `\v`, `\f`,
`\r`. -/
def isspace (c : Char) : Bool :=
  c.toNat = 32 || (9 ≤ c.toNat && c.toNat ≤ 13)

/-- The C library function `isdigit`. -/
def isdigit (c : Char) : Bool := 48 ≤ c.toNat && c.toNat ≤ 57

/-- The C library function `tolower` on the letters `A` to `Z`. -/
def tolower (c : Char) : Char :=
  if 65 ≤ c.toNat && c.toNat ≤ 90 then Char.ofNat (c.toNat + 32) else c

/-- The C library function `isxdigit`. -/
def isxdigit (c : Char) : Bool :=
  isdigit c || (97 ≤ (tolower c).toNat && (tolower c).toNat ≤ 102)

/-- The value of a decimal or hexadecimal digit. -/
def digitValue (c : Char) : Nat :=
  if isdigit c then c.toNat - 48 else (tolower c).toNat - 87

/-- The number that a sequence of digits denotes in a base. -/
def readDigits (base : Nat) (ds : List Char) : Nat :=
  ds.foldl (fun a c => base * a + digitValue c) 0

/-- What is left of a text after a word, compared without regard to case; `none` when the
text does not begin with the word. -/
def afterWord : List Char → List Char → Option (List Char)
  | [], s => some s
  | _ :: _, [] => none
  | w :: ws, c :: cs => if tolower c = w then afterWord ws cs else none

/-- The exponent part of a numeral, `e` or `p` followed by an optional sign and at least one
decimal digit: its value and what is left of the text.  When there is no such part the
exponent is `0` and nothing is consumed. -/
def readExponent (marker : Char) (s : List Char) : Int × List Char :=
  match s with
  | [] => (0, s)
  | c :: r =>
    if tolower c = marker then
      let signed : Bool × List Char :=
        match r with
        | [] => (false, r)
        | d :: r2 => if d = '-' then (true, r2) else if d = '+' then (false, r2) else (false, r)
      let ds := signed.2.takeWhile isdigit
      if ds = [] then (0, s)
      else ((if signed.1 then -(readDigits 10 ds : Int) else (readDigits 10 ds : Int)),
        signed.2.dropWhile isdigit)
    else (0, s)

/-- The value `m * b ^ e` for an exponent of either sign. -/
def scale (m : ℚ) (b : ℚ) (e : Int) : ℚ :=
  if 0 ≤ e then m * b ^ e.toNat else m / b ^ (-e).toNat

/-- A numeral of `strtod` without its sign, in base 10 or 16: digits with an optional point,
at least one digit in all, and an optional exponent part.  Returns the value and what is left
of the text, or `none` when the text does not begin with a digit sequence. -/
def readMantissa (base : Nat) (isDigit : Char → Bool) (marker : Char) (expBase : ℚ)
    (s : List Char) : Option (ℚ × List Char) :=
  let ip := s.takeWhile isDigit
  let r1 := s.dropWhile isDigit
  let frac : List Char × List Char :=
    match r1 with
    | [] => ([], r1)
    | c :: r => if c = '.' then (r.takeWhile isDigit, r.dropWhile isDigit) else ([], r1)
  if ip = [] ∧ frac.1 = [] then none
  else
    let e := readExponent marker frac.2
    some (scale ((readDigits base (ip ++ frac.1) : ℚ) / (base : ℚ) ^ frac.1.length) expBase e.1,
      e.2)

/-- The characters allowed between the parentheses of `nan(...)`. -/
def isNanChar (c : Char) : Bool :=
  isdigit c || (97 ≤ (tolower c).toNat && (tolower c).toNat ≤ 122) || c = '_'

/-- The forms `inf`, `infinity`, `nan` and `nan(...)` of `strtod`, without the sign. -/
def readSpecial (s : List Char) : Option (Dbl × List Char) :=
  match afterWord "infinity".toList s with
  | some r => some (Dbl.inf false, r)
  | none =>
    match afterWord "inf".toList s with
    | some r => some (Dbl.inf false, r)
    | none =>
      match afterWord "nan".toList s with
      | none => none
      | some r =>
        match r with
        | [] => some (Dbl.nan, r)
        | c :: r2 =>
          if c = '(' then
            match r2.dropWhile isNanChar with
            | [] => some (Dbl.nan, r)
            | d :: r3 => if d = ')' then some (Dbl.nan, r3) else some (Dbl.nan, r)
          else some (Dbl.nan, r)

/-- The C library function `strtod(str, &endptr)`: the value, and the text from `endptr`
on.  It skips leading white space, takes an optional sign, then the longest prefix that is
`inf`, `infinity`, `nan`, `nan(...)`, a hexadecimal numeral after `0x`, or a decimal numeral.
When there is no such prefix the value is `0` and `endptr` is `str`.  The value of a numeral
is the double nearest to the number it denotes, an infinity (`HUGE_VAL`) when that is out of
range. -/
def strtod (str : List Char) : Dbl × List Char :=
  let s1 := str.dropWhile isspace
  let signed : Bool × List Char :=
    match s1 with
    | [] => (false, s1)
    | c :: r => if c = '-' then (true, r) else if c = '+' then (false, r) else (false, s1)
  match readSpecial signed.2 with
  | some (d, r) => (if signed.1 then Dbl.neg d else d, r)
  | none =>
    let hex : Option (ℚ × List Char) :=
      match signed.2 with
      | c :: x :: r =>
        if c = '0' ∧ tolower x = 'x' then readMantissa 16 isxdigit 'p' 2 r else none
      | _ => none
    match hex.orElse (fun _ => readMantissa 10 isdigit 'e' 10 signed.2) with
    | some (q, r) => (Dbl.round (if signed.1 then -q else q), r)
    | none => (Dbl.fin 0, str)

/-- The function `atom` on the text of a token.  A token that `strtod` consumes to its end
is a Number; one that begins and ends with `"` is a String without the two quotes (for the
token that is a single `"`, the statement `content[strlen(content)-1] = 0` writes before the
start of a copy of the empty text: a `fault`); any other is a Symbol. -/
def atom (st : Store) (str : List Char) : Res :=
  if (strtod str).2 = [] ∧ str ≠ [] then Res.ofPair (make_number st (strtod str).1)
  else if str.head? = some dquoteChar ∧ str.getLast? = some dquoteChar then
    match str.tail with
    | [] => Res.fault
    | content => Res.ofPair (make_string st (String.mk content.dropLast))
  else Res.ofPair (make_symbol st (String.mk str))

/-- What a call of the reader can do: return a value, the heap, and the text from the
position it has advanced `*input` to; run into undefined behaviour; or, in the model only,
run out of fuel. -/
inductive Read where
  | ok (v : Ptr) (st : Store) (rest : List Char)
  | fault
  | fuel
  deriving DecidableEq, Repr

namespace Read

/-- Sequencing of reader calls. -/
def bind (r : Read) (k : Ptr → Store → List Char → Read) : Read :=
  match r with
  | ok v st rest => k v st rest
  | fault => fault
  | fuel => fuel

/-- A call of `atom` seen as a reader call that leaves the text at `rest`. -/
def ofRes (r : Res) (rest : List Char) : Read :=
  match r with
  | Res.ok v st => ok v st rest
  | Res.fault => fault
  | Res.fuel => fuel

/-- Forget the position. -/
def toRes : Read → Res
  | ok v st _ => Res.ok v st
  | fault => Res.fault
  | fuel => Res.fuel

end Read

/-- The function `skip_whitespace`. -/
def skip_whitespace (input : List Char) : List Char := input.dropWhile isspace

/-- A character that ends a Symbol or Number token: white space or a parenthesis. -/
def isDelimiter (c : Char) : Bool := isspace c || c = '(' || c = ')'

/-- The function `read_atom`.  The token is copied to `char buffer[256]`.  A token that
begins with `"` runs to the next `"` or for at most 254 characters after the first; when
exactly 254 characters are followed by the closing `"`, that character goes to `buffer[255]`
and the terminating NUL to `buffer[256]`, past the end of the buffer: a `fault`.  Any other
token runs to the next delimiter or for at most 255 characters. -/
def read_atom (st : Store) (input : List Char) : Read :=
  match input with
  | [] => Read.ok nil st input
  | c :: rest =>
    if c = dquoteChar then
      let body := (rest.takeWhile fun d => d ≠ dquoteChar).take 254
      match rest.drop body.length with
      | [] => Read.ofRes (atom st (c :: body)) []
      | d :: rest2 =>
        if d = dquoteChar then
          if body.length = 254 then Read.fault
          else Read.ofRes (atom st (c :: (body ++ [d]))) rest2
        else Read.ofRes (atom st (c :: body)) (d :: rest2)
    else
      let tok := (input.takeWhile fun d => !isDelimiter d).take 255
      if tok = [] then Read.ok nil st input
      else Read.ofRes (atom st tok) (input.drop tok.length)

/-- The function `list2`. -/
def list2 (st : Store) (a b : Ptr) : Ptr × Store :=
  cons (cons st b nil).2 a (cons st b nil).1

/-- The assignment `tail->data.cons.cdr = c` of `read_list`; `tail` is a pair whenever the
assignment is reached. -/
def setCdr (st : Store) (tail c : Ptr) : Option Store :=
  match st.read tail with
  | Cell.cons a _ => some (st.write tail (Cell.cons a c))
  | _ => none

/-- The test for a dotted pair in `read_list`: a `.` followed by a space, a `)` or white
space. -/
def isDot (input : List Char) : Bool :=
  match input with
  | c :: d :: _ => c = '.' && (d = ' ' || d = ')' || isspace d)
  | _ => false

mutual

/-- The function `read_sexp`.  One unit of fuel per C call frame and loop iteration.  The
two arguments of `list2(make_symbol("quote"), read_sexp(input))` are evaluated in either
order. -/
def read_sexp : Nat → ArgOrder → Store → List Char → Read
  | 0, _, _, _ => Read.fuel
  | n + 1, ord, st, input =>
    match skip_whitespace input with
    | [] => Read.ok nil st []
    | c :: rest =>
      if c = '(' then read_list n ord st (c :: rest)
      else if c = quoteChar then
        match ord with
        | ArgOrder.leftFirst =>
          (read_sexp n ord (make_symbol st "quote").2 rest).bind fun x st1 r =>
            Read.ok (list2 st1 (make_symbol st "quote").1 x).1
              (list2 st1 (make_symbol st "quote").1 x).2 r
        | ArgOrder.rightFirst =>
          (read_sexp n ord st rest).bind fun x st1 r =>
            Read.ok (list2 (make_symbol st1 "quote").2 (make_symbol st1 "quote").1 x).1
              (list2 (make_symbol st1 "quote").2 (make_symbol st1 "quote").1 x).2 r
      else read_atom st (c :: rest)

/-- The function `read_list`, up to its `while` loop; `input` begins with `(`. -/
def read_list : Nat → ArgOrder → Store → List Char → Read
  | 0, _, _, _ => Read.fuel
  | n + 1, ord, st, input =>
    match skip_whitespace input.tail with
    | [] => read_list_loop n ord st nil nil []
    | c :: rest =>
      if c = ')' then Read.ok nil st rest
      else read_list_loop n ord st nil nil (c :: rest)

/-- The `while` loop of `read_list` and the statements after it, with the local variables
`head` and `tail`. -/
def read_list_loop : Nat → ArgOrder → Store → Ptr → Ptr → List Char → Read
  | 0, _, _, _, _, _ => Read.fuel
  | n + 1, ord, st, head, tail, input =>
    match input with
    | [] => Read.ok head st []
    | c :: rest0 =>
      if c = ')' then Read.ok head st rest0
      else
        (read_sexp n ord st (c :: rest0)).bind fun elem st1 in1 =>
          if isDot (skip_whitespace in1) then
            (read_sexp n ord st1 (skip_whitespace (skip_whitespace in1).tail)).bind
              fun rest st2 in4 =>
                let in6 : List Char :=
                  match skip_whitespace in4 with
                  | [] => []
                  | d :: r => if d = ')' then r else d :: r
                if isNil st2 head then
                  Read.ok (cons st2 elem rest).1 (cons st2 elem rest).2 in6
                else
                  match setCdr (cons st2 elem rest).2 tail (cons st2 elem rest).1 with
                  | some st3 => Read.ok head st3 in6
                  | none => Read.fault
          else if isNil st1 head then
            read_list_loop n ord (cons st1 elem nil).2 (cons st1 elem nil).1
              (cons st1 elem nil).1 (skip_whitespace (skip_whitespace in1))
          else
            match setCdr (cons st1 elem nil).2 tail (cons st1 elem nil).1 with
            | some st3 =>
              read_list_loop n ord st3 head (cons st1 elem nil).1
                (skip_whitespace (skip_whitespace in1))
            | none => Read.fault

end

/-- The function `parse` on the text of a C string (its characters before the terminating
NUL).  The fuel is enough for every text: each call and each iteration consumes a
character or returns. -/
def parse (ord : ArgOrder) (st : Store) (input : List Char) : Res :=
  (read_sexp (3 * input.length + 3) ord st input).toRes

/-- The function `is_empty` of `repl.c`. -/
def is_empty (str : List Char) : Bool := str.all isspace

/-- One round of the loop of `repl` on a text that `read_expression` has returned (and that
is not one of the commands `exit`, `quit`, `help`): nothing is evaluated when the text is
empty or when `parse` returns Nil; otherwise the expression is evaluated in `GLOBAL_ENV`.
`ordR` is the order of evaluation of the arguments in the reader, `ord` the one in
`eval_list`. -/
def replRound (fuel : Nat) (ordR ord : ArgOrder) (genv : Ptr) (r : Res) (text : String) :
    Res :=
  r.bind fun last st =>
    if is_empty text.toList then Res.ok last st
    else
      (parse ordR st text.toList).bind fun expr st1 =>
        if isNil st1 expr then Res.ok last st1
        else eval fuel ord st1 expr genv

/-- The function `main` followed by the rounds of `repl` for the given input texts.  The
result is the value of the last expression evaluated and the final heap. -/
def run (fuel : Nat) (ordR ord : ArgOrder) (texts : List String) : Res :=
  (init_global_env Store.empty).bind fun genv st =>
    texts.foldl (replRound fuel ordR ord genv) (Res.ok nil st)

/-! ## The texts of expressions -/

mutual

/-- The text of one expression, split into its tokens and its white space: an atom token,
a string literal (the text between its quotes), an apostrophe followed by white space and
an expression, or a parenthesis followed by white space and the items of a list. -/
inductive Syn where
  | atom (tok : List Char)
  | str (body : List Char)
  | quoted (ws : List Char) (x : Syn)
  | list (ws : List Char) (items : Items)

/-- The text of a list from its first item on: the closing parenthesis; or a dot, white
space, the expression of the tail, white space and the closing parenthesis; or a dot, white
space and the closing parenthesis, a dotted tail without an expression; or an item, white
space, and the text from the next item on. -/
inductive Items where
  | close
  | dot (ws1 : List Char) (x : Syn) (ws2 : List Char)
  | dotClose (ws : List Char)
  | item (x : Syn) (ws : List Char) (rest : Items)

end

/-- The text begins with the dot of a dotted tail. -/
def Items.isDotted : Items → Bool
  | Items.dot _ _ _ => true
  | Items.dotClose _ => true
  | _ => false

mutual

/-- The characters of the text of an expression. -/
def Syn.chars : Syn → List Char
  | Syn.atom tok => tok
  | Syn.str body => dquoteChar :: (body ++ [dquoteChar])
  | Syn.quoted ws x => quoteChar :: (ws ++ x.chars)
  | Syn.list ws items => '(' :: (ws ++ items.chars)

/-- The characters of the text of a list from an item on. -/
def Items.chars : Items → List Char
  | Items.close => [')']
  | Items.dot ws1 x ws2 => '.' :: (ws1 ++ (x.chars ++ (ws2 ++ [')'])))
  | Items.dotClose ws => '.' :: (ws ++ [')'])
  | Items.item x ws rest => x.chars ++ (ws ++ rest.chars)

end

/-- The tree of an atom token that is not a string literal: the Number that `strtod` reads
when it consumes the whole token, a Symbol with the text of the token otherwise. -/
def atomTree (tok : List Char) : SExpr :=
  if (strtod tok).2 = [] then SExpr.ofDbl (strtod tok).1 else SExpr.sym (String.mk tok)

mutual

/-- The expression tree that a text denotes. -/
def Syn.tree : Syn → SExpr
  | Syn.atom tok => atomTree tok
  | Syn.str body => SExpr.str (String.mk body)
  | Syn.quoted _ x => SExpr.pair (SExpr.sym "quote") (SExpr.pair x.tree SExpr.nil)
  | Syn.list _ items => items.tree

/-- The list, proper or dotted, that the text of a list denotes from an item on. -/
def Items.tree : Items → SExpr
  | Items.close => SExpr.nil
  | Items.dot _ x _ => x.tree
  | Items.dotClose _ => SExpr.nil
  | Items.item x _ rest => SExpr.pair x.tree rest.tree

end

/-- An atom token that the reader takes whole: not empty, at most 255 characters (the size
of the buffer of `read_atom`), free of white space and parentheses, not beginning with an
apostrophe or a double quote, and not the lone dot. -/
def tokenOK (tok : List Char) : Bool :=
  decide (tok ≠ []) && decide (tok.length ≤ 255) && tok.all (fun c => !isDelimiter c)
    && decide (tok.head? ≠ some quoteChar) && decide (tok.head? ≠ some dquoteChar)
    && decide (tok ≠ ['.'])

/-- A run of characters that `read_atom` takes for one token when a delimiter or nothing
follows it: not empty, at most 255 characters (the size of the buffer of `read_atom`), free
of white space and parentheses, not beginning with an apostrophe or a double quote. -/
def atomOK (tok : List Char) : Bool :=
  decide (tok ≠ []) && decide (tok.length ≤ 255) && tok.all (fun c => !isDelimiter c)
    && decide (tok.head? ≠ some quoteChar) && decide (tok.head? ≠ some dquoteChar)

/-- A token that begins with a double quote and fills the buffer of `read_atom`: the double
quote and 254 characters, none of them a double quote.  It is what `read_atom` takes of a
string literal of more than 254 characters, and `atom` makes a Symbol of it. -/
def cutOK (tok : List Char) : Bool :=
  decide (tok.head? = some dquoteChar) && decide (tok.length = 255)
    && tok.tail.all (fun c => decide (c ≠ dquoteChar))

/-- The text is the atom token that is a lone dot. -/
def Syn.isLoneDot : Syn → Bool
  | Syn.atom tok => decide (tok = ['.'])
  | _ => false

/-- The reader, having read the text of the expression, stops before the character `c`:
always after a string literal or a list; after an atom token of 255 characters, which fills
the buffer of `read_atom`; after a shorter atom token when `c` is white space or a
parenthesis; after a token that begins with a double quote and fills the buffer when `c` is
not a double quote. -/
def Syn.endsBefore : Syn → Char → Bool
  | Syn.atom tok, c =>
    if tok.head? = some dquoteChar then decide (c ≠ dquoteChar)
    else decide (tok.length = 255) || isDelimiter c
  | Syn.str _, _ => true
  | Syn.quoted _ x, c => x.endsBefore c
  | Syn.list _ _, _ => true

/-- The reader, having read the text of the expression, stops before the text `rest`:
`rest` is empty or begins with a character that the expression ends before. -/
def Syn.stopsAt (x : Syn) (rest : List Char) : Bool :=
  match rest with
  | [] => true
  | c :: _ => x.endsBefore c

mutual

/-- The text is well formed: an atom token satisfies `atomOK` or `cutOK`; a string literal
has at most 253 characters between its quotes, none of them a double quote; the white space
is white space; the first item of a list is not a dotted tail. -/
def Syn.wf : Syn → Bool
  | Syn.atom tok => atomOK tok || cutOK tok
  | Syn.str body => decide (body.length ≤ 253) && body.all (fun c => decide (c ≠ dquoteChar))
  | Syn.quoted ws x => ws.all isspace && x.wf
  | Syn.list ws items => ws.all isspace && items.wf true

/-- Well-formedness of the text of a list from an item on; `first` tells that no item comes
before.  A dotted tail comes after an item, and its dot is followed by white space or by
the closing parenthesis.  The reader stops at the end of an item (white space is needed
only where the item would run on), and an item after the first that is a lone dot is
followed at once by an opening parenthesis, so that the reader does not take it for the dot
of a dotted tail. -/
def Items.wf : Items → Bool → Bool
  | Items.close, _ => true
  | Items.dot ws1 x ws2, first =>
    !first && decide (ws1 ≠ []) && ws1.all isspace && x.wf && ws2.all isspace
  | Items.dotClose ws, first => !first && ws.all isspace
  | Items.item x ws rest, first =>
    x.wf && ws.all isspace && x.stopsAt (ws ++ rest.chars) && rest.wf false &&
      (first || !x.isLoneDot || decide ((ws ++ rest.chars).head? = some '('))

end

mutual

/-- Fuel that is enough for `read_sexp` on the text of an expression. -/
def Syn.fuel : Syn → Nat
  | Syn.atom _ => 1
  | Syn.str _ => 1
  | Syn.quoted _ x => x.fuel + 1
  | Syn.list _ items => items.fuel + 2

/-- Fuel that is enough for `read_list_loop` on the text of a list from an item on. -/
def Items.fuel : Items → Nat
  | Items.close => 1
  | Items.dot _ x _ => x.fuel
  | Items.dotClose _ => 1
  | Items.item x _ rest => max x.fuel rest.fuel + 1

end

/-- Cell `p` of the heap `st` is the root of the expression tree `e`, and every cell of the
structure other than `NIL` has an address above `lo` and at most `hi`. -/
def ShapeIn (st : Store) (lo hi : Nat) : Ptr → SExpr → Prop
  | p, SExpr.nil => p = nil
  | p, SExpr.num q => lo < p ∧ p ≤ hi ∧ st.read p = Cell.number (Dbl.fin q)
  | p, SExpr.sym s => lo < p ∧ p ≤ hi ∧ st.read p = Cell.symbol s
  | p, SExpr.str s => lo < p ∧ p ≤ hi ∧ st.read p = Cell.string s
  | p, SExpr.pair a d =>
    lo < p ∧ p ≤ hi ∧ isCons st p = true ∧ ShapeIn st lo hi (car st p) a ∧
      ShapeIn st lo hi (cdr st p) d
  | p, SExpr.inf s => lo < p ∧ p ≤ hi ∧ st.read p = Cell.number (Dbl.inf s)
  | p, SExpr.nan => lo < p ∧ p ≤ hi ∧ st.read p = Cell.number Dbl.nan

/-- The state of the loop of `read_list` after the elements `es`: before the first element
`head` is `NIL`; afterwards `tail` is the last pair of the chain that starts at `head`, its
`cdr` is `NIL`, and in every heap that differs from `st` in new cells and in the `cdr` of
`tail`, now the root of a tree `t`, `head` is the root of the elements followed by `t`. -/
def ListSoFar (st : Store) (lo : Nat) (head tail : Ptr) (es : List SExpr) : Prop :=
  match es with
  | [] => head = nil
  | _ :: _ =>
    lo < tail ∧ tail ≤ st.size ∧ isCons st tail = true ∧ cdr st tail = nil ∧
      isNil st head = false ∧
      ∀ (st2 : Store) (d : Ptr) (t : SExpr) (hi : Nat), st.size ≤ hi →
        (∀ q, q ≤ st.size → q ≠ tail → st2.read q = st.read q) →
        st2.read tail = Cell.cons (car st tail) d → ShapeIn st2 lo hi d t →
        ShapeIn st2 lo hi head (es.foldr SExpr.pair t)

/-- The text `(a b c)`. -/
def sampleSyn : Syn :=
  Syn.list [] (Items.item (Syn.atom ['a']) [' '] (Items.item (Syn.atom ['b']) [' ']
    (Items.item (Syn.atom ['c']) [] Items.close)))

/-- The text `((a)(b)"x"c .(d))`: white space only between the last two items, where the
lone dot before a parenthesis is an atom token. -/
def sampleTight : Syn :=
  Syn.list [] (Items.item (Syn.list [] (Items.item (Syn.atom ['a']) [] Items.close)) []
    (Items.item (Syn.list [] (Items.item (Syn.atom ['b']) [] Items.close)) []
      (Items.item (Syn.str ['x']) [] (Items.item (Syn.atom ['c']) [' ']
        (Items.item (Syn.atom ['.']) []
          (Items.item (Syn.list [] (Items.item (Syn.atom ['d']) [] Items.close)) []
            Items.close))))))

/-- The text of a list with one run of 256 letters `a`, which the reader takes for a token
of 255 letters, where the buffer of `read_atom` is full, and a token of one. -/
def sampleRunOn : Syn :=
  Syn.list [] (Items.item (Syn.atom (List.replicate 255 'a')) []
    (Items.item (Syn.atom ['a']) [] Items.close))

/-- A text followed by the start of another token or by nothing more: what follows is
empty or begins with white space or a parenthesis. -/
def Delimited (rest : List Char) : Prop :=
  rest = [] ∨ ∃ c r, rest = c :: r ∧ isDelimiter c = true

/-! ## What the reader does with a text -/

/-- The function `read_sexp` reads the text `x` whole: on `x` followed by a text that it
stops at, with enough fuel, it returns, at the end of `x`, a value with the structure that
`x` denotes, made of new cells, and leaves the old cells as they were. -/
def ReadsSyn (x : Syn) : Prop :=
  ∀ (ord : ArgOrder) (st : Store) (rest : List Char) (n : Nat), x.stopsAt rest = true →
    x.fuel ≤ n →
    ∃ v st2, read_sexp n ord st (x.chars ++ rest) = Read.ok v st2 rest ∧ Keeps st st2 ∧
      ShapeIn st2 st.size st2.size v x.tree

/-- The loop of `read_list` reads the text `items` whole: entered after the elements `es`,
with enough fuel, it returns, after the closing parenthesis, the list of `es` followed by
what `items` denotes, and leaves the cells up to `lo` as they were. -/
def ReadsItems (items : Items) : Prop :=
  ∀ (ord : ArgOrder) (st : Store) (lo : Nat) (head tail : Ptr) (es : List SExpr)
    (rest : List Char) (n : Nat), lo ≤ st.size → ListSoFar st lo head tail es →
    items.fuel ≤ n →
    ∃ v st2, read_list_loop n ord st head tail (items.chars ++ rest) = Read.ok v st2 rest ∧
      st.size ≤ st2.size ∧ (∀ q : Nat, q ≤ lo → st2.read q = st.read q) ∧
      ShapeIn st2 lo st2.size v (es.foldr SExpr.pair items.tree)

/-- The text `(quote x)` for the text `x` of an expression, with the white space `ws1`
before `x` and `ws2` after it. -/
def quoteForm (ws1 : List Char) (x : Syn) (ws2 : List Char) : Syn :=
  Syn.list [] (Items.item (Syn.atom "quote".toList) (' ' :: ws1) (Items.item x ws2 Items.close))

/-! ## The names of the global environment -/

/-- The word aliases that `init_global_env` registers under "Alternative names", each with
the operator whose wrapper it is given. -/
def aliases : List (String × String) :=
  [("add", "+"), ("sub", "-"), ("mul", "*"), ("div", "/"), ("mod", "%")]

/-! ## What the reader builds on any text -/

/-- Every pair of the tree has a tail that is a pair or Nil: the lists of the tree, at
every depth, are chains of pairs that end in Nil. -/
def SExpr.proper : SExpr → Bool
  | SExpr.pair a d =>
    a.proper && d.proper &&
      (match d with
        | SExpr.pair _ _ => true
        | SExpr.nil => true
        | _ => false)
  | _ => true

/-- The text of a Symbol that the reader makes: an atom token that `strtod` does not
consume whole, or a token that begins with a double quote, has two to 255 characters and
no further double quote (a string literal without its closing quote, or cut where the
buffer of `read_atom` is full). -/
def symbolLexical (t : List Char) : Bool :=
  (atomOK t && decide ((strtod t).2 ≠ [])) ||
    (decide (t.head? = some dquoteChar) && decide (2 ≤ t.length) && decide (t.length ≤ 255)
      && t.tail.all (fun c => decide (c ≠ dquoteChar)))

/-- A token that `read_atom` passes to `atom`: an atom token, or a token that begins with a
double quote, has at most 255 characters and no double quote between the first character
and the last. -/
def TokenMade (tok : List Char) : Prop :=
  atomOK tok = true ∨
    (tok.head? = some dquoteChar ∧ tok.length ≤ 255 ∧ ∀ c ∈ tok.tail.dropLast, c ≠ dquoteChar)

/-- Every Symbol of the tree has a text that the reader makes, and every String has at most
253 characters, none of them a double quote. -/
def SExpr.lexical : SExpr → Bool
  | SExpr.sym s => symbolLexical s.toList
  | SExpr.str s =>
    decide (s.toList.length ≤ 253) && s.toList.all (fun c => decide (c ≠ dquoteChar))
  | SExpr.pair a d => a.lexical && d.lexical
  | _ => true

/-- Cell `q` is reachable from cell `p` through the heads and tails of pairs. -/
inductive Reach (st : Store) : Ptr → Ptr → Prop where
  | here (p : Ptr) : Reach st p p
  | head (p q : Ptr) : isCons st p = true → Reach st (car st p) q → Reach st p q
  | tail (p q : Ptr) : isCons st p = true → Reach st (cdr st p) q → Reach st p q

/-- What a call of `read_sexp` (or of `read_list`) with fuel `n` on the text `input` in the
heap `st` does.  It runs out of fuel only when `n` is at most three times the length of the
text; it runs into undefined behaviour only when the text holds a double quote; and when it
returns, the old cells are as they were, the text left is a suffix of `input`, shorter than
`input` unless `input` begins with `)`, and the value is the root of a tree of new cells,
in which every list is well formed when the text holds no dot, and whose Symbols and
Strings have texts that the reader makes. -/
def ReadPost (n : Nat) (st : Store) (input : List Char) : Read → Prop
  | Read.fuel => n < 3 * input.length + 1
  | Read.fault => dquoteChar ∈ input
  | Read.ok v st2 rest =>
    Keeps st st2 ∧ rest <:+ input ∧
      (∀ c r, input = c :: r → c ≠ ')' → rest.length < input.length) ∧
      ∃ e, ShapeIn st2 st.size st2.size v e ∧ ('.' ∉ input → e.proper = true) ∧
        e.lexical = true

/-- What a call of the loop of `read_list` does, entered after the elements `es` with the
cells up to `lo` older than the list: as `ReadPost`, for the list that `head` will be. -/
def LoopPost (n : Nat) (st : Store) (lo : Nat) (es : List SExpr) (input : List Char) :
    Read → Prop
  | Read.fuel => n < 3 * input.length + 2
  | Read.fault => dquoteChar ∈ input
  | Read.ok v st2 rest =>
    st.size ≤ st2.size ∧ (∀ q : Nat, q ≤ lo → st2.read q = st.read q) ∧ rest <:+ input ∧
      ∃ e, ShapeIn st2 lo st2.size v e ∧
        ('.' ∉ input → (∀ x ∈ es, x.proper = true) → e.proper = true) ∧
        ((∀ x ∈ es, x.lexical = true) → e.lexical = true)

/-! ## The text of a list with a dotted tail -/

/-- The items `a1 ... an . b)` of a list with a dotted tail: each atom token `a` with the
white space `ws` that follows it, then the dot, the white space `ws1`, the token `b`, the
white space `ws2` and the closing parenthesis. -/
def dottedItems : List (List Char × List Char) → List Char → List Char → List Char → Items
  | [], ws1, b, ws2 => Items.dot ws1 (Syn.atom b) ws2
  | a :: rest, ws1, b, ws2 => Items.item (Syn.atom a.1) a.2 (dottedItems rest ws1 b ws2)

/-- The text `(a1 ... an . b)`. -/
def dottedText (toks : List (List Char × List Char)) (ws1 b ws2 : List Char) : List Char :=
  '(' :: toks.foldr (fun a s => a.1 ++ (a.2 ++ s)) ('.' :: (ws1 ++ (b ++ (ws2 ++ [')']))))

/-- The chain of pairs whose heads are the values of the tokens `a1 ... an` and whose last
tail is the value of the token `b`. -/
def dottedTree (toks : List (List Char × List Char)) (b : List Char) : SExpr :=
  (toks.map fun a => atomTree a.1).foldr SExpr.pair (atomTree b)

/-! ## The printer -/

/-- What a call of `print_sexp` writes: a text; or it runs into undefined behaviour; or, in
the model only, it runs out of fuel. -/
inductive Out where
  | text (s : List Char)
  | fault
  | fuel
  deriving DecidableEq, Repr

/-- Sequencing of printer calls. -/
def Out.bind (r : Out) (k : List Char → Out) : Out :=
  match r with
  | Out.text s => k s
  | Out.fault => Out.fault
  | Out.fuel => Out.fuel

/-- The character of a decimal digit. -/
def digitChar (d : Nat) : Char := Char.ofNat (48 + d)

/-- The decimal digits of a natural number, most significant first, without leading zeros;
one unit of fuel per digit. -/
def decimalDigits : Nat → Nat → List Char
  | 0, _ => []
  | f + 1, n =>
    if n < 10 then [digitChar n] else decimalDigits f (n / 10) ++ [digitChar (n % 10)]

/-- What `printf("%d", i)` writes for an `int`, which has at most ten digits. -/
def printInt (i : Int) : List Char :=
  if i < 0 then '-' :: decimalDigits 10 i.natAbs else decimalDigits 10 i.natAbs

mutual

/-- The function `print_sexp`, returning the text it writes.  One unit of fuel per call and
per iteration of the loop over a list.  The test `s->data.number == (int)s->data.number`
casts the number to `int` first, which is undefined when the truncated number does not fit.
The parameter `g` stands for the conversion `%g` of `printf`. -/
def print_sexp : Nat → (Dbl → List Char) → Store → Ptr → Out
  | 0, _, _, _ => Out.fuel
  | n + 1, g, st, s =>
    if isNil st s then Out.text ['(', ')']
    else
      match st.read s with
      | Cell.number d =>
        match Dbl.toInt d with
        | none => Out.fault
        | some i =>
          if Dbl.eqb d (Dbl.ofInt i) then Out.text (printInt i) else Out.text (g d)
      | Cell.symbol t => Out.text t.toList
      | Cell.string t => Out.text (dquoteChar :: (t.toList ++ [dquoteChar]))
      | Cell.lambda _ _ _ => Out.text "#<lambda>".toList
      | Cell.primitive _ => Out.text "#<primitive>".toList
      | Cell.cons _ _ =>
        (print_list n g st s).bind fun t => Out.text ('(' :: (t ++ [')']))
      | Cell.nil => Out.text []

/-- The `while` loop of the `CONS_CELL` case of `print_sexp`, entered with `current` a
pair: the text between the parentheses. -/
def print_list : Nat → (Dbl → List Char) → Store → Ptr → Out
  | 0, _, _, _ => Out.fuel
  | n + 1, g, st, current =>
    (print_sexp n g st (car st current)).bind fun t1 =>
      if isNil st (cdr st current) then Out.text t1
      else if isCons st (cdr st current) then
        (print_list n g st (cdr st current)).bind fun t2 => Out.text (t1 ++ ' ' :: t2)
      else
        (print_sexp n g st (cdr st current)).bind fun t2 =>
          Out.text (t1 ++ ' ' :: '.' :: ' ' :: t2)

end

/-! ## Trees that the printer and the reader agree on -/

/-- The number of nodes of a tree. -/
def SExpr.size : SExpr → Nat
  | SExpr.pair a d => a.size + d.size + 1
  | _ => 1

/-- Every Number of the tree is an integer in the range of `int`: the numbers for which
`print_sexp` uses the conversion `%d`. -/
def SExpr.intNumbers : SExpr → Bool
  | SExpr.num q =>
    decide (q.den = 1) && decide (Dbl.INT_MIN ≤ q.num) && decide (q.num ≤ Dbl.INT_MAX)
  | SExpr.pair a d => a.intNumbers && d.intNumbers
  | SExpr.inf _ => false
  | SExpr.nan => false
  | _ => true

/-- Every Symbol of the tree has the text of a token that the reader takes whole and makes
a Symbol of, an atom token that `strtod` does not consume whole or a token that fills the
buffer, and every String has at most 253 characters, none of them a double quote. -/
def SExpr.readable : SExpr → Bool
  | SExpr.sym s =>
    (atomOK s.toList && decide ((strtod s.toList).2 ≠ [])) || cutOK s.toList
  | SExpr.str s =>
    decide (s.toList.length ≤ 253) && s.toList.all (fun c => decide (c ≠ dquoteChar))
  | SExpr.pair a d => a.readable && d.readable
  | _ => true

/-- No list of the tree has the Symbol `.` as an element after the first: in every pair
whose tail is a pair, the head of the tail is not that Symbol. -/
def SExpr.noDotElement : SExpr → Bool
  | SExpr.pair a d =>
    a.noDotElement && d.noDotElement &&
      (match d with
        | SExpr.pair (SExpr.sym s) _ => decide (s.toList ≠ ['.'])
        | _ => true)
  | _ => true

/-- No Symbol of the tree begins with a double quote and has fewer than 255 characters:
the Symbol that the reader makes of a string literal without a closing quote that ends
before the buffer of `read_atom` is full. -/
def SExpr.noOpenString : SExpr → Bool
  | SExpr.sym s => decide (s.toList.head? ≠ some dquoteChar) || decide (s.toList.length = 255)
  | SExpr.pair a d => a.noOpenString && d.noOpenString
  | _ => true

/-- No Symbol inside a pair of the tree begins with a double quote and has fewer than 255
characters; the tree itself may be such a Symbol. -/
def SExpr.noOpenInside : SExpr → Bool
  | SExpr.pair a d => a.noOpenString && d.noOpenString
  | _ => true

/-- The tree is one that the printer and the reader agree on. -/
def SExpr.printable (e : SExpr) : Bool := e.intNumbers && e.readable && e.noDotElement

/-- What `print_sexp` writes for the value that a call has returned. -/
def printed (n : Nat) (g : Dbl → List Char) (r : Res) : Out :=
  match r with
  | Res.ok v st => print_sexp n g st v
  | Res.fault => Out.fault
  | Res.fuel => Out.fuel

/-- The text that `print_sexp` writes for an atom or for Nil, split into tokens. -/
def renderAtom : SExpr → Syn
  | SExpr.num q => Syn.atom (printInt q.num)
  | SExpr.sym s => Syn.atom s.toList
  | SExpr.str s => Syn.str s.toList
  | _ => Syn.list [] Items.close

/-- The white space that `print_sexp` writes after an element of a list: a space, except
before the closing parenthesis. -/
def separator : SExpr → List Char
  | SExpr.nil => []
  | _ => [' ']

mutual

/-- The text that `print_sexp` writes for a value with the structure of the tree, split
into tokens and white space. -/
def render : SExpr → Syn
  | SExpr.pair a d => Syn.list [] (Items.item (render a) (separator d) (renderTail d))
  | SExpr.nil => Syn.list [] Items.close
  | SExpr.num q => renderAtom (SExpr.num q)
  | SExpr.sym s => renderAtom (SExpr.sym s)
  | SExpr.str s => renderAtom (SExpr.str s)
  | SExpr.inf b => renderAtom (SExpr.inf b)
  | SExpr.nan => renderAtom SExpr.nan

/-- The text that `print_sexp` writes for the tail of a pair, up to the closing
parenthesis. -/
def renderTail : SExpr → Items
  | SExpr.pair a d => Items.item (render a) (separator d) (renderTail d)
  | SExpr.nil => Items.close
  | SExpr.num q => Items.dot [' '] (renderAtom (SExpr.num q)) []
  | SExpr.sym s => Items.dot [' '] (renderAtom (SExpr.sym s)) []
  | SExpr.str s => Items.dot [' '] (renderAtom (SExpr.str s)) []
  | SExpr.inf b => Items.dot [' '] (renderAtom (SExpr.inf b)) []
  | SExpr.nan => Items.dot [' '] (renderAtom SExpr.nan) []

end

/-- Two values have the same shape along the tree `e`, Nil where the tree has Nil and a
pair where it has a pair, and their atoms at corresponding positions are `eq`. -/
def SameAt (st : Store) : SExpr → Ptr → Ptr → Prop
  | SExpr.pair a d, p, q =>
    isCons st p = true ∧ isCons st q = true ∧ SameAt st a (car st p) (car st q) ∧
      SameAt st d (cdr st p) (cdr st q)
  | SExpr.nil, p, q => isNil st p = true ∧ isNil st q = true
  | _, p, q => isNil st p = false ∧ isCons st p = false ∧ eq st p q = true

/-- The text `(a "b c" (1 -2) ())`. -/
def sampleRoundTrip : Syn :=
  Syn.list [] (Items.item (Syn.atom ['a']) [' '] (Items.item (Syn.str ['b', ' ', 'c']) [' ']
    (Items.item (Syn.list [] (Items.item (Syn.atom ['1']) [' ']
      (Items.item (Syn.atom ['-', '2']) [] Items.close))) [' ']
      (Items.item (Syn.list [] Items.close) [] Items.close))))

/-- The text `((a)(b)"x"1e-400 (c`: lists without white space between them, a string
literal followed at once by a numeral that is read as zero, and a list and an outer list
that the end of the text closes. -/
def sampleLoose : List Char :=
  "((a)(b)".toList ++ dquoteChar :: 'x' :: dquoteChar :: "1e-400 (c".toList

/-- The value of `sampleLoose`: the list `((a) (b) "x" 0 (c))`. -/
def sampleLooseTree : SExpr :=
  SExpr.list [SExpr.list [SExpr.sym "a"], SExpr.list [SExpr.sym "b"], SExpr.str "x",
    SExpr.num 0, SExpr.list [SExpr.sym "c"]]

/-- The text `a (b) 12 \n` of a string literal: white space, parentheses, digits and a
backslash. -/
def sampleString : List Char := "a (b) 12 ".toList ++ [Char.ofNat 92, 'n']

/-! # Theorems -/

/-! ## The store -/

theorem Store.alloc_fst (st : Store) (c : Cell) : (st.alloc c).1 = st.size + 1 := rfl

theorem Store.size_alloc (st : Store) (c : Cell) : (st.alloc c).2.size = st.size + 1 := by
  simp [Store.alloc, Store.size]

theorem Store.read_alloc_old (st : Store) (c : Cell) (p : Ptr) (h : p ≤ st.size) :
    (st.alloc c).2.read p = st.read p := by
  cases p with
  | zero => rfl
  | succ k =>
    have hk : k < st.cells.length := h
    simp [Store.alloc, Store.read, List.getD_eq_getElem?_getD, List.getElem?_append_left hk]

theorem Store.read_alloc_new (st : Store) (c : Cell) : (st.alloc c).2.read (st.size + 1) = c := by
  simp [Store.alloc, Store.read, Store.size, List.getD_eq_getElem?_getD]

theorem Store.read_of_gt (st : Store) (p : Ptr) (h : st.size < p) : st.read p = Cell.nil := by
  cases p with
  | zero => rfl
  | succ k =>
    have hk : st.cells.length ≤ k := Nat.le_of_lt_succ h
    simp [Store.read, List.getD_eq_getElem?_getD, List.getElem?_eq_none hk]

theorem Store.size_write (st : Store) (p : Ptr) (c : Cell) : (st.write p c).size = st.size := by
  cases p <;> simp [Store.write, Store.size]

theorem Store.read_write_ne (st : Store) (p q : Ptr) (c : Cell) (h : q ≠ p) :
    (st.write p c).read q = st.read q := by
  cases p with
  | zero => rfl
  | succ k =>
    cases q with
    | zero => rfl
    | succ j =>
      have hne : k ≠ j := fun e => h (by rw [e])
      simp [Store.write, Store.read, List.getD_eq_getElem?_getD, List.getElem?_set, hne]

theorem Store.read_write_same (st : Store) (p : Ptr) (c : Cell) (h1 : 1 ≤ p)
    (h2 : p ≤ st.size) : (st.write p c).read p = c := by
  cases p with
  | zero => exact absurd h1 (by decide)
  | succ k =>
    have hk : k < st.cells.length := h2
    simp [Store.write, Store.read, List.getD_eq_getElem?_getD, List.getElem?_set, hk]

/-! ## Predicates and accessors -/

theorem isNil_iff (st : Store) (p : Ptr) : isNil st p = true ↔ st.read p = Cell.nil := by
  cases p with
  | zero => simp [isNil, nil, NILP, Store.read]
  | succ k =>
    simp only [isNil, nil, NILP]
    cases st.read (k + 1) <;> simp

theorem isNil_eq_false_iff (st : Store) (p : Ptr) :
    isNil st p = false ↔ st.read p ≠ Cell.nil := by
  have h := isNil_iff st p
  cases hv : isNil st p <;> simp_all

theorem isNil_nil (st : Store) : isNil st nil = true := by
  simp [isNil]

theorem isCons_iff (st : Store) (p : Ptr) :
    isCons st p = true ↔ st.read p = Cell.cons (car st p) (cdr st p) := by
  simp only [isCons, car, cdr]
  cases st.read p <;> simp

theorem isCons_le_size (st : Store) (p : Ptr) (h : isCons st p = true) : p ≤ st.size := by
  by_contra hlt
  have := Store.read_of_gt st p (Nat.lt_of_not_le hlt)
  simp [isCons, this] at h

theorem isCons_not_nil (st : Store) (p : Ptr) (h : isCons st p = true) : isNil st p = false := by
  rw [isNil_eq_false_iff]
  intro hn
  simp [isCons, hn] at h

/-! ## Numbers -/

theorem Dbl.eqb_iff (x y : Dbl) : Dbl.eqb x y = true ↔ x = y ∧ x ≠ Dbl.nan := by
  cases x <;> cases y <;> simp [Dbl.eqb]

/-! ## Equality -/

/-- C8: `eq(a, b)` is true when both are Nil; false when exactly one is Nil or when the two
are non-Nil cells of different types; on two Numbers it is the C comparison `==` of the two
doubles (equality of the numbers, NaN being equal to nothing); on two Symbols or two
Strings it is equality of the texts; on two Pairs it is equality of the addresses, so the
results of two separate calls of `cons` with the same head and tail are not `eq`, while each
is `eq` to itself. -/
theorem eq_spec (st : Store) (a b : Ptr) :
    (isNil st a = true → isNil st b = true → eq st a b = true) ∧
    (isNil st a ≠ isNil st b → eq st a b = false) ∧
    (isNil st a = false → isNil st b = false → (st.read a).type ≠ (st.read b).type →
      eq st a b = false) ∧
    (∀ x y, st.read a = Cell.number x → st.read b = Cell.number y →
      eq st a b = Dbl.eqb x y ∧ (eq st a b = true ↔ x = y ∧ x ≠ Dbl.nan)) ∧
    (∀ s t, st.read a = Cell.symbol s → st.read b = Cell.symbol t →
      (eq st a b = true ↔ s = t)) ∧
    (∀ s t, st.read a = Cell.string s → st.read b = Cell.string t →
      (eq st a b = true ↔ s = t)) ∧
    (isCons st a = true → isCons st b = true → (eq st a b = true ↔ a = b)) ∧
    (∀ h t, (cons st h t).1 ≠ (cons (cons st h t).2 h t).1 ∧
      (cons (cons st h t).2 h t).2.read (cons st h t).1 = Cell.cons h t ∧
      (cons (cons st h t).2 h t).2.read (cons (cons st h t).2 h t).1 = Cell.cons h t ∧
      eq (cons (cons st h t).2 h t).2 (cons st h t).1 (cons (cons st h t).2 h t).1 = false ∧
      eq (cons (cons st h t).2 h t).2 (cons st h t).1 (cons st h t).1 = true) := by
  refine ⟨?_, ?_, ?_, ?_, ?_, ?_, ?_, ?_⟩
  · intro ha hb
    simp [eq, ha, hb]
  · intro hne
    cases ha : isNil st a <;> cases hb : isNil st b <;> simp_all [eq]
  · intro ha hb hty
    simp only [eq, ha, hb]
    cases hra : st.read a <;> cases hrb : st.read b <;> simp_all [Cell.type]
  · intro x y hx hy
    have ha : isNil st a = false := by rw [isNil_eq_false_iff, hx]; simp
    have hb : isNil st b = false := by rw [isNil_eq_false_iff, hy]; simp
    have h : eq st a b = Dbl.eqb x y := by simp [eq, ha, hb, hx, hy]
    exact ⟨h, by rw [h, Dbl.eqb_iff]⟩
  · intro x y hx hy
    have ha : isNil st a = false := by rw [isNil_eq_false_iff, hx]; simp
    have hb : isNil st b = false := by rw [isNil_eq_false_iff, hy]; simp
    simp [eq, ha, hb, hx, hy]
  · intro x y hx hy
    have ha : isNil st a = false := by rw [isNil_eq_false_iff, hx]; simp
    have hb : isNil st b = false := by rw [isNil_eq_false_iff, hy]; simp
    simp [eq, ha, hb, hx, hy]
  · intro hca hcb
    have ha := isCons_not_nil st a hca
    have hb := isCons_not_nil st b hcb
    rw [isCons_iff] at hca hcb
    rw [eq, ha, hb, hca, hcb]
    simp
  · intro h t
    have h1 : (cons st h t).1 = st.size + 1 := rfl
    have h2 : (cons (cons st h t).2 h t).1 = st.size + 2 := by
      simp [cons, Store.alloc_fst, Store.size_alloc]
    have r2 : (cons (cons st h t).2 h t).2.read (st.size + 2) = Cell.cons h t := by
      have := Store.read_alloc_new (cons st h t).2 (Cell.cons h t)
      simpa [cons, Store.size_alloc] using this
    have r1 : (cons (cons st h t).2 h t).2.read (st.size + 1) = Cell.cons h t := by
      have ho := Store.read_alloc_old (cons st h t).2 (Cell.cons h t) (st.size + 1)
        (by simp [cons, Store.size_alloc])
      have hn := Store.read_alloc_new st (Cell.cons h t)
      simp only [cons] at ho ⊢
      rw [ho, hn]
    rw [h1, h2]
    refine ⟨Nat.ne_of_lt (Nat.lt_succ_self _), r1, r2, ?_, ?_⟩
    · have n1 : isNil (cons (cons st h t).2 h t).2 (st.size + 1) = false := by
        rw [isNil_eq_false_iff, r1]; simp
      have n2 : isNil (cons (cons st h t).2 h t).2 (st.size + 2) = false := by
        rw [isNil_eq_false_iff, r2]; simp
      simp [eq, n1, n2, r1, r2]
    · have n1 : isNil (cons (cons st h t).2 h t).2 (st.size + 1) = false := by
        rw [isNil_eq_false_iff, r1]; simp
      simp [eq, n1, r1]

/-- C8, at a concrete heap: two numbers `3`, the symbols `a` and `b`, and two pairs. -/
theorem eq_spec_witness :
    eq sampleHeap 1 2 = true ∧ eq sampleHeap 3 4 = false ∧ eq sampleHeap 0 4 = false ∧
      eq sampleHeap 5 6 = false :=
  ⟨((eq_spec sampleHeap 1 2).2.2.2.1 (Dbl.fin 3) (Dbl.fin 3) rfl rfl).2.mpr ⟨rfl, by simp⟩,
   Bool.eq_false_iff.mpr fun hv =>
    absurd (((eq_spec sampleHeap 3 4).2.2.2.2.1 "a" "b" rfl rfl).mp hv) (by decide),
   (eq_spec sampleHeap 0 4).2.1 (by decide),
   Bool.eq_false_iff.mpr fun hv =>
    absurd (((eq_spec sampleHeap 5 6).2.2.2.2.2.2.1 rfl rfl).mp hv) (by decide)⟩

/-- C9 fails as stated: a closure, a primitive and the number NaN are neither a Pair
nor Nil, and `eq` of each with itself is false; at the prompt, `(eq car car)` evaluates to
Nil under either order of argument evaluation. -/
theorem eq_not_reflexive_on_procedures :
    (isLambda sampleHeap 8 = true ∧ eq sampleHeap 8 8 = false) ∧
      (isPrimitive sampleHeap 9 = true ∧ eq sampleHeap 9 9 = false) ∧
      (sampleHeap.read 10 = Cell.number Dbl.nan ∧ eq sampleHeap 10 10 = false) ∧
      (session 40 ArgOrder.leftFirst
        [SExpr.list [SExpr.sym "eq", SExpr.sym "car", SExpr.sym "car"]]).cell
          = some Cell.nil ∧
      (session 40 ArgOrder.rightFirst
        [SExpr.list [SExpr.sym "eq", SExpr.sym "car", SExpr.sym "car"]]).cell
          = some Cell.nil := by
  decide!

/-- C9, amended: for every cell `v` that is a Symbol, a String, or a Number other than
NaN, `eq(v, v)` is true. -/
theorem eq_refl_atoms (st : Store) (v : Ptr)
    (h : isSymbol st v = true ∨ isString st v = true ∨
      ∃ x, st.read v = Cell.number x ∧ x ≠ Dbl.nan) :
    eq st v v = true := by
  rcases h with h | h | ⟨x, hx, hnan⟩
  · cases hr : st.read v <;> simp [isSymbol, hr] at h
    have hn : isNil st v = false := by rw [isNil_eq_false_iff, hr]; simp
    simp [eq, hn, hr]
  · cases hr : st.read v <;> simp [isString, hr] at h
    have hn : isNil st v = false := by rw [isNil_eq_false_iff, hr]; simp
    simp [eq, hn, hr]
  · have hn : isNil st v = false := by rw [isNil_eq_false_iff, hx]; simp
    have he : Dbl.eqb x x = true := (Dbl.eqb_iff x x).mpr ⟨rfl, hnan⟩
    simp [eq, hn, hx, he]

/-- C9, amended, at the symbol `a`, the number `3` of the sample heap. -/
theorem eq_refl_atoms_witness :
    isSymbol sampleHeap 3 = true ∧ eq sampleHeap 3 3 = true ∧ eq sampleHeap 1 1 = true :=
  ⟨rfl, eq_refl_atoms sampleHeap 3 (Or.inl rfl),
    eq_refl_atoms sampleHeap 1 (Or.inr (Or.inr ⟨Dbl.fin 3, rfl, by simp⟩))⟩

/-- For a Closure or a Builtin, `eq(v, v)` is false: the `default` branch. -/
theorem eq_procedure_false (st : Store) (v : Ptr)
    (h : isLambda st v = true ∨ isPrimitive st v = true) : eq st v v = false := by
  rcases h with h | h
  · cases hr : st.read v <;> simp [isLambda, hr] at h
    have hn : isNil st v = false := by rw [isNil_eq_false_iff, hr]; simp
    simp [eq, hn, hr]
  · cases hr : st.read v <;> simp [isPrimitive, hr] at h
    have hn : isNil st v = false := by rw [isNil_eq_false_iff, hr]; simp
    simp [eq, hn, hr]

/-! ## Arithmetic and comparison -/

theorem read_nil (st : Store) : st.read nil = Cell.nil := rfl

theorem make_symbol_read (st : Store) (t : String) :
    (make_symbol st t).2.read (make_symbol st t).1 = Cell.symbol t :=
  Store.read_alloc_new st _

theorem make_number_read (st : Store) (d : Dbl) :
    (make_number st d).2.read (make_number st d).1 = Cell.number d :=
  Store.read_alloc_new st _

theorem Res.cell_ofPair (r : Ptr × Store) : (Res.ofPair r).cell = some (r.2.read r.1) := rfl

/-- The eight total operations `add`, `sub`, `mul`, `divide`, `lt`, `gt`, `lte`, `gte`
return the symbol `ERROR:NOT_A_NUMBER` exactly when an operand is not a Number. -/
theorem arith_sentinel_iff (st : Store) (a b : Ptr) :
    (((add st a b).2.read (add st a b).1 = Cell.symbol "ERROR:NOT_A_NUMBER") ↔
        ¬ (isNumber st a = true ∧ isNumber st b = true)) ∧
    (((sub st a b).2.read (sub st a b).1 = Cell.symbol "ERROR:NOT_A_NUMBER") ↔
        ¬ (isNumber st a = true ∧ isNumber st b = true)) ∧
    (((mul st a b).2.read (mul st a b).1 = Cell.symbol "ERROR:NOT_A_NUMBER") ↔
        ¬ (isNumber st a = true ∧ isNumber st b = true)) ∧
    (((divide st a b).2.read (divide st a b).1 = Cell.symbol "ERROR:NOT_A_NUMBER") ↔
        ¬ (isNumber st a = true ∧ isNumber st b = true)) ∧
    (((lt st a b).2.read (lt st a b).1 = Cell.symbol "ERROR:NOT_A_NUMBER") ↔
        ¬ (isNumber st a = true ∧ isNumber st b = true)) ∧
    (((gt st a b).2.read (gt st a b).1 = Cell.symbol "ERROR:NOT_A_NUMBER") ↔
        ¬ (isNumber st a = true ∧ isNumber st b = true)) ∧
    (((lte st a b).2.read (lte st a b).1 = Cell.symbol "ERROR:NOT_A_NUMBER") ↔
        ¬ (isNumber st a = true ∧ isNumber st b = true)) ∧
    (((gte st a b).2.read (gte st a b).1 = Cell.symbol "ERROR:NOT_A_NUMBER") ↔
        ¬ (isNumber st a = true ∧ isNumber st b = true)) := by
  have hT : ("T" : String) ≠ "ERROR:NOT_A_NUMBER" := by decide
  have hZ : ("ERROR:DIVISION_BY_ZERO" : String) ≠ "ERROR:NOT_A_NUMBER" := by decide
  refine ⟨?_, ?_, ?_, ?_, ?_, ?_, ?_, ?_⟩
  · cases ha : st.read a <;> cases hb : st.read b <;>
      simp [add, isNumber, ha, hb, make_symbol_read, make_number_read]
  · cases ha : st.read a <;> cases hb : st.read b <;>
      simp [sub, isNumber, ha, hb, make_symbol_read, make_number_read]
  · cases ha : st.read a <;> cases hb : st.read b <;>
      simp [mul, isNumber, ha, hb, make_symbol_read, make_number_read]
  · cases ha : st.read a <;> cases hb : st.read b <;>
      simp [divide, isNumber, ha, hb, make_symbol_read]
    split <;> simp [make_symbol_read, make_number_read, hZ]
  · cases ha : st.read a <;> cases hb : st.read b <;>
      simp [lt, isNumber, ha, hb, make_symbol_read]
    split <;> simp [make_symbol_read, read_nil, hT]
  · cases ha : st.read a <;> cases hb : st.read b <;>
      simp [gt, isNumber, ha, hb, make_symbol_read]
    split <;> simp [make_symbol_read, read_nil, hT]
  · cases ha : st.read a <;> cases hb : st.read b <;>
      simp [lte, isNumber, ha, hb, make_symbol_read]
    split <;> simp [make_symbol_read, read_nil, hT]
  · cases ha : st.read a <;> cases hb : st.read b <;>
      simp [gte, isNumber, ha, hb, make_symbol_read]
    split <;> simp [make_symbol_read, read_nil, hT]

/-- The operation `mod` returns the symbol `ERROR:NOT_A_NUMBER` exactly when an operand is
not a Number; on two Numbers it returns another value or does not return. -/
theorem mod_sentinel_iff (st : Store) (a b : Ptr) :
    ((mod st a b).cell = some (Cell.symbol "ERROR:NOT_A_NUMBER")) ↔
      ¬ (isNumber st a = true ∧ isNumber st b = true) := by
  have hZ : ("ERROR:DIVISION_BY_ZERO" : String) ≠ "ERROR:NOT_A_NUMBER" := by decide
  cases ha : st.read a <;> cases hb : st.read b <;>
    simp only [mod, isNumber, ha, hb, Res.cell_ofPair, make_symbol_read] <;> simp
  rename_i x y
  by_cases hz : Dbl.eqb y (Dbl.fin 0) = true
  · simp [hz, Res.cell_ofPair, make_symbol_read, hZ]
  · simp only [hz]
    cases hx : Dbl.toInt x with
    | none => simp [Res.cell]
    | some i =>
      cases hy : Dbl.toInt y with
      | none => simp [Res.cell]
      | some j =>
        cases hr : Dbl.intRem i j with
        | none => simp [hr, Res.cell]
        | some r => simp [hr, Res.cell_ofPair, make_number_read]

/-- C10, the failing input: `mod` on the Numbers `1` and `1/2` passes the two type tests
and the test of the divisor against zero, then computes `1 % 0` on `int`, which is
undefined; so does `(% 1 0.5)` at the prompt, under either order of argument evaluation. -/
theorem mod_fractional_divisor_faults :
    isNumber sampleHeap 11 = true ∧ isNumber sampleHeap 12 = true ∧
      mod sampleHeap 11 12 = Res.fault ∧
      session 40 ArgOrder.leftFirst
        [SExpr.list [SExpr.sym "%", SExpr.num 1, SExpr.num (1 / 2)]] = Res.fault ∧
      session 40 ArgOrder.rightFirst
        [SExpr.list [SExpr.sym "%", SExpr.num 1, SExpr.num (1 / 2)]] = Res.fault := by
  decide!

/-! ## Lookup -/

theorem lookup_test_eq (st : Store) (text : String) (x s : Ptr)
    (hs : st.read s = Cell.symbol text) :
    (isSymbol st x && isSymbol st s && decide (symbolText st x = symbolText st s))
      = hasText st text x := by
  cases hx : st.read x <;> simp [isSymbol, symbolText, hasText, hs, hx]

theorem IsList.nil_iff (st : Store) (p : Ptr) : IsList st p [] ↔ p = nil := by
  simp [IsList]

theorem IsList.cons_iff (st : Store) (p x : Ptr) (xs : List Ptr) :
    IsList st p (x :: xs) ↔
      isCons st p = true ∧ car st p = x ∧ x ≤ st.size ∧ IsList st (cdr st p) xs := by
  simp [IsList]

theorem car_nil (st : Store) : car st nil = nil := rfl

theorem cdr_nil (st : Store) : cdr st nil = nil := rfl

/-- The inner loop of `env_lookup` on a well-formed symbol list: with more fuel than the
list has elements it returns what the scan of the frame returns. -/
theorem env_lookup_frame_spec (st : Store) (text : String) (s : Ptr)
    (hs : st.read s = Cell.symbol text) :
    ∀ (xs : List Ptr) (p vals : Ptr) (n : Nat), IsList st p xs → xs.length < n →
      env_lookup_frame n st p vals s = some (frameScan st text xs vals) := by
  intro xs
  induction xs with
  | nil =>
    intro p vals n hp hn
    cases n with
    | zero => exact absurd hn (Nat.lt_irrefl 0)
    | succ m =>
      rw [IsList.nil_iff] at hp
      subst hp
      simp [env_lookup_frame, isNil_nil, frameScan]
  | cons x xs ih =>
    intro p vals n hp hn
    cases n with
    | zero => exact absurd hn (Nat.not_lt_zero _)
    | succ m =>
      rw [IsList.cons_iff] at hp
      obtain ⟨hc, hx, _, htl⟩ := hp
      have hnn := isCons_not_nil st p hc
      have hm : xs.length < m := Nat.lt_of_succ_lt_succ hn
      rw [env_lookup_frame, hnn, hx, lookup_test_eq st text x s hs]
      simp only [frameScan]
      by_cases ht : hasText st text x = true
      · simp [ht]
      · simp [ht, ih (cdr st p) (cdr st vals) m htl hm]

theorem frameScan_eq_scanLists (st : Store) (text : String) :
    ∀ (xs ys : List Ptr) (vals : Ptr), IsList st vals ys →
      frameScan st text xs vals = scanLists st text xs ys := by
  intro xs
  induction xs with
  | nil => intro ys vals _; rfl
  | cons x xs ih =>
    intro ys vals hv
    cases ys with
    | nil =>
      rw [IsList.nil_iff] at hv
      subst hv
      simp only [frameScan, scanLists, car_nil, cdr_nil, List.headD, List.tail]
      rw [ih [] nil ((IsList.nil_iff st nil).mpr rfl)]
    | cons y ys =>
      rw [IsList.cons_iff] at hv
      obtain ⟨_, hy, _, htl⟩ := hv
      simp only [frameScan, scanLists, hy, List.headD, List.tail]
      rw [ih ys (cdr st vals) htl]

theorem lookupResult_ok (st : Store) (m : Option Ptr) :
    ∃ v st2, lookupResult st m = Res.ok v st2 := by
  cases m with
  | none => exact ⟨_, _, rfl⟩
  | some v => exact ⟨v, st, rfl⟩

/-- The function `env_lookup` on a well-formed environment: with enough fuel it returns
what the scan of the frames returns, and a fresh symbol `UNDEFINED` when no frame holds the
symbol. -/
theorem env_lookup_scan (st : Store) (text : String) (s : Ptr)
    (hs : st.read s = Cell.symbol text) :
    ∀ (frames : List (List Ptr × List Ptr)) (env : Ptr) (n : Nat), IsEnv st env frames →
      lookupFuel frames ≤ n →
      env_lookup n st env s = lookupResult st (envScan st text frames) := by
  intro frames
  induction frames with
  | nil =>
    intro env n henv hn
    cases n with
    | zero => simp [lookupFuel] at hn
    | succ m =>
      simp only [IsEnv] at henv
      subst henv
      simp [env_lookup, isNil_nil, envScan, lookupResult]
  | cons f rest ih =>
    intro env n henv hn
    cases n with
    | zero => simp [lookupFuel] at hn
    | succ m =>
      simp only [IsEnv] at henv
      obtain ⟨hc, _, hsyms, hvals, hpar⟩ := henv
      have hnn := isCons_not_nil st env hc
      have hlen : f.1.length < m := by
        simp only [lookupFuel, allSymbols, List.length_append, List.length_cons] at hn
        omega
      have hrest : lookupFuel rest ≤ m := by
        simp only [lookupFuel, allSymbols, List.length_append, List.length_cons] at hn ⊢
        omega
      rw [env_lookup, hnn]
      simp only [Bool.false_eq_true, if_false]
      rw [env_lookup_frame_spec st text s hs f.1 _ _ m hsyms hlen,
        frameScan_eq_scanLists st text f.1 f.2 _ hvals]
      simp only [envScan]
      cases hscan : scanLists st text f.1 f.2 with
      | none => simp [ih _ m hpar hrest]
      | some v => simp [lookupResult]

theorem scanLists_eq_findIdx (st : Store) (text : String) :
    ∀ (xs ys : List Ptr), xs.length = ys.length →
      scanLists st text xs ys
        = (xs.findIdx? (hasText st text)).map fun i => ys.getD i nil := by
  intro xs
  induction xs with
  | nil => intro ys _; simp [scanLists]
  | cons x xs ih =>
    intro ys hlen
    cases ys with
    | nil => simp at hlen
    | cons y ys =>
      have hl : xs.length = ys.length := by simpa using hlen
      simp only [scanLists, List.findIdx?_cons, List.headD, List.tail]
      by_cases ht : hasText st text x = true
      · simp [ht]
      · simp [ht, ih ys hl, List.findIdx?_succ, Option.map_map, Function.comp_def]

theorem findIdx_lt_length (p : Ptr → Bool) :
    ∀ (xs : List Ptr) (i : Nat), xs.findIdx? p = some i → i < xs.length := by
  intro xs
  induction xs with
  | nil => intro i h; simp at h
  | cons x xs ih =>
    intro i h
    rw [List.findIdx?_cons] at h
    by_cases hp : p x = true
    · simp [hp] at h
      subst h
      simp
    · simp only [hp, Bool.false_eq_true, if_false, List.findIdx?_succ, zero_add,
        Option.map_eq_some'] at h
      obtain ⟨j, hj, rfl⟩ := h
      have := ih j hj
      simp
      omega

theorem envScan_eq_specLookup (st : Store) (text : String) :
    ∀ (frames : List (List Ptr × List Ptr)), (∀ f ∈ frames, f.1.length = f.2.length) →
      envScan st text frames = specLookup st frames text := by
  intro frames
  induction frames with
  | nil => intro _; simp [envScan, specLookup, allSymbols]
  | cons f rest ih =>
    intro hlen
    have hf : f.1.length = f.2.length := hlen f (List.mem_cons_self _ _)
    have hr := ih (fun g hg => hlen g (List.mem_cons_of_mem _ hg))
    simp only [envScan, specLookup, allSymbols, allValues, List.findIdx?_append]
    rw [scanLists_eq_findIdx st text f.1 f.2 hf, hr]
    cases hidx : f.1.findIdx? (hasText st text) with
    | some i =>
      have hi : i < f.2.length := hf ▸ findIdx_lt_length _ _ _ hidx
      simp [List.getElem?_append_left hi]
    | none =>
      simp only [Option.map_none', Option.none_or, specLookup, Option.map_map]
      congr 1
      funext i
      have hle : f.2.length ≤ i + f.2.length := Nat.le_add_left _ _
      simp [hf, List.getElem?_append_right hle]

/-- C4: on an environment whose frames each hold a symbol list and a value list of equal
length, looking up a Symbol with enough fuel returns, without touching the heap, the value
at the position of the first Symbol with the same text in the symbol lists concatenated
from the innermost frame outward; when no frame holds such a symbol it returns a fresh
Symbol `UNDEFINED`; the call always returns, never faults. -/
theorem env_lookup_spec (st : Store) (env s : Ptr) (text : String)
    (frames : List (List Ptr × List Ptr)) (henv : IsEnv st env frames)
    (hlen : ∀ f ∈ frames, f.1.length = f.2.length) (hs : st.read s = Cell.symbol text)
    (fuel : Nat) (hfuel : lookupFuel frames ≤ fuel) :
    env_lookup fuel st env s = lookupResult st (specLookup st frames text) ∧
      (∀ i, (allSymbols frames).findIdx? (hasText st text) = some i →
        env_lookup fuel st env s = Res.ok ((allValues frames).getD i nil) st) ∧
      ((allSymbols frames).findIdx? (hasText st text) = none →
        env_lookup fuel st env s = Res.ok (st.size + 1) (make_symbol st "UNDEFINED").2 ∧
          (env_lookup fuel st env s).cell = some (Cell.symbol "UNDEFINED")) ∧
      ∃ v st2, env_lookup fuel st env s = Res.ok v st2 := by
  have h := env_lookup_scan st text s hs frames env fuel henv hfuel
  rw [envScan_eq_specLookup st text frames hlen] at h
  refine ⟨h, ?_, ?_, ?_⟩
  · intro i hi
    rw [h]
    simp [specLookup, hi, lookupResult]
  · intro hnone
    rw [h]
    simp only [specLookup, hnone, Option.map_none', lookupResult]
    exact ⟨rfl, by rw [Res.cell_ofPair, make_symbol_read]⟩
  · rw [h]
    exact lookupResult_ok st _

/-- C4, on the two-frame environment of `sampleEnvHeap`: `x` is found in the inner frame
(value `1`, shadowing the `3` of the root frame), `y` in the root frame. -/
theorem env_lookup_spec_witness :
    env_lookup 10 sampleEnvHeap 16 1 = Res.ok 2 sampleEnvHeap ∧
      env_lookup 10 sampleEnvHeap 16 3 = Res.ok 4 sampleEnvHeap :=
  ⟨(env_lookup_spec sampleEnvHeap 16 1 "x" sampleFrames (by decide) (by decide) rfl 10
      (by decide)).2.1 0 (by decide),
   (env_lookup_spec sampleEnvHeap 16 3 "y" sampleFrames (by decide) (by decide) rfl 10
      (by decide)).2.1 1 (by decide)⟩

/-! ## Fuel -/

theorem Res.Le.refl_le (r : Res) : Res.Le r r := Or.inr rfl

theorem Res.Le.bind_le {r r2 : Res} {k k2 : Ptr → Store → Res} (h : Res.Le r r2)
    (hk : ∀ v st, Res.Le (k v st) (k2 v st)) : Res.Le (r.bind k) (r2.bind k2) := by
  rcases h with h | h
  · left; rw [h]; rfl
  · subst h
    cases r with
    | ok v st => exact hk v st
    | fault => exact Or.inr rfl
    | fuel => exact Or.inl rfl

theorem Res.Le.of_ok {r r2 : Res} {v : Ptr} {st : Store} (h : Res.Le r r2)
    (hr : r = Res.ok v st) : r2 = Res.ok v st := by
  rcases h with h | h
  · rw [h] at hr; cases hr
  · rw [← h]; exact hr

theorem env_lookup_frame_mono (st : Store) (s : Ptr) :
    ∀ (n m : Nat) (p q : Ptr), n ≤ m →
      env_lookup_frame n st p q s = none ∨
        env_lookup_frame n st p q s = env_lookup_frame m st p q s := by
  intro n
  induction n with
  | zero => intro m p q _; left; rfl
  | succ n ih =>
    intro m p q hnm
    cases m with
    | zero => exact absurd hnm (Nat.not_succ_le_zero n)
    | succ m =>
      have hle : n ≤ m := Nat.le_of_succ_le_succ hnm
      simp only [env_lookup_frame]
      split_ifs
      · right; rfl
      · right; rfl
      · exact ih m _ _ hle

theorem env_lookup_mono (st : Store) (s : Ptr) :
    ∀ (n m : Nat) (env : Ptr), n ≤ m →
      Res.Le (env_lookup n st env s) (env_lookup m st env s) := by
  intro n
  induction n with
  | zero => intro m env _; left; rfl
  | succ n ih =>
    intro m env hnm
    cases m with
    | zero => exact absurd hnm (Nat.not_succ_le_zero n)
    | succ m =>
      have hle : n ≤ m := Nat.le_of_succ_le_succ hnm
      simp only [env_lookup]
      split_ifs
      · exact Res.Le.refl_le _
      · rcases env_lookup_frame_mono st s n m (env_symbols st env) (env_values st env) hle
          with h | h
        · left; rw [h]
        · rw [← h]
          cases env_lookup_frame n st (env_symbols st env) (env_values st env) s with
          | none => exact Or.inl rfl
          | some o =>
            cases o with
            | none => exact ih m _ hle
            | some v => exact Res.Le.refl_le _

/-- One step of `eval`, branch by branch. -/
theorem eval_succ (n : Nat) (ord : ArgOrder) (st : Store) (sexp env : Ptr) :
    eval (n + 1) ord st sexp env =
      match classify st sexp with
      | Form.nil => Res.ok nil st
      | Form.self => Res.ok sexp st
      | Form.symbol => env_lookup n st env sexp
      | Form.quote => Res.ok (cadr st sexp) st
      | Form.set =>
        (eval n ord st (caddr st sexp) env).bind fun value st1 =>
          env_set st1 env (cadr st sexp) value
      | Form.define =>
        env_set (make_lambda st (caddr st sexp) (cadddr st sexp) env).2 env (cadr st sexp)
          (make_lambda st (caddr st sexp) (cadddr st sexp) env).1
      | Form.lambda => Res.ofPair (make_lambda st (cadr st sexp) (caddr st sexp) env)
      | Form.ifForm =>
        (eval n ord st (cadr st sexp) env).bind fun test st1 =>
          if isTrueSexp st1 test then eval n ord st1 (caddr st1 sexp) env
          else eval n ord st1 (cadddr st1 sexp) env
      | Form.andForm =>
        (eval n ord st (cadr st sexp) env).bind fun e1 st1 =>
          if isNil st1 e1 then Res.ok nil st1 else eval n ord st1 (caddr st1 sexp) env
      | Form.orForm =>
        (eval n ord st (cadr st sexp) env).bind fun e1 st1 =>
          if !isNil st1 e1 then Res.ofPair (make_symbol st1 "T")
          else eval n ord st1 (caddr st1 sexp) env
      | Form.cond => eval_cond n ord st (cdr st sexp) env
      | Form.call =>
        (eval n ord st (car st sexp) env).bind fun func st1 =>
          (eval_list n ord st1 (cdr st1 sexp) env).bind fun args st2 =>
            apply n ord st2 func args env
      | Form.other => Res.ok sexp st := by
  rw [eval.eq_2]
  unfold classify
  by_cases h1 : isNil st sexp = true
  · rw [if_pos h1, if_pos h1]
  rw [if_neg h1, if_neg h1]
  by_cases h2 : (isNumber st sexp || isString st sexp) = true
  · rw [if_pos h2, if_pos h2]
  rw [if_neg h2, if_neg h2]
  by_cases h3 : isSymbol st sexp = true
  · rw [if_pos h3, if_pos h3]
  rw [if_neg h3, if_neg h3]
  by_cases h4 : isList st sexp = true
  swap
  · rw [if_neg h4, if_neg h4]
  rw [if_pos h4, if_pos h4]
  simp only []
  by_cases h5 : isSymbol st (car st sexp) = true
  swap
  · rw [if_neg h5, if_neg h5]
  rw [if_pos h5, if_pos h5]
  by_cases k1 : symbolText st (car st sexp) = "quote"
  · rw [if_pos k1, if_pos k1]
  rw [if_neg k1, if_neg k1]
  by_cases k2 : symbolText st (car st sexp) = "set"
  · rw [if_pos k2, if_pos k2]
  rw [if_neg k2, if_neg k2]
  by_cases k3 : symbolText st (car st sexp) = "define"
  · rw [if_pos k3, if_pos k3]
  rw [if_neg k3, if_neg k3]
  by_cases k4 : symbolText st (car st sexp) = "lambda"
  · rw [if_pos k4, if_pos k4]
  rw [if_neg k4, if_neg k4]
  by_cases k5 : symbolText st (car st sexp) = "if"
  · rw [if_pos k5, if_pos k5]
  rw [if_neg k5, if_neg k5]
  by_cases k6 : symbolText st (car st sexp) = "and"
  · rw [if_pos k6, if_pos k6]
  rw [if_neg k6, if_neg k6]
  by_cases k7 : symbolText st (car st sexp) = "or"
  · rw [if_pos k7, if_pos k7]
  rw [if_neg k7, if_neg k7]
  by_cases k8 : symbolText st (car st sexp) = "cond"
  · rw [if_pos k8, if_pos k8]
  rw [if_neg k8, if_neg k8]

/-- One step of `eval_list`. -/
theorem eval_list_succ (n : Nat) (ord : ArgOrder) (st : Store) (list env : Ptr) :
    eval_list (n + 1) ord st list env =
      if isNil st list then Res.ok nil st
      else
        match ord with
        | ArgOrder.leftFirst =>
          (eval n ord st (car st list) env).bind fun v st1 =>
            (eval_list n ord st1 (cdr st1 list) env).bind fun vs st2 =>
              Res.ofPair (cons st2 v vs)
        | ArgOrder.rightFirst =>
          (eval_list n ord st (cdr st list) env).bind fun vs st1 =>
            (eval n ord st1 (car st1 list) env).bind fun v st2 =>
              Res.ofPair (cons st2 v vs) := by
  cases ord
  · rw [eval_list.eq_2]
  · rw [eval_list.eq_3]

/-- One step of `apply`. -/
theorem apply_succ (n : Nat) (ord : ArgOrder) (st : Store) (func args env : Ptr) :
    apply (n + 1) ord st func args env =
      match st.read func with
      | Cell.primitive f => callPrim f st args env
      | Cell.lambda params body cenv =>
        eval n ord (make_env st params args cenv).2 body (make_env st params args cenv).1
      | _ => Res.ofPair (make_symbol st "ERROR:NOT_A_FUNCTION") :=
  apply.eq_2 _ _ _ _ _ _

/-- One step of the loop of `cond`. -/
theorem eval_cond_succ (n : Nat) (ord : ArgOrder) (st : Store) (clauses env : Ptr) :
    eval_cond (n + 1) ord st clauses env =
      if isNil st clauses then Res.ok nil st
      else
        (eval n ord st (car st (car st clauses)) env).bind fun test st1 =>
          if isTrueSexp st1 test then eval n ord st1 (cadr st1 (car st clauses)) env
          else eval_cond n ord st1 (cdr st1 clauses) env := by
  rw [eval_cond.eq_2]

/-- More fuel never changes a result: what `eval`, `eval_list`, `apply` and the loop of
`cond` return (or fault on) with some fuel, they return with any larger fuel. -/
theorem eval_mono_all :
    ∀ n : Nat,
      (∀ m ord st sexp env, n ≤ m →
        Res.Le (eval n ord st sexp env) (eval m ord st sexp env)) ∧
      (∀ m ord st list env, n ≤ m →
        Res.Le (eval_list n ord st list env) (eval_list m ord st list env)) ∧
      (∀ m ord st func args env, n ≤ m →
        Res.Le (apply n ord st func args env) (apply m ord st func args env)) ∧
      (∀ m ord st clauses env, n ≤ m →
        Res.Le (eval_cond n ord st clauses env) (eval_cond m ord st clauses env)) := by
  intro n
  induction n with
  | zero =>
    refine ⟨?_, ?_, ?_, ?_⟩
    · intros; left; rw [eval.eq_1]
    · intros; left; rw [eval_list.eq_1]
    · intros; left; rw [apply.eq_1]
    · intros; left; rw [eval_cond.eq_1]
  | succ n ih =>
    obtain ⟨ihE, ihL, ihA, ihC⟩ := ih
    refine ⟨?_, ?_, ?_, ?_⟩
    · intro m ord st sexp env hnm
      cases m with
      | zero => exact absurd hnm (Nat.not_succ_le_zero n)
      | succ m =>
        have hle : n ≤ m := Nat.le_of_succ_le_succ hnm
        rw [eval_succ, eval_succ]
        cases classify st sexp <;> dsimp only <;>
          repeat' first
            | exact Res.Le.refl_le _
            | exact ihE _ _ _ _ _ hle
            | exact ihL _ _ _ _ _ hle
            | exact ihA _ _ _ _ _ _ hle
            | exact ihC _ _ _ _ _ hle
            | exact env_lookup_mono _ _ _ _ _ hle
            | apply Res.Le.bind_le
            | intro _ _
            | split_ifs
    · intro m ord st list env hnm
      cases m with
      | zero => exact absurd hnm (Nat.not_succ_le_zero n)
      | succ m =>
        have hle : n ≤ m := Nat.le_of_succ_le_succ hnm
        rw [eval_list_succ, eval_list_succ]
        by_cases hnil : isNil st list = true
        · rw [if_pos hnil, if_pos hnil]; exact Res.Le.refl_le _
        · rw [if_neg hnil, if_neg hnil]
          cases ord <;> dsimp only <;>
            repeat' first
              | exact Res.Le.refl_le _
              | exact ihE _ _ _ _ _ hle
              | exact ihL _ _ _ _ _ hle
              | apply Res.Le.bind_le
              | intro _ _
    · intro m ord st func args env hnm
      cases m with
      | zero => exact absurd hnm (Nat.not_succ_le_zero n)
      | succ m =>
        have hle : n ≤ m := Nat.le_of_succ_le_succ hnm
        rw [apply_succ, apply_succ]
        cases st.read func <;> dsimp only <;>
          first
            | exact Res.Le.refl_le _
            | exact ihE _ _ _ _ _ hle
    · intro m ord st clauses env hnm
      cases m with
      | zero => exact absurd hnm (Nat.not_succ_le_zero n)
      | succ m =>
        have hle : n ≤ m := Nat.le_of_succ_le_succ hnm
        rw [eval_cond_succ, eval_cond_succ]
        by_cases hnil : isNil st clauses = true
        · rw [if_pos hnil, if_pos hnil]; exact Res.Le.refl_le _
        rw [if_neg hnil, if_neg hnil]
        repeat' first
            | exact Res.Le.refl_le _
            | exact ihE _ _ _ _ _ hle
            | exact ihC _ _ _ _ _ hle
            | apply Res.Le.bind_le
            | intro _ _
            | split_ifs

theorem eval_fuel_mono {n m : Nat} {ord : ArgOrder} {st st2 : Store} {sexp env v : Ptr}
    (h : eval n ord st sexp env = Res.ok v st2) (hnm : n ≤ m) :
    eval m ord st sexp env = Res.ok v st2 :=
  ((eval_mono_all n).1 m ord st sexp env hnm).of_ok h

theorem eval_list_fuel_mono {n m : Nat} {ord : ArgOrder} {st st2 : Store} {l env v : Ptr}
    (h : eval_list n ord st l env = Res.ok v st2) (hnm : n ≤ m) :
    eval_list m ord st l env = Res.ok v st2 :=
  ((eval_mono_all n).2.1 m ord st l env hnm).of_ok h

theorem apply_fuel_mono {n m : Nat} {ord : ArgOrder} {st st2 : Store} {f args env v : Ptr}
    (h : apply n ord st f args env = Res.ok v st2) (hnm : n ≤ m) :
    apply m ord st f args env = Res.ok v st2 :=
  ((eval_mono_all n).2.2.1 m ord st f args env hnm).of_ok h

/-! ## What a call leaves of the heap -/

theorem Keeps.refl (st : Store) : Keeps st st := ⟨Nat.le_refl _, fun _ _ => rfl⟩

theorem Keeps.trans {a b c : Store} (h1 : Keeps a b) (h2 : Keeps b c) : Keeps a c :=
  ⟨Nat.le_trans h1.1 h2.1, fun q hq => by
    rw [h2.2 q (Nat.le_trans hq h1.1), h1.2 q hq]⟩

theorem isCons_pos (st : Store) (p : Ptr) (h : isCons st p = true) : 1 ≤ p := by
  cases p with
  | zero => simp [isCons, Store.read] at h
  | succ k => exact Nat.succ_le_succ (Nat.zero_le k)

theorem Keeps.isCons {a b : Store} (h : Keeps a b) {p : Ptr} (hc : isCons a p = true) :
    isCons b p = true := by
  have hr := h.2 p (isCons_le_size a p hc)
  simpa [Lisp.isCons, hr] using hc

theorem Keeps.except {a b : Store} (h : Keeps a b) (e : Ptr) : KeepsExcept a b e :=
  ⟨h.1, fun q hq _ => h.2 q hq, fun hc => h.isCons hc⟩

theorem KeepsExcept.refl_except (st : Store) (e : Ptr) : KeepsExcept st st e :=
  (Keeps.refl st).except e

theorem KeepsExcept.trans_except {a b c : Store} {e : Ptr} (h1 : KeepsExcept a b e)
    (h2 : KeepsExcept b c e) : KeepsExcept a c e :=
  ⟨Nat.le_trans h1.1 h2.1, fun q hq hne => by
    rw [h2.2.1 q (Nat.le_trans hq h1.1) hne, h1.2.1 q hq hne], fun hc => h2.2.2 (h1.2.2 hc)⟩

theorem KeepsExcept.keeps_of_fresh {a b : Store} {e : Ptr} (h : KeepsExcept a b e)
    (he : a.size < e) : Keeps a b :=
  ⟨h.1, fun q hq => h.2.1 q hq (fun heq => absurd (heq ▸ hq) (Nat.not_le_of_lt he))⟩

theorem Keeps.alloc (st : Store) (c : Cell) : Keeps st (st.alloc c).2 :=
  ⟨by rw [Store.size_alloc]; exact Nat.le_succ _, fun q hq => Store.read_alloc_old st c q hq⟩

theorem KeepsExcept.write (st : Store) (e a d : Ptr) :
    KeepsExcept st (st.write e (Cell.cons a d)) e :=
  ⟨by rw [Store.size_write], fun q _ hne => Store.read_write_ne st e q _ hne, fun hc => by
    have hr := Store.read_write_same st e (Cell.cons a d) (isCons_pos st e hc)
      (isCons_le_size st e hc)
    simp [Lisp.isCons, hr]⟩

theorem Keeps.make_env (st : Store) (a b c : Ptr) : Keeps st (make_env st a b c).2 :=
  (Keeps.alloc st _).trans (Keeps.alloc _ _)

theorem Res.Pure.framed {st : Store} {r : Res} (h : Res.Pure st r) (e : Ptr) :
    Res.Framed st e r :=
  fun v st2 hr => (h v st2 hr).except e

theorem Res.Pure.ok (st : Store) (v : Ptr) : Res.Pure st (Res.ok v st) := by
  intro v2 st2 h
  cases h
  exact Keeps.refl st

theorem Res.Pure.ofAlloc (st : Store) (c : Cell) : Res.Pure st (Res.ofPair (st.alloc c)) := by
  intro v2 st2 h
  cases h
  exact Keeps.alloc st c

theorem Res.Framed.ok_framed (st : Store) (e v : Ptr) : Res.Framed st e (Res.ok v st) :=
  (Res.Pure.ok st v).framed e

theorem Res.Framed.ofAlloc_framed (st : Store) (e : Ptr) (c : Cell) :
    Res.Framed st e (Res.ofPair (st.alloc c)) :=
  (Res.Pure.ofAlloc st c).framed e

theorem Res.bind_eq_ok {r : Res} {k : Ptr → Store → Res} {v : Ptr} {st2 : Store}
    (h : r.bind k = Res.ok v st2) : ∃ v1 st1, r = Res.ok v1 st1 ∧ k v1 st1 = Res.ok v st2 := by
  cases r with
  | ok v1 st1 => exact ⟨v1, st1, rfl, h⟩
  | fault => cases h
  | fuel => cases h

theorem Res.Framed.bind {st : Store} {e : Ptr} {r : Res} {k : Ptr → Store → Res}
    (h : Res.Framed st e r) (hk : ∀ v st1, Res.Framed st1 e (k v st1)) :
    Res.Framed st e (r.bind k) := by
  intro v st2 hb
  obtain ⟨v1, st1, hr, hk1⟩ := Res.bind_eq_ok hb
  exact (h v1 st1 hr).trans_except (hk v1 st1 v st2 hk1)

theorem Res.Framed.after {st st1 : Store} {e : Ptr} {r : Res} (h0 : KeepsExcept st st1 e)
    (h : Res.Framed st1 e r) : Res.Framed st e r :=
  fun v st2 hr => h0.trans_except (h v st2 hr)

theorem env_set_framed (st : Store) (env s v : Ptr) : Res.Framed st env (env_set st env s v) := by
  intro v2 st2 h
  have hk : Keeps st (cons (cons (cons st s (env_symbols st env)).2 v (env_values st env)).2
      (cons st s (env_symbols st env)).1
      (cons (cons st s (env_symbols st env)).2 v (env_values st env)).1).2 :=
    ((Keeps.alloc st _).trans (Keeps.alloc _ _)).trans (Keeps.alloc _ _)
  simp only [env_set] at h
  split at h
  · cases h
    exact (hk.except env).trans_except (KeepsExcept.write _ _ _ _)
  · cases h
    exact hk.except env
  · cases h

theorem env_lookup_pure (st : Store) (s : Ptr) :
    ∀ (n : Nat) (env : Ptr), Res.Pure st (env_lookup n st env s) := by
  intro n
  induction n with
  | zero => intro env v st2 h; cases h
  | succ n ih =>
    intro env
    simp only [env_lookup]
    split_ifs
    · exact Res.Pure.ofAlloc st _
    · cases env_lookup_frame n st (env_symbols st env) (env_values st env) s with
      | none => intro v st2 h; cases h
      | some o =>
        cases o with
        | none => exact ih _
        | some v => exact Res.Pure.ok st v

theorem callPrim_pure (f : Prim) (st : Store) (args env : Ptr) :
    Res.Pure st (callPrim f st args env) := by
  cases f <;> simp only [callPrim]
  · simp only [add]; split <;> exact Res.Pure.ofAlloc st _
  · simp only [sub]; split <;> exact Res.Pure.ofAlloc st _
  · simp only [mul]; split <;> exact Res.Pure.ofAlloc st _
  · simp only [divide]; split
    · split <;> exact Res.Pure.ofAlloc st _
    · exact Res.Pure.ofAlloc st _
  · simp only [mod]; split
    · split
      · exact Res.Pure.ofAlloc st _
      · split
        · split
          · exact Res.Pure.ofAlloc st _
          · intro v st2 h; cases h
        · intro v st2 h; cases h
    · exact Res.Pure.ofAlloc st _
  · simp only [lt]; split
    · split
      · exact Res.Pure.ofAlloc st _
      · exact Res.Pure.ok st _
    · exact Res.Pure.ofAlloc st _
  · simp only [gt]; split
    · split
      · exact Res.Pure.ofAlloc st _
      · exact Res.Pure.ok st _
    · exact Res.Pure.ofAlloc st _
  · simp only [lte]; split
    · split
      · exact Res.Pure.ofAlloc st _
      · exact Res.Pure.ok st _
    · exact Res.Pure.ofAlloc st _
  · simp only [gte]; split
    · split
      · exact Res.Pure.ofAlloc st _
      · exact Res.Pure.ok st _
    · exact Res.Pure.ofAlloc st _
  · split
    · exact Res.Pure.ofAlloc st _
    · exact Res.Pure.ok st _
  · simp only [not]; split
    · exact Res.Pure.ofAlloc st _
    · exact Res.Pure.ok st _
  · exact Res.Pure.ofAlloc st _
  · exact Res.Pure.ok st _
  · exact Res.Pure.ok st _

set_option maxHeartbeats 2000000 in
/-- The only cell that existed before a call of `eval`, `eval_list` or the loop of `cond`
and that the call can change is the pair of the environment it is given; a call of `apply`
changes no cell that existed before it (a closure body runs in a fresh environment). -/
theorem eval_framed_all :
    ∀ n : Nat,
      (∀ ord st sexp env, Res.Framed st env (eval n ord st sexp env)) ∧
      (∀ ord st list env, Res.Framed st env (eval_list n ord st list env)) ∧
      (∀ ord st func args env, Res.Pure st (apply n ord st func args env)) ∧
      (∀ ord st clauses env, Res.Framed st env (eval_cond n ord st clauses env)) := by
  intro n
  induction n with
  | zero =>
    refine ⟨?_, ?_, ?_, ?_⟩
    · intro ord st sexp env v st2 h; rw [eval.eq_1] at h; cases h
    · intro ord st l env v st2 h; rw [eval_list.eq_1] at h; cases h
    · intro ord st f args env v st2 h; rw [apply.eq_1] at h; cases h
    · intro ord st c env v st2 h; rw [eval_cond.eq_1] at h; cases h
  | succ n ih =>
    obtain ⟨ihE, ihL, ihA, ihC⟩ := ih
    refine ⟨?_, ?_, ?_, ?_⟩
    · intro ord st sexp env
      rw [eval_succ]
      cases classify st sexp <;> dsimp only <;>
        repeat' first
          | exact Res.Framed.ok_framed _ _ _
          | exact Res.Framed.ofAlloc_framed _ _ _
          | exact ihE _ _ _ _
          | exact ihL _ _ _ _
          | exact (ihA _ _ _ _ _).framed _
          | exact ihC _ _ _ _
          | exact (env_lookup_pure _ _ _ _).framed _
          | exact env_set_framed _ _ _ _
          | exact Res.Framed.after ((Keeps.alloc _ _).except _) (env_set_framed _ _ _ _)
          | apply Res.Framed.bind
          | split_ifs
          | intro _ _
    · intro ord st list env
      rw [eval_list_succ]
      by_cases hnil : isNil st list = true
      · rw [if_pos hnil]; exact Res.Framed.ok_framed _ _ _
      · rw [if_neg hnil]
        cases ord <;> dsimp only <;>
          repeat' first
            | exact Res.Framed.ofAlloc_framed _ _ _
            | exact ihE _ _ _ _
            | exact ihL _ _ _ _
            | apply Res.Framed.bind
            | intro _ _
    · intro ord st func args env
      rw [apply_succ]
      cases hf : st.read func <;> dsimp only <;>
        first
          | exact Res.Pure.ofAlloc _ _
          | exact callPrim_pure _ _ _ _
          | skip
      rename_i params body cenv
      intro v st2 h
      have hk := Keeps.make_env st params args cenv
      have hfresh : st.size < (make_env st params args cenv).1 := by
        simp only [make_env, cons, Store.alloc_fst, Store.size_alloc]
        omega
      have h2 := ihE ord _ body _ v st2 h
      exact ((hk.except _).trans_except h2).keeps_of_fresh hfresh
    · intro ord st clauses env
      rw [eval_cond_succ]
      by_cases hnil : isNil st clauses = true
      · rw [if_pos hnil]; exact Res.Framed.ok_framed _ _ _
      rw [if_neg hnil]
      repeat' first
        | exact ihE _ _ _ _
        | exact ihC _ _ _ _
        | apply Res.Framed.bind
        | split_ifs
        | intro _ _

/-- A call of `apply` that returns leaves every cell that existed before it unchanged. -/
theorem apply_keeps {n : Nat} {ord : ArgOrder} {st st2 : Store} {f args env v : Ptr}
    (h : apply n ord st f args env = Res.ok v st2) : Keeps st st2 :=
  (eval_framed_all n).2.2.1 ord st f args env v st2 h

/-- A call of `eval` that returns leaves every cell that existed before it unchanged,
except possibly the pair of its environment. -/
theorem eval_keeps {n : Nat} {ord : ArgOrder} {st st2 : Store} {sexp env v : Ptr}
    (h : eval n ord st sexp env = Res.ok v st2) : KeepsExcept st st2 env :=
  (eval_framed_all n).1 ord st sexp env v st2 h

/-! ## Lists and environments across heap changes -/

theorem KeepsExcept.isCons_of_ne {st st2 : Store} {e p : Ptr} (hk : KeepsExcept st st2 e)
    (hc : isCons st p = true) (hne : p ≠ e) :
    st2.read p = st.read p ∧ isCons st2 p = true ∧ car st2 p = car st p ∧
      cdr st2 p = cdr st p := by
  have hr := hk.2.1 p (isCons_le_size st p hc) hne
  refine ⟨hr, ?_, ?_, ?_⟩
  · simpa [Lisp.isCons, hr] using hc
  · simp [car, hr]
  · simp [cdr, hr]

theorem IsList.keeps {st st2 : Store} {e : Ptr} (hk : KeepsExcept st st2 e) :
    ∀ (xs : List Ptr) (p : Ptr), IsList st p xs → e ∉ spine st p xs.length →
      IsList st2 p xs ∧ spine st2 p xs.length = spine st p xs.length := by
  intro xs
  induction xs with
  | nil => intro p hp _; exact ⟨hp, rfl⟩
  | cons x xs ih =>
    intro p hp hsp
    rw [IsList.cons_iff] at hp
    obtain ⟨hc, hx, hxs, htl⟩ := hp
    simp only [List.length_cons, spine, List.mem_cons, not_or] at hsp
    obtain ⟨_, hc2, hcar, hcdr⟩ := hk.isCons_of_ne hc (fun h => hsp.1 h.symm)
    have ih2 := ih (cdr st p) htl hsp.2
    rw [IsList.cons_iff, hcar, hcdr]
    refine ⟨⟨hc2, hx, Nat.le_trans hxs hk.1, ih2.1⟩, ?_⟩
    simp only [List.length_cons, spine, hcdr, ih2.2]

theorem IsList.keeps_all {st st2 : Store} (hk : Keeps st st2) (xs : List Ptr) (p : Ptr)
    (hp : IsList st p xs) : IsList st2 p xs := by
  have hk2 : KeepsExcept st st2 (st.size + 1) := hk.except _
  refine (IsList.keeps hk2 xs p hp ?_).1
  clear hk2
  induction xs generalizing p with
  | nil => simp [spine]
  | cons x xs ih =>
    rw [IsList.cons_iff] at hp
    simp only [List.length_cons, spine, List.mem_cons, not_or]
    refine ⟨?_, ih _ hp.2.2.2⟩
    intro h
    have hle := isCons_le_size st p hp.1
    rw [← h] at hle
    exact Nat.not_succ_le_self _ hle

theorem env_parts_keeps {st st2 : Store} {e env : Ptr} (hk : KeepsExcept st st2 e)
    (hc : isCons st env = true) (hf : isCons st (car st env) = true) (h1 : env ≠ e)
    (h2 : car st env ≠ e) :
    isCons st2 env = true ∧ car st2 env = car st env ∧
      env_symbols st2 env = env_symbols st env ∧ env_values st2 env = env_values st env ∧
      env_parent st2 env = env_parent st env := by
  obtain ⟨_, hc2, hcar, hcdr⟩ := hk.isCons_of_ne hc h1
  obtain ⟨_, _, hfcar, hfcdr⟩ := hk.isCons_of_ne hf h2
  have hn := isCons_not_nil st env hc
  have hn2 := isCons_not_nil st2 env hc2
  refine ⟨hc2, hcar, ?_, ?_, ?_⟩
  · simp [env_symbols, hn, hn2, hcar, hfcar]
  · simp [env_values, hn, hn2, hcar, hfcdr]
  · simp [env_parent, hn, hn2, hcdr]

theorem IsEnv.keeps_env {st st2 : Store} {e : Ptr} (hk : KeepsExcept st st2 e) :
    ∀ (frames : List (List Ptr × List Ptr)) (env : Ptr), IsEnv st env frames →
      e ∉ envCells st env frames →
      IsEnv st2 env frames ∧ envCells st2 env frames = envCells st env frames := by
  intro frames
  induction frames with
  | nil => intro env h _; exact ⟨h, rfl⟩
  | cons f rest ih =>
    intro env henv hcells
    simp only [IsEnv] at henv
    obtain ⟨hc, hf, hsyms, hvals, hpar⟩ := henv
    simp only [envCells, List.mem_cons, List.mem_append, not_or] at hcells
    obtain ⟨h1, h2, ⟨h3, h4⟩, h5⟩ := hcells
    obtain ⟨hc2, hcar, hes, hev, hep⟩ :=
      env_parts_keeps hk hc hf (fun h => h1 h.symm) (fun h => h2 h.symm)
    have hf2 : isCons st2 (car st2 env) = true := by
      rw [hcar]; exact (hk.isCons_of_ne hf (fun h => h2 h.symm)).2.1
    have l1 := IsList.keeps hk f.1 _ hsyms h3
    have l2 := IsList.keeps hk f.2 _ hvals h4
    have l3 := ih _ hpar h5
    refine ⟨?_, ?_⟩
    · simp only [IsEnv]
      rw [hes, hev, hep]
      exact ⟨hc2, hf2, l1.1, l2.1, l3.1⟩
    · simp only [envCells]
      rw [hes, hev, hep, hcar, l1.2, l2.2, l3.2]

theorem envCells_le_size (st : Store) :
    ∀ (frames : List (List Ptr × List Ptr)) (env : Ptr), IsEnv st env frames →
      ∀ c ∈ envCells st env frames, c ≤ st.size := by
  have hsp : ∀ (xs : List Ptr) (p : Ptr), IsList st p xs →
      ∀ c ∈ spine st p xs.length, c ≤ st.size := by
    intro xs
    induction xs with
    | nil => intro p _ c hc; simp [spine] at hc
    | cons x xs ih =>
      intro p hp c hc
      rw [IsList.cons_iff] at hp
      simp only [List.length_cons, spine, List.mem_cons] at hc
      rcases hc with rfl | hc
      · exact isCons_le_size st _ hp.1
      · exact ih _ hp.2.2.2 c hc
  intro frames
  induction frames with
  | nil => intro env _ c hc; simp [envCells] at hc
  | cons f rest ih =>
    intro env henv c hc
    simp only [IsEnv] at henv
    obtain ⟨hce, hf, hsyms, hvals, hpar⟩ := henv
    simp only [envCells, List.mem_cons, List.mem_append] at hc
    rcases hc with rfl | rfl | (hc | hc) | hc
    · exact isCons_le_size st _ hce
    · exact isCons_le_size st _ hf
    · exact hsp _ _ hsyms c hc
    · exact hsp _ _ hvals c hc
    · exact ih _ hpar c hc

/-- An environment is untouched by a change of the heap that keeps every cell. -/
theorem IsEnv.keeps_all_env {st st2 : Store} (hk : Keeps st st2)
    (frames : List (List Ptr × List Ptr)) (env : Ptr) (henv : IsEnv st env frames) :
    IsEnv st2 env frames := by
  refine (IsEnv.keeps_env (hk.except (st.size + 1)) frames env henv ?_).1
  intro hmem
  exact Nat.not_succ_le_self _ (envCells_le_size st frames env henv _ hmem)

theorem IsList.elems_le_size (st : Store) :
    ∀ (xs : List Ptr) (p : Ptr), IsList st p xs → ∀ x ∈ xs, x ≤ st.size := by
  intro xs
  induction xs with
  | nil => intro p _ x hx; simp at hx
  | cons y ys ih =>
    intro p hp x hx
    rw [IsList.cons_iff] at hp
    simp only [List.mem_cons] at hx
    rcases hx with rfl | hx
    · exact hp.2.2.1
    · exact ih _ hp.2.2.2 x hx

theorem allSymbols_le_size (st : Store) :
    ∀ (frames : List (List Ptr × List Ptr)) (env : Ptr), IsEnv st env frames →
      ∀ x ∈ allSymbols frames, x ≤ st.size := by
  have hl := IsList.elems_le_size st
  intro frames
  induction frames with
  | nil => intro env _ x hx; simp [allSymbols] at hx
  | cons f rest ih =>
    intro env henv x hx
    simp only [IsEnv] at henv
    simp only [allSymbols, List.mem_append] at hx
    rcases hx with hx | hx
    · exact hl _ _ henv.2.2.1 x hx
    · exact ih _ henv.2.2.2.2 x hx

theorem scanLists_congr (st st2 : Store) (text : String) :
    ∀ (xs ys : List Ptr), (∀ x ∈ xs, hasText st2 text x = hasText st text x) →
      scanLists st2 text xs ys = scanLists st text xs ys := by
  intro xs
  induction xs with
  | nil => intro ys _; rfl
  | cons x xs ih =>
    intro ys h
    simp only [scanLists, h x (List.mem_cons_self _ _)]
    rw [ih ys.tail (fun y hy => h y (List.mem_cons_of_mem _ hy))]

theorem envScan_congr (st st2 : Store) (text : String) :
    ∀ (frames : List (List Ptr × List Ptr)),
      (∀ x ∈ allSymbols frames, hasText st2 text x = hasText st text x) →
      envScan st2 text frames = envScan st text frames := by
  intro frames
  induction frames with
  | nil => intro _; rfl
  | cons f rest ih =>
    intro h
    simp only [allSymbols, List.mem_append] at h
    simp only [envScan]
    rw [scanLists_congr st st2 text f.1 f.2 (fun x hx => h x (Or.inl hx)),
      ih (fun x hx => h x (Or.inr hx))]

/-- On an environment, a lookup gives the same outcome after a change of the heap that
keeps every cell: the same value if the symbol is bound, a fresh `UNDEFINED` if not. -/
theorem env_lookup_keeps {st st2 : Store} (hk : Keeps st st2) (env s : Ptr) (text : String)
    (frames : List (List Ptr × List Ptr)) (henv : IsEnv st env frames)
    (hs : st.read s = Cell.symbol text) (fuel : Nat) (hfuel : lookupFuel frames ≤ fuel) :
    env_lookup fuel st env s = lookupResult st (envScan st text frames) ∧
      env_lookup fuel st2 env s = lookupResult st2 (envScan st text frames) := by
  have hsz : s ≤ st.size := by
    by_contra hlt
    rw [Store.read_of_gt st s (Nat.lt_of_not_le hlt)] at hs
    cases hs
  have hs2 : st2.read s = Cell.symbol text := by rw [hk.2 s hsz, hs]
  refine ⟨env_lookup_scan st text s hs frames env fuel henv hfuel, ?_⟩
  rw [env_lookup_scan st2 text s hs2 frames env fuel (IsEnv.keeps_all_env hk frames env henv) hfuel,
    envScan_congr st st2 text frames]
  intro x hx
  simp only [hasText, hk.2 x (allSymbols_le_size st frames env henv x hx)]

/-! ## Binding -/

theorem fresh_ne {n p : Nat} (k : Nat) (h : p ≤ n) : n + (k + 1) ≠ p := by omega

/-- Three allocations in a row. -/
theorem alloc3 (st : Store) (c1 c2 c3 : Cell) :
    (((st.alloc c1).2.alloc c2).2.alloc c3).2.size = st.size + 3 ∧
      (((st.alloc c1).2.alloc c2).2.alloc c3).2.read (st.size + 1) = c1 ∧
      (((st.alloc c1).2.alloc c2).2.alloc c3).2.read (st.size + 2) = c2 ∧
      (((st.alloc c1).2.alloc c2).2.alloc c3).2.read (st.size + 3) = c3 ∧
      ∀ q : Nat, q ≤ st.size → (((st.alloc c1).2.alloc c2).2.alloc c3).2.read q = st.read q := by
  have hA : (st.alloc c1).2.size = st.size + 1 := Store.size_alloc _ _
  have hB : ((st.alloc c1).2.alloc c2).2.size = st.size + 2 := by
    rw [Store.size_alloc, hA]
  have o3 : ∀ q : Nat, q ≤ st.size + 2 →
      (((st.alloc c1).2.alloc c2).2.alloc c3).2.read q = ((st.alloc c1).2.alloc c2).2.read q :=
    fun q hq => Store.read_alloc_old _ c3 q (by rw [hB]; exact hq)
  have o2 : ∀ q : Nat, q ≤ st.size + 1 →
      ((st.alloc c1).2.alloc c2).2.read q = (st.alloc c1).2.read q :=
    fun q hq => Store.read_alloc_old _ c2 q (by rw [hA]; exact hq)
  have o1 : ∀ q : Nat, q ≤ st.size → (st.alloc c1).2.read q = st.read q :=
    fun q hq => Store.read_alloc_old _ c1 q hq
  refine ⟨by rw [Store.size_alloc, hB], ?_, ?_, ?_, ?_⟩
  · rw [o3 _ (Nat.le_succ _), o2 _ (Nat.le_refl _)]
    exact Store.read_alloc_new st c1
  · rw [o3 _ (Nat.le_refl _)]
    have := Store.read_alloc_new (st.alloc c1).2 c2
    rwa [hA] at this
  · have := Store.read_alloc_new ((st.alloc c1).2.alloc c2).2 c3
    rwa [hB] at this
  · intro q hq
    rw [o3 q (Nat.le_add_right_of_le hq), o2 q (Nat.le_add_right_of_le hq), o1 q hq]

theorem bindStore_eq (st : Store) (env s v : Ptr) :
    bindStore st env s v =
      (((st.alloc (Cell.cons s (env_symbols st env))).2.alloc
          (Cell.cons v (env_values st env))).2.alloc
            (Cell.cons (st.size + 1) (st.size + 2))).2.write env
        (Cell.cons (st.size + 3) (cdr st env)) := by
  have hA : (st.alloc (Cell.cons s (env_symbols st env))).2.size = st.size + 1 :=
    Store.size_alloc _ _
  have hB : ((st.alloc (Cell.cons s (env_symbols st env))).2.alloc
      (Cell.cons v (env_values st env))).2.size = st.size + 2 := by
    rw [Store.size_alloc, hA]
  simp only [bindStore, cons, Store.alloc_fst, hA, hB]

/-- The cells of the heap that `env_set` leaves on a pair `env`. -/
theorem bindStore_read (st : Store) (env s v : Ptr) (hc : isCons st env = true) :
    (bindStore st env s v).size = st.size + 3 ∧
      (bindStore st env s v).read (st.size + 1) = Cell.cons s (env_symbols st env) ∧
      (bindStore st env s v).read (st.size + 2) = Cell.cons v (env_values st env) ∧
      (bindStore st env s v).read (st.size + 3) = Cell.cons (st.size + 1) (st.size + 2) ∧
      (bindStore st env s v).read env = Cell.cons (st.size + 3) (cdr st env) ∧
      ∀ q, q ≤ st.size → q ≠ env → (bindStore st env s v).read q = st.read q := by
  have hle := isCons_le_size st env hc
  have hpos := isCons_pos st env hc
  obtain ⟨h3, r1, r2, r3, hold⟩ := alloc3 st (Cell.cons s (env_symbols st env))
    (Cell.cons v (env_values st env)) (Cell.cons (st.size + 1) (st.size + 2))
  rw [bindStore_eq]
  refine ⟨?_, ?_, ?_, ?_, ?_, ?_⟩
  · rw [Store.size_write, h3]
  · rw [Store.read_write_ne _ _ _ _ (fresh_ne 0 hle), r1]
  · rw [Store.read_write_ne _ _ _ _ (fresh_ne 1 hle), r2]
  · rw [Store.read_write_ne _ _ _ _ (fresh_ne 2 hle), r3]
  · exact Store.read_write_same _ _ _ hpos (by rw [h3]; exact Nat.le_add_right_of_le hle)
  · intro q hq hne
    rw [Store.read_write_ne _ _ _ _ hne, hold q hq]

/-- On a pair, `env_set` returns the value it was given and leaves `bindStore`. -/
theorem env_set_of_cons (st : Store) (env s v : Ptr) (hc : isCons st env = true) :
    env_set st env s v = Res.ok v (bindStore st env s v) := by
  have hle := isCons_le_size st env hc
  obtain ⟨_, _, _, _, hold⟩ := alloc3 st (Cell.cons s (env_symbols st env))
    (Cell.cons v (env_values st env))
    (Cell.cons (st.alloc (Cell.cons s (env_symbols st env))).1
      ((st.alloc (Cell.cons s (env_symbols st env))).2.alloc
        (Cell.cons v (env_values st env))).1)
  have hr := hold env hle
  rw [(isCons_iff st env).mp hc] at hr
  simp only [env_set, bindStore, cons, hr]

theorem bindStore_keeps (st : Store) (env s v : Ptr) (hc : isCons st env = true) :
    KeepsExcept st (bindStore st env s v) env := by
  obtain ⟨hsz, _, _, _, re, hold⟩ := bindStore_read st env s v hc
  exact ⟨by rw [hsz]; exact Nat.le_add_right _ _, hold, fun _ => by simp [isCons, re]⟩

/-- The parts of `env` after `env_set`. -/
theorem bindStore_env (st : Store) (env s v : Ptr) (hc : isCons st env = true) :
    isCons (bindStore st env s v) env = true ∧
      car (bindStore st env s v) env = st.size + 3 ∧
      env_symbols (bindStore st env s v) env = st.size + 1 ∧
      env_values (bindStore st env s v) env = st.size + 2 ∧
      env_parent (bindStore st env s v) env = env_parent st env := by
  obtain ⟨_, r1, r2, r3, re, _⟩ := bindStore_read st env s v hc
  have hc2 : isCons (bindStore st env s v) env = true := by simp [isCons, re]
  have hn := isCons_not_nil st env hc
  have hn2 := isCons_not_nil _ env hc2
  refine ⟨hc2, ?_, ?_, ?_, ?_⟩
  · simp [car, re]
  · simp [env_symbols, hn2, car, re, r3]
  · simp [env_values, hn2, car, cdr, re, r3]
  · simp [env_parent, hn, hn2, cdr, re]

/-! ## Dispatch of `eval` -/

theorem classify_symbol (st : Store) (p : Ptr) (t : String) (h : st.read p = Cell.symbol t) :
    classify st p = Form.symbol := by
  have hn : isNil st p = false := by rw [isNil_eq_false_iff, h]; simp
  simp [classify, hn, isNumber, isString, isSymbol, h]

theorem classify_pair (st : Store) (p hd tl : Ptr) (h : st.read p = Cell.cons hd tl) :
    isNil st p = false ∧ isNumber st p = false ∧ isString st p = false ∧
      isSymbol st p = false ∧ isList st p = true ∧ car st p = hd ∧ cdr st p = tl := by
  have hn : isNil st p = false := by rw [isNil_eq_false_iff, h]; simp
  simp [hn, isNumber, isString, isSymbol, isList, isCons, car, cdr, h]

theorem classify_set (st : Store) (p hd tl : Ptr) (h : st.read p = Cell.cons hd tl)
    (hk : st.read hd = Cell.symbol "set") : classify st p = Form.set := by
  obtain ⟨h1, h2, h3, h4, h5, h6, _⟩ := classify_pair st p hd tl h
  have hsym : isSymbol st hd = true := by simp [isSymbol, hk]
  have htxt : symbolText st hd = "set" := by simp [symbolText, hk]
  simp [classify, h1, h2, h3, h4, h5, h6, hsym, htxt]

theorem classify_define (st : Store) (p hd tl : Ptr) (h : st.read p = Cell.cons hd tl)
    (hk : st.read hd = Cell.symbol "define") : classify st p = Form.define := by
  obtain ⟨h1, h2, h3, h4, h5, h6, _⟩ := classify_pair st p hd tl h
  have hsym : isSymbol st hd = true := by simp [isSymbol, hk]
  have htxt : symbolText st hd = "define" := by simp [symbolText, hk]
  simp [classify, h1, h2, h3, h4, h5, h6, hsym, htxt]

theorem classify_lambda (st : Store) (p hd tl : Ptr) (h : st.read p = Cell.cons hd tl)
    (hk : st.read hd = Cell.symbol "lambda") : classify st p = Form.lambda := by
  obtain ⟨h1, h2, h3, h4, h5, h6, _⟩ := classify_pair st p hd tl h
  have hsym : isSymbol st hd = true := by simp [isSymbol, hk]
  have htxt : symbolText st hd = "lambda" := by simp [symbolText, hk]
  simp [classify, h1, h2, h3, h4, h5, h6, hsym, htxt]

/-- A list whose head is a symbol other than the eight keywords is a call. -/
theorem classify_call_symbol (st : Store) (p hd tl : Ptr) (name : String)
    (h : st.read p = Cell.cons hd tl) (hk : st.read hd = Cell.symbol name)
    (hname : name ∉ keywords) : classify st p = Form.call := by
  obtain ⟨h1, h2, h3, h4, h5, h6, _⟩ := classify_pair st p hd tl h
  simp only [keywords, List.mem_cons, List.mem_singleton, List.not_mem_nil, or_false,
    not_or] at hname
  obtain ⟨k1, k2, k3, k4, k5, k6, k7, k8⟩ := hname
  have hsym : isSymbol st hd = true := by simp [isSymbol, hk]
  have htxt : symbolText st hd = name := by simp [symbolText, hk]
  simp [classify, h1, h2, h3, h4, h5, h6, hsym, htxt, k1, k2, k3, k4, k5, k6, k7, k8]

/-- A list whose head is not a symbol is a call. -/
theorem classify_call_other (st : Store) (p hd tl : Ptr) (h : st.read p = Cell.cons hd tl)
    (hk : isSymbol st hd = false) : classify st p = Form.call := by
  obtain ⟨h1, h2, h3, h4, h5, h6, _⟩ := classify_pair st p hd tl h
  simp [classify, h1, h2, h3, h4, h5, h6, hk]

theorem eval_symbol (n : Nat) (ord : ArgOrder) (st : Store) (p env : Ptr) (t : String)
    (h : st.read p = Cell.symbol t) :
    eval (n + 1) ord st p env = env_lookup n st env p := by
  rw [eval_succ, classify_symbol st p t h]

/-- A lookup that matches the first entry of the innermost frame returns its value. -/
theorem env_lookup_first (n : Nat) (st : Store) (env s x rest : Ptr) (text : String)
    (hc : isCons st env = true) (hl : st.read (env_symbols st env) = Cell.cons x rest)
    (hx : st.read x = Cell.symbol text) (hs : st.read s = Cell.symbol text) :
    env_lookup (n + 2) st env s = Res.ok (car st (env_values st env)) st := by
  have hn := isCons_not_nil st env hc
  have hn2 : isNil st (env_symbols st env) = false := by
    rw [isNil_eq_false_iff, hl]; simp
  have hcar : car st (env_symbols st env) = x := by simp [car, hl]
  have ht : hasText st text x = true := by simp [hasText, hx]
  rw [env_lookup, hn]
  simp only [Bool.false_eq_true, if_false]
  rw [env_lookup_frame, hn2, hcar, lookup_test_eq st text x s hs, ht]
  simp

/-! ## Shadowing -/

/-- C5: on a non-Nil environment (a pair), two calls of `env_set` for the same Symbol each
return the value just bound; afterwards `env_lookup` returns the second value; the symbol
list of the innermost frame begins with the two new entries for `s` and continues with the
old list, the value list begins with `v2`, `v1` and continues with the old list, so each is
exactly two entries longer and the earlier binding is still there.  Likewise `(set s e)`
returns the value of `e`, and evaluating `s` afterwards returns that value. -/
theorem env_set_shadowing (st : Store) (env s v1 v2 : Ptr) (text : String)
    (hc : isCons st env = true) (hs : st.read s = Cell.symbol text) :
    env_set st env s v1 = Res.ok v1 (bindStore st env s v1) ∧
    env_set (bindStore st env s v1) env s v2
      = Res.ok v2 (bindStore (bindStore st env s v1) env s v2) ∧
    (∀ fuel, 2 ≤ fuel →
      env_lookup fuel (bindStore (bindStore st env s v1) env s v2) env s
        = Res.ok v2 (bindStore (bindStore st env s v1) env s v2)) ∧
    (∀ xs ys, IsList st (env_symbols st env) xs → IsList st (env_values st env) ys →
      env ∉ spine st (env_symbols st env) xs.length →
      env ∉ spine st (env_values st env) ys.length → v1 ≤ st.size → v2 ≤ st.size →
      IsList (bindStore (bindStore st env s v1) env s v2)
          (env_symbols (bindStore (bindStore st env s v1) env s v2) env) (s :: s :: xs) ∧
        IsList (bindStore (bindStore st env s v1) env s v2)
          (env_values (bindStore (bindStore st env s v1) env s v2) env) (v2 :: v1 :: ys)) ∧
    (∀ fuel ord sexp hd tl v st1, st.read sexp = Cell.cons hd tl →
      st.read hd = Cell.symbol "set" → cadr st sexp = s →
      eval fuel ord st (caddr st sexp) env = Res.ok v st1 →
      eval (fuel + 1) ord st sexp env = Res.ok v (bindStore st1 env s v) ∧
        ∀ fuel2, 3 ≤ fuel2 →
          eval fuel2 ord (bindStore st1 env s v) s env = Res.ok v (bindStore st1 env s v)) := by
  have hsz : s ≤ st.size := by
    by_contra hlt
    rw [Store.read_of_gt st s (Nat.lt_of_not_le hlt)] at hs
    cases hs
  have hne : s ≠ env := by
    intro h
    rw [h, (isCons_iff st env).mp hc] at hs
    cases hs
  -- lookup right after a binding, for any heap in which `env` is a pair and `s` a symbol
  have hlook : ∀ (st0 : Store) (v : Ptr), isCons st0 env = true →
      st0.read s = Cell.symbol text → s ≤ st0.size → ∀ n,
      env_lookup (n + 2) (bindStore st0 env s v) env s = Res.ok v (bindStore st0 env s v) := by
    intro st0 v hc0 hs0 hsz0 n
    obtain ⟨_, r1, r2, _, _, hold⟩ := bindStore_read st0 env s v hc0
    obtain ⟨hc1, _, hes, hev, _⟩ := bindStore_env st0 env s v hc0
    have hs1 : (bindStore st0 env s v).read s = Cell.symbol text := by
      rw [hold s hsz0 hne, hs0]
    have := env_lookup_first n (bindStore st0 env s v) env s s (env_symbols st0 env) text hc1
      (by rw [hes, r1]) hs1 hs1
    rw [this, hev, car, r2]
  have k1 := bindStore_keeps st env s v1 hc
  have hc1 : isCons (bindStore st env s v1) env = true := k1.2.2 hc
  have hs1 : (bindStore st env s v1).read s = Cell.symbol text := by
    rw [k1.2.1 s hsz hne, hs]
  have k2 := bindStore_keeps (bindStore st env s v1) env s v2 hc1
  refine ⟨env_set_of_cons st env s v1 hc, env_set_of_cons _ env s v2 hc1, ?_, ?_, ?_⟩
  · intro fuel hfuel
    obtain ⟨n, rfl⟩ : ∃ n, fuel = n + 2 := ⟨fuel - 2, by omega⟩
    exact hlook _ v2 hc1 hs1 (Nat.le_trans hsz k1.1) n
  · intro xs ys hxs hys hsx hsy hv1 hv2
    obtain ⟨z1, a1, a2, _, _, _⟩ := bindStore_read st env s v1 hc
    obtain ⟨_, _, e1s, e1v, _⟩ := bindStore_env st env s v1 hc
    obtain ⟨z2, b1, b2, _, _, _⟩ := bindStore_read (bindStore st env s v1) env s v2 hc1
    obtain ⟨_, _, e2s, e2v, _⟩ := bindStore_env (bindStore st env s v1) env s v2 hc1
    have k12 := k1.trans_except k2
    have hle := isCons_le_size st env hc
    have oldS := (IsList.keeps k12 xs _ hxs hsx).1
    have oldV := (IsList.keeps k12 ys _ hys hsy).1
    have m1 : (bindStore (bindStore st env s v1) env s v2).read (st.size + 1)
        = Cell.cons s (env_symbols st env) := by
      rw [k2.2.1 (st.size + 1) (by rw [z1]; omega) (fresh_ne 0 hle), a1]
    have m2 : (bindStore (bindStore st env s v1) env s v2).read (st.size + 2)
        = Cell.cons v1 (env_values st env) := by
      rw [k2.2.1 (st.size + 2) (by rw [z1]; omega) (fresh_ne 1 hle), a2]
    rw [e2s, e2v, z1]
    rw [e1s] at b1
    rw [e1v] at b2
    rw [z1] at b1 b2
    have big : ∀ q : Nat, q ≤ st.size → q ≤ (bindStore (bindStore st env s v1) env s v2).size :=
      fun q hq => by rw [z2, z1]; omega
    refine ⟨?_, ?_⟩
    · rw [IsList.cons_iff, IsList.cons_iff]
      simp only [isCons, car, cdr, b1, m1]
      exact ⟨trivial, trivial, big s hsz, trivial, trivial, big s hsz, oldS⟩
    · rw [IsList.cons_iff, IsList.cons_iff]
      simp only [isCons, car, cdr, b2, m2]
      exact ⟨trivial, trivial, big v2 hv2, trivial, trivial, big v1 hv1, oldV⟩
  · intro fuel ord sexp hd tl v st1 hsexp hhd hcadr heval
    have ke := eval_keeps heval
    have hce : isCons st1 env = true := ke.2.2 hc
    have hse : st1.read s = Cell.symbol text := by rw [ke.2.1 s hsz hne, hs]
    refine ⟨?_, ?_⟩
    · rw [eval_succ, classify_set st sexp hd tl hsexp hhd]
      simp only [heval, Res.bind, hcadr]
      exact env_set_of_cons st1 env s v hce
    · intro fuel2 hfuel2
      obtain ⟨n, rfl⟩ : ∃ n, fuel2 = n + 3 := ⟨fuel2 - 3, by omega⟩
      have kb := bindStore_keeps st1 env s v hce
      have hsb : (bindStore st1 env s v).read s = Cell.symbol text := by
        rw [kb.2.1 s (Nat.le_trans hsz ke.1) hne, hse]
      rw [eval_symbol (n + 2) ord _ s env text hsb]
      exact hlook st1 v hce hse (Nat.le_trans hsz ke.1) n

/-- C5, on the inner environment of `sampleEnvHeap`: `x` is bound to cell 4 and then to
cell 6; the lookup gives cell 6 and the frame lists are `(x x x)` and `(6 4 2)`; and
`(set x 5)` evaluated in that environment returns the number `5`, cell 19. -/
theorem env_set_shadowing_witness :
    env_lookup 5 (bindStore (bindStore sampleEnvHeap 16 1 4) 16 1 6) 16 1
        = Res.ok 6 (bindStore (bindStore sampleEnvHeap 16 1 4) 16 1 6) ∧
      IsList (bindStore (bindStore sampleEnvHeap 16 1 4) 16 1 6)
        (env_symbols (bindStore (bindStore sampleEnvHeap 16 1 4) 16 1 6) 16) [1, 1, 1] ∧
      IsList (bindStore (bindStore sampleEnvHeap 16 1 4) 16 1 6)
        (env_values (bindStore (bindStore sampleEnvHeap 16 1 4) 16 1 6) 16) [6, 4, 2] ∧
      eval 2 ArgOrder.leftFirst sampleSetHeap 22 16
        = Res.ok 19 (bindStore sampleSetHeap 16 18 19) :=
  ⟨(env_set_shadowing sampleEnvHeap 16 1 4 6 "x" (by decide) rfl).2.2.1 5 (by decide),
   ((env_set_shadowing sampleEnvHeap 16 1 4 6 "x" (by decide) rfl).2.2.2.1 [1] [2]
      (by decide) (by decide) (by decide) (by decide) (by decide) (by decide)).1,
   ((env_set_shadowing sampleEnvHeap 16 1 4 6 "x" (by decide) rfl).2.2.2.1 [1] [2]
      (by decide) (by decide) (by decide) (by decide) (by decide) (by decide)).2,
   ((env_set_shadowing sampleSetHeap 16 18 4 6 "x" (by decide) rfl).2.2.2.2 1
      ArgOrder.leftFirst 22 17 21 19 sampleSetHeap rfl rfl rfl (by decide!)).1⟩

/-! ## Locality of binding -/

/-- The two cells of a new environment. -/
theorem make_env_read (st : Store) (symbols values parent : Ptr) :
    (make_env st symbols values parent).1 = st.size + 2 ∧
      (make_env st symbols values parent).2.read (st.size + 1) = Cell.cons symbols values ∧
      (make_env st symbols values parent).2.read (make_env st symbols values parent).1
        = Cell.cons (st.size + 1) parent := by
  have hA : (st.alloc (Cell.cons symbols values)).2.size = st.size + 1 := Store.size_alloc _ _
  have h1 : (make_env st symbols values parent).1 = st.size + 2 := by
    simp only [make_env, cons, Store.alloc_fst, hA]
  refine ⟨h1, ?_, ?_⟩
  · simp only [make_env, cons]
    rw [Store.read_alloc_old _ _ _ (by rw [hA])]
    exact Store.read_alloc_new st _
  · rw [h1]
    simp only [make_env, cons, Store.alloc_fst]
    have := Store.read_alloc_new (st.alloc (Cell.cons symbols values)).2
      (Cell.cons (st.size + 1) parent)
    rwa [hA] at this

theorem symbol_le_size (st : Store) (s : Ptr) (text : String)
    (hs : st.read s = Cell.symbol text) : s ≤ st.size := by
  by_contra hlt
  rw [Store.read_of_gt st s (Nat.lt_of_not_le hlt)] at hs
  cases hs

/-- The environment after `env_set`: the innermost frame has one more entry in front, the
ancestors are as they were. -/
theorem bindStore_isEnv (st : Store) (env s v : Ptr) (stext : String)
    (f : List Ptr × List Ptr) (rest : List (List Ptr × List Ptr))
    (henv : IsEnv st env (f :: rest)) (hsep : env ∉ envInner st env (f :: rest))
    (hs : st.read s = Cell.symbol stext) (hv : v ≤ st.size) :
    IsEnv (bindStore st env s v) env ((s :: f.1, v :: f.2) :: rest) ∧
      IsEnv (bindStore st env s v) (env_parent st env) rest := by
  simp only [IsEnv] at henv
  obtain ⟨hc, _, hsyms, hvals, hpar⟩ := henv
  simp only [envInner, List.mem_append, not_or] at hsep
  obtain ⟨⟨hs1, hs2⟩, hs3⟩ := hsep
  have k := bindStore_keeps st env s v hc
  obtain ⟨z, r1, r2, r3, _, _⟩ := bindStore_read st env s v hc
  obtain ⟨hc2, hcar, hes, hev, hep⟩ := bindStore_env st env s v hc
  have hpar2 := (IsEnv.keeps_env k rest _ hpar hs3).1
  refine ⟨?_, hpar2⟩
  simp only [IsEnv]
  rw [hes, hev, hep, hcar]
  refine ⟨hc2, by simp [isCons, r3], ?_, ?_, hpar2⟩
  · rw [IsList.cons_iff]
    simp only [isCons, car, cdr, r1]
    exact ⟨trivial, trivial, Nat.le_trans (symbol_le_size st s stext hs) k.1,
      (IsList.keeps k f.1 _ hsyms hs1).1⟩
  · rw [IsList.cons_iff]
    simp only [isCons, car, cdr, r2]
    exact ⟨trivial, trivial, Nat.le_trans hv k.1, (IsList.keeps k f.2 _ hvals hs2).1⟩

/-- C7: `env_set` on a non-Nil environment changes only the pair of that environment: every
other cell that existed keeps its content (so the parameter list and the argument list a
frame was built from are not modified, and neither is any ancestor), the parent is the same
and is the same environment as before, and a lookup of a Symbol with another text than `s`
gives the same outcome as before.  Consequently a call of a closure changes no cell that
existed before the call, a `set` in its body binds in the fresh frame of the call, and after
the call every lookup in any environment that existed before (the caller's, the global one)
gives the same outcome as before. -/
theorem env_set_local (st : Store) (env s v : Ptr) (stext : String)
    (f : List Ptr × List Ptr) (rest : List (List Ptr × List Ptr))
    (henv : IsEnv st env (f :: rest)) (hsep : env ∉ envInner st env (f :: rest))
    (hs : st.read s = Cell.symbol stext) (hv : v ≤ st.size) :
    env_set st env s v = Res.ok v (bindStore st env s v) ∧
    (∀ q, q ≤ st.size → q ≠ env → (bindStore st env s v).read q = st.read q) ∧
    env_parent (bindStore st env s v) env = env_parent st env ∧
    IsEnv (bindStore st env s v) (env_parent st env) rest ∧
    (∀ p xs, IsList st p xs → env ∉ spine st p xs.length →
      IsList (bindStore st env s v) p xs) ∧
    (∀ t ttext fuel, st.read t = Cell.symbol ttext → ttext ≠ stext →
      lookupFuel (f :: rest) + 1 ≤ fuel →
      ∃ m, env_lookup fuel st env t = lookupResult st m ∧
        env_lookup fuel (bindStore st env s v) env t
          = lookupResult (bindStore st env s v) m) ∧
    (∀ fuel ord c params body cenv args caller r st3,
      st.read c = Cell.lambda params body cenv →
      apply fuel ord st c args caller = Res.ok r st3 →
      Keeps st st3 ∧
        (∀ hd tl val st2, (make_env st params args cenv).2.read body = Cell.cons hd tl →
          (make_env st params args cenv).2.read hd = Cell.symbol "set" →
          eval (fuel - 2) ord (make_env st params args cenv).2
              (caddr (make_env st params args cenv).2 body)
              (make_env st params args cenv).1 = Res.ok val st2 →
          2 ≤ fuel →
          r = val ∧
            st3 = bindStore st2 (make_env st params args cenv).1
              (cadr (make_env st params args cenv).2 body) val ∧
            st.size < (make_env st params args cenv).1) ∧
        ∀ E frames t ttext fuel2, IsEnv st E frames → st.read t = Cell.symbol ttext →
          lookupFuel frames ≤ fuel2 →
          ∃ m, env_lookup fuel2 st E t = lookupResult st m ∧
            env_lookup fuel2 st3 E t = lookupResult st3 m) := by
  have henv0 := henv
  simp only [IsEnv] at henv
  obtain ⟨hc, _, hsyms, hvals, hpar⟩ := henv
  have k := bindStore_keeps st env s v hc
  obtain ⟨_, _, _, _, hep⟩ := bindStore_env st env s v hc
  obtain ⟨henv2, hpar2⟩ := bindStore_isEnv st env s v stext f rest henv0 hsep hs hv
  refine ⟨env_set_of_cons st env s v hc, k.2.1, hep, hpar2,
    fun p xs hp hsp => (IsList.keeps k xs p hp hsp).1, ?_, ?_⟩
  · intro t ttext fuel ht hne hfuel
    have htsz := symbol_le_size st t ttext ht
    have htne : t ≠ env := by
      intro h
      rw [h, (isCons_iff st env).mp hc] at ht
      cases ht
    have hsne : s ≠ env := by
      intro h
      rw [h, (isCons_iff st env).mp hc] at hs
      cases hs
    have ht2 : (bindStore st env s v).read t = Cell.symbol ttext := by
      rw [k.2.1 t htsz htne, ht]
    refine ⟨envScan st ttext (f :: rest), ?_, ?_⟩
    · exact env_lookup_scan st ttext t ht (f :: rest) env fuel henv0
        (Nat.le_trans (Nat.le_succ _) hfuel)
    · have hf2 : lookupFuel ((s :: f.1, v :: f.2) :: rest) ≤ fuel := by
        simp only [lookupFuel, allSymbols, List.length_append, List.length_cons] at hfuel ⊢
        omega
      rw [env_lookup_scan _ ttext t ht2 _ env fuel henv2 hf2]
      have hsx : hasText (bindStore st env s v) ttext s = false := by
        simp only [hasText, k.2.1 s (symbol_le_size st s stext hs) hsne, hs]
        simp [Ne.symm hne]
      have hcong : envScan (bindStore st env s v) ttext (f :: rest)
          = envScan st ttext (f :: rest) := by
        apply envScan_congr
        intro x hx
        have hxs := allSymbols_le_size st (f :: rest) env henv0 x hx
        by_cases hxe : x = env
        · subst hxe
          have c1 := (isCons_iff st x).mp hc
          have c2 := (isCons_iff _ x).mp (k.2.2 hc)
          simp [hasText, c1, c2]
        · simp only [hasText, k.2.1 x hxs hxe]
      rw [← hcong]
      simp only [envScan, scanLists, hsx, List.tail_cons]
      simp
  · intro fuel ord c params body cenv args caller r st3 hlam happ
    have hk3 : Keeps st st3 := apply_keeps happ
    refine ⟨hk3, ?_, ?_⟩
    · intro hd tl val st2 hbody hhd heval hfuel
      obtain ⟨n, rfl⟩ : ∃ n, fuel = n + 2 := ⟨fuel - 2, by omega⟩
      obtain ⟨hfst, _, hnew⟩ := make_env_read st params args cenv
      have hfresh : st.size < (make_env st params args cenv).1 := by
        rw [hfst]; omega
      have hcn : isCons (make_env st params args cenv).2 (make_env st params args cenv).1
          = true := by
        simp [isCons, hnew]
      have hc2 : isCons st2 (make_env st params args cenv).1 = true :=
        (eval_keeps heval).2.2 hcn
      rw [apply_succ, hlam] at happ
      simp only [] at happ
      rw [eval_succ, classify_set _ body hd tl hbody hhd] at happ
      simp only [Nat.add_sub_cancel] at heval
      simp only [heval, Res.bind] at happ
      rw [env_set_of_cons _ _ _ _ hc2] at happ
      cases happ
      exact ⟨rfl, rfl, hfresh⟩
    · intro E frames t ttext fuel2 hE ht hfuel2
      exact ⟨_, env_lookup_keeps hk3 E t ttext frames hE ht fuel2 hfuel2⟩

/-- C7, on `sampleClosureHeap`: binding `y` in the inner environment (cell 16) leaves the
root environment (cell 15) as it was; and a call of the closure of cell 23, whose body is
`(set x 5)`, from the root environment returns `5` and keeps every cell of the heap. -/
theorem env_set_local_witness :
    env_set sampleClosureHeap 16 3 4 = Res.ok 4 (bindStore sampleClosureHeap 16 3 4) ∧
      IsEnv (bindStore sampleClosureHeap 16 3 4) (env_parent sampleClosureHeap 16)
        [([3, 5], [4, 6])] ∧
      (∀ r st3, apply 3 ArgOrder.leftFirst sampleClosureHeap 23 0 15 = Res.ok r st3 →
        Keeps sampleClosureHeap st3) ∧
      (apply 3 ArgOrder.leftFirst sampleClosureHeap 23 0 15).cell
        = some (Cell.number (Dbl.fin 5)) :=
  ⟨(env_set_local sampleClosureHeap 16 3 4 "y" ([1], [2]) [([3, 5], [4, 6])] (by decide)
      (by decide) rfl (by decide)).1,
   (env_set_local sampleClosureHeap 16 3 4 "y" ([1], [2]) [([3, 5], [4, 6])] (by decide)
      (by decide) rfl (by decide)).2.2.2.1,
   fun r st3 h =>
    ((env_set_local sampleClosureHeap 16 3 4 "y" ([1], [2]) [([3, 5], [4, 6])] (by decide)
      (by decide) rfl (by decide)).2.2.2.2.2.2 3 ArgOrder.leftFirst 23 0 22 16 0 15 r st3
      rfl h).1,
   by decide!⟩

/-! ## Lexical scoping -/

theorem scanLists_none (st : Store) (text : String) :
    ∀ (xs ys : List Ptr), (∀ x ∈ xs, hasText st text x = false) →
      scanLists st text xs ys = none := by
  intro xs
  induction xs with
  | nil => intro ys _; rfl
  | cons x xs ih =>
    intro ys h
    simp only [scanLists, h x (List.mem_cons_self _ _)]
    exact ih ys.tail (fun y hy => h y (List.mem_cons_of_mem _ hy))

theorem envScan_none (st : Store) (text : String) :
    ∀ (frames : List (List Ptr × List Ptr)),
      (∀ x ∈ allSymbols frames, hasText st text x = false) → envScan st text frames = none := by
  intro frames
  induction frames with
  | nil => intro _; rfl
  | cons f rest ih =>
    intro h
    simp only [allSymbols, List.mem_append] at h
    simp only [envScan, scanLists_none st text f.1 f.2 (fun x hx => h x (Or.inl hx)),
      ih (fun x hx => h x (Or.inr hx))]
    rfl

/-- The environment that `apply` builds for a closure call is an environment whose
innermost frame holds the parameters and the arguments and whose ancestors are the frames
of the captured environment. -/
theorem make_env_isEnv (st : Store) (params args cenv : Ptr) (ps as : List Ptr)
    (frames : List (List Ptr × List Ptr)) (hps : IsList st params ps)
    (has : IsList st args as) (henv : IsEnv st cenv frames) :
    IsEnv (make_env st params args cenv).2 (make_env st params args cenv).1
      ((ps, as) :: frames) := by
  obtain ⟨hfst, hfr, hnew⟩ := make_env_read st params args cenv
  have hk := Keeps.make_env st params args cenv
  have hc : isCons (make_env st params args cenv).2 (make_env st params args cenv).1
      = true := by simp [isCons, hnew]
  have hn := isCons_not_nil _ _ hc
  have hcar : car (make_env st params args cenv).2 (make_env st params args cenv).1
      = st.size + 1 := by simp [car, hnew]
  have hes : env_symbols (make_env st params args cenv).2 (make_env st params args cenv).1
      = params := by
    simp only [env_symbols, hn, Bool.false_eq_true, if_false]
    rw [hcar, car, hfr]
  have hev : env_values (make_env st params args cenv).2 (make_env st params args cenv).1
      = args := by
    simp only [env_values, hn, Bool.false_eq_true, if_false]
    rw [hcar, cdr, hfr]
  have hep : env_parent (make_env st params args cenv).2 (make_env st params args cenv).1
      = cenv := by simp [env_parent, hn, cdr, hnew]
  have hfc : isCons (make_env st params args cenv).2 (st.size + 1) = true := by
    simp [isCons, hfr]
  simp only [IsEnv]
  rw [hes, hev, hep, hcar]
  exact ⟨hc, hfc, IsList.keeps_all hk ps params hps, IsList.keeps_all hk as args has,
    IsEnv.keeps_all_env hk frames cenv henv⟩

/-- C3: the result of applying a closure does not depend on the caller's environment: for
any two environments `e1`, `e2` the two calls are the same computation on the same heap;
the body is evaluated in one new environment, a fresh pair whose frame is the fresh pair
`(params, args)` and whose parent is the captured environment; and a Symbol that neither the
parameters nor the captured chain bind looks up, in that environment, to a fresh `UNDEFINED`
(so a closure whose body is that Symbol returns `UNDEFINED` whatever the caller binds). -/
theorem apply_lexical (st : Store) (c params body cenv args : Ptr)
    (hlam : st.read c = Cell.lambda params body cenv) :
    (∀ fuel ord e1 e2, apply fuel ord st c args e1 = apply fuel ord st c args e2) ∧
    (∀ fuel ord e, apply (fuel + 1) ord st c args e
      = eval fuel ord (make_env st params args cenv).2 body (make_env st params args cenv).1) ∧
    ((make_env st params args cenv).1 = st.size + 2 ∧
      (make_env st params args cenv).2.read (st.size + 2) = Cell.cons (st.size + 1) cenv ∧
      (make_env st params args cenv).2.read (st.size + 1) = Cell.cons params args ∧
      (make_env st params args cenv).2.size = st.size + 2 ∧
      Keeps st (make_env st params args cenv).2) ∧
    (∀ s text ps as frames, st.read s = Cell.symbol text → IsList st params ps →
      IsList st args as → IsEnv st cenv frames →
      (∀ x ∈ ps ++ allSymbols frames, hasText st text x = false) →
      (∀ fuel, lookupFuel ((ps, as) :: frames) ≤ fuel →
        env_lookup fuel (make_env st params args cenv).2 (make_env st params args cenv).1 s
          = Res.ofPair (make_symbol (make_env st params args cenv).2 "UNDEFINED")) ∧
      (st.read body = Cell.symbol text →
        ∀ fuel ord e, lookupFuel ((ps, as) :: frames) + 2 ≤ fuel →
          apply fuel ord st c args e
            = Res.ofPair (make_symbol (make_env st params args cenv).2 "UNDEFINED") ∧
          (apply fuel ord st c args e).cell = some (Cell.symbol "UNDEFINED"))) := by
  obtain ⟨hfst, hfr, hnew⟩ := make_env_read st params args cenv
  have hk := Keeps.make_env st params args cenv
  have happ : ∀ fuel ord e, apply (fuel + 1) ord st c args e
      = eval fuel ord (make_env st params args cenv).2 body
        (make_env st params args cenv).1 := by
    intro fuel ord e
    rw [apply_succ, hlam]
  refine ⟨?_, happ, ⟨hfst, ?_, hfr, ?_, hk⟩, ?_⟩
  · intro fuel ord e1 e2
    cases fuel with
    | zero => rw [apply.eq_1, apply.eq_1]
    | succ n => rw [happ, happ]
  · rw [← hfst]; exact hnew
  · simp only [make_env, cons, Store.size_alloc]
  · intro s text ps as frames hs hps has henv hfree
    have hssz := symbol_le_size st s text hs
    have hs1 : (make_env st params args cenv).2.read s = Cell.symbol text := by
      rw [hk.2 s hssz, hs]
    have hE := make_env_isEnv st params args cenv ps as frames hps has henv
    have hfree1 : ∀ x ∈ allSymbols ((ps, as) :: frames),
        hasText (make_env st params args cenv).2 text x = false := by
      intro x hx
      have hxm : x ∈ ps ++ allSymbols frames := by simpa [allSymbols] using hx
      have hxsz : x ≤ st.size := by
        rcases List.mem_append.mp hxm with h | h
        · exact IsList.elems_le_size st ps params hps x h
        · exact allSymbols_le_size st frames cenv henv x h
      simp only [hasText, hk.2 x hxsz]
      exact hfree x hxm
    have hlook : ∀ fuel, lookupFuel ((ps, as) :: frames) ≤ fuel →
        env_lookup fuel (make_env st params args cenv).2 (make_env st params args cenv).1 s
          = Res.ofPair (make_symbol (make_env st params args cenv).2 "UNDEFINED") := by
      intro fuel hfuel
      rw [env_lookup_scan _ text s hs1 _ _ fuel hE hfuel, envScan_none _ _ _ hfree1]
      rfl
    refine ⟨hlook, ?_⟩
    intro hbody fuel ord e hfuel
    obtain ⟨n, rfl⟩ : ∃ n, fuel = n + 2 := ⟨fuel - 2, by omega⟩
    have hbsz := symbol_le_size st body text hbody
    have hb1 : (make_env st params args cenv).2.read body = Cell.symbol text := by
      rw [hk.2 body hbsz, hbody]
    have hres : apply (n + 2) ord st c args e
        = Res.ofPair (make_symbol (make_env st params args cenv).2 "UNDEFINED") := by
      rw [happ, eval_symbol n ord _ body _ text hb1]
      rw [env_lookup_scan _ text body hb1 _ _ n hE (by omega), envScan_none _ _ _ hfree1]
      rfl
    refine ⟨hres, ?_⟩
    rw [hres, Res.cell_ofPair, make_symbol_read]

/-- C3, on `sampleScopeHeap`: the caller's environment (cell 24) binds `z` to `9`, the
closure of cell 18 has body `z` and captures the root environment, which does not bind `z`;
applied from the caller's environment it returns `UNDEFINED`. -/
theorem apply_lexical_witness :
    env_lookup 5 sampleScopeHeap 24 17 = Res.ok 20 sampleScopeHeap ∧
      (apply 8 ArgOrder.leftFirst sampleScopeHeap 18 0 24).cell
        = some (Cell.symbol "UNDEFINED") ∧
      apply 8 ArgOrder.leftFirst sampleScopeHeap 18 0 24
        = apply 8 ArgOrder.leftFirst sampleScopeHeap 18 0 15 :=
  ⟨by decide!,
   (((apply_lexical sampleScopeHeap 18 0 17 15 0 rfl).2.2.2 17 "z" [] []
      [([3, 5], [4, 6])] rfl (by decide) (by decide) (by decide) (by decide)).2 rfl 8
      ArgOrder.leftFirst 24 (by decide)).2,
   (apply_lexical sampleScopeHeap 18 0 17 15 0 rfl).1 8 ArgOrder.leftFirst 24 15⟩

/-! ## Shared environments -/

theorem env_parts_keeps_all {st st2 : Store} {env : Ptr} (hk : Keeps st st2)
    (hc : isCons st env = true) (hf : isCons st (car st env) = true) :
    isCons st2 env = true ∧ car st2 env = car st env ∧
      env_symbols st2 env = env_symbols st env ∧ env_values st2 env = env_values st env ∧
      env_parent st2 env = env_parent st env :=
  env_parts_keeps (hk.except (st.size + 1)) hc hf
    (fun h => Nat.not_succ_le_self _ (h ▸ isCons_le_size st env hc))
    (fun h => Nat.not_succ_le_self _ (h ▸ isCons_le_size st _ hf))

theorem frameScan_none (st : Store) (text : String) :
    ∀ (xs : List Ptr) (vals : Ptr), (∀ x ∈ xs, hasText st text x = false) →
      frameScan st text xs vals = none := by
  intro xs
  induction xs with
  | nil => intro vals _; rfl
  | cons x xs ih =>
    intro vals h
    simp only [frameScan, h x (List.mem_cons_self _ _)]
    exact ih _ (fun y hy => h y (List.mem_cons_of_mem _ hy))

/-- C6, amended: a closure shares its captured environment.  For a closure `c` that
captured the environment `E`, whose body is a Symbol `s` that is not one of its parameters,
a binding of `s` made in `E` by `env_set` after the closure was created is what applying
the closure returns, whatever the arguments and the caller's environment.  In particular a
procedure bound by `define` can call itself by name: after the definition of `fact`,
`(fact 5)` evaluates to the number `120`, under either order of argument evaluation. -/
theorem closure_shares_env (st : Store) (E s v c params body : Ptr) (text : String)
    (ps : List Ptr) (hE : isCons st E = true) (hlam : st.read c = Cell.lambda params body E)
    (hbody : st.read body = Cell.symbol text) (hs : st.read s = Cell.symbol text)
    (hps : IsList st params ps) (hsp : E ∉ spine st params ps.length)
    (hnot : ∀ x ∈ ps, hasText st text x = false) :
    env_set st E s v = Res.ok v (bindStore st E s v) ∧
      (∀ fuel ord args caller, ps.length + 5 ≤ fuel →
        apply fuel ord (bindStore st E s v) c args caller
          = Res.ok v (make_env (bindStore st E s v) params args E).2) ∧
      ∀ ord, (session 100 ord [defineFact, SExpr.list [SExpr.sym "fact", SExpr.num 5]]).cell
        = some (Cell.number (Dbl.fin 120)) := by
  refine ⟨env_set_of_cons st E s v hE, ?_, fun ord => by cases ord <;> decide!⟩
  intro fuel ord args caller hfuel
  obtain ⟨i, rfl⟩ : ∃ i, fuel = i + 5 := ⟨fuel - 5, by omega⟩
  have hi : ps.length ≤ i := by omega
  have k := bindStore_keeps st E s v hE
  obtain ⟨_, r1, r2, r3, rE, _⟩ := bindStore_read st E s v hE
  obtain ⟨hE1, hcar1, hes1, hev1, _⟩ := bindStore_env st E s v hE
  have hcE : st.read E = Cell.cons (car st E) (cdr st E) := (isCons_iff st E).mp hE
  have hcne : c ≠ E := by intro h; rw [h, hcE] at hlam; cases hlam
  have hbne : body ≠ E := by intro h; rw [h, hcE] at hbody; cases hbody
  have hlam1 : (bindStore st E s v).read c = Cell.lambda params body E := by
    have hcsz : c ≤ st.size := by
      by_contra hlt
      rw [Store.read_of_gt st c (Nat.lt_of_not_le hlt)] at hlam
      cases hlam
    rw [k.2.1 c hcsz hcne, hlam]
  have hbody1 : (bindStore st E s v).read body = Cell.symbol text := by
    rw [k.2.1 body (symbol_le_size st body text hbody) hbne, hbody]
  have hps1 := (IsList.keeps k ps params hps hsp).1
  have hnot1 : ∀ x ∈ ps, hasText (bindStore st E s v) text x = false := by
    intro x hx
    have hxsz := IsList.elems_le_size st ps params hps x hx
    by_cases hxe : x = E
    · subst hxe
      simp [hasText, rE]
    · simp only [hasText, k.2.1 x hxsz hxe]
      exact hnot x hx
  -- the heap and the environment of the call
  have hk2 := Keeps.make_env (bindStore st E s v) params args E
  obtain ⟨hfst, hfr, hnew⟩ := make_env_read (bindStore st E s v) params args E
  have hz : (bindStore st E s v).size = st.size + 3 := (bindStore_read st E s v hE).1
  have hEsz : E ≤ (bindStore st E s v).size := isCons_le_size _ E hE1
  have hcn : isCons (make_env (bindStore st E s v) params args E).2
      (make_env (bindStore st E s v) params args E).1 = true := by simp [isCons, hnew]
  have hnn := isCons_not_nil _ _ hcn
  have hcar : car (make_env (bindStore st E s v) params args E).2
      (make_env (bindStore st E s v) params args E).1 = (bindStore st E s v).size + 1 := by
    simp [car, hnew]
  have hes : env_symbols (make_env (bindStore st E s v) params args E).2
      (make_env (bindStore st E s v) params args E).1 = params := by
    simp only [env_symbols, hnn, Bool.false_eq_true, if_false]
    rw [hcar, car, hfr]
  have hep : env_parent (make_env (bindStore st E s v) params args E).2
      (make_env (bindStore st E s v) params args E).1 = E := by
    simp [env_parent, hnn, cdr, hnew]
  have hbody2 : (make_env (bindStore st E s v) params args E).2.read body
      = Cell.symbol text := by
    rw [hk2.2 body (symbol_le_size _ body text hbody1), hbody1]
  have hps2 := IsList.keeps_all hk2 ps params hps1
  have hnot2 : ∀ x ∈ ps, hasText (make_env (bindStore st E s v) params args E).2 text x
      = false := by
    intro x hx
    have hxsz := IsList.elems_le_size _ ps params hps1 x hx
    simp only [hasText, hk2.2 x hxsz]
    exact hnot1 x hx
  -- the captured environment in the heap of the call
  have hE2 : isCons (make_env (bindStore st E s v) params args E).2 E = true := hk2.isCons hE1
  have hnE2 := isCons_not_nil _ _ hE2
  have rE2 : (make_env (bindStore st E s v) params args E).2.read E
      = Cell.cons (st.size + 3) (cdr st E) := by rw [hk2.2 E hEsz, rE]
  have r32 : (make_env (bindStore st E s v) params args E).2.read (st.size + 3)
      = Cell.cons (st.size + 1) (st.size + 2) := by
    rw [hk2.2 _ (by rw [hz]), r3]
  have r12 : (make_env (bindStore st E s v) params args E).2.read (st.size + 1)
      = Cell.cons s (env_symbols st E) := by
    rw [hk2.2 _ (by rw [hz]; omega), r1]
  have r22 : (make_env (bindStore st E s v) params args E).2.read (st.size + 2)
      = Cell.cons v (env_values st E) := by
    rw [hk2.2 _ (by rw [hz]; omega), r2]
  have hfc1 : isCons (bindStore st E s v) (car (bindStore st E s v) E) = true := by
    rw [hcar1]; simp [isCons, r3]
  obtain ⟨_, _, hesE0, hevE0, _⟩ := env_parts_keeps_all hk2 hE1 hfc1
  have hesE : env_symbols (make_env (bindStore st E s v) params args E).2 E = st.size + 1 := by
    rw [hesE0, hes1]
  have hevE : env_values (make_env (bindStore st E s v) params args E).2 E = st.size + 2 := by
    rw [hevE0, hev1]
  have hs2 : (make_env (bindStore st E s v) params args E).2.read s = Cell.symbol text := by
    have hsne : s ≠ E := by intro h; rw [h, hcE] at hs; cases hs
    rw [hk2.2 s (Nat.le_trans (symbol_le_size st s text hs) k.1),
      k.2.1 s (symbol_le_size st s text hs) hsne, hs]
  -- the computation
  rw [apply_succ, hlam1]
  simp only []
  rw [eval_symbol (i + 3) ord _ body _ text hbody2, env_lookup, hnn]
  simp only [Bool.false_eq_true, if_false]
  rw [hes, env_lookup_frame_spec _ text body hbody2 ps params _ (i + 2) hps2 (by omega),
    frameScan_none _ text ps _ hnot2]
  simp only []
  rw [hep, env_lookup_first i _ E body s (env_symbols st E) text hE2 (by rw [hesE, r12]) hs2
    hbody2, hevE, car, r22]

/-- C6, amended, on `sampleScopeHeap`: the closure of cell 18 (no parameters, body `z`)
captured the root environment (cell 15) before `z` was bound there; after
`env_set(15, z, 9)` it returns the number `9`, cell 20. -/
theorem closure_shares_env_witness :
    apply 5 ArgOrder.leftFirst (bindStore sampleScopeHeap 15 19 20) 18 0 24
      = Res.ok 20 (make_env (bindStore sampleScopeHeap 15 19 20) 0 0 15).2 :=
  (closure_shares_env sampleScopeHeap 15 19 20 18 0 17 "z" [] (by decide) rfl rfl rfl
    (by decide) (by decide) (fun x hx => absurd hx (List.not_mem_nil x))).2.1 5
    ArgOrder.leftFirst 0 24 (by decide)

/-- C6 fails as stated: the closure bound by `(define id (x) x)` is created in the global
environment and its body is the Symbol `x`; `(set x 5)` then binds `x` to `5` in the global
environment by `env_set`; yet `(id 7)` returns `7`, the argument, and `(id)` returns Nil,
under either order of argument evaluation: the parameter `x` shadows the later binding. -/
theorem closure_parameter_shadows :
    (session 50 ArgOrder.leftFirst
        [defineId, SExpr.list [SExpr.sym "set", SExpr.sym "x", SExpr.num 5],
          SExpr.list [SExpr.sym "id", SExpr.num 7]]).cell = some (Cell.number (Dbl.fin 7)) ∧
      (session 50 ArgOrder.rightFirst
        [defineId, SExpr.list [SExpr.sym "set", SExpr.sym "x", SExpr.num 5],
          SExpr.list [SExpr.sym "id", SExpr.num 7]]).cell = some (Cell.number (Dbl.fin 7)) ∧
      (session 50 ArgOrder.leftFirst
        [defineId, SExpr.list [SExpr.sym "set", SExpr.sym "x", SExpr.num 5],
          SExpr.list [SExpr.sym "id"]]).cell = some Cell.nil ∧
      (session 50 ArgOrder.leftFirst
        [defineId, SExpr.list [SExpr.sym "set", SExpr.sym "x", SExpr.num 5],
          SExpr.sym "x"]).cell = some (Cell.number (Dbl.fin 5)) := by
  decide!

/-! ## User-defined procedures -/

theorem lambda_le_size (st : Store) (c a b e : Ptr) (h : st.read c = Cell.lambda a b e) :
    c ≤ st.size := by
  by_contra hlt
  rw [Store.read_of_gt st c (Nat.lt_of_not_le hlt)] at h
  cases h

theorem IsChain.keeps_except {st st2 : Store} {e : Ptr} (hk : KeepsExcept st st2 e) :
    ∀ (xs : List Ptr) (p : Ptr), IsChain st p xs → e ∉ spine st p xs.length →
      IsChain st2 p xs ∧ spine st2 p xs.length = spine st p xs.length := by
  intro xs
  induction xs with
  | nil => intro p hp _; exact ⟨hp, rfl⟩
  | cons x xs ih =>
    intro p hp hsp
    have hp2 : isCons st p = true ∧ car st p = x ∧ IsChain st (cdr st p) xs := hp
    obtain ⟨hc, hx, htl⟩ := hp2
    simp only [List.length_cons, spine, List.mem_cons, not_or] at hsp
    obtain ⟨_, hc2, hcar, hcdr⟩ := hk.isCons_of_ne hc (fun h => hsp.1 h.symm)
    have ih2 := ih (cdr st p) htl hsp.2
    refine ⟨?_, ?_⟩
    · show isCons st2 p = true ∧ car st2 p = x ∧ IsChain st2 (cdr st2 p) xs
      rw [hcdr]
      exact ⟨hc2, hcar.trans hx, ih2.1⟩
    · simp only [List.length_cons, spine, hcdr, ih2.2]

/-- A chain of pairs whose elements are allocated cells is a well-formed list. -/
theorem IsChain.isList (st : Store) :
    ∀ (xs : List Ptr) (p : Ptr), IsChain st p xs → (∀ x ∈ xs, x ≤ st.size) → IsList st p xs := by
  intro xs
  induction xs with
  | nil => intro p hp _; exact hp
  | cons x xs ih =>
    intro p hp hv
    have hp2 : isCons st p = true ∧ car st p = x ∧ IsChain st (cdr st p) xs := hp
    rw [IsList.cons_iff]
    exact ⟨hp2.1, hp2.2.1, hv x (List.mem_cons_self _ _),
      ih _ hp2.2.2 (fun y hy => hv y (List.mem_cons_of_mem _ hy))⟩

/-- The pair that `cons` allocates in front of a chain makes a chain, whose cells other than
the new one are those of the old chain. -/
theorem IsChain.cons_chain (st : Store) (v l : Ptr) (vs : List Ptr) (h : IsChain st l vs)
    (lo : Nat) (hlo : lo ≤ st.size) (hsp : ∀ q ∈ spine st l vs.length, lo < q) :
    IsChain (cons st v l).2 (cons st v l).1 (v :: vs) ∧
      ∀ q ∈ spine (cons st v l).2 (cons st v l).1 (v :: vs).length, lo < q := by
  have hnot : st.size + 1 ∉ spine st l vs.length := by
    clear hsp
    induction vs generalizing l with
    | nil => simp [spine]
    | cons x xs ih =>
      have h2 : isCons st l = true ∧ car st l = x ∧ IsChain st (cdr st l) xs := h
      simp only [List.length_cons, spine, List.mem_cons, not_or]
      refine ⟨?_, ih _ h2.2.2⟩
      intro hq
      have hle := isCons_le_size st l h2.1
      rw [← hq] at hle
      exact Nat.not_succ_le_self _ hle
  have hk : Keeps st (cons st v l).2 := Keeps.alloc _ _
  have hnew : (cons st v l).2.read (cons st v l).1 = Cell.cons v l := Store.read_alloc_new st _
  have hfst : (cons st v l).1 = st.size + 1 := rfl
  obtain ⟨k1, k2⟩ := IsChain.keeps_except (hk.except (st.size + 1)) vs l h hnot
  have hcdr : cdr (cons st v l).2 (cons st v l).1 = l := by simp [cdr, hnew]
  refine ⟨?_, ?_⟩
  · show isCons (cons st v l).2 (cons st v l).1 = true ∧ car (cons st v l).2 (cons st v l).1 = v ∧
      IsChain (cons st v l).2 (cdr (cons st v l).2 (cons st v l).1) vs
    rw [hcdr]
    exact ⟨by simp [isCons, hnew], by simp [car, hnew], k1⟩
  · intro q hq
    simp only [List.length_cons, spine, List.mem_cons, hcdr, k2] at hq
    rcases hq with rfl | hq
    · rw [hfst]
      exact Nat.lt_succ_of_le hlo
    · exact hsp q hq

/-- What `eval_list` returns on a well-formed list of expressions: when every expression
evaluates with the fuel `m`, taken in the order of `evalArgs`, then `eval_list` with one
unit of fuel more per expression returns the list of their values, one for each expression
and in the order of the expressions, in fresh pairs. -/
theorem eval_list_args (m : Nat) (ord : ArgOrder) (env : Ptr) :
    ∀ (es : List Ptr) (st : Store) (l : Ptr) (vs : List Ptr) (argv : Ptr) (st2 : Store),
      env ≤ st.size → IsList st l es → env ∉ spine st l es.length →
      evalArgs m ord env st es = some (vs, argv, st2) →
      eval_list (m + es.length + 1) ord st l env = Res.ok argv st2 ∧
        vs.length = es.length ∧ IsChain st2 argv vs ∧ st.size ≤ st2.size ∧
        ∀ q ∈ spine st2 argv vs.length, st.size < q := by
  intro es
  induction es with
  | nil =>
    intro st l vs argv st2 _ hl _ h
    have hl2 : l = nil := hl
    simp only [evalArgs, Option.some.injEq, Prod.mk.injEq] at h
    obtain ⟨rfl, rfl, rfl⟩ := h
    subst hl2
    refine ⟨?_, rfl, rfl, Nat.le_refl _, ?_⟩
    · rw [List.length_nil, Nat.add_zero, eval_list_succ, if_pos (isNil_nil st)]
    · intro q hq
      simp [spine] at hq
  | cons e es ih =>
    intro st l vs argv st2 henv hl hsp h
    rw [IsList.cons_iff] at hl
    obtain ⟨hc, he, hesz, htl⟩ := hl
    simp only [List.length_cons, spine, List.mem_cons, not_or] at hsp
    have hlne : l ≠ env := fun h => hsp.1 h.symm
    have hnil : ¬ (isNil st l = true) := by
      rw [isCons_not_nil st l hc]
      exact Bool.false_ne_true
    have hfuel : m + (e :: es).length + 1 = (m + es.length + 1) + 1 := by
      simp only [List.length_cons]
      omega
    rw [hfuel, eval_list_succ, if_neg hnil]
    cases ord with
    | leftFirst =>
      cases h1 : eval m ArgOrder.leftFirst st e env with
      | fault => simp [evalArgs, h1] at h
      | fuel => simp [evalArgs, h1] at h
      | ok v st1 =>
        cases h2 : evalArgs m ArgOrder.leftFirst env st1 es with
        | none => simp [evalArgs, h1, h2] at h
        | some r =>
          obtain ⟨vs1, l1, st3⟩ := r
          simp only [evalArgs, h1, h2, Option.some.injEq, Prod.mk.injEq] at h
          obtain ⟨rfl, rfl, rfl⟩ := h
          have hk := eval_keeps h1
          obtain ⟨_, _, _, hcdr⟩ := hk.isCons_of_ne hc hlne
          have htl1 := IsList.keeps hk es (cdr st l) htl hsp.2
          obtain ⟨i1, i2, i3, i4, i5⟩ := ih st1 (cdr st l) vs1 l1 st3 (Nat.le_trans henv hk.1)
            htl1.1 (by rw [htl1.2]; exact hsp.2) h2
          have h1b : eval (m + es.length + 1) ArgOrder.leftFirst st (car st l) env
              = Res.ok v st1 := by
            rw [he]
            exact eval_fuel_mono h1 (by omega)
          obtain ⟨c1, c2⟩ := IsChain.cons_chain st3 v l1 vs1 i3 st.size
            (Nat.le_trans hk.1 i4) (fun q hq => Nat.lt_of_le_of_lt hk.1 (i5 q hq))
          dsimp only
          rw [h1b]
          simp only [Res.bind]
          rw [hcdr, i1]
          refine ⟨rfl, by simp only [List.length_cons, i2], c1, ?_, c2⟩
          exact Nat.le_trans (Nat.le_trans hk.1 i4) (Keeps.alloc _ _).1
    | rightFirst =>
      cases h2 : evalArgs m ArgOrder.rightFirst env st es with
      | none => simp [evalArgs, h2] at h
      | some r =>
        obtain ⟨vs1, l1, st1⟩ := r
        cases h1 : eval m ArgOrder.rightFirst st1 e env with
        | fault => simp [evalArgs, h1, h2] at h
        | fuel => simp [evalArgs, h1, h2] at h
        | ok v st3 =>
          simp only [evalArgs, h1, h2, Option.some.injEq, Prod.mk.injEq] at h
          obtain ⟨rfl, rfl, rfl⟩ := h
          obtain ⟨i1, i2, i3, i4, i5⟩ := ih st (cdr st l) vs1 l1 st1 henv htl hsp.2 h2
          have hkL := (eval_framed_all (m + es.length + 1)).2.1 ArgOrder.rightFirst st
            (cdr st l) env l1 st1 i1
          obtain ⟨_, _, hcar, _⟩ := hkL.isCons_of_ne hc hlne
          have hk := eval_keeps h1
          have h1b : eval (m + es.length + 1) ArgOrder.rightFirst st1 (car st1 l) env
              = Res.ok v st3 := by
            rw [hcar, he]
            exact eval_fuel_mono h1 (by omega)
          have hfresh : env ∉ spine st1 l1 vs1.length := fun hq =>
            Nat.lt_irrefl _ (Nat.lt_of_lt_of_le (i5 env hq) henv)
          obtain ⟨j1, j2⟩ := IsChain.keeps_except hk vs1 l1 i3 hfresh
          obtain ⟨c1, c2⟩ := IsChain.cons_chain st3 v l1 vs1 j1 st.size
            (Nat.le_trans i4 hk.1) (fun q hq => i5 q (by rw [← j2]; exact hq))
          dsimp only
          rw [i1]
          simp only [Res.bind]
          rw [h1b]
          refine ⟨rfl, by simp only [List.length_cons, i2], c1, ?_, c2⟩
          exact Nat.le_trans (Nat.le_trans i4 hk.1) (Keeps.alloc _ _).1

/-- C2 fails as stated: after `(define if (x) x)` the symbol `if` is bound to a closure in
the global environment, yet `(if 7)` is not a call of it: `eval` takes the list for the
special form `if` and returns Nil, not the value of the body, `7`; under
either order of argument evaluation. -/
theorem define_keyword_not_called :
    (match (session 50 ArgOrder.leftFirst [defineIf, SExpr.sym "if"]).cell with
      | some (Cell.lambda _ _ _) => true
      | _ => false) = true ∧
      (session 50 ArgOrder.leftFirst
        [defineIf, SExpr.list [SExpr.sym "if", SExpr.num 7]]).cell = some Cell.nil ∧
      (session 50 ArgOrder.rightFirst
        [defineIf, SExpr.list [SExpr.sym "if", SExpr.num 7]]).cell = some Cell.nil := by
  decide!

/-! ## Application of a builtin -/

theorem primitive_le_size (st : Store) (f : Ptr) (P : Prim) (h : st.read f = Cell.primitive P) :
    f ≤ st.size := by
  by_contra hlt
  rw [Store.read_of_gt st f (Nat.lt_of_not_le hlt)] at h
  cases h

theorem eval_list_nil (n : Nat) (ord : ArgOrder) (st : Store) (env : Ptr) :
    eval_list (n + 1) ord st nil env = Res.ok nil st := by
  rw [eval_list_succ, isNil_nil]
  simp

/-- When the arguments are evaluated left to right, a call `(op e1 e2)` of a builtin
evaluates the head, then `e1`, then `e2` in the heap that `e1` left, and applies the
primitive to the fresh list of the two values. -/
theorem eval_builtin_call_leftFirst (n : Nat) (st st1 st2 : Store)
    (sexp hd tl tl2 e1 e2 env f v1 v2 : Ptr) (name : String) (P : Prim)
    (hsexp : st.read sexp = Cell.cons hd tl) (hhd : st.read hd = Cell.symbol name)
    (hname : name ∉ keywords) (htl : st.read tl = Cell.cons e1 tl2)
    (htl2 : st.read tl2 = Cell.cons e2 nil) (hE : isCons st env = true)
    (hne1 : tl ≠ env) (hne2 : tl2 ≠ env)
    (hlook : env_lookup n st env hd = Res.ok f st) (hf : st.read f = Cell.primitive P)
    (h1 : eval n ArgOrder.leftFirst st e1 env = Res.ok v1 st1)
    (h2 : eval n ArgOrder.leftFirst st1 e2 env = Res.ok v2 st2) :
    eval (n + 3) ArgOrder.leftFirst st sexp env
        = callPrim P (cons (cons st2 v2 nil).2 v1 (cons st2 v2 nil).1).2
            (cons (cons st2 v2 nil).2 v1 (cons st2 v2 nil).1).1 env ∧
      car (cons (cons st2 v2 nil).2 v1 (cons st2 v2 nil).1).2
          (cons (cons st2 v2 nil).2 v1 (cons st2 v2 nil).1).1 = v1 ∧
      cadr (cons (cons st2 v2 nil).2 v1 (cons st2 v2 nil).1).2
          (cons (cons st2 v2 nil).2 v1 (cons st2 v2 nil).1).1 = v2 := by
  obtain ⟨k, rfl⟩ : ∃ k, n = k + 1 := by
    cases n with
    | zero => rw [eval.eq_1] at h1; cases h1
    | succ k => exact ⟨k, rfl⟩
  have ke1 := eval_keeps h1
  have ke2 := eval_keeps h2
  have htlsz : tl ≤ st.size := isCons_le_size st tl (by simp [isCons, htl])
  have htl2sz : tl2 ≤ st.size := isCons_le_size st tl2 (by simp [isCons, htl2])
  have hfne : f ≠ env := by
    intro h
    rw [h, (isCons_iff st env).mp hE] at hf
    cases hf
  have htl_1 : st1.read tl = Cell.cons e1 tl2 := by rw [ke1.2.1 tl htlsz hne1, htl]
  have htl2_1 : st1.read tl2 = Cell.cons e2 nil := by rw [ke1.2.1 tl2 htl2sz hne2, htl2]
  have htl2_2 : st2.read tl2 = Cell.cons e2 nil := by
    rw [ke2.2.1 tl2 (Nat.le_trans htl2sz ke1.1) hne2, htl2_1]
  -- the argument list
  have hA : (cons st2 v2 nil).2.size = st2.size + 1 := Store.size_alloc _ _
  have hA1 : (cons st2 v2 nil).1 = st2.size + 1 := rfl
  have hB1 : (cons (cons st2 v2 nil).2 v1 (cons st2 v2 nil).1).1 = st2.size + 2 := by
    rw [cons, Store.alloc_fst, hA]
  have rB : (cons (cons st2 v2 nil).2 v1 (cons st2 v2 nil).1).2.read (st2.size + 2)
      = Cell.cons v1 (st2.size + 1) := by
    have := Store.read_alloc_new (cons st2 v2 nil).2 (Cell.cons v1 (cons st2 v2 nil).1)
    rw [hA, hA1] at this
    exact this
  have rA : (cons (cons st2 v2 nil).2 v1 (cons st2 v2 nil).1).2.read (st2.size + 1)
      = Cell.cons v2 nil := by
    rw [cons, Store.read_alloc_old _ _ _ (by rw [hA])]
    exact Store.read_alloc_new st2 _
  have hkk : Keeps st2 (cons (cons st2 v2 nil).2 v1 (cons st2 v2 nil).1).2 :=
    (Keeps.alloc _ _).trans (Keeps.alloc _ _)
  have hf2 : (cons (cons st2 v2 nil).2 v1 (cons st2 v2 nil).1).2.read f
      = Cell.primitive P := by
    have hfsz := primitive_le_size st f P hf
    rw [hkk.2 f (Nat.le_trans hfsz (Nat.le_trans ke1.1 ke2.1)),
      ke2.2.1 f (Nat.le_trans hfsz ke1.1) hfne, ke1.2.1 f hfsz hfne, hf]
  -- the list of arguments is evaluated
  have hlist2 : eval_list (k + 2) ArgOrder.leftFirst st1 tl2 env
      = Res.ok (st2.size + 1) (cons st2 v2 nil).2 := by
    have hnn : isNil st1 tl2 = false := by rw [isNil_eq_false_iff, htl2_1]; simp
    rw [eval_list_succ, hnn]
    simp only [Bool.false_eq_true, if_false, car, cdr, htl2_1, h2, Res.bind, htl2_2]
    rw [eval_list_nil]
    rfl
  have hlist : eval_list (k + 3) ArgOrder.leftFirst st tl env
      = Res.ok (st2.size + 2) (cons (cons st2 v2 nil).2 v1 (cons st2 v2 nil).1).2 := by
    have hnn : isNil st tl = false := by rw [isNil_eq_false_iff, htl]; simp
    rw [eval_list_succ, hnn]
    simp only [Bool.false_eq_true, if_false, car, cdr, htl]
    rw [eval_fuel_mono h1 (Nat.le_add_right _ 1)]
    simp only [Res.bind, htl_1, hlist2, Res.ofPair]
    change Res.ok (cons (cons st2 v2 nil).2 v1 (cons st2 v2 nil).1).1
      (cons (cons st2 v2 nil).2 v1 (cons st2 v2 nil).1).2 = _
    rw [hB1]
  obtain ⟨_, _, _, _, _, hcar, hcdr⟩ := classify_pair st sexp hd tl hsexp
  refine ⟨?_, ?_, ?_⟩
  · rw [eval_succ, classify_call_symbol st sexp hd tl name hsexp hhd hname]
    simp only [hcar]
    rw [eval_symbol (k + 2) _ st hd env name hhd,
      (env_lookup_mono st hd (k + 1) (k + 2) env (Nat.le_succ _)).of_ok hlook]
    simp only [Res.bind, hcdr, hlist]
    rw [apply_succ, hf2, hB1]
  · rw [hB1, car, rB]
  · rw [hB1, cadr, cdr, rB]
    simp only []
    rw [car, rA]

/-- C1, the failing input: `(+ (set x 5) x)` in the global environment.  When the compiled
`eval_list` runs the two arguments of its `cons` right to left, `x` is read before
`(set x 5)` binds it, the second operand is the symbol `UNDEFINED` and the sum is
`ERROR:NOT_A_NUMBER`; evaluated left to right the sum is `10`.  The expressions `(+ 2 3)`
and `(* (+ 1 2) (- 5 2))` evaluate to `5` and `9` under either order. -/
theorem builtin_args_order_dependent :
    (session 50 ArgOrder.rightFirst [setThenRead]).cell
        = some (Cell.symbol "ERROR:NOT_A_NUMBER") ∧
      (session 50 ArgOrder.leftFirst [setThenRead]).cell = some (Cell.number (Dbl.fin 10)) ∧
      (session 50 ArgOrder.leftFirst [plusTwoThree]).cell = some (Cell.number (Dbl.fin 5)) ∧
      (session 50 ArgOrder.rightFirst [plusTwoThree]).cell = some (Cell.number (Dbl.fin 5)) ∧
      (session 50 ArgOrder.leftFirst [nestedArith]).cell = some (Cell.number (Dbl.fin 9)) ∧
      (session 50 ArgOrder.rightFirst [nestedArith]).cell = some (Cell.number (Dbl.fin 9)) := by
  decide!

/-! ## The heap at the first prompt -/

theorem init_global_env_eq : init_global_env Store.empty = Res.ok GLOBAL_ENV globalHeap := by
  decide!

theorem globalHeap_size : globalHeap.size = 97 := by decide!

theorem globalHeap_isEnv : IsEnv globalHeap GLOBAL_ENV globalFrames := by decide!

theorem globalHeap_bindings :
    ∀ b ∈ globalBindings,
      (envScan globalHeap b.1 globalFrames).map globalHeap.read
        = some (Cell.primitive b.2) := by
  decide!

/-- In every heap that keeps the cells of the first prompt, a symbol with the name of a
builtin looks up, in `GLOBAL_ENV`, to the primitive registered under that name. -/
theorem global_lookup (st : Store) (hk : Keeps globalHeap st) (b : String × Prim)
    (hb : b ∈ globalBindings) (s : Ptr) (hs : st.read s = Cell.symbol b.1) (fuel : Nat)
    (hfuel : 22 ≤ fuel) :
    ∃ v, env_lookup fuel st GLOBAL_ENV s = Res.ok v st ∧ st.read v = Cell.primitive b.2 := by
  have henv := IsEnv.keeps_all_env hk globalFrames GLOBAL_ENV globalHeap_isEnv
  have hscan := env_lookup_scan st b.1 s hs globalFrames GLOBAL_ENV fuel henv
    (by simpa [lookupFuel, globalFrames, allSymbols] using hfuel)
  have hcongr : envScan st b.1 globalFrames = envScan globalHeap b.1 globalFrames := by
    apply envScan_congr
    intro x hx
    have hxs := allSymbols_le_size globalHeap globalFrames GLOBAL_ENV globalHeap_isEnv x hx
    simp only [hasText, hk.2 x hxs]
  have hg := globalHeap_bindings b hb
  rw [hcongr] at hscan
  cases hv : envScan globalHeap b.1 globalFrames with
  | none => rw [hv] at hg; cases hg
  | some v =>
    rw [hv] at hg hscan
    simp only [Option.map_some', Option.some.injEq] at hg
    refine ⟨v, hscan, ?_⟩
    have hvs : v ≤ globalHeap.size := by
      by_contra hlt
      rw [Store.read_of_gt globalHeap v (Nat.lt_of_not_le hlt)] at hg
      cases hg
    rw [hk.2 v hvs, hg]

/-! ## More dispatch of `eval` -/

theorem classify_number (st : Store) (p : Ptr) (d : Dbl) (h : st.read p = Cell.number d) :
    classify st p = Form.self := by
  have hn : isNil st p = false := by rw [isNil_eq_false_iff, h]; simp
  simp [classify, hn, isNumber, h]

theorem classify_string (st : Store) (p : Ptr) (t : String) (h : st.read p = Cell.string t) :
    classify st p = Form.self := by
  have hn : isNil st p = false := by rw [isNil_eq_false_iff, h]; simp
  simp [classify, hn, isNumber, isString, h]

theorem classify_nil (st : Store) (p : Ptr) (h : st.read p = Cell.nil) :
    classify st p = Form.nil := by
  have hn : isNil st p = true := (isNil_iff st p).mpr h
  simp [classify, hn]

theorem classify_quote (st : Store) (p hd tl : Ptr) (h : st.read p = Cell.cons hd tl)
    (hk : st.read hd = Cell.symbol "quote") : classify st p = Form.quote := by
  obtain ⟨h1, h2, h3, h4, h5, h6, _⟩ := classify_pair st p hd tl h
  have hsym : isSymbol st hd = true := by simp [isSymbol, hk]
  have htxt : symbolText st hd = "quote" := by simp [symbolText, hk]
  simp [classify, h1, h2, h3, h4, h5, h6, hsym, htxt]

theorem classify_if (st : Store) (p hd tl : Ptr) (h : st.read p = Cell.cons hd tl)
    (hk : st.read hd = Cell.symbol "if") : classify st p = Form.ifForm := by
  obtain ⟨h1, h2, h3, h4, h5, h6, _⟩ := classify_pair st p hd tl h
  have hsym : isSymbol st hd = true := by simp [isSymbol, hk]
  have htxt : symbolText st hd = "if" := by simp [symbolText, hk]
  simp [classify, h1, h2, h3, h4, h5, h6, hsym, htxt]

theorem classify_and (st : Store) (p hd tl : Ptr) (h : st.read p = Cell.cons hd tl)
    (hk : st.read hd = Cell.symbol "and") : classify st p = Form.andForm := by
  obtain ⟨h1, h2, h3, h4, h5, h6, _⟩ := classify_pair st p hd tl h
  have hsym : isSymbol st hd = true := by simp [isSymbol, hk]
  have htxt : symbolText st hd = "and" := by simp [symbolText, hk]
  simp [classify, h1, h2, h3, h4, h5, h6, hsym, htxt]

theorem classify_or (st : Store) (p hd tl : Ptr) (h : st.read p = Cell.cons hd tl)
    (hk : st.read hd = Cell.symbol "or") : classify st p = Form.orForm := by
  obtain ⟨h1, h2, h3, h4, h5, h6, _⟩ := classify_pair st p hd tl h
  have hsym : isSymbol st hd = true := by simp [isSymbol, hk]
  have htxt : symbolText st hd = "or" := by simp [symbolText, hk]
  simp [classify, h1, h2, h3, h4, h5, h6, hsym, htxt]

theorem classify_cond (st : Store) (p hd tl : Ptr) (h : st.read p = Cell.cons hd tl)
    (hk : st.read hd = Cell.symbol "cond") : classify st p = Form.cond := by
  obtain ⟨h1, h2, h3, h4, h5, h6, _⟩ := classify_pair st p hd tl h
  have hsym : isSymbol st hd = true := by simp [isSymbol, hk]
  have htxt : symbolText st hd = "cond" := by simp [symbolText, hk]
  simp [classify, h1, h2, h3, h4, h5, h6, hsym, htxt]

theorem eval_number (n : Nat) (ord : ArgOrder) (st : Store) (p env : Ptr) (d : Dbl)
    (h : st.read p = Cell.number d) : eval (n + 1) ord st p env = Res.ok p st := by
  rw [eval_succ, classify_number st p d h]

/-! ## Calls of a builtin on two literals -/

theorem argStore_read (st : Store) (v1 v2 : Ptr) :
    Keeps st (argStore st v1 v2) ∧
      (argStore st v1 v2).read (st.size + 2) = Cell.cons v1 (st.size + 1) ∧
      (argStore st v1 v2).read (st.size + 1) = Cell.cons v2 nil ∧
      car (argStore st v1 v2) (st.size + 2) = v1 ∧
      cadr (argStore st v1 v2) (st.size + 2) = v2 := by
  have hA : (cons st v2 nil).2.size = st.size + 1 := Store.size_alloc _ _
  have hA1 : (cons st v2 nil).1 = st.size + 1 := rfl
  have rB : (argStore st v1 v2).read (st.size + 2) = Cell.cons v1 (st.size + 1) := by
    have := Store.read_alloc_new (cons st v2 nil).2 (Cell.cons v1 (cons st v2 nil).1)
    rw [hA, hA1] at this
    exact this
  have rA : (argStore st v1 v2).read (st.size + 1) = Cell.cons v2 nil := by
    rw [argStore, cons, Store.read_alloc_old _ _ _ (by rw [hA])]
    exact Store.read_alloc_new st _
  refine ⟨(Keeps.alloc _ _).trans (Keeps.alloc _ _), rB, rA, ?_, ?_⟩
  · rw [car, rB]
  · rw [cadr, cdr, rB]
    simp only []
    rw [car, rA]

/-- The function `eval_list` on a list of two Number cells: under either order of
evaluation it returns the fresh list of the same two cells. -/
theorem eval_list_two_numbers (n : Nat) (ord : ArgOrder) (st : Store)
    (tl tl2 e1 e2 env : Ptr) (x y : Dbl)
    (htl : st.read tl = Cell.cons e1 tl2) (htl2 : st.read tl2 = Cell.cons e2 nil)
    (h1 : st.read e1 = Cell.number x) (h2 : st.read e2 = Cell.number y) :
    eval_list (n + 3) ord st tl env = Res.ok (st.size + 2) (argStore st e1 e2) := by
  have hnn : isNil st tl = false := by rw [isNil_eq_false_iff, htl]; simp
  have hnn2 : isNil st tl2 = false := by rw [isNil_eq_false_iff, htl2]; simp
  have hsz : (cons st e2 nil).2.size = st.size + 1 := Store.size_alloc _ _
  have hk1 : Keeps st (cons st e2 nil).2 := Keeps.alloc _ _
  have he1sz : e1 ≤ st.size := by
    by_contra hlt
    rw [Store.read_of_gt st e1 (Nat.lt_of_not_le hlt)] at h1
    cases h1
  have htlsz : tl ≤ st.size := isCons_le_size st tl (by simp [isCons, htl])
  have hfin : Res.ofPair (cons (cons st e2 nil).2 e1 (cons st e2 nil).1)
      = Res.ok (st.size + 2) (argStore st e1 e2) := by
    change Res.ok (cons (cons st e2 nil).2 e1 (cons st e2 nil).1).1 _ = _
    rw [cons, Store.alloc_fst, hsz]
    rfl
  have c1 : car st tl = e1 := by simp [car, htl]
  have d1 : cdr st tl = tl2 := by simp [cdr, htl]
  have c2 : car st tl2 = e2 := by simp [car, htl2]
  have d2 : cdr st tl2 = nil := by simp [cdr, htl2]
  cases ord with
  | leftFirst =>
    have hl2 : eval_list (n + 2) ArgOrder.leftFirst st tl2 env
        = Res.ok (cons st e2 nil).1 (cons st e2 nil).2 := by
      rw [eval_list_succ, hnn2]
      simp only [Bool.false_eq_true, if_false, c2]
      rw [eval_number n _ st e2 env y h2]
      simp only [Res.bind, d2]
      rw [eval_list_nil]
      rfl
    rw [eval_list_succ, hnn]
    simp only [Bool.false_eq_true, if_false, c1]
    rw [eval_number (n + 1) _ st e1 env x h1]
    simp only [Res.bind, d1, hl2]
    exact hfin
  | rightFirst =>
    have hl2 : eval_list (n + 2) ArgOrder.rightFirst st tl2 env
        = Res.ok (cons st e2 nil).1 (cons st e2 nil).2 := by
      rw [eval_list_succ, hnn2]
      simp only [Bool.false_eq_true, if_false, d2]
      rw [eval_list_nil]
      simp only [Res.bind, c2]
      rw [eval_number n _ st e2 env y h2]
      rfl
    have c1k : car (cons st e2 nil).2 tl = e1 := by
      rw [car, hk1.2 tl htlsz, htl]
    rw [eval_list_succ, hnn]
    simp only [Bool.false_eq_true, if_false, d1, hl2, Res.bind, c1k]
    rw [eval_number (n + 1) _ _ e1 env x (by rw [hk1.2 e1 he1sz, h1])]
    exact hfin

/-- A call `(op e1 e2)` whose head looks up to a builtin and whose arguments are Number
cells applies the primitive to the fresh list of the two cells, under either order. -/
theorem eval_call_numbers (n : Nat) (ord : ArgOrder) (st : Store)
    (sexp hd tl tl2 e1 e2 env f : Ptr) (name : String) (P : Prim) (x y : Dbl)
    (hsexp : st.read sexp = Cell.cons hd tl) (hhd : st.read hd = Cell.symbol name)
    (hname : name ∉ keywords) (htl : st.read tl = Cell.cons e1 tl2)
    (htl2 : st.read tl2 = Cell.cons e2 nil)
    (h1 : st.read e1 = Cell.number x) (h2 : st.read e2 = Cell.number y)
    (hlook : env_lookup (n + 3) st env hd = Res.ok f st) (hf : st.read f = Cell.primitive P) :
    eval (n + 5) ord st sexp env = callPrim P (argStore st e1 e2) (st.size + 2) env := by
  obtain ⟨_, _, _, _, _, hcar, hcdr⟩ := classify_pair st sexp hd tl hsexp
  have hfsz := primitive_le_size st f P hf
  rw [eval_succ, classify_call_symbol st sexp hd tl name hsexp hhd hname]
  simp only [hcar]
  rw [eval_symbol (n + 3) _ st hd env name hhd, hlook]
  simp only [Res.bind, hcdr]
  rw [eval_list_fuel_mono (eval_list_two_numbers n ord st tl tl2 e1 e2 env x y htl htl2 h1 h2)
    (Nat.le_succ _)]
  simp only [Res.bind]
  rw [apply_succ, (argStore_read st e1 e2).1.2 f hfsz, hf]

/-! ## One expression at the first prompt -/

theorem session_single (fuel : Nat) (ord : ArgOrder) (e : SExpr) :
    session fuel ord [e]
      = eval fuel ord (build globalHeap e).2 (build globalHeap e).1 GLOBAL_ENV := by
  rw [session, init_global_env_eq]
  rfl

theorem build_ofDbl (st : Store) (d : Dbl) : build st (SExpr.ofDbl d) = make_number st d := by
  cases d <;> rfl

/-- The cells of a heap extended by a list of new cells. -/
theorem Store.read_append (st : Store) (ext : List Cell) :
    Keeps st ⟨st.cells ++ ext⟩ ∧
      ∀ k : Nat, (⟨st.cells ++ ext⟩ : Store).read (st.size + (k + 1)) = ext.getD k Cell.nil := by
  refine ⟨⟨by simp [Store.size], ?_⟩, ?_⟩
  · intro q hq
    cases q with
    | zero => rfl
    | succ k =>
      simp only [Store.read, Store.size] at hq ⊢
      rw [List.getD_append _ _ _ _ (by omega)]
  · intro k
    have : st.size + (k + 1) = (st.size + k) + 1 := by omega
    rw [this]
    simp only [Store.read, Store.size]
    rw [List.getD_append_right _ _ _ _ (by omega)]
    simp

/-- The heap that the allocation of `(name x y)` leaves: six new cells. -/
theorem build_call2 (st : Store) (name : String) (x y : Dbl) :
    build st (SExpr.list [SExpr.sym name, SExpr.ofDbl x, SExpr.ofDbl y])
      = (st.size + 6,
          ⟨st.cells ++ [Cell.symbol name, Cell.number x, Cell.number y,
            Cell.cons (st.size + 3) nil, Cell.cons (st.size + 2) (st.size + 4),
            Cell.cons (st.size + 1) (st.size + 5)]⟩) := by
  simp [SExpr.list, build, build_ofDbl, make_symbol, make_number, cons, Store.alloc,
    Store.size, Nat.add_assoc]

theorem globalBindings_not_keywords : ∀ b ∈ globalBindings, b.1 ∉ keywords := by decide

/-- A call `(name x y)` of a builtin on two numeric literals at the first prompt applies the
primitive registered under `name` to a list of two cells that hold `x` and `y`. -/
theorem session_call_numbers (ord : ArgOrder) (b : String × Prim) (hb : b ∈ globalBindings)
    (x y : Dbl) (n : Nat) :
    ∃ (st : Store) (a1 a2 : Ptr),
      session (n + 30) ord [SExpr.list [SExpr.sym b.1, SExpr.ofDbl x, SExpr.ofDbl y]]
          = callPrim b.2 (argStore st a1 a2) (st.size + 2) GLOBAL_ENV ∧
        st.read a1 = Cell.number x ∧ st.read a2 = Cell.number y ∧
        car (argStore st a1 a2) (st.size + 2) = a1 ∧
        cadr (argStore st a1 a2) (st.size + 2) = a2 ∧ Keeps st (argStore st a1 a2) ∧
        a1 ≤ st.size ∧ a2 ≤ st.size := by
  have hsz := globalHeap_size
  obtain ⟨hk, hr⟩ := Store.read_append globalHeap
    [Cell.symbol b.1, Cell.number x, Cell.number y,
      Cell.cons (globalHeap.size + 3) nil, Cell.cons (globalHeap.size + 2) (globalHeap.size + 4),
      Cell.cons (globalHeap.size + 1) (globalHeap.size + 5)]
  have hname : b.1 ∉ keywords := globalBindings_not_keywords b hb
  obtain ⟨f, hlook, hf⟩ := global_lookup _ hk b hb (globalHeap.size + 1) (hr 0) (n + 28)
    (by omega)
  have hs2 : (⟨globalHeap.cells ++ [Cell.symbol b.1, Cell.number x, Cell.number y,
      Cell.cons (globalHeap.size + 3) nil, Cell.cons (globalHeap.size + 2) (globalHeap.size + 4),
      Cell.cons (globalHeap.size + 1) (globalHeap.size + 5)]⟩ : Store).size
        = globalHeap.size + 6 := by
    simp [Store.size]
  refine ⟨_, globalHeap.size + 2, globalHeap.size + 3, ?_, hr 1, hr 2, ?_, ?_, ?_, ?_, ?_⟩
  · rw [session_single, build_call2]
    exact eval_call_numbers (n + 25) ord _ _ _ _ _ _ _ _ f b.1 b.2 x y (hr 5) (hr 0) hname
      (hr 4) (hr 3) (hr 1) (hr 2) hlook hf
  · exact (argStore_read _ _ _).2.2.2.1
  · exact (argStore_read _ _ _).2.2.2.2
  · exact (argStore_read _ _ _).1
  · rw [hs2]; exact Nat.add_le_add_left (by decide) _
  · rw [hs2]; exact Nat.add_le_add_left (by decide) _

/-! ## Division, remainder, comparison -/

theorem divide_numbers (st : Store) (a b : Ptr) (x y : Dbl) (ha : st.read a = Cell.number x)
    (hb : st.read b = Cell.number y) :
    divide st a b = if Dbl.eqb y (Dbl.fin 0) then make_symbol st "ERROR:DIVISION_BY_ZERO"
      else make_number st (Dbl.div x y) := by
  simp [divide, ha, hb]

theorem mod_numbers (st : Store) (a b : Ptr) (x y : Dbl) (ha : st.read a = Cell.number x)
    (hb : st.read b = Cell.number y) :
    mod st a b = if Dbl.eqb y (Dbl.fin 0) then Res.ofPair (make_symbol st "ERROR:DIVISION_BY_ZERO")
      else
        match Dbl.toInt x, Dbl.toInt y with
        | some i, some j =>
          match Dbl.intRem i j with
          | some r => Res.ofPair (make_number st (Dbl.ofInt r))
          | none => Res.fault
        | _, _ => Res.fault := by
  unfold mod
  rw [ha, hb] <;> rfl

theorem Dbl.eqb_zero_iff (y : Dbl) : Dbl.eqb y (Dbl.fin 0) = true ↔ y = Dbl.fin 0 := by
  cases y <;> simp [Dbl.eqb]

/-- The cast `(int)q` of a double strictly between `-1` and `1` is `0`. -/
theorem Dbl.toInt_small (q : ℚ) (h1 : -1 < q) (h2 : q < 1) :
    Dbl.toInt (Dbl.fin q) = some 0 := by
  have hden : (0 : ℚ) < q.den := by exact_mod_cast q.den_pos
  have hq := Rat.num_div_den q
  have hlt : q.num < q.den := by
    have : (q.num : ℚ) / q.den < 1 := by rw [hq]; exact h2
    rw [div_lt_one hden] at this
    exact_mod_cast this
  have hgt : -(q.den : Int) < q.num := by
    have : -1 < (q.num : ℚ) / q.den := by rw [hq]; exact h1
    rw [lt_div_iff₀ hden] at this
    have h3 : -(q.den : ℚ) < q.num := by linarith
    exact_mod_cast h3
  have ht : Int.tdiv q.num q.den = 0 := by
    by_cases hn : 0 ≤ q.num
    · exact Int.tdiv_eq_zero_of_lt hn hlt
    · have hm : 0 ≤ -q.num := by omega
      have := Int.tdiv_eq_zero_of_lt hm (by omega : -q.num < (q.den : Int))
      rw [Int.neg_tdiv] at this
      omega
  simp [Dbl.toInt, ht, Dbl.INT_MIN, Dbl.INT_MAX]

/-- C11: on two Numbers, `divide` and `mod` return the symbol `ERROR:DIVISION_BY_ZERO` if and
only if the divisor is zero (on another divisor `mod` returns a Number or does not return),
and `divide` on a divisor other than zero returns the Number `a / b` of C, which for finite
operands is the double nearest to the quotient; for every numeric literal `a`, the
expression `(/ a 0)` at the first prompt evaluates to that symbol under either order of
argument evaluation; so does the text `(/ 10 0)`; `(/ 10 4)` evaluates to `5/2`, and
`(/ 1 3)` to the double nearest to one third, `6004799503160661 / 2 ^ 54`. -/
theorem division_by_zero_sentinel :
    (∀ (st : Store) (a b : Ptr) (x y : Dbl),
      st.read a = Cell.number x → st.read b = Cell.number y →
        ((Res.ofPair (divide st a b)).cell = some (Cell.symbol "ERROR:DIVISION_BY_ZERO")
            ↔ y = Dbl.fin 0) ∧
        ((mod st a b).cell = some (Cell.symbol "ERROR:DIVISION_BY_ZERO") ↔ y = Dbl.fin 0) ∧
        (y ≠ Dbl.fin 0 →
          (Res.ofPair (divide st a b)).cell = some (Cell.number (Dbl.div x y)))) ∧
    (∀ p q : ℚ, q ≠ 0 → Dbl.div (Dbl.fin p) (Dbl.fin q) = Dbl.round (p / q)) ∧
    (∀ (x : Dbl) (ord : ArgOrder),
      (session 50 ord [SExpr.list [SExpr.sym "/", SExpr.ofDbl x, SExpr.num 0]]).cell
        = some (Cell.symbol "ERROR:DIVISION_BY_ZERO")) ∧
    (∀ ord : ArgOrder,
      (session 50 ord [SExpr.list [SExpr.sym "/", SExpr.num 10, SExpr.num 4]]).cell
        = some (Cell.number (Dbl.fin (5 / 2)))) ∧
    (∀ ord : ArgOrder,
      (session 50 ord [SExpr.list [SExpr.sym "/", SExpr.num 1, SExpr.num 3]]).cell
        = some (Cell.number (Dbl.fin (6004799503160661 / 18014398509481984)))) ∧
    (∀ ordR ord : ArgOrder,
      (run 50 ordR ord ["(/ 10 0)"]).cell = some (Cell.symbol "ERROR:DIVISION_BY_ZERO")) := by
  refine ⟨?_, ?_, ?_, ?_, ?_, ?_⟩
  · intro st a b x y ha hb
    by_cases hz : Dbl.eqb y (Dbl.fin 0) = true
    · have hy := (Dbl.eqb_zero_iff y).mp hz
      have hd : divide st a b = make_symbol st "ERROR:DIVISION_BY_ZERO" := by
        rw [divide_numbers st a b x y ha hb, if_pos hz]
      have hm : mod st a b = Res.ofPair (make_symbol st "ERROR:DIVISION_BY_ZERO") := by
        rw [mod_numbers st a b x y ha hb, if_pos hz]
      rw [hd, hm]
      simp [hy, Res.cell_ofPair, make_symbol_read]
    · have hy : y ≠ Dbl.fin 0 := fun h => hz ((Dbl.eqb_zero_iff y).mpr h)
      have hd : divide st a b = make_number st (Dbl.div x y) := by
        rw [divide_numbers st a b x y ha hb, if_neg hz]
      have hm : (mod st a b).cell ≠ some (Cell.symbol "ERROR:DIVISION_BY_ZERO") := by
        rw [mod_numbers st a b x y ha hb, if_neg hz]
        cases Dbl.toInt x with
        | none => simp [Res.cell]
        | some i =>
          cases Dbl.toInt y with
          | none => simp [Res.cell]
          | some j =>
            cases hr : Dbl.intRem i j with
            | none => simp [hr, Res.cell]
            | some r => simp [hr, Res.cell_ofPair, make_number_read]
      rw [hd]
      simp [hy, Res.cell_ofPair, make_number_read, hm]
  · intro p q hq
    simp only [Dbl.div, if_neg hq]
  · intro x ord
    obtain ⟨st, a1, a2, hs, h1, h2, hcar, hcadr, hk, ha1, ha2⟩ :=
      session_call_numbers ord ("/", Prim.prim_div) (by decide) x (Dbl.fin 0) 20
    have hs2 : session 50 ord [SExpr.list [SExpr.sym "/", SExpr.ofDbl x, SExpr.num 0]]
        = callPrim Prim.prim_div (argStore st a1 a2) (st.size + 2) GLOBAL_ENV := hs
    rw [hs2, callPrim, hcar, hcadr,
      divide_numbers _ a1 a2 x (Dbl.fin 0) (by rw [hk.2 a1 ha1, h1]) (by rw [hk.2 a2 ha2, h2])]
    simp [Dbl.eqb, Res.cell_ofPair, make_symbol_read]
  · intro ord
    cases ord <;> decide!
  · intro ord
    cases ord <;> decide!
  · intro ordR ord
    cases ordR <;> cases ord <;> decide!

/-- C11, at concrete inputs: the numbers `3` and `1` of `sampleHeap` divided by each other
(the quotient of `1` by `3` is the double nearest to one third), and `(/ 7 0)` at the first
prompt. -/
theorem division_by_zero_sentinel_witness :
    (Res.ofPair (divide sampleHeap 1 11)).cell
        = some (Cell.number (Dbl.div (Dbl.fin 3) (Dbl.fin 1))) ∧
      (Res.ofPair (divide sampleHeap 11 1)).cell
        = some (Cell.number (Dbl.div (Dbl.fin 1) (Dbl.fin 3))) ∧
      Dbl.div (Dbl.fin 1) (Dbl.fin 3) = Dbl.round (1 / 3) ∧
      Dbl.round (1 / 3) = Dbl.fin (6004799503160661 / 18014398509481984) ∧
      Dbl.div (Dbl.fin 3) (Dbl.fin 1) = Dbl.fin 3 ∧
      (session 50 ArgOrder.rightFirst
        [SExpr.list [SExpr.sym "/", SExpr.ofDbl (Dbl.fin 7), SExpr.num 0]]).cell
          = some (Cell.symbol "ERROR:DIVISION_BY_ZERO") :=
  ⟨(division_by_zero_sentinel.1 sampleHeap 1 11 (Dbl.fin 3) (Dbl.fin 1) rfl rfl).2.2
      (by decide),
   (division_by_zero_sentinel.1 sampleHeap 11 1 (Dbl.fin 1) (Dbl.fin 3) rfl rfl).2.2
      (by decide),
   division_by_zero_sentinel.2.1 1 3 (by decide),
   by decide!, by decide!,
   division_by_zero_sentinel.2.2.1 (Dbl.fin 7) ArgOrder.rightFirst⟩

/-- C12 fails: a divisor strictly between `-1` and `1` other than zero passes the test
against zero and is truncated to the `int` zero, so the remainder that `mod` then computes
is undefined; `(% 17 0.5)` at the first prompt does not return, nor does
`(% -2147483648 -1)`, whose quotient overflows.  Where the truncated divisor is not zero
and the quotient fits, `mod` returns the remainder with the sign of the dividend:
`(% 17 5)` is `2` and `(% -17 5)` is `-2`. -/
theorem mod_truncated_divisor_zero :
    (∀ (st : Store) (a b : Ptr) (x : Dbl) (q : ℚ),
      st.read a = Cell.number x → st.read b = Cell.number (Dbl.fin q) →
        q ≠ 0 → -1 < q → q < 1 → mod st a b = Res.fault) ∧
    (∀ (st : Store) (a b : Ptr) (x y : Dbl) (i j : Int),
      st.read a = Cell.number x → st.read b = Cell.number y →
        Dbl.toInt x = some i → Dbl.toInt y = some j → j ≠ 0 →
        ¬ (i = Dbl.INT_MIN ∧ j = -1) →
        (mod st a b).cell = some (Cell.number (Dbl.fin (Int.tmod i j)))) ∧
    (∀ ord : ArgOrder,
      session 50 ord [SExpr.list [SExpr.sym "%", SExpr.num 17, SExpr.num (1 / 2)]]
          = Res.fault ∧
        session 50 ord [SExpr.list [SExpr.sym "%", SExpr.num (-2147483648), SExpr.num (-1)]]
          = Res.fault ∧
        (session 50 ord [SExpr.list [SExpr.sym "%", SExpr.num 17, SExpr.num 5]]).cell
          = some (Cell.number (Dbl.fin 2)) ∧
        (session 50 ord [SExpr.list [SExpr.sym "%", SExpr.num (-17), SExpr.num 5]]).cell
          = some (Cell.number (Dbl.fin (-2)))) ∧
    (∀ ordR ord : ArgOrder,
      run 50 ordR ord ["(% 17 0.5)"] = Res.fault ∧
        (run 50 ordR ord ["(% 17 5)"]).cell = some (Cell.number (Dbl.fin 2))) := by
  refine ⟨?_, ?_, ?_, ?_⟩
  · intro st a b x q ha hb hq h1 h2
    have hz : Dbl.eqb (Dbl.fin q) (Dbl.fin 0) = false := by simp [Dbl.eqb, hq]
    rw [mod_numbers st a b x (Dbl.fin q) ha hb, hz]
    simp only [Bool.false_eq_true, if_false, Dbl.toInt_small q h1 h2]
    cases Dbl.toInt x with
    | none => rfl
    | some i => simp [Dbl.intRem]
  · intro st a b x y i j ha hb hi hj hj0 hov
    have hz : Dbl.eqb y (Dbl.fin 0) = false := by
      cases y with
      | fin q =>
        simp only [Dbl.eqb, decide_eq_false_iff_not]
        intro hq
        rw [hq] at hj
        simp [Dbl.toInt, Dbl.INT_MIN, Dbl.INT_MAX] at hj
        exact hj0 hj.symm
      | inf s => rfl
      | nan => rfl
    rw [mod_numbers st a b x y ha hb, hz]
    simp [hi, hj, Dbl.intRem, hj0, hov, Res.cell_ofPair, make_number_read, Dbl.ofInt]
  · intro ord
    cases ord <;> decide!
  · intro ordR ord
    cases ordR <;> cases ord <;> decide!

/-- C13 fails on its remark about `lte` and `gt`: with NaN as an operand every comparison
is false, so `lte` and `gt` both return Nil; at the first prompt the texts `(<= nan 1)` and
`(> nan 1)`, in which `strtod` reads the token `nan` as NaN, both evaluate to Nil. -/
theorem lte_gt_both_nil_on_nan :
    sampleHeap.read 10 = Cell.number Dbl.nan ∧
      sampleHeap.read 11 = Cell.number (Dbl.fin 1) ∧
      lte sampleHeap 10 11 = (nil, sampleHeap) ∧ gt sampleHeap 10 11 = (nil, sampleHeap) ∧
      (∀ ord : ArgOrder,
        (session 50 ord [SExpr.list [SExpr.sym "<=", SExpr.nan, SExpr.num 1]]).cell
            = some Cell.nil ∧
          (session 50 ord [SExpr.list [SExpr.sym ">", SExpr.nan, SExpr.num 1]]).cell
            = some Cell.nil) ∧
      (∀ ordR ord : ArgOrder,
        (parse ordR Store.empty "nan".toList).cell = some (Cell.number Dbl.nan) ∧
          (run 50 ordR ord ["(<= nan 1)"]).cell = some Cell.nil ∧
          (run 50 ordR ord ["(> nan 1)"]).cell = some Cell.nil) := by
  refine ⟨by decide!, by decide!, by decide!, by decide!, ?_, ?_⟩
  · intro ord
    cases ord <;> decide!
  · intro ordR ord
    cases ordR <;> cases ord <;> decide!

/-- C13, amended: on two Numbers `lt`, `gt`, `lte`, `gte` return the symbol `T` when the C
comparison `<`, `>`, `<=`, `>=` of the two doubles holds and Nil otherwise; when neither
operand is NaN, `lte` is truthy exactly when `gt` is Nil; `prim_eq` returns the symbol `T`
when `eq` holds of its two arguments and Nil otherwise; `not` returns the symbol `T` on Nil
and Nil on every other value. -/
theorem comparison_results (st : Store) (a b : Ptr) (x y : Dbl)
    (ha : st.read a = Cell.number x) (hb : st.read b = Cell.number y) :
    (Res.ofPair (lt st a b)).cell = some (if Dbl.ltb x y then Cell.symbol "T" else Cell.nil) ∧
    (Res.ofPair (gt st a b)).cell = some (if Dbl.ltb y x then Cell.symbol "T" else Cell.nil) ∧
    (Res.ofPair (lte st a b)).cell
      = some (if Dbl.ltb x y || Dbl.eqb x y then Cell.symbol "T" else Cell.nil) ∧
    (Res.ofPair (gte st a b)).cell
      = some (if Dbl.ltb y x || Dbl.eqb y x then Cell.symbol "T" else Cell.nil) ∧
    (∀ p q : ℚ, x = Dbl.fin p → y = Dbl.fin q →
      (Dbl.ltb x y = true ↔ p < q) ∧ (Dbl.eqb x y = true ↔ p = q)) ∧
    (x ≠ Dbl.nan → y ≠ Dbl.nan →
      (isTrueSexp (lte st a b).2 (lte st a b).1 = true
        ↔ isNil (gt st a b).2 (gt st a b).1 = true)) ∧
    (∀ (args env : Ptr),
      (callPrim Prim.prim_eq st args env).cell
        = some (if eq st (car st args) (cadr st args) then Cell.symbol "T" else Cell.nil)) ∧
    (∀ v : Ptr,
      (Res.ofPair (not st v)).cell
        = some (if st.read v = Cell.nil then Cell.symbol "T" else Cell.nil)) := by
  have hlt : lt st a b = if Dbl.ltb x y then make_symbol st "T" else (nil, st) := by
    simp [lt, ha, hb]
  have hgt : gt st a b = if Dbl.ltb y x then make_symbol st "T" else (nil, st) := by
    simp [gt, ha, hb, Dbl.gtb]
  have hlte : lte st a b
      = if Dbl.ltb x y || Dbl.eqb x y then make_symbol st "T" else (nil, st) := by
    simp [lte, ha, hb, Dbl.leb]
  have hgte : gte st a b
      = if Dbl.ltb y x || Dbl.eqb y x then make_symbol st "T" else (nil, st) := by
    simp [gte, ha, hb, Dbl.geb, Dbl.leb]
  have hsym : isNil (make_symbol st "T").2 (make_symbol st "T").1 = false := by
    rw [isNil_eq_false_iff, make_symbol_read]; simp
  refine ⟨?_, ?_, ?_, ?_, ?_, ?_, ?_, ?_⟩
  · rw [hlt]; split <;> simp [Res.cell_ofPair, make_symbol_read, read_nil]
  · rw [hgt]; split <;> simp [Res.cell_ofPair, make_symbol_read, read_nil]
  · rw [hlte]; split <;> simp [Res.cell_ofPair, make_symbol_read, read_nil]
  · rw [hgte]; split <;> simp [Res.cell_ofPair, make_symbol_read, read_nil]
  · intro p q hx hy
    subst hx hy
    simp [Dbl.ltb, Dbl.eqb]
  · intro hx hy
    rw [hlte, hgt]
    have key : (Dbl.ltb x y || Dbl.eqb x y) = !Dbl.ltb y x := by
      cases x with
      | nan => exact absurd rfl hx
      | fin p =>
        cases y with
        | nan => exact absurd rfl hy
        | fin q =>
          simp only [Dbl.ltb, Dbl.eqb]
          rcases lt_trichotomy p q with h | h | h
          · simp [h, not_lt_of_lt h]
          · simp [h]
          · simp [h, not_lt_of_lt h, ne_of_gt h]
        | inf t => cases t <;> simp [Dbl.ltb, Dbl.eqb]
      | inf s =>
        cases y with
        | nan => exact absurd rfl hy
        | fin q => cases s <;> simp [Dbl.ltb, Dbl.eqb]
        | inf t => cases s <;> cases t <;> simp [Dbl.ltb, Dbl.eqb]
    rw [key]
    cases Dbl.ltb y x <;> simp [isTrueSexp, hsym, isNil_nil]
  · intro args env
    simp only [callPrim]
    by_cases he : eq st (car st args) (cadr st args) = true
    · rw [if_pos he, if_pos he, Res.cell_ofPair, make_symbol_read]
    · rw [if_neg he, if_neg he]
      rfl
  · intro v
    simp only [not]
    by_cases hv : st.read v = Cell.nil
    · simp [(isNil_iff st v).mpr hv, hv, Res.cell_ofPair, make_symbol_read]
    · have : isNil st v = false := (isNil_eq_false_iff st v).mpr hv
      simp [this, hv, Res.cell_ofPair, read_nil]

/-- C13, amended, on the numbers `3` and `1` of `sampleHeap`: `(< 3 1)` is Nil, `(> 3 1)` is
`T`, and `lte` is truthy exactly when `gt` is Nil. -/
theorem comparison_results_witness :
    (Res.ofPair (lt sampleHeap 1 11)).cell = some Cell.nil ∧
      (Res.ofPair (gt sampleHeap 1 11)).cell = some (Cell.symbol "T") ∧
      (isTrueSexp (lte sampleHeap 1 11).2 (lte sampleHeap 1 11).1 = true
        ↔ isNil (gt sampleHeap 1 11).2 (gt sampleHeap 1 11).1 = true) :=
  ⟨(comparison_results sampleHeap 1 11 (Dbl.fin 3) (Dbl.fin 1) rfl rfl).1,
   (comparison_results sampleHeap 1 11 (Dbl.fin 3) (Dbl.fin 1) rfl rfl).2.1,
   (comparison_results sampleHeap 1 11 (Dbl.fin 3) (Dbl.fin 1) rfl rfl).2.2.2.2.2.1
     (by decide) (by decide)⟩

/-! ## Accessors -/

theorem IsList.car_cdr (st : Store) (p : Ptr) (xs : List Ptr) (h : IsList st p xs) :
    car st p = xs.headD nil ∧ IsList st (cdr st p) xs.tail := by
  cases xs with
  | nil =>
    rw [IsList.nil_iff] at h
    subst h
    exact ⟨rfl, rfl⟩
  | cons x xs =>
    rw [IsList.cons_iff] at h
    exact ⟨h.2.1, h.2.2.2⟩

/-- C20: `car` and `cdr` of a fresh pair return its two parts; `car` and `cdr` of a value
that is not a Pair return Nil; `cadr`, `caddr` and `cadddr` of a well-formed list return
its second, third and fourth element, or Nil when the list is shorter; the builtins `car`,
`cdr` and `cons` apply the same functions to their evaluated arguments, and at the first
prompt `(car '(a b c))` is `a`, `(cdr '(a b c))` is `(b c)` and `(cons 1 '(2 3))` is
`(1 2 3)`. -/
theorem accessors_fail_softly (st : Store) :
    (∀ a b : Ptr,
      car (cons st a b).2 (cons st a b).1 = a ∧ cdr (cons st a b).2 (cons st a b).1 = b) ∧
    (∀ v : Ptr, isCons st v = false → car st v = nil ∧ cdr st v = nil) ∧
    (∀ (p : Ptr) (xs : List Ptr), IsList st p xs →
      car st p = xs.getD 0 nil ∧ cadr st p = xs.getD 1 nil ∧ caddr st p = xs.getD 2 nil ∧
        cadddr st p = xs.getD 3 nil) ∧
    (∀ args env : Ptr,
      callPrim Prim.prim_car st args env = Res.ok (car st (car st args)) st ∧
        callPrim Prim.prim_cdr st args env = Res.ok (cdr st (car st args)) st ∧
        callPrim Prim.prim_cons st args env
          = Res.ofPair (cons st (car st args) (cadr st args))) ∧
    (∀ ordR ord : ArgOrder,
      (run 60 ordR ord ["(car '(a b c))"]).Yields (SExpr.sym "a") ∧
        (run 60 ordR ord ["(cdr '(a b c))"]).Yields
          (SExpr.list [SExpr.sym "b", SExpr.sym "c"]) ∧
        (run 60 ordR ord ["(cons 1 '(2 3))"]).Yields
          (SExpr.list [SExpr.num 1, SExpr.num 2, SExpr.num 3])) := by
  refine ⟨?_, ?_, ?_, ?_, ?_⟩
  · intro a b
    have h : (cons st a b).2.read (cons st a b).1 = Cell.cons a b := Store.read_alloc_new st _
    simp [car, cdr, h]
  · intro v hv
    cases hr : st.read v <;> simp_all [isCons, car, cdr]
  · intro p xs h
    obtain ⟨h0, t0⟩ := IsList.car_cdr st p xs h
    obtain ⟨h1, t1⟩ := IsList.car_cdr st _ _ t0
    obtain ⟨h2, t2⟩ := IsList.car_cdr st _ _ t1
    obtain ⟨h3, _⟩ := IsList.car_cdr st _ _ t2
    refine ⟨?_, ?_, ?_, ?_⟩
    · rw [h0]; cases xs <;> rfl
    · rw [cadr, h1]
      rcases xs with _ | ⟨a, _ | ⟨b, l⟩⟩ <;> rfl
    · rw [caddr, h2]
      rcases xs with _ | ⟨a, _ | ⟨b, _ | ⟨c, l⟩⟩⟩ <;> rfl
    · rw [cadddr, h3]
      rcases xs with _ | ⟨a, _ | ⟨b, _ | ⟨c, _ | ⟨d, l⟩⟩⟩⟩ <;> rfl
  · intro args env
    exact ⟨rfl, rfl, rfl⟩
  · intro ordR ord
    cases ordR <;> cases ord <;> decide!

/-- C20, on the list `(set x 5)` of `sampleSetHeap`, which has three elements, and on the
number in cell 19. -/
theorem accessors_fail_softly_witness :
    (car sampleSetHeap 19 = nil ∧ cdr sampleSetHeap 19 = nil) ∧
      (car sampleSetHeap 22 = 17 ∧ cadr sampleSetHeap 22 = 18 ∧ caddr sampleSetHeap 22 = 19 ∧
        cadddr sampleSetHeap 22 = nil) :=
  ⟨(accessors_fail_softly sampleSetHeap).2.1 19 (by decide),
   (accessors_fail_softly sampleSetHeap).2.2.1 22 [17, 18, 19] (by decide)⟩

/-! ## Calls of a value that is not a procedure -/

/-- A list whose head is not one of the eight keywords is a call. -/
theorem classify_call (st : Store) (p hd tl : Ptr) (h : st.read p = Cell.cons hd tl)
    (hk : ∀ name, st.read hd = Cell.symbol name → name ∉ keywords) :
    classify st p = Form.call := by
  cases hr : st.read hd with
  | symbol name => exact classify_call_symbol st p hd tl name h hr (hk name hr)
  | _ => exact classify_call_other st p hd tl h (by simp [isSymbol, hr])

theorem apply_other (n : Nat) (ord : ArgOrder) (st : Store) (f args env : Ptr)
    (hl : isLambda st f = false) (hp : isPrimitive st f = false) :
    apply (n + 1) ord st f args env = Res.ofPair (make_symbol st "ERROR:NOT_A_FUNCTION") := by
  rw [apply_succ]
  cases hr : st.read f <;> simp_all [isLambda, isPrimitive]

/-- C18: `apply` on a value that is neither a Closure nor a Builtin returns a fresh symbol
`ERROR:NOT_A_FUNCTION`, whatever the arguments and the environment; and a list whose head is
not a special-form keyword and evaluates to such a value evaluates to that symbol, in the
heap that the evaluation of the argument expressions leaves. -/
theorem apply_non_procedure (n : Nat) (ord : ArgOrder) (st st1 st2 : Store)
    (sexp hd tl f argv env : Ptr)
    (hl : isLambda st1 f = false) (hp : isPrimitive st1 f = false) (hf : f ≤ st1.size)
    (hE : isCons st env = true ∨ env = nil)
    (hsexp : st.read sexp = Cell.cons hd tl)
    (hhd : ∀ name, st.read hd = Cell.symbol name → name ∉ keywords)
    (hhead : eval n ord st hd env = Res.ok f st1)
    (hargs : eval_list n ord st1 (cdr st1 sexp) env = Res.ok argv st2) :
    (∀ (m : Nat) (args e : Ptr),
      apply (m + 1) ord st1 f args e = Res.ofPair (make_symbol st1 "ERROR:NOT_A_FUNCTION") ∧
        (apply (m + 1) ord st1 f args e).cell = some (Cell.symbol "ERROR:NOT_A_FUNCTION")) ∧
      eval (n + 1) ord st sexp env = Res.ofPair (make_symbol st2 "ERROR:NOT_A_FUNCTION") ∧
      (eval (n + 1) ord st sexp env).cell = some (Cell.symbol "ERROR:NOT_A_FUNCTION") := by
  obtain ⟨k, rfl⟩ : ∃ k, n = k + 1 := by
    cases n with
    | zero => rw [eval.eq_1] at hhead; cases hhead
    | succ k => exact ⟨k, rfl⟩
  have ke1 := eval_keeps hhead
  have ke2 : KeepsExcept st1 st2 env := (eval_framed_all (k + 1)).2.1 ord st1 _ env _ _ hargs
  have hread : st2.read f = st1.read f ∨ isCons st2 f = true := by
    by_cases hfe : f = env
    · rcases hE with hE | hE
      · right
        rw [hfe]
        exact ke2.2.2 (ke1.2.2 hE)
      · left
        rw [hfe, hE]
        rfl
    · left
      exact ke2.2.1 f hf hfe
  have hl2 : isLambda st2 f = false := by
    rcases hread with h | h
    · simpa [isLambda, h] using hl
    · rw [isCons_iff] at h
      simp [isLambda, h]
  have hp2 : isPrimitive st2 f = false := by
    rcases hread with h | h
    · simpa [isPrimitive, h] using hp
    · rw [isCons_iff] at h
      simp [isPrimitive, h]
  obtain ⟨_, _, _, _, _, hcar, _⟩ := classify_pair st sexp hd tl hsexp
  have he : eval (k + 2) ord st sexp env
      = Res.ofPair (make_symbol st2 "ERROR:NOT_A_FUNCTION") := by
    rw [eval_succ, classify_call st sexp hd tl hsexp hhd]
    simp only [hcar, hhead, Res.bind, hargs]
    exact apply_other k ord st2 f argv env hl2 hp2
  refine ⟨fun m args e => ⟨apply_other m ord st1 f args e hl hp, ?_⟩, he, ?_⟩
  · rw [apply_other m ord st1 f args e hl hp, Res.cell_ofPair, make_symbol_read]
  · rw [he, Res.cell_ofPair, make_symbol_read]

/-- C18, on the expression `(7 y)` of `sampleCallHeap` in the inner environment of
`sampleEnvHeap`; and at the first prompt on `(5 1)`, on `(foo 1)` with `foo` unbound, on
`(() 1)`, and on `(5 (set x 1))` followed by `x`, which shows that the argument was
evaluated. -/
theorem apply_non_procedure_witness :
    (eval 6 ArgOrder.leftFirst sampleCallHeap 20 16).cell
        = some (Cell.symbol "ERROR:NOT_A_FUNCTION") ∧
      (∀ ord : ArgOrder,
        (session 50 ord [SExpr.list [SExpr.num 5, SExpr.num 1]]).cell
            = some (Cell.symbol "ERROR:NOT_A_FUNCTION") ∧
          (session 50 ord [SExpr.list [SExpr.sym "foo", SExpr.num 1]]).cell
            = some (Cell.symbol "ERROR:NOT_A_FUNCTION") ∧
          (session 50 ord [SExpr.list [SExpr.nil, SExpr.num 1]]).cell
            = some (Cell.symbol "ERROR:NOT_A_FUNCTION") ∧
          (session 50 ord
            [SExpr.list [SExpr.num 5, SExpr.list [SExpr.sym "set", SExpr.sym "x", SExpr.num 1]],
              SExpr.sym "x"]).cell = some (Cell.number (Dbl.fin 1))) :=
  ⟨(apply_non_procedure 5 ArgOrder.leftFirst sampleCallHeap sampleCallHeap
      (cons sampleCallHeap 4 0).2 20 17 19 17 21 16 (by decide) (by decide) (by decide)
      (Or.inl (by decide)) (by decide) (fun _ h => by cases h) (by decide!)
      (by decide!)).2.2,
   fun ord => by cases ord <;> decide!⟩

/-! ## Conditionals -/

/-- The elements of a form `(k e1 e2 ...)` read in a heap that keeps every cell but the one
of the environment, when that one is not a cell of the form. -/
theorem form_args_keep {st st1 : Store} {env : Ptr} (hk : KeepsExcept st st1 env)
    (sexp hd tl e1 tl2 e2 tl3 : Ptr)
    (hsexp : st.read sexp = Cell.cons hd tl) (htl : st.read tl = Cell.cons e1 tl2)
    (htl2 : st.read tl2 = Cell.cons e2 tl3)
    (h0 : sexp ≠ env) (h1 : tl ≠ env) (h2 : tl2 ≠ env) :
    cadr st sexp = e1 ∧ caddr st1 sexp = e2 ∧ cdr st1 (cdr st1 (cdr st1 sexp)) = tl3 ∧
      (∀ e3 rest, st.read tl3 = Cell.cons e3 rest → tl3 ≠ env → cadddr st1 sexp = e3) := by
  have s0 : sexp ≤ st.size := isCons_le_size st sexp (by simp [isCons, hsexp])
  have s1 : tl ≤ st.size := isCons_le_size st tl (by simp [isCons, htl])
  have s2 : tl2 ≤ st.size := isCons_le_size st tl2 (by simp [isCons, htl2])
  have r0 : st1.read sexp = Cell.cons hd tl := by rw [hk.2.1 sexp s0 h0, hsexp]
  have r1 : st1.read tl = Cell.cons e1 tl2 := by rw [hk.2.1 tl s1 h1, htl]
  have r2 : st1.read tl2 = Cell.cons e2 tl3 := by rw [hk.2.1 tl2 s2 h2, htl2]
  have d0 : cdr st1 sexp = tl := by simp [cdr, r0]
  have d1 : cdr st1 tl = tl2 := by simp [cdr, r1]
  have d2 : cdr st1 tl2 = tl3 := by simp [cdr, r2]
  refine ⟨by simp [cadr, car, cdr, hsexp, htl], ?_, ?_, ?_⟩
  · rw [caddr, d0, d1]
    simp [car, r2]
  · rw [d0, d1, d2]
  · intro e3 rest htl3 h3
    have s3 : tl3 ≤ st.size := isCons_le_size st tl3 (by simp [isCons, htl3])
    rw [cadddr, d0, d1, d2, car, hk.2.1 tl3 s3 h3, htl3]

/-- C14: evaluating `(if t a b)` evaluates `t`; when its value is not Nil the result is
the result of evaluating `a` in the heap that `t` left, and when it is Nil the result is the
result of evaluating `b` in that heap: one branch is evaluated, the other is not, so the
heap and the bindings at the end are those left by `t` and the branch taken. -/
theorem if_spec (n : Nat) (ord : ArgOrder) (st st1 : Store)
    (sexp hd tl tl2 tl3 t a b rest env v : Ptr)
    (hsexp : st.read sexp = Cell.cons hd tl) (hhd : st.read hd = Cell.symbol "if")
    (htl : st.read tl = Cell.cons t tl2) (htl2 : st.read tl2 = Cell.cons a tl3)
    (htl3 : st.read tl3 = Cell.cons b rest)
    (hne : env ∉ [sexp, tl, tl2, tl3])
    (ht : eval n ord st t env = Res.ok v st1) :
    (st1.read v ≠ Cell.nil → eval (n + 1) ord st sexp env = eval n ord st1 a env) ∧
      (st1.read v = Cell.nil → eval (n + 1) ord st sexp env = eval n ord st1 b env) := by
  simp only [List.mem_cons, List.mem_singleton, List.not_mem_nil, or_false, not_or] at hne
  obtain ⟨n0, n1, n2, n3⟩ := hne
  obtain ⟨c1, c2, _, c3⟩ := form_args_keep (eval_keeps ht) sexp hd tl t tl2 a tl3 hsexp htl htl2
    (Ne.symm n0) (Ne.symm n1) (Ne.symm n2)
  have c3 := c3 b rest htl3 (Ne.symm n3)
  have he : eval (n + 1) ord st sexp env
      = if isTrueSexp st1 v then eval n ord st1 a env else eval n ord st1 b env := by
    rw [eval_succ, classify_if st sexp hd tl hsexp hhd]
    simp only [c1, ht, Res.bind, c2, c3]
  constructor
  · intro hv
    rw [he, isTrueSexp, (isNil_eq_false_iff st1 v).mpr hv]
    rfl
  · intro hv
    rw [he, isTrueSexp, (isNil_iff st1 v).mpr hv]
    rfl

/-- C14, on `(if x y z)` in the inner environment of `sampleEnvHeap`, where `x` is `1`: the
result is the value of `y`.  At the first prompt the number `0`, the empty string, an unbound
symbol and the result of `(/ 1 0)` all select the first branch, Nil selects the second, and
the binding of the branch that is not taken is not made. -/
theorem if_spec_witness :
    eval 6 ArgOrder.leftFirst sampleIfHeap 24 16 = eval 5 ArgOrder.leftFirst sampleIfHeap 19 16 ∧
      (∀ ord : ArgOrder,
        (session 50 ord [ifSets (SExpr.num 0), SExpr.sym "x"]).cell
            = some (Cell.number (Dbl.fin 1)) ∧
          (session 50 ord [ifSets (SExpr.num 0), SExpr.sym "y"]).cell
            = some (Cell.symbol "UNDEFINED") ∧
          (session 50 ord [ifSets (SExpr.str ""), SExpr.sym "x"]).cell
            = some (Cell.number (Dbl.fin 1)) ∧
          (session 50 ord [ifSets (SExpr.sym "foo"), SExpr.sym "x"]).cell
            = some (Cell.number (Dbl.fin 1)) ∧
          (session 50 ord
            [ifSets (SExpr.list [SExpr.sym "/", SExpr.num 1, SExpr.num 0]), SExpr.sym "x"]).cell
            = some (Cell.number (Dbl.fin 1)) ∧
          (session 50 ord [ifSets SExpr.nil, SExpr.sym "y"]).cell
            = some (Cell.number (Dbl.fin 2)) ∧
          (session 50 ord [ifSets SExpr.nil, SExpr.sym "x"]).cell
            = some (Cell.symbol "UNDEFINED")) :=
  ⟨(if_spec 5 ArgOrder.leftFirst sampleIfHeap sampleIfHeap 24 17 23 22 21 18 19 20 0 16 2
      (by decide) (by decide) (by decide) (by decide) (by decide) (by decide)
      (by decide!)).1 (by decide),
   fun ord => by cases ord <;> decide!⟩

/-! ## `and` and `or` -/

/-- C16: evaluating `(and a b)` evaluates `a`; when its value is Nil the result is Nil in
the heap that `a` left (`b` is not evaluated), otherwise it is the result of evaluating `b`
in that heap.  Evaluating `(or a b)` evaluates `a`; when its value is not Nil the result is
a fresh symbol `T` in the heap that `a` left (`b` is not evaluated), otherwise it is the
result of evaluating `b` in that heap. -/
theorem and_or_short_circuit (n : Nat) (ord : ArgOrder) (st st1 : Store)
    (sexp hd tl tl2 a b rest env v : Ptr) (k : String)
    (hsexp : st.read sexp = Cell.cons hd tl) (hhd : st.read hd = Cell.symbol k)
    (htl : st.read tl = Cell.cons a tl2) (htl2 : st.read tl2 = Cell.cons b rest)
    (hne : env ∉ [sexp, tl, tl2])
    (ha : eval n ord st a env = Res.ok v st1) :
    (k = "and" →
      (st1.read v = Cell.nil → eval (n + 1) ord st sexp env = Res.ok nil st1) ∧
      (st1.read v ≠ Cell.nil → eval (n + 1) ord st sexp env = eval n ord st1 b env)) ∧
    (k = "or" →
      (st1.read v ≠ Cell.nil →
        eval (n + 1) ord st sexp env = Res.ofPair (make_symbol st1 "T") ∧
          (eval (n + 1) ord st sexp env).cell = some (Cell.symbol "T")) ∧
      (st1.read v = Cell.nil → eval (n + 1) ord st sexp env = eval n ord st1 b env)) := by
  simp only [List.mem_cons, List.mem_singleton, List.not_mem_nil, or_false, not_or] at hne
  obtain ⟨n0, n1, n2⟩ := hne
  obtain ⟨c1, c2, _, _⟩ := form_args_keep (eval_keeps ha) sexp hd tl a tl2 b rest hsexp htl htl2
    (Ne.symm n0) (Ne.symm n1) (Ne.symm n2)
  constructor
  · intro hk
    subst hk
    have he : eval (n + 1) ord st sexp env
        = if isNil st1 v then Res.ok nil st1 else eval n ord st1 b env := by
      rw [eval_succ, classify_and st sexp hd tl hsexp hhd]
      simp only [c1, ha, Res.bind, c2]
    constructor
    · intro hv
      rw [he, (isNil_iff st1 v).mpr hv]
      rfl
    · intro hv
      rw [he, (isNil_eq_false_iff st1 v).mpr hv]
      rfl
  · intro hk
    subst hk
    have he : eval (n + 1) ord st sexp env
        = if !isNil st1 v then Res.ofPair (make_symbol st1 "T") else eval n ord st1 b env := by
      rw [eval_succ, classify_or st sexp hd tl hsexp hhd]
      simp only [c1, ha, Res.bind, c2]
    constructor
    · intro hv
      have : eval (n + 1) ord st sexp env = Res.ofPair (make_symbol st1 "T") := by
        rw [he, (isNil_eq_false_iff st1 v).mpr hv]
        rfl
      exact ⟨this, by rw [this, Res.cell_ofPair, make_symbol_read]⟩
    · intro hv
      rw [he, (isNil_iff st1 v).mpr hv]
      rfl

/-- C16, on `(and x y)` and `(or x y)` in the inner environment of `sampleEnvHeap`, where `x`
is `1` and `y` is `2`: the first is the value of `y`, the second a symbol `T`.  At the first
prompt `(and () (set x 1))` is Nil and leaves `x` unbound, `(and 1 2)` is `2`,
`(or 5 (set x 1))` is `T` and leaves `x` unbound, `(or () 7)` is `7`. -/
theorem and_or_short_circuit_witness :
    eval 6 ArgOrder.leftFirst sampleAndOrHeap 22 16
        = eval 5 ArgOrder.leftFirst sampleAndOrHeap 19 16 ∧
      (eval 6 ArgOrder.leftFirst sampleAndOrHeap 28 16).cell = some (Cell.symbol "T") ∧
      (∀ ord : ArgOrder,
        (session 50 ord [thenSet "and" SExpr.nil]).cell = some Cell.nil ∧
          (session 50 ord [thenSet "and" SExpr.nil, SExpr.sym "x"]).cell
            = some (Cell.symbol "UNDEFINED") ∧
          (session 50 ord [SExpr.list [SExpr.sym "and", SExpr.num 1, SExpr.num 2]]).cell
            = some (Cell.number (Dbl.fin 2)) ∧
          (session 50 ord [thenSet "or" (SExpr.num 5)]).cell = some (Cell.symbol "T") ∧
          (session 50 ord [thenSet "or" (SExpr.num 5), SExpr.sym "x"]).cell
            = some (Cell.symbol "UNDEFINED") ∧
          (session 50 ord [SExpr.list [SExpr.sym "or", SExpr.nil, SExpr.num 7]]).cell
            = some (Cell.number (Dbl.fin 7)) ∧
          (session 50 ord [thenSet "and" (SExpr.num 1), SExpr.sym "x"]).cell
            = some (Cell.number (Dbl.fin 1))) :=
  ⟨((and_or_short_circuit 5 ArgOrder.leftFirst sampleAndOrHeap sampleAndOrHeap
      22 17 21 20 18 19 0 16 2 "and" (by decide) (by decide) (by decide) (by decide)
      (by decide) (by decide!)).1 rfl).2 (by decide),
   (((and_or_short_circuit 5 ArgOrder.leftFirst sampleAndOrHeap sampleAndOrHeap
      28 23 27 26 24 25 0 16 2 "or" (by decide) (by decide) (by decide) (by decide)
      (by decide) (by decide!)).2 rfl).1 (by decide)).2,
   fun ord => by cases ord <;> decide!⟩

/-! ## Arity -/

/-- The scan of a frame selects the value at the position of the first symbol with the
given text, and `NIL` when the value list is too short to have that position. -/
theorem scanLists_at (st : Store) (text : String) :
    ∀ (xs ys : List Ptr) (i : Nat), hasText st text (xs.getD i nil) = true →
      (∀ j, j < i → hasText st text (xs.getD j nil) = false) →
      scanLists st text xs ys = some (ys.getD i nil) := by
  intro xs
  induction xs with
  | nil =>
    intro ys i hi _
    simp [hasText, read_nil] at hi
  | cons x xs ih =>
    intro ys i hi hfirst
    cases i with
    | zero =>
      have hx : hasText st text x = true := hi
      rw [scanLists, if_pos hx]
      cases ys <;> rfl
    | succ i =>
      have hx : hasText st text x = false := hfirst 0 (Nat.succ_pos i)
      rw [scanLists, hx]
      simp only [Bool.false_eq_true, if_false]
      rw [ih ys.tail i hi (fun j hj => hfirst (j + 1) (Nat.succ_lt_succ hj))]
      cases ys <;> rfl

/-- C19 fails for a missing argument: with `x` bound to `5` in the global environment,
which the closure `id` of `(define id (x) x)` captures, the call `(id)` evaluates the body
`x` to Nil, not to `5`; with `x` unbound it evaluates it to Nil, not to the symbol
`UNDEFINED`.  And in `((lambda (x x) x) 1)` the second parameter, which has no argument,
evaluates to `1`, the argument of the first parameter of the same name. -/
theorem missing_argument_reads_nil :
    (session 60 ArgOrder.leftFirst [defineId, callIdNoArg]).cell = some Cell.nil ∧
    ∀ ord : ArgOrder,
      (session 60 ord
        [SExpr.list [SExpr.sym "set", SExpr.sym "x", SExpr.num 5], SExpr.sym "x"]).cell
          = some (Cell.number (Dbl.fin 5)) ∧
        (session 60 ord
          [SExpr.list [SExpr.sym "set", SExpr.sym "x", SExpr.num 5], defineId,
            callIdNoArg]).cell = some Cell.nil ∧
        (session 60 ord [SExpr.sym "x"]).cell = some (Cell.symbol "UNDEFINED") ∧
        (session 60 ord [defineId, callIdNoArg]).cell = some Cell.nil ∧
        (session 60 ord
          [SExpr.list [SExpr.list [SExpr.sym "lambda",
            SExpr.list [SExpr.sym "x", SExpr.sym "x"], SExpr.sym "x"], SExpr.num 1]]).cell
          = some (Cell.number (Dbl.fin 1)) := by
  refine ⟨by decide!, ?_⟩
  intro ord
  cases ord <;> decide!

/-- C19, amended: applying a closure with the parameters `ps` to the arguments `as`
evaluates the body in a new environment whose first frame is the pair of the two lists as
they are, whatever their lengths; there a symbol with the name of the parameter at position
`i` (the first one with that name) evaluates to the argument at position `i`, and to Nil
when there are too few arguments to have that position, whatever the captured environment
binds.  Arguments beyond the last parameter are never reached. -/
theorem apply_arity (n : Nat) (ord : ArgOrder) (st : Store)
    (c params body cenv args env : Ptr) (ps as : List Ptr)
    (frames : List (List Ptr × List Ptr))
    (hc : st.read c = Cell.lambda params body cenv)
    (hps : IsList st params ps) (has : IsList st args as) (henv : IsEnv st cenv frames) :
    apply (n + 1) ord st c args env
        = eval n ord (make_env st params args cenv).2 body (make_env st params args cenv).1 ∧
      IsEnv (make_env st params args cenv).2 (make_env st params args cenv).1
        ((ps, as) :: frames) ∧
      ∀ (i : Nat) (s : Ptr) (text : String),
        (make_env st params args cenv).2.read s = Cell.symbol text →
        st.read (ps.getD i nil) = Cell.symbol text →
        (∀ j, j < i → st.read (ps.getD j nil) ≠ Cell.symbol text) →
        ∀ fuel, lookupFuel ((ps, as) :: frames) ≤ fuel →
          eval (fuel + 1) ord (make_env st params args cenv).2 s
              (make_env st params args cenv).1
            = Res.ok (as.getD i nil) (make_env st params args cenv).2 := by
  have hk : Keeps st (make_env st params args cenv).2 := Keeps.make_env st params args cenv
  have hE := make_env_isEnv st params args cenv ps as frames hps has henv
  refine ⟨?_, hE, ?_⟩
  · rw [apply_succ, hc]
  · intro i s text hs hi hfirst fuel hfuel
    have hsz := IsList.elems_le_size st ps params hps
    have hget : ∀ j, ps.getD j nil ≤ st.size := by
      intro j
      by_cases hj : j < ps.length
      · rw [List.getD_eq_getElem _ _ hj]
        exact hsz _ (List.getElem_mem _)
      · rw [List.getD_eq_default _ _ (Nat.le_of_not_lt hj)]
        exact Nat.zero_le _
    have h1 : hasText (make_env st params args cenv).2 text (ps.getD i nil) = true := by
      unfold hasText
      rw [hk.2 _ (hget i), hi]
      exact decide_eq_true rfl
    have h2 : ∀ j, j < i →
        hasText (make_env st params args cenv).2 text (ps.getD j nil) = false := by
      intro j hj
      unfold hasText
      rw [hk.2 _ (hget j)]
      exact decide_eq_false (hfirst j hj)
    rw [eval_symbol fuel ord _ s _ text hs,
      env_lookup_scan _ text s hs _ _ fuel hE hfuel, envScan,
      scanLists_at _ text ps as i h1 h2]
    rfl

/-- C19, amended, on the closure of `sampleArityHeap`, whose parameters are `(p q)`:
applied to `(8)` its body `q` evaluates to Nil; applied to `(8 9 10)` it evaluates to `9`.
At the first prompt, `(id 1 2)` with `(define id (x) x)` is `1`. -/
theorem apply_arity_witness :
    apply 12 ArgOrder.leftFirst sampleArityHeap 21 25 16
        = Res.ok nil (make_env sampleArityHeap 20 25 16).2 ∧
      apply 12 ArgOrder.leftFirst sampleArityHeap 21 28 16
        = Res.ok 23 (make_env sampleArityHeap 20 28 16).2 ∧
      (∀ ord : ArgOrder,
        (session 60 ord
          [defineId, SExpr.list [SExpr.sym "id", SExpr.num 1, SExpr.num 2]]).cell
            = some (Cell.number (Dbl.fin 1))) :=
  ⟨((apply_arity 11 ArgOrder.leftFirst sampleArityHeap 21 20 18 16 25 16 [17, 18] [22]
        sampleFrames (by decide) (by decide) (by decide) (by decide)).1).trans
      ((apply_arity 11 ArgOrder.leftFirst sampleArityHeap 21 20 18 16 25 16 [17, 18] [22]
        sampleFrames (by decide) (by decide) (by decide) (by decide)).2.2 1 18 "q"
        (by decide) (by decide) (by decide) 10 (by decide)),
   ((apply_arity 11 ArgOrder.leftFirst sampleArityHeap 21 20 18 16 28 16 [17, 18] [22, 23, 24]
        sampleFrames (by decide) (by decide) (by decide) (by decide)).1).trans
      ((apply_arity 11 ArgOrder.leftFirst sampleArityHeap 21 20 18 16 28 16 [17, 18]
        [22, 23, 24] sampleFrames (by decide) (by decide) (by decide) (by decide)).2.2 1 18 "q"
        (by decide) (by decide) (by decide) 10 (by decide)),
   fun ord => by cases ord <;> decide!⟩

/-! ## Calls of user-defined procedures -/

/-- In the environment that `make_env` builds from a list of parameters and a list of
values, a symbol with the name of the parameter at position `i` (the first one with that
name) evaluates to the value at position `i`. -/
theorem make_env_lookup (ord : ArgOrder) (st : Store) (params args cenv : Ptr)
    (ps as : List Ptr) (frames : List (List Ptr × List Ptr))
    (hps : IsList st params ps) (has : IsList st args as) (henv : IsEnv st cenv frames)
    (i : Nat) (s : Ptr) (text : String)
    (hs : (make_env st params args cenv).2.read s = Cell.symbol text)
    (hi : st.read (ps.getD i nil) = Cell.symbol text)
    (hfirst : ∀ j, j < i → st.read (ps.getD j nil) ≠ Cell.symbol text)
    (fuel : Nat) (hfuel : lookupFuel ((ps, as) :: frames) ≤ fuel) :
    eval (fuel + 1) ord (make_env st params args cenv).2 s (make_env st params args cenv).1
      = Res.ok (as.getD i nil) (make_env st params args cenv).2 := by
  have hk : Keeps st (make_env st params args cenv).2 := Keeps.make_env st params args cenv
  have hE := make_env_isEnv st params args cenv ps as frames hps has henv
  have hsz := IsList.elems_le_size st ps params hps
  have hget : ∀ j, ps.getD j nil ≤ st.size := by
    intro j
    by_cases hj : j < ps.length
    · rw [List.getD_eq_getElem _ _ hj]
      exact hsz _ (List.getElem_mem _)
    · rw [List.getD_eq_default _ _ (Nat.le_of_not_lt hj)]
      exact Nat.zero_le _
  have h1 : hasText (make_env st params args cenv).2 text (ps.getD i nil) = true := by
    unfold hasText
    rw [hk.2 _ (hget i), hi]
    exact decide_eq_true rfl
  have h2 : ∀ j, j < i →
      hasText (make_env st params args cenv).2 text (ps.getD j nil) = false := by
    intro j hj
    unfold hasText
    rw [hk.2 _ (hget j)]
    exact decide_eq_false (hfirst j hj)
  rw [eval_symbol fuel ord _ s _ text hs,
    env_lookup_scan _ text s hs _ _ fuel hE hfuel, envScan,
    scanLists_at _ text ps as i h1 h2]
  rfl

/-- C2, amended: in an environment `E` (a pair), `(define f params B)` allocates the closure
`(params, B, E)`, binds `f` to it in front of the innermost frame of `E` and returns it, so
that a lookup of `f` in `E` then gives the closure.  A call `(f a1 ... an)` whose head is a
Symbol other than the eight special-form keywords and looks up to a closure
`(params, B, cenv)`, and whose arguments `a1 ... an` evaluate to the values `v1 ... vn`
(each by `eval` in `E`, in the heap left by the arguments evaluated before it), returns the
value of `B` in a new environment whose parent is `cenv` and whose frame is the fresh pair
of `params` and the list `(v1 ... vn)` that `eval_list` returns: one value for each
argument, in the order of the arguments.  A call whose head is the form
`(lambda params B)` does the same with the closure `(params, B, E)` it has just allocated,
and that allocation changes no existing cell, so no binding is added to `E`.  In such a new
environment a symbol with the name of the parameter at position `i` evaluates to the value
at position `i`.  E.g. after `(define square (x) (* x x))`, `(square 7)` is `49`,
`((lambda (x) (* x 2)) 5)` is `10`, and after `(define third (a b c) c)`, `(third 1 2 3)`
is `3`, under either order of argument evaluation. -/
theorem define_then_call (E : Ptr) :
    (∀ n ord st sexp hd tl, st.read sexp = Cell.cons hd tl →
      st.read hd = Cell.symbol "define" → isCons st E = true →
      eval (n + 1) ord st sexp E
          = Res.ok (st.size + 1)
            (bindStore (make_lambda st (caddr st sexp) (cadddr st sexp) E).2 E (cadr st sexp)
              (st.size + 1)) ∧
        (bindStore (make_lambda st (caddr st sexp) (cadddr st sexp) E).2 E (cadr st sexp)
            (st.size + 1)).read (st.size + 1)
          = Cell.lambda (caddr st sexp) (cadddr st sexp) E ∧
        ∀ text fuel, st.read (cadr st sexp) = Cell.symbol text → 2 ≤ fuel →
          env_lookup fuel
              (bindStore (make_lambda st (caddr st sexp) (cadddr st sexp) E).2 E (cadr st sexp)
                (st.size + 1)) E (cadr st sexp)
            = Res.ok (st.size + 1)
              (bindStore (make_lambda st (caddr st sexp) (cadddr st sexp) E).2 E
                (cadr st sexp) (st.size + 1))) ∧
    (∀ m ord st call hd tl name c pms B cenv es vs argv st2, st.read call = Cell.cons hd tl →
      st.read hd = Cell.symbol name → name ∉ keywords → isCons st E = true →
      env_lookup m st E hd = Res.ok c st → st.read c = Cell.lambda pms B cenv →
      IsList st tl es → E ∉ spine st tl es.length →
      evalArgs m ord E st es = some (vs, argv, st2) →
      eval (m + es.length + 2) ord st call E
          = eval (m + es.length) ord (make_env st2 pms argv cenv).2 B
            (make_env st2 pms argv cenv).1 ∧
        eval_list (m + es.length + 1) ord st tl E = Res.ok argv st2 ∧
        IsChain st2 argv vs ∧ vs.length = es.length ∧
        (make_env st2 pms argv cenv).2.read (make_env st2 pms argv cenv).1
          = Cell.cons (st2.size + 1) cenv ∧
        (make_env st2 pms argv cenv).2.read (st2.size + 1) = Cell.cons pms argv) ∧
    (∀ m ord st call hd tl lhd ltl es vs argv st2, st.read call = Cell.cons hd tl →
      st.read hd = Cell.cons lhd ltl → st.read lhd = Cell.symbol "lambda" →
      isCons st E = true → IsList st tl es → E ∉ spine st tl es.length →
      evalArgs m ord E (make_lambda st (cadr st hd) (caddr st hd) E).2 es
        = some (vs, argv, st2) →
      eval (m + es.length + 2) ord st call E
          = eval (m + es.length) ord (make_env st2 (cadr st hd) argv E).2 (caddr st hd)
            (make_env st2 (cadr st hd) argv E).1 ∧
        Keeps st (make_lambda st (cadr st hd) (caddr st hd) E).2 ∧
        eval_list (m + es.length + 1) ord (make_lambda st (cadr st hd) (caddr st hd) E).2 tl E
          = Res.ok argv st2 ∧
        IsChain st2 argv vs ∧ vs.length = es.length ∧
        (make_env st2 (cadr st hd) argv E).2.read (make_env st2 (cadr st hd) argv E).1
          = Cell.cons (st2.size + 1) E ∧
        (make_env st2 (cadr st hd) argv E).2.read (st2.size + 1)
          = Cell.cons (cadr st hd) argv) ∧
    (∀ (ord : ArgOrder) (st : Store) (pms argv cenv : Ptr) (ps vs : List Ptr)
      (frames : List (List Ptr × List Ptr)),
      IsList st pms ps → IsChain st argv vs → (∀ v ∈ vs, v ≤ st.size) →
      IsEnv st cenv frames →
      ∀ (i : Nat) (s : Ptr) (text : String),
        (make_env st pms argv cenv).2.read s = Cell.symbol text →
        st.read (ps.getD i nil) = Cell.symbol text →
        (∀ j, j < i → st.read (ps.getD j nil) ≠ Cell.symbol text) →
        ∀ fuel, lookupFuel ((ps, vs) :: frames) ≤ fuel →
          eval (fuel + 1) ord (make_env st pms argv cenv).2 s (make_env st pms argv cenv).1
            = Res.ok (vs.getD i nil) (make_env st pms argv cenv).2) ∧
    (∀ ord, (session 50 ord [defineSquare, SExpr.list [SExpr.sym "square", SExpr.num 7]]).cell
      = some (Cell.number (Dbl.fin 49))) ∧
    (∀ ord, (session 50 ord [lambdaDouble]).cell = some (Cell.number (Dbl.fin 10))) ∧
    (∀ ord, (session 50 ord [defineThird,
        SExpr.list [SExpr.sym "third", SExpr.num 1, SExpr.num 2, SExpr.num 3]]).cell
      = some (Cell.number (Dbl.fin 3))) := by
  refine ⟨?_, ?_, ?_, ?_, fun ord => by cases ord <;> decide!,
    fun ord => by cases ord <;> decide!, fun ord => by cases ord <;> decide!⟩
  · intro n ord st sexp hd tl hsexp hhd hE
    have hk : Keeps st (make_lambda st (caddr st sexp) (cadddr st sexp) E).2 := Keeps.alloc _ _
    have hE1 := hk.isCons hE
    have hEsz := isCons_le_size st E hE
    have hnew : (make_lambda st (caddr st sexp) (cadddr st sexp) E).2.read (st.size + 1)
        = Cell.lambda (caddr st sexp) (cadddr st sexp) E := Store.read_alloc_new st _
    have hz : (make_lambda st (caddr st sexp) (cadddr st sexp) E).2.size = st.size + 1 :=
      Store.size_alloc _ _
    obtain ⟨_, r1, r2, _, _, hold⟩ :=
      bindStore_read (make_lambda st (caddr st sexp) (cadddr st sexp) E).2 E (cadr st sexp)
        (st.size + 1) hE1
    obtain ⟨hE2, _, hes, hev, _⟩ :=
      bindStore_env (make_lambda st (caddr st sexp) (cadddr st sexp) E).2 E (cadr st sexp)
        (st.size + 1) hE1
    refine ⟨?_, ?_, ?_⟩
    · rw [eval_succ, classify_define st sexp hd tl hsexp hhd]
      exact env_set_of_cons _ E _ _ hE1
    · rw [hold (st.size + 1) (by rw [hz]) (fun h => Nat.not_succ_le_self _ (h ▸ hEsz)), hnew]
    · intro text fuel hname hfuel
      obtain ⟨i, rfl⟩ : ∃ i, fuel = i + 2 := ⟨fuel - 2, by omega⟩
      have hnsz := symbol_le_size st _ text hname
      have hnne : cadr st sexp ≠ E := by
        intro h
        rw [h, (isCons_iff st E).mp hE] at hname
        cases hname
      have hname2 : (bindStore (make_lambda st (caddr st sexp) (cadddr st sexp) E).2 E
          (cadr st sexp) (st.size + 1)).read (cadr st sexp) = Cell.symbol text := by
        rw [hold _ (by rw [hz]; exact Nat.le_succ_of_le hnsz) hnne, hk.2 _ hnsz, hname]
      rw [env_lookup_first i _ E (cadr st sexp) (cadr st sexp) _ text hE2
        (by rw [hes, r1]) hname2 hname2, hev, car, r2]
  · intro m ord st call hd tl name c pms B cenv es vs argv st2 hcall hhd hname hE hlook hlam
      hes hsp hargs
    obtain ⟨a1, a2, a3, _, _⟩ :=
      eval_list_args m ord E es st tl vs argv st2 (isCons_le_size st E hE) hes hsp hargs
    obtain ⟨_, hfr, hnew⟩ := make_env_read st2 pms argv cenv
    refine ⟨?_, a1, a3, a2, hnew, hfr⟩
    have hcne : c ≠ E := by
      intro h
      rw [h, (isCons_iff st E).mp hE] at hlam
      cases hlam
    have hk := (eval_framed_all (m + es.length + 1)).2.1 ord st tl E argv st2 a1
    have hlam2 : st2.read c = Cell.lambda pms B cenv := by
      rw [hk.2.1 c (lambda_le_size st c _ _ _ hlam) hcne, hlam]
    obtain ⟨_, _, _, _, _, hcar, hcdr⟩ := classify_pair st call hd tl hcall
    have hf : eval (m + es.length + 1) ord st hd E = Res.ok c st :=
      eval_fuel_mono (by rw [eval_symbol m ord st hd E name hhd]; exact hlook) (by omega)
    show eval ((m + es.length + 1) + 1) ord st call E = _
    rw [eval_succ, classify_call_symbol st call hd tl name hcall hhd hname]
    simp only [hcar]
    rw [hf]
    simp only [Res.bind, hcdr, a1]
    rw [apply_succ, hlam2]
  · intro m ord st call hd tl lhd ltl es vs argv st2 hcall hhd hlhd hE hes hsp hargs
    have hk1 : Keeps st (make_lambda st (cadr st hd) (caddr st hd) E).2 := Keeps.alloc _ _
    have hEsz := isCons_le_size st E hE
    obtain ⟨l1, l2⟩ := IsList.keeps (hk1.except E) es tl hes hsp
    obtain ⟨a1, a2, a3, _, _⟩ :=
      eval_list_args m ord E es _ tl vs argv st2 (Nat.le_trans hEsz hk1.1) l1
        (by rw [l2]; exact hsp) hargs
    obtain ⟨hfst, hfr, hnew⟩ := make_env_read st2 (cadr st hd) argv E
    refine ⟨?_, hk1, a1, a3, a2, hnew, hfr⟩
    have hz : (make_lambda st (cadr st hd) (caddr st hd) E).2.size = st.size + 1 :=
      Store.size_alloc _ _
    have hc1 : (make_lambda st (cadr st hd) (caddr st hd) E).2.read (st.size + 1)
        = Cell.lambda (cadr st hd) (caddr st hd) E := Store.read_alloc_new st _
    have hk := (eval_framed_all (m + es.length + 1)).2.1 ord _ tl E argv st2 a1
    have hlam2 : st2.read (st.size + 1) = Cell.lambda (cadr st hd) (caddr st hd) E := by
      rw [hk.2.1 (st.size + 1) (by rw [hz])
        (fun h => Nat.not_succ_le_self _ (h ▸ hEsz)), hc1]
    obtain ⟨_, _, _, _, _, hcar, hcdr⟩ := classify_pair st call hd tl hcall
    have hnsym : isSymbol st hd = false := by simp [isSymbol, hhd]
    have hcallsz : call ≤ st.size := isCons_le_size st call (by simp [isCons, hcall])
    have hcdr1 : cdr (make_lambda st (cadr st hd) (caddr st hd) E).2 call = tl := by
      rw [cdr, hk1.2 call hcallsz, hcall]
    show eval ((m + es.length + 1) + 1) ord st call E = _
    rw [eval_succ, classify_call_other st call hd tl hcall hnsym]
    simp only [hcar]
    show ((eval ((m + es.length) + 1) ord st hd E).bind _) = _
    rw [eval_succ, classify_lambda st hd lhd ltl hhd hlhd]
    simp only [Res.bind, Res.ofPair, hcdr1, a1]
    have hfstl : (make_lambda st (cadr st hd) (caddr st hd) E).1 = st.size + 1 := rfl
    rw [hfstl, apply_succ, hlam2]
  · intro ord st pms argv cenv ps vs frames hps hchain hv henv i s text hs hi hfirst fuel hfuel
    exact make_env_lookup ord st pms argv cenv ps vs frames hps
      (IsChain.isList st vs argv hchain hv) henv i s text hs hi hfirst fuel hfuel

/-- C2, amended, at concrete inputs.  On `sampleDefineHeap`, `(define f (x) x)` evaluated in
the inner environment (cell 16) returns the fresh closure, cell 25, whose parameters, body
and captured environment are cells 20, 19 and 16, and a lookup of `f` then gives it.  On
`sampleProcHeap`, where `f` is bound to the closure `(lambda (p q r) r)`, the call
`(f 8 9 10)` (cell 20) returns the third argument, cell 16, in the environment that binds
`(p q r)` to the list of the three values, cell 28; so does the call
`((lambda (p q r) r) 8 9 10)` (cell 25), under the other order of evaluation; and in the
new environment the symbol `r` evaluates to the third value. -/
theorem define_then_call_witness :
    eval 1 ArgOrder.leftFirst sampleDefineHeap 24 16
        = Res.ok 25 (bindStore (make_lambda sampleDefineHeap 20 19 16).2 16 18 25) ∧
      (bindStore (make_lambda sampleDefineHeap 20 19 16).2 16 18 25).read 25
        = Cell.lambda 20 19 16 ∧
      env_lookup 2 (bindStore (make_lambda sampleDefineHeap 20 19 16).2 16 18 25) 16 18
        = Res.ok 25 (bindStore (make_lambda sampleDefineHeap 20 19 16).2 16 18 25) ∧
      eval 9 ArgOrder.leftFirst sampleProcHeap 20 11
        = Res.ok 16 (make_env sampleArgsHeap 7 28 11).2 ∧
      eval_list 8 ArgOrder.leftFirst sampleProcHeap 19 11 = Res.ok 28 sampleArgsHeap ∧
      IsChain sampleArgsHeap 28 [14, 15, 16] ∧
      (make_env sampleArgsHeap 7 28 11).2.read 29 = Cell.cons 7 28 ∧
      (eval 9 ArgOrder.rightFirst sampleProcHeap 25 11).cell
        = some (Cell.number (Dbl.fin 10)) ∧
      eval 9 ArgOrder.leftFirst (make_env sampleArgsHeap 7 28 11).2 4
          (make_env sampleArgsHeap 7 28 11).1
        = Res.ok 16 (make_env sampleArgsHeap 7 28 11).2 :=
  ⟨((define_then_call 16).1 0 ArgOrder.leftFirst sampleDefineHeap 24 17 23 rfl rfl
      (by decide)).1,
   ((define_then_call 16).1 0 ArgOrder.leftFirst sampleDefineHeap 24 17 23 rfl rfl
      (by decide)).2.1,
   ((define_then_call 16).1 0 ArgOrder.leftFirst sampleDefineHeap 24 17 23 rfl rfl
      (by decide)).2.2 "f" 2 rfl (by decide),
   ((define_then_call 11).2.1 4 ArgOrder.leftFirst sampleProcHeap 20 13 19 "f" 12 7 4 11
      [14, 15, 16] [14, 15, 16] 28 sampleArgsHeap rfl rfl (by decide) (by decide) (by decide!)
      rfl (by decide) (by decide) (by decide!)).1.trans (by decide!),
   ((define_then_call 11).2.1 4 ArgOrder.leftFirst sampleProcHeap 20 13 19 "f" 12 7 4 11
      [14, 15, 16] [14, 15, 16] 28 sampleArgsHeap rfl rfl (by decide) (by decide) (by decide!)
      rfl (by decide) (by decide) (by decide!)).2.1,
   ((define_then_call 11).2.1 4 ArgOrder.leftFirst sampleProcHeap 20 13 19 "f" 12 7 4 11
      [14, 15, 16] [14, 15, 16] 28 sampleArgsHeap rfl rfl (by decide) (by decide) (by decide!)
      rfl (by decide) (by decide) (by decide!)).2.2.1,
   ((define_then_call 11).2.1 4 ArgOrder.leftFirst sampleProcHeap 20 13 19 "f" 12 7 4 11
      [14, 15, 16] [14, 15, 16] 28 sampleArgsHeap rfl rfl (by decide) (by decide) (by decide!)
      rfl (by decide) (by decide) (by decide!)).2.2.2.2.2,
   (congrArg Res.cell
     (((define_then_call 11).2.2.1 4 ArgOrder.rightFirst sampleProcHeap 25 24 19 21 23
        [14, 15, 16] [14, 15, 16] 29
        ⟨sampleProcHeap.cells ++
          [Cell.lambda 7 4 11, Cell.cons 16 0, Cell.cons 15 27, Cell.cons 14 28]⟩
        rfl rfl rfl (by decide) (by decide) (by decide) (by decide!)).1)).trans (by decide!),
   (define_then_call 11).2.2.2.1 ArgOrder.leftFirst sampleArgsHeap 7 28 11 [2, 3, 4]
      [14, 15, 16] [([1], [12])] (by decide) (by decide) (by decide) (by decide)
      2 4 "r" (by decide!) rfl (by decide) 8 (by decide)⟩

/-! ## `cond` -/

theorem IsClauses.keeps_clauses {st st2 : Store} {e : Ptr} (hk : KeepsExcept st st2 e) :
    ∀ (cls : List (Ptr × Ptr)) (p : Ptr), IsClauses st p cls →
      e ∉ clauseCells st p cls.length →
      IsClauses st2 p cls ∧ clauseCells st2 p cls.length = clauseCells st p cls.length := by
  intro cls
  induction cls with
  | nil =>
    intro p hp _
    exact ⟨hp, rfl⟩
  | cons tc rest ih =>
    intro p hp hne
    obtain ⟨h1, h2, h3, h4, h5, h6⟩ := hp
    simp only [List.length_cons, clauseCells, List.mem_cons, not_or] at hne
    obtain ⟨n1, n2, n3, n4⟩ := hne
    obtain ⟨_, k1, k2, k3⟩ := hk.isCons_of_ne h1 (Ne.symm n1)
    obtain ⟨_, k4, k5, k6⟩ := hk.isCons_of_ne h2 (Ne.symm n2)
    obtain ⟨_, k7, k8, _⟩ := hk.isCons_of_ne h4 (Ne.symm n3)
    obtain ⟨i1, i2⟩ := ih (cdr st p) h6 n4
    refine ⟨⟨k1, ?_, ?_, ?_, ?_, ?_⟩, ?_⟩
    · rw [k2]; exact k4
    · rw [k2, k5]; exact h3
    · rw [k2, k6]; exact k7
    · rw [cadr, k2, k6, k8]; exact h5
    · rw [k3]; exact i1
    · simp only [List.length_cons, clauseCells]
      rw [k2, k6, k3, i2]

/-- The loop of `cond` passes over clauses whose tests evaluate to Nil. -/
theorem eval_cond_skip (n : Nat) (ord : ArgOrder) (env : Ptr) :
    ∀ (pre rest : List (Ptr × Ptr)) (st st1 : Store) (p : Ptr),
      IsClauses st p (pre ++ rest) → env ∉ clauseCells st p (pre ++ rest).length →
      testsNil n ord env st pre = some st1 →
      ∃ q, IsClauses st1 q rest ∧ env ∉ clauseCells st1 q rest.length ∧
        ∀ m, n ≤ m → eval_cond (m + pre.length) ord st p env = eval_cond m ord st1 q env := by
  intro pre
  induction pre with
  | nil =>
    intro rest st st1 p hp hne ht
    simp only [testsNil, Option.some.injEq] at ht
    subst ht
    exact ⟨p, hp, hne, fun m _ => rfl⟩
  | cons tc pre ih =>
    intro rest st st1 p hp hne ht
    rw [testsNil] at ht
    cases he : eval n ord st tc.1 env with
    | fault => rw [he] at ht; cases ht
    | fuel => rw [he] at ht; cases ht
    | ok v st0 =>
      rw [he] at ht
      simp only [] at ht
      by_cases hv : isNil st0 v = true
      · rw [if_pos hv] at ht
        have hk := eval_keeps he
        obtain ⟨hp0, hc0⟩ := IsClauses.keeps_clauses hk _ p hp hne
        have hp' := hp
        obtain ⟨h1, h2, h3, h4, h5, h6⟩ := hp'
        obtain ⟨g1, g2, g3, g4, g5, g6⟩ := hp0
        have hne0 : env ∉ clauseCells st0 (cdr st0 p) (pre ++ rest).length := by
          rw [← hc0] at hne
          simp only [List.cons_append, List.length_cons, clauseCells, List.mem_cons,
            not_or] at hne
          exact hne.2.2.2
        obtain ⟨q, hq1, hq2, hq3⟩ := ih rest st0 st1 (cdr st0 p) g6 hne0 ht
        refine ⟨q, hq1, hq2, ?_⟩
        intro m hm
        have hfuel : eval (m + pre.length) ord st tc.1 env = Res.ok v st0 :=
          eval_fuel_mono he (Nat.le_trans hm (Nat.le_add_right _ _))
        have : m + (tc :: pre).length = (m + pre.length) + 1 := by
          simp only [List.length_cons]; omega
        rw [this, eval_cond_succ, isCons_not_nil st p h1]
        simp only [Bool.false_eq_true, if_false, h3, hfuel, Res.bind, isTrueSexp, hv,
          Bool.not_true]
        exact hq3 m hm
      · rw [if_neg hv] at ht
        cases ht

/-- C15: in evaluating `(cond (t1 c1) ... (tn cn))`, when the tests of the first clauses,
evaluated in order, each in the heap that the one before left, are all Nil and the test of
the next clause is not, the result is the result of evaluating the consequent of that clause
in the heap that its test left: no later test and no other consequent is evaluated.  When
the tests of all the clauses are Nil, or there is no clause, the result is Nil in the heap
that the last test left. -/
theorem cond_spec (n : Nat) (ord : ArgOrder) (st st1 : Store) (sexp hd tl env : Ptr)
    (pre rest : List (Ptr × Ptr))
    (hsexp : st.read sexp = Cell.cons hd tl) (hhd : st.read hd = Cell.symbol "cond")
    (hcl : IsClauses st tl (pre ++ rest))
    (hne : env ∉ clauseCells st tl (pre ++ rest).length)
    (hpre : testsNil n ord env st pre = some st1) :
    (rest = [] →
      ∀ m, n ≤ m → eval (m + pre.length + 2) ord st sexp env = Res.ok nil st1) ∧
    (∀ (t c : Ptr) (post : List (Ptr × Ptr)) (v : Ptr) (st2 : Store),
      rest = (t, c) :: post → eval n ord st1 t env = Res.ok v st2 → st2.read v ≠ Cell.nil →
      ∀ m, n ≤ m → eval (m + pre.length + 2) ord st sexp env = eval m ord st2 c env) := by
  obtain ⟨_, _, _, _, _, _, hcdr⟩ := classify_pair st sexp hd tl hsexp
  obtain ⟨q, hq1, hq2, hq3⟩ := eval_cond_skip n ord env pre rest st st1 tl hcl hne hpre
  have hstart : ∀ m, n ≤ m →
      eval (m + pre.length + 2) ord st sexp env = eval_cond (m + 1) ord st1 q env := by
    intro m hm
    have h1 : m + pre.length + 2 = (m + 1 + pre.length) + 1 := by omega
    rw [h1, eval_succ, classify_cond st sexp hd tl hsexp hhd]
    simp only [hcdr]
    exact hq3 (m + 1) (Nat.le_succ_of_le hm)
  constructor
  · intro hr m hm
    subst hr
    have hq : q = nil := hq1
    rw [hstart m hm, hq, eval_cond_succ, isNil_nil]
    rfl
  · intro t c post v st2 hr ht hv m hm
    subst hr
    obtain ⟨h1, h2, h3, h4, h5, h6⟩ := hq1
    have hk := eval_keeps ht
    simp only [List.length_cons, clauseCells, List.mem_cons, not_or] at hq2
    obtain ⟨n1, n2, n3, _⟩ := hq2
    obtain ⟨_, _, k2, _⟩ := hk.isCons_of_ne h1 (Ne.symm n1)
    obtain ⟨_, _, _, k6⟩ := hk.isCons_of_ne h2 (Ne.symm n2)
    obtain ⟨_, _, k8, _⟩ := hk.isCons_of_ne h4 (Ne.symm n3)
    have hc : cadr st2 (car st1 q) = c := by
      rw [cadr, k6, k8]
      exact h5
    rw [hstart m hm, eval_cond_succ, isCons_not_nil st1 q h1]
    simp only [Bool.false_eq_true, if_false, h3, eval_fuel_mono ht hm, Res.bind, isTrueSexp,
      (isNil_eq_false_iff st2 v).mpr hv, Bool.not_false, if_true, hc]

/-- C15, on `(cond (() x) (y x))` in the inner environment of `sampleEnvHeap`, where the
test `()` is Nil and the test `y` is `2`: the result is the value of `x`.  At the first
prompt `(cond ((< 5 3) 'first) ((> 5 3) 'second) (T 'third))`, as an expression tree and
as a text, is the symbol `second`, `(cond)` is Nil, a `cond` whose tests are all Nil is Nil, and in
`(cond ((set a ()) 1) ((set b 2) 3) ((set c 4) 5))` the result is `3`, `a` and `b` are bound
and `c` is not. -/
theorem cond_spec_witness :
    eval 8 ArgOrder.leftFirst sampleCondHeap 26 16
        = eval 5 ArgOrder.leftFirst sampleCondHeap 18 16 ∧
      (∀ ord : ArgOrder,
        (session 60 ord [condExample]).cell = some (Cell.symbol "second") ∧
          (session 60 ord [SExpr.list [SExpr.sym "cond"]]).cell = some Cell.nil ∧
          (session 60 ord
            [SExpr.list [SExpr.sym "cond", SExpr.list [SExpr.nil, SExpr.num 1],
              SExpr.list [SExpr.nil, SExpr.num 2]]]).cell = some Cell.nil ∧
          (session 60 ord [condSets]).cell = some (Cell.number (Dbl.fin 3)) ∧
          (session 60 ord [condSets, SExpr.sym "a"]).cell = some Cell.nil ∧
          (session 60 ord [condSets, SExpr.sym "b"]).cell = some (Cell.number (Dbl.fin 2)) ∧
          (session 60 ord [condSets, SExpr.sym "c"]).cell
            = some (Cell.symbol "UNDEFINED")) ∧
      (∀ ordR ord : ArgOrder,
        (run 60 ordR ord ["(cond ((< 5 3) 'first) ((> 5 3) 'second) (T 'third))"]).cell
          = some (Cell.symbol "second")) :=
  ⟨(cond_spec 5 ArgOrder.leftFirst sampleCondHeap sampleCondHeap 26 17 25 16
      [(0, 18)] [(19, 18)] (by decide) (by decide) (by decide) (by decide) (by decide!)).2
      19 18 [] 4 sampleCondHeap rfl (by decide!) (by decide) 5 (Nat.le_refl 5),
   fun ord => by cases ord <;> decide!,
   fun ordR ord => by cases ordR <;> cases ord <;> decide!⟩

/-! ## White space and tokens -/

theorem skip_whitespace_append (ws s : List Char) (h : ws.all isspace = true) :
    skip_whitespace (ws ++ s) = skip_whitespace s := by
  induction ws with
  | nil => rfl
  | cons c ws ih =>
    simp only [List.all_cons, Bool.and_eq_true] at h
    simp only [skip_whitespace, List.cons_append, List.dropWhile_cons, h.1, if_true]
    exact ih h.2

theorem skip_whitespace_cons (c : Char) (s : List Char) (h : isspace c = false) :
    skip_whitespace (c :: s) = c :: s := by
  simp [skip_whitespace, List.dropWhile_cons, h]

theorem isDelimiter_false {c : Char} (h : isDelimiter c = false) :
    isspace c = false ∧ c ≠ '(' ∧ c ≠ ')' := by
  simp only [isDelimiter, Bool.or_eq_false_iff, decide_eq_false_iff_not] at h
  exact ⟨h.1.1, h.1.2, h.2⟩

theorem isspace_ne_space {c : Char} (h : isspace c = false) : c ≠ ' ' := by
  intro hc
  rw [hc] at h
  exact absurd h (by decide)

theorem tokenOK_iff (tok : List Char) :
    tokenOK tok = true ↔
      tok ≠ [] ∧ tok.length ≤ 255 ∧ (∀ c ∈ tok, isDelimiter c = false) ∧
        tok.head? ≠ some quoteChar ∧ tok.head? ≠ some dquoteChar ∧ tok ≠ ['.'] := by
  simp [tokenOK, and_assoc]

theorem atomOK_iff (tok : List Char) :
    atomOK tok = true ↔
      tok ≠ [] ∧ tok.length ≤ 255 ∧ (∀ c ∈ tok, isDelimiter c = false) ∧
        tok.head? ≠ some quoteChar ∧ tok.head? ≠ some dquoteChar := by
  simp [atomOK, and_assoc]

/-- An atom token in the sense of `tokenOK` is one in the sense of `atomOK` that is not the
lone dot. -/
theorem tokenOK_atomOK (tok : List Char) :
    tokenOK tok = true ↔ atomOK tok = true ∧ tok ≠ ['.'] := by
  rw [tokenOK_iff, atomOK_iff]
  simp only [and_assoc]

theorem cutOK_iff (tok : List Char) :
    cutOK tok = true ↔
      ∃ body, tok = dquoteChar :: body ∧ body.length = 254 ∧ dquoteChar ∉ body := by
  cases tok with
  | nil => simp [cutOK]
  | cons c body =>
    simp only [cutOK, List.head?_cons, List.length_cons, List.tail_cons, Bool.and_eq_true,
      decide_eq_true_eq, List.all_eq_true, Option.some.injEq]
    constructor
    · rintro ⟨⟨hc, hl⟩, hb⟩
      exact ⟨body, by rw [hc], by omega, fun h => hb _ h rfl⟩
    · rintro ⟨b, hb, hl, hn⟩
      simp only [List.cons.injEq] at hb
      obtain ⟨rfl, rfl⟩ := hb
      exact ⟨⟨rfl, by omega⟩, fun x hx h => hn (h ▸ hx)⟩

/-- The first character of a well-formed text is neither white space nor a closing
parenthesis; unless the text is the lone dot, it does not begin like a dotted tail, whatever
follows it. -/
theorem Syn.chars_head (x : Syn) (hx : x.wf = true) :
    ∃ c cs, x.chars = c :: cs ∧ isspace c = false ∧ c ≠ ')' ∧
      (x.isLoneDot = false → ∀ s, isDot (c :: (cs ++ s)) = false) ∧
      (x.isLoneDot = true → c = '.' ∧ cs = []) := by
  cases x with
  | atom tok =>
    rw [Syn.wf, Bool.or_eq_true] at hx
    rcases hx with hx | hx
    · obtain ⟨h1, _, h3, _, _⟩ := (atomOK_iff tok).mp hx
      cases tok with
      | nil => exact absurd rfl h1
      | cons c cs =>
        obtain ⟨d1, _, d3⟩ := isDelimiter_false (h3 c (List.mem_cons_self _ _))
        refine ⟨c, cs, rfl, d1, d3, ?_, ?_⟩
        · intro hl s
          have h6 : c :: cs ≠ ['.'] := by simpa [Syn.isLoneDot] using hl
          cases cs with
          | nil =>
            have hc : c ≠ '.' := fun h => h6 (by rw [h])
            cases s <;> simp [isDot, hc]
          | cons d ds =>
            obtain ⟨e1, _, e3⟩ := isDelimiter_false
              (h3 d (List.mem_cons_of_mem _ (List.mem_cons_self _ _)))
            simp [isDot, e1, e3, isspace_ne_space e1]
        · intro hl
          have h6 : c :: cs = ['.'] := by simpa [Syn.isLoneDot] using hl
          simp only [List.cons.injEq] at h6
          exact h6
    · obtain ⟨body, rfl, _, _⟩ := (cutOK_iff tok).mp hx
      refine ⟨dquoteChar, body, rfl, by decide, by decide, ?_, ?_⟩
      · intro _ s
        have : dquoteChar ≠ '.' := by decide
        cases h : body ++ s <;> simp [isDot, this]
      · intro hl
        have h6 : dquoteChar :: body = ['.'] := by simpa [Syn.isLoneDot] using hl
        simp only [List.cons.injEq] at h6
        exact absurd h6.1 (by decide)
  | str body =>
    refine ⟨dquoteChar, body ++ [dquoteChar], rfl, by decide, by decide, ?_, ?_⟩
    · intro _ s
      have : dquoteChar ≠ '.' := by decide
      cases h : (body ++ [dquoteChar]) ++ s <;> simp [isDot, this]
    · intro hl
      simp [Syn.isLoneDot] at hl
  | quoted ws y =>
    refine ⟨quoteChar, ws ++ y.chars, rfl, by decide, by decide, ?_, ?_⟩
    · intro _ s
      have : quoteChar ≠ '.' := by decide
      cases h : (ws ++ y.chars) ++ s <;> simp [isDot, this]
    · intro hl
      simp [Syn.isLoneDot] at hl
  | list ws items =>
    refine ⟨'(', ws ++ items.chars, rfl, by decide, by decide, ?_, ?_⟩
    · intro _ s
      cases h : (ws ++ items.chars) ++ s <;> simp [isDot]
    · intro hl
      simp [Syn.isLoneDot] at hl

/-! ## `strtod` and `atom` -/

theorem afterWord_mismatch (w c : Char) (ws s : List Char) (h : tolower c ≠ w) :
    afterWord (w :: ws) (c :: s) = none := by
  simp [afterWord, h]

/-- On a text that begins with a double quote, `strtod` converts nothing. -/
theorem strtod_dquote (s : List Char) :
    (strtod (dquoteChar :: s)).2 = dquoteChar :: s := by
  have h1 : isspace dquoteChar = false := by decide
  have h2 : isdigit dquoteChar = false := by decide
  have t1 : "infinity".toList = ['i', 'n', 'f', 'i', 'n', 'i', 't', 'y'] := rfl
  have t2 : "inf".toList = ['i', 'n', 'f'] := rfl
  have t3 : "nan".toList = ['n', 'a', 'n'] := rfl
  have e1 := afterWord_mismatch 'i' dquoteChar ['n', 'f', 'i', 'n', 'i', 't', 'y'] s (by decide)
  have e2 := afterWord_mismatch 'i' dquoteChar ['n', 'f'] s (by decide)
  have e3 := afterWord_mismatch 'n' dquoteChar ['a', 'n'] s (by decide)
  have hs : readSpecial (dquoteChar :: s) = none := by
    simp only [readSpecial, t1, t2, t3, e1, e2, e3]
  have hm : readMantissa 10 isdigit 'e' 10 (dquoteChar :: s) = none := by
    have hd : dquoteChar ≠ '.' := by decide
    simp [readMantissa, List.takeWhile_cons, List.dropWhile_cons, h2, hd]
  have hminus : dquoteChar ≠ '-' := by decide
  have hplus : dquoteChar ≠ '+' := by decide
  have hzero : dquoteChar ≠ '0' := by decide
  cases s with
  | nil => simp [strtod, List.dropWhile_cons, h1, hminus, hplus, hs, hm]
  | cons x r => simp [strtod, List.dropWhile_cons, h1, hminus, hplus, hs, hm, hzero]

/-! ## Structures in a range of addresses -/

theorem ShapeIn.mono {st : Store} {lo hi lo2 hi2 : Nat} (h1 : lo2 ≤ lo) (h2 : hi ≤ hi2) :
    ∀ (e : SExpr) (p : Ptr), ShapeIn st lo hi p e → ShapeIn st lo2 hi2 p e := by
  intro e
  induction e with
  | nil => intro p h; exact h
  | num q => intro p h; exact ⟨Nat.lt_of_le_of_lt h1 h.1, Nat.le_trans h.2.1 h2, h.2.2⟩
  | sym s => intro p h; exact ⟨Nat.lt_of_le_of_lt h1 h.1, Nat.le_trans h.2.1 h2, h.2.2⟩
  | str s => intro p h; exact ⟨Nat.lt_of_le_of_lt h1 h.1, Nat.le_trans h.2.1 h2, h.2.2⟩
  | inf s => intro p h; exact ⟨Nat.lt_of_le_of_lt h1 h.1, Nat.le_trans h.2.1 h2, h.2.2⟩
  | nan => intro p h; exact ⟨Nat.lt_of_le_of_lt h1 h.1, Nat.le_trans h.2.1 h2, h.2.2⟩
  | pair a d iha ihd =>
    intro p h
    exact ⟨Nat.lt_of_le_of_lt h1 h.1, Nat.le_trans h.2.1 h2, h.2.2.1, iha _ h.2.2.2.1,
      ihd _ h.2.2.2.2⟩

theorem ShapeIn.congr {st st2 : Store} {lo hi : Nat}
    (hrd : ∀ q : Nat, lo < q → q ≤ hi → st2.read q = st.read q) :
    ∀ (e : SExpr) (p : Ptr), ShapeIn st lo hi p e → ShapeIn st2 lo hi p e := by
  intro e
  induction e with
  | nil => intro p h; exact h
  | num q => intro p h; exact ⟨h.1, h.2.1, by rw [hrd p h.1 h.2.1]; exact h.2.2⟩
  | sym s => intro p h; exact ⟨h.1, h.2.1, by rw [hrd p h.1 h.2.1]; exact h.2.2⟩
  | str s => intro p h; exact ⟨h.1, h.2.1, by rw [hrd p h.1 h.2.1]; exact h.2.2⟩
  | inf s => intro p h; exact ⟨h.1, h.2.1, by rw [hrd p h.1 h.2.1]; exact h.2.2⟩
  | nan => intro p h; exact ⟨h.1, h.2.1, by rw [hrd p h.1 h.2.1]; exact h.2.2⟩
  | pair a d iha ihd =>
    intro p h
    have hr := hrd p h.1 h.2.1
    have hc : car st2 p = car st p := by rw [car, car, hr]
    have hd : cdr st2 p = cdr st p := by rw [cdr, cdr, hr]
    refine ⟨h.1, h.2.1, ?_, ?_, ?_⟩
    · rw [isCons, hr]; exact h.2.2.1
    · rw [hc]; exact iha _ h.2.2.2.1
    · rw [hd]; exact ihd _ h.2.2.2.2

theorem ShapeIn.hasShape {st : Store} {lo hi : Nat} :
    ∀ (e : SExpr) (p : Ptr), ShapeIn st lo hi p e → HasShape st p e := by
  intro e
  induction e with
  | nil => intro p h; rw [show p = nil from h]; rfl
  | num q => intro p h; exact h.2.2
  | sym s => intro p h; exact h.2.2
  | str s => intro p h; exact h.2.2
  | inf s => intro p h; exact h.2.2
  | nan => intro p h; exact h.2.2
  | pair a d iha ihd => intro p h; exact ⟨h.2.2.1, iha _ h.2.2.2.1, ihd _ h.2.2.2.2⟩

/-- A fresh pair of two structures that lie in a range is a structure in that range
extended by the new cell. -/
theorem ShapeIn.pair_alloc {st : Store} {lo : Nat} {a d : Ptr} {ea ed : SExpr}
    (hlo : lo ≤ st.size) (ha : ShapeIn st lo st.size a ea) (hd : ShapeIn st lo st.size d ed) :
    ShapeIn (cons st a d).2 lo (st.size + 1) (st.size + 1) (SExpr.pair ea ed) := by
  have hr : (cons st a d).2.read (st.size + 1) = Cell.cons a d := Store.read_alloc_new st _
  have hk : ∀ q : Nat, lo < q → q ≤ st.size → (cons st a d).2.read q = st.read q :=
    fun q _ hq => Store.read_alloc_old st _ q hq
  refine ⟨Nat.lt_succ_of_le hlo, Nat.le_refl _, by simp [isCons, hr], ?_, ?_⟩
  · rw [car, hr]
    exact ShapeIn.mono (Nat.le_refl _) (Nat.le_succ _) _ _ (ShapeIn.congr hk _ _ ha)
  · rw [cdr, hr]
    exact ShapeIn.mono (Nat.le_refl _) (Nat.le_succ _) _ _ (ShapeIn.congr hk _ _ hd)

theorem ShapeIn.alloc_number (st : Store) (d : Dbl) :
    ShapeIn (st.alloc (Cell.number d)).2 st.size (st.size + 1) (st.size + 1)
      (SExpr.ofDbl d) := by
  have hr := Store.read_alloc_new st (Cell.number d)
  cases d <;> exact ⟨Nat.lt_succ_self _, Nat.le_refl _, hr⟩

/-! ## Tokens -/

theorem takeWhile_token (p : Char → Bool) (l r : List Char) (hl : ∀ c ∈ l, p c = true)
    (hr : r = [] ∨ ∃ c r2, r = c :: r2 ∧ p c = false) : (l ++ r).takeWhile p = l := by
  induction l with
  | nil =>
    rcases hr with rfl | ⟨c, r2, rfl, hc⟩
    · rfl
    · simp [List.takeWhile_cons, hc]
  | cons c l ih =>
    simp only [List.cons_append, List.takeWhile_cons, hl c (List.mem_cons_self _ _), if_true]
    rw [ih (fun x hx => hl x (List.mem_cons_of_mem _ hx))]

/-- The function `atom` on a token that does not begin with a double quote: a fresh Number
or Symbol cell with the structure `atomTree`. -/
theorem atom_token (st : Store) (tok : List Char) (hne : tok ≠ [])
    (hq : tok.head? ≠ some dquoteChar) :
    ∃ c, atom st tok = Res.ok (st.size + 1) (st.alloc c).2 ∧
      ShapeIn (st.alloc c).2 st.size (st.size + 1) (st.size + 1) (atomTree tok) := by
  by_cases hn : (strtod tok).2 = []
  · refine ⟨Cell.number (strtod tok).1, ?_, ?_⟩
    · simp [atom, hn, hne, Res.ofPair, make_number, Store.alloc_fst]
    · rw [atomTree, if_pos hn]
      exact ShapeIn.alloc_number st _
  · refine ⟨Cell.symbol (String.mk tok), ?_, ?_⟩
    · simp [atom, hn, hq, Res.ofPair, make_symbol, Store.alloc_fst]
    · rw [atomTree, if_neg hn]
      exact ⟨Nat.lt_succ_self _, Nat.le_refl _, Store.read_alloc_new st _⟩

/-- The function `atom` on a string literal. -/
theorem atom_string (st : Store) (body : List Char) :
    atom st (dquoteChar :: (body ++ [dquoteChar]))
      = Res.ok (st.size + 1) (st.alloc (Cell.string (String.mk body))).2 := by
  have hs := strtod_dquote (body ++ [dquoteChar])
  have h1 : ¬ ((strtod (dquoteChar :: (body ++ [dquoteChar]))).2 = [] ∧
      dquoteChar :: (body ++ [dquoteChar]) ≠ []) := by
    rw [hs]
    simp
  have h2 : (dquoteChar :: (body ++ [dquoteChar])).head? = some dquoteChar ∧
      (dquoteChar :: (body ++ [dquoteChar])).getLast? = some dquoteChar := by
    refine ⟨rfl, ?_⟩
    rw [← List.cons_append, List.getLast?_append]
    simp
  rw [atom, if_neg h1, if_pos h2]
  cases body with
  | nil => rfl
  | cons b bs =>
    simp only [List.tail_cons, List.cons_append]
    rw [← List.cons_append, List.dropLast_concat]
    rfl

/-- The function `read_atom` on an atom token followed by a delimiter or by nothing. -/
theorem read_atom_token (st : Store) (tok rest : List Char) (hok : atomOK tok = true)
    (hrest : Delimited rest) :
    read_atom st (tok ++ rest) = Read.ofRes (atom st tok) rest := by
  rw [atomOK_iff] at hok
  obtain ⟨h1, h2, h3, _, h5⟩ := hok
  have htw : ((tok ++ rest).takeWhile fun d => !isDelimiter d) = tok := by
    apply takeWhile_token
    · intro c hc
      simp [h3 c hc]
    · rcases hrest with h | ⟨c, r, h, hc⟩
      · exact Or.inl h
      · exact Or.inr ⟨c, r, h, by simp [hc]⟩
  cases tok with
  | nil => exact absurd rfl h1
  | cons c cs =>
    have hc : c ≠ dquoteChar := fun h => h5 (by rw [h]; rfl)
    have htw2 : ((c :: (cs ++ rest)).takeWhile fun d => !isDelimiter d) = c :: cs := htw
    simp only [List.cons_append, read_atom, hc, if_false, htw2]
    rw [List.take_of_length_le h2]
    simp only [reduceCtorEq, if_false]
    congr 1
    rw [← List.cons_append, List.drop_left]

/-- The function `read_atom` on an atom token of 255 characters, which fills the buffer,
whatever follows it. -/
theorem read_atom_full (st : Store) (tok rest : List Char) (hok : atomOK tok = true)
    (hlen : tok.length = 255) :
    read_atom st (tok ++ rest) = Read.ofRes (atom st tok) rest := by
  rw [atomOK_iff] at hok
  obtain ⟨h1, _, h3, _, h5⟩ := hok
  have hall : ∀ a ∈ tok, (fun d => !isDelimiter d) a = true := by
    intro a ha
    simp [h3 a ha]
  have htw : (((tok ++ rest).takeWhile fun d => !isDelimiter d).take 255) = tok := by
    rw [List.takeWhile_append_of_pos hall, List.take_left' hlen]
  cases tok with
  | nil => exact absurd rfl h1
  | cons c cs =>
    have hc : c ≠ dquoteChar := fun h => h5 (by rw [h]; rfl)
    have htw2 : (((c :: (cs ++ rest)).takeWhile fun d => !isDelimiter d).take 255)
        = c :: cs := htw
    simp only [List.cons_append, read_atom, hc, if_false, htw2]
    simp only [reduceCtorEq, if_false]
    congr 1
    rw [← List.cons_append, List.drop_left]

/-- The part of a text up to the first double quote, when that part is free of double
quotes and a double quote or nothing follows it. -/
theorem takeWhile_body (body rest : List Char) (hb : dquoteChar ∉ body) :
    ((body ++ dquoteChar :: rest).takeWhile fun d => decide (d ≠ dquoteChar)) = body := by
  apply takeWhile_token
  · intro c hc
    simp only [decide_eq_true_eq]
    intro h
    exact hb (h ▸ hc)
  · exact Or.inr ⟨dquoteChar, rest, rfl, by simp⟩

/-- A text that begins with a double quote and has no other, of at most 254 characters
after the quote: the token is the whole text, a Symbol when it is more than the quote. -/
theorem read_atom_unterminated (st : Store) (body : List Char) (hlen : body.length ≤ 254)
    (hb : dquoteChar ∉ body) :
    read_atom st (dquoteChar :: body) = Read.ofRes (atom st (dquoteChar :: body)) [] := by
  have htw : (body.takeWhile fun d => decide (d ≠ dquoteChar)) = body := by
    have := takeWhile_token (fun d => decide (d ≠ dquoteChar)) body []
      (fun c hc => by
        simp only [decide_eq_true_eq]
        intro h
        exact hb (h ▸ hc)) (Or.inl rfl)
    rw [List.append_nil] at this
    exact this
  rw [read_atom]
  simp only [if_true, htw]
  rw [List.take_of_length_le hlen, List.drop_length]

/-- A token that is a double quote followed by characters other than double quotes: `atom`
makes a Symbol of it. -/
theorem atom_quote_symbol (st : Store) (body : List Char) (hne : body ≠ [])
    (hb : dquoteChar ∉ body) :
    atom st (dquoteChar :: body)
      = Res.ok (st.size + 1) (st.alloc (Cell.symbol (String.mk (dquoteChar :: body)))).2 := by
  have hs := strtod_dquote body
  have h1 : ¬ ((strtod (dquoteChar :: body)).2 = [] ∧ dquoteChar :: body ≠ []) := by
    rw [hs]
    simp
  have h2 : ¬ ((dquoteChar :: body).head? = some dquoteChar ∧
      (dquoteChar :: body).getLast? = some dquoteChar) := by
    intro h
    cases body with
    | nil => exact hne rfl
    | cons b bs =>
      have hl := h.2
      rw [List.getLast?_cons_cons, List.getLast?_eq_getLast _ (by simp)] at hl
      simp only [Option.some.injEq] at hl
      exact hb (hl ▸ List.getLast_mem _)
  rw [atom, if_neg h1, if_neg h2]
  rfl

/-- A text that begins with a double quote followed by 254 characters other than double
quotes and one more that is not a double quote: the token is the quote and the 254
characters. -/
theorem read_atom_long (st : Store) (pre tail : List Char) (d : Char)
    (hlen : pre.length = 254) (hb : dquoteChar ∉ pre) (hd : d ≠ dquoteChar) :
    read_atom st (dquoteChar :: (pre ++ d :: tail))
      = Read.ofRes (atom st (dquoteChar :: pre)) (d :: tail) := by
  have hall : ∀ a ∈ pre, (fun c => decide (c ≠ dquoteChar)) a = true := by
    intro a ha
    simp only [decide_eq_true_eq]
    intro h
    exact hb (h ▸ ha)
  have htw : (((pre ++ d :: tail).takeWhile fun c => decide (c ≠ dquoteChar)).take 254)
      = pre := by
    rw [List.takeWhile_append_of_pos hall, List.take_left' hlen]
  rw [read_atom]
  simp only [if_true, htw]
  rw [List.drop_left]
  simp only [hd, if_false]

/-- The function `read_atom` on a string literal. -/
theorem read_atom_string (st : Store) (body rest : List Char) (hlen : body.length ≤ 253)
    (hb : body.all (fun c => decide (c ≠ dquoteChar)) = true) :
    read_atom st (dquoteChar :: (body ++ [dquoteChar]) ++ rest)
      = Read.ok (st.size + 1) (st.alloc (Cell.string (String.mk body))).2 rest := by
  have htw : ((body ++ dquoteChar :: rest).takeWhile fun d => decide (d ≠ dquoteChar))
      = body := by
    apply takeWhile_token
    · intro c hc
      exact List.all_eq_true.mp hb c hc
    · exact Or.inr ⟨dquoteChar, rest, rfl, by simp⟩
  have hin : dquoteChar :: (body ++ [dquoteChar]) ++ rest
      = dquoteChar :: (body ++ dquoteChar :: rest) := by simp
  rw [hin]
  simp only [read_atom, if_true, htw]
  rw [List.take_of_length_le (Nat.le_trans hlen (by decide)), List.drop_left]
  simp only [if_true]
  rw [if_neg (by omega), atom_string]
  rfl

/-! ## One step of the reader -/

theorem read_sexp_atom_step (n : Nat) (ord : ArgOrder) (st : Store) (input rest : List Char)
    (c : Char) (hs : skip_whitespace input = c :: rest) (h1 : c ≠ '(') (h2 : c ≠ quoteChar) :
    read_sexp (n + 1) ord st input = read_atom st (c :: rest) := by
  rw [read_sexp, hs]
  simp only [h1, h2, if_false]

theorem read_sexp_list_step (n : Nat) (ord : ArgOrder) (st : Store) (input rest : List Char)
    (hs : skip_whitespace input = '(' :: rest) :
    read_sexp (n + 1) ord st input = read_list n ord st ('(' :: rest) := by
  rw [read_sexp, hs]
  simp only [if_true]

theorem read_sexp_quote_left (n : Nat) (st st1 : Store) (input rest r : List Char) (x : Ptr)
    (hs : skip_whitespace input = quoteChar :: rest)
    (hx : read_sexp n ArgOrder.leftFirst (make_symbol st "quote").2 rest = Read.ok x st1 r) :
    read_sexp (n + 1) ArgOrder.leftFirst st input
      = Read.ok (list2 st1 (make_symbol st "quote").1 x).1
          (list2 st1 (make_symbol st "quote").1 x).2 r := by
  have h1 : quoteChar ≠ '(' := by decide
  rw [read_sexp, hs]
  simp only [h1, if_false, if_true, hx, Read.bind]

theorem read_sexp_quote_right (n : Nat) (st st1 : Store) (input rest r : List Char) (x : Ptr)
    (hs : skip_whitespace input = quoteChar :: rest)
    (hx : read_sexp n ArgOrder.rightFirst st rest = Read.ok x st1 r) :
    read_sexp (n + 1) ArgOrder.rightFirst st input
      = Read.ok (list2 (make_symbol st1 "quote").2 (make_symbol st1 "quote").1 x).1
          (list2 (make_symbol st1 "quote").2 (make_symbol st1 "quote").1 x).2 r := by
  have h1 : quoteChar ≠ '(' := by decide
  rw [read_sexp, hs]
  simp only [h1, if_false, if_true, hx, Read.bind]

/-- White space before an expression is skipped. -/
theorem read_sexp_skip (n : Nat) (ord : ArgOrder) (st : Store) (ws s : List Char)
    (h : ws.all isspace = true) : read_sexp n ord st (ws ++ s) = read_sexp n ord st s := by
  cases n with
  | zero => rw [read_sexp, read_sexp]
  | succ n => rw [read_sexp, read_sexp, skip_whitespace_append ws s h]

theorem read_list_close_step (n : Nat) (ord : ArgOrder) (st : Store)
    (input rest : List Char) (hs : skip_whitespace input.tail = ')' :: rest) :
    read_list (n + 1) ord st input = Read.ok nil st rest := by
  rw [read_list, hs]
  simp only [if_true]

theorem read_list_loop_step (n : Nat) (ord : ArgOrder) (st : Store)
    (input rest : List Char) (c : Char) (hs : skip_whitespace input.tail = c :: rest)
    (hc : c ≠ ')') :
    read_list (n + 1) ord st input = read_list_loop n ord st nil nil (c :: rest) := by
  rw [read_list, hs]
  simp only [hc, if_false]

theorem loop_close_step (n : Nat) (ord : ArgOrder) (st : Store) (head tail : Ptr)
    (rest : List Char) :
    read_list_loop (n + 1) ord st head tail (')' :: rest) = Read.ok head st rest := by
  rw [read_list_loop]
  simp only [if_true]

/-- An iteration of the loop that adds the first element of the list. -/
theorem loop_first_step (n : Nat) (ord : ArgOrder) (st st1 : Store) (head tail elem : Ptr)
    (c : Char) (rest0 in1 : List Char) (hc : c ≠ ')')
    (he : read_sexp n ord st (c :: rest0) = Read.ok elem st1 in1)
    (hd : isDot (skip_whitespace in1) = false) (hn : isNil st1 head = true) :
    read_list_loop (n + 1) ord st head tail (c :: rest0)
      = read_list_loop n ord (cons st1 elem nil).2 (cons st1 elem nil).1
          (cons st1 elem nil).1 (skip_whitespace (skip_whitespace in1)) := by
  rw [read_list_loop]
  simp only [hc, if_false, he, Read.bind, hd, Bool.false_eq_true, hn, if_true]

/-- An iteration of the loop that adds a further element of the list. -/
theorem loop_next_step (n : Nat) (ord : ArgOrder) (st st1 st3 : Store)
    (head tail elem : Ptr) (c : Char) (rest0 in1 : List Char) (hc : c ≠ ')')
    (he : read_sexp n ord st (c :: rest0) = Read.ok elem st1 in1)
    (hd : isDot (skip_whitespace in1) = false) (hn : isNil st1 head = false)
    (hset : setCdr (cons st1 elem nil).2 tail (cons st1 elem nil).1 = some st3) :
    read_list_loop (n + 1) ord st head tail (c :: rest0)
      = read_list_loop n ord st3 head (cons st1 elem nil).1
          (skip_whitespace (skip_whitespace in1)) := by
  rw [read_list_loop]
  simp only [hc, if_false, he, Read.bind, hd, Bool.false_eq_true, hn, hset]

/-- An iteration of the loop that meets a dotted tail after the first element. -/
theorem loop_dot_first_step (n : Nat) (ord : ArgOrder) (st st1 st2 : Store)
    (head tail elem tl : Ptr) (c : Char) (rest0 in1 in4 r : List Char) (hc : c ≠ ')')
    (he : read_sexp n ord st (c :: rest0) = Read.ok elem st1 in1)
    (hd : isDot (skip_whitespace in1) = true)
    (ht : read_sexp n ord st1 (skip_whitespace (skip_whitespace in1).tail)
      = Read.ok tl st2 in4)
    (hclose : skip_whitespace in4 = ')' :: r) (hn : isNil st2 head = true) :
    read_list_loop (n + 1) ord st head tail (c :: rest0)
      = Read.ok (cons st2 elem tl).1 (cons st2 elem tl).2 r := by
  rw [read_list_loop]
  simp only [hc, if_false, he, Read.bind, hd, if_true, ht, hclose, hn]

/-- An iteration of the loop that meets a dotted tail after a further element. -/
theorem loop_dot_next_step (n : Nat) (ord : ArgOrder) (st st1 st2 st3 : Store)
    (head tail elem tl : Ptr) (c : Char) (rest0 in1 in4 r : List Char) (hc : c ≠ ')')
    (he : read_sexp n ord st (c :: rest0) = Read.ok elem st1 in1)
    (hd : isDot (skip_whitespace in1) = true)
    (ht : read_sexp n ord st1 (skip_whitespace (skip_whitespace in1).tail)
      = Read.ok tl st2 in4)
    (hclose : skip_whitespace in4 = ')' :: r) (hn : isNil st2 head = false)
    (hset : setCdr (cons st2 elem tl).2 tail (cons st2 elem tl).1 = some st3) :
    read_list_loop (n + 1) ord st head tail (c :: rest0) = Read.ok head st3 r := by
  rw [read_list_loop]
  simp only [hc, if_false, he, Read.bind, hd, if_true, ht, hclose, hn, Bool.false_eq_true,
    hset]

/-! ## The list under construction -/

theorem foldr_pair_append (es : List SExpr) (e t : SExpr) :
    (es ++ [e]).foldr SExpr.pair t = es.foldr SExpr.pair (SExpr.pair e t) := by
  rw [List.foldr_append]
  rfl

/-- The list after its first element. -/
theorem ListSoFar.first {st st1 : Store} {lo : Nat} {elem : Ptr} {e : SExpr}
    (hlo : lo ≤ st.size) (hk : Keeps st st1) (he : ShapeIn st1 st.size st1.size elem e) :
    ListSoFar (cons st1 elem nil).2 lo (st1.size + 1) (st1.size + 1) [e] := by
  have hr : (cons st1 elem nil).2.read (st1.size + 1) = Cell.cons elem nil :=
    Store.read_alloc_new st1 _
  have hsz : (cons st1 elem nil).2.size = st1.size + 1 := Store.size_alloc _ _
  have hcar : car (cons st1 elem nil).2 (st1.size + 1) = elem := by rw [car, hr]
  refine ⟨Nat.lt_succ_of_le (Nat.le_trans hlo hk.1), by rw [hsz], by simp [isCons, hr],
    by rw [cdr, hr], by rw [isNil_eq_false_iff, hr]; simp, ?_⟩
  intro st2 d t hi hhi hrd htail hd
  have hr2 : st2.read (st1.size + 1) = Cell.cons elem d := by rw [htail, hcar]
  refine ⟨Nat.lt_succ_of_le (Nat.le_trans hlo hk.1), Nat.le_trans (by rw [hsz]) hhi,
    by simp [isCons, hr2], ?_, ?_⟩
  · rw [car, hr2]
    apply ShapeIn.mono hlo (Nat.le_trans (Nat.le_succ _) (by rw [hsz] at hhi; exact hhi))
    apply ShapeIn.congr _ _ _ he
    intro q _ hq
    rw [hrd q (by rw [hsz]; exact Nat.le_succ_of_le hq) (Nat.ne_of_lt (Nat.lt_succ_of_le hq))]
    exact Store.read_alloc_old st1 _ q hq
  · rw [cdr, hr2]
    exact hd

/-- The assignment to `tail->data.cons.cdr` of a pair allocated after the elements read so
far: what the heap is afterwards. -/
theorem ListSoFar.attach {st stA : Store} {lo : Nat} {head tail : Ptr} (a d : Ptr)
    {e0 : SExpr} {es : List SExpr} (hS : ListSoFar st lo head tail (e0 :: es))
    (hk : Keeps st stA) :
    ∃ st3, isNil stA head = false ∧
      setCdr (cons stA a d).2 tail (cons stA a d).1 = some st3 ∧
      st3.size = stA.size + 1 ∧
      (∀ q : Nat, q ≤ stA.size → q ≠ tail → st3.read q = stA.read q) ∧
      st3.read tail = Cell.cons (car st tail) (stA.size + 1) ∧
      st3.read (stA.size + 1) = Cell.cons a d := by
  obtain ⟨h1, h2, h3, h4, h5, _⟩ := hS
  have hsz : (cons stA a d).2.size = stA.size + 1 := Store.size_alloc _ _
  have htA : tail ≤ stA.size := Nat.le_trans h2 hk.1
  have hrt : (cons stA a d).2.read tail = Cell.cons (car st tail) nil := by
    rw [cons, Store.read_alloc_old stA _ tail htA, hk.2 tail h2, (isCons_iff st tail).mp h3, h4]
  have hhead : isNil stA head = false := by
    rw [isNil_eq_false_iff] at h5 ⊢
    have hhs : head ≤ st.size := by
      by_contra hlt
      exact h5 (Store.read_of_gt st head (Nat.lt_of_not_le hlt))
    rw [hk.2 head hhs]
    exact h5
  have hne : stA.size + 1 ≠ tail := fun h => by rw [← h] at htA; exact Nat.not_succ_le_self _ htA
  refine ⟨(cons stA a d).2.write tail (Cell.cons (car st tail) (stA.size + 1)), hhead, ?_, ?_,
    ?_, ?_, ?_⟩
  · simp only [setCdr, hrt]
    rfl
  · rw [Store.size_write, hsz]
  · intro q hq hqt
    rw [Store.read_write_ne _ _ _ _ hqt]
    exact Store.read_alloc_old stA _ q hq
  · exact Store.read_write_same _ _ _ (Nat.le_trans (Nat.succ_le_of_lt (Nat.zero_lt_of_lt h1))
      (Nat.le_refl _)) (by rw [hsz]; exact Nat.le_succ_of_le htA)
  · rw [Store.read_write_ne _ _ _ _ hne]
    exact Store.read_alloc_new stA _

/-- The list after a further element. -/
theorem ListSoFar.next {st st1 : Store} {lo : Nat} {head tail elem : Ptr} {e0 e : SExpr}
    {es : List SExpr} (hlo : lo ≤ st.size) (hS : ListSoFar st lo head tail (e0 :: es))
    (hk : Keeps st st1) (he : ShapeIn st1 st.size st1.size elem e) :
    ∃ st3, isNil st1 head = false ∧
      setCdr (cons st1 elem nil).2 tail (cons st1 elem nil).1 = some st3 ∧
      st3.size = st1.size + 1 ∧ (∀ q : Nat, q ≤ lo → st3.read q = st.read q) ∧
      ListSoFar st3 lo head (st1.size + 1) ((e0 :: es) ++ [e]) := by
  obtain ⟨st3, a1, a2, a3, a4, a5, a6⟩ := ListSoFar.attach elem nil hS hk
  have hS2 := hS
  obtain ⟨h1, h2, h3, h4, h5, h6⟩ := hS2
  refine ⟨st3, a1, a2, a3, ?_, ?_⟩
  · intro q hq
    have hqs : q ≤ st.size := Nat.le_trans hq hlo
    rw [a4 q (Nat.le_trans hqs hk.1) (Nat.ne_of_lt (Nat.lt_of_le_of_lt hq h1)), hk.2 q hqs]
  · have hhead3 : isNil st3 head = false := by
      rw [isNil_eq_false_iff] at h5 ⊢
      have hhs : head ≤ st.size := by
        by_contra hlt
        exact h5 (Store.read_of_gt st head (Nat.lt_of_not_le hlt))
      by_cases hht : head = tail
      · rw [hht, a5]; simp
      · rw [a4 head (Nat.le_trans hhs hk.1) hht, hk.2 head hhs]
        exact h5
    refine ⟨Nat.lt_succ_of_le (Nat.le_trans hlo hk.1), by rw [a3], by simp [isCons, a6],
      by rw [cdr, a6], hhead3, ?_⟩
    intro st2 d t hi hhi hrd htail hd
    rw [a3] at hhi hrd
    have hcar : car st3 (st1.size + 1) = elem := by rw [car, a6]
    rw [hcar] at htail
    have htl : tail ≤ st1.size := Nat.le_trans h2 hk.1
    have hne : tail ≠ st1.size + 1 := Nat.ne_of_lt (Nat.lt_succ_of_le htl)
    rw [show (e0 :: es ++ [e]) = (e0 :: es) ++ [e] from rfl, foldr_pair_append]
    apply h6 st2 (st1.size + 1) (SExpr.pair e t) hi
      (Nat.le_trans hk.1 (Nat.le_trans (Nat.le_succ _) hhi))
    · intro q hq hqt
      have hq1 : q ≤ st1.size := Nat.le_trans hq hk.1
      rw [hrd q (Nat.le_succ_of_le hq1) (Nat.ne_of_lt (Nat.lt_succ_of_le hq1)), a4 q hq1 hqt,
        hk.2 q hq]
    · rw [hrd tail (Nat.le_succ_of_le htl) hne, a5]
    · refine ⟨Nat.lt_succ_of_le (Nat.le_trans hlo hk.1), hhi, by simp [isCons, htail], ?_, ?_⟩
      · rw [car, htail]
        apply ShapeIn.mono hlo (Nat.le_trans (Nat.le_succ _) hhi)
        apply ShapeIn.congr _ _ _ he
        intro q hq1 hq2
        rw [hrd q (Nat.le_succ_of_le hq2) (Nat.ne_of_lt (Nat.lt_succ_of_le hq2)),
          a4 q hq2 (Nat.ne_of_gt (Nat.lt_of_le_of_lt h2 hq1))]
      · rw [cdr, htail]
        exact hd

/-- The list when the loop ends at the closing parenthesis. -/
theorem ListSoFar.finish {st : Store} {lo : Nat} {head tail : Ptr} {es : List SExpr}
    (hS : ListSoFar st lo head tail es) :
    ShapeIn st lo st.size head (es.foldr SExpr.pair SExpr.nil) := by
  cases es with
  | nil => exact hS
  | cons e0 es =>
    obtain ⟨_, _, h3, h4, _, h6⟩ := hS
    apply h6 st nil SExpr.nil st.size (Nat.le_refl _) (fun _ _ _ => rfl)
    · rw [(isCons_iff st tail).mp h3, h4]
    · exact rfl

/-- The list when the loop ends at a dotted tail after a further element. -/
theorem ListSoFar.dotted {st st1 st2 : Store} {lo : Nat} {head tail elem tl : Ptr}
    {e0 e t : SExpr} {es : List SExpr} (hlo : lo ≤ st.size)
    (hS : ListSoFar st lo head tail (e0 :: es)) (hk : Keeps st st1) (hk2 : Keeps st1 st2)
    (he : ShapeIn st1 st.size st1.size elem e) (ht : ShapeIn st2 st1.size st2.size tl t) :
    ∃ st3, isNil st2 head = false ∧
      setCdr (cons st2 elem tl).2 tail (cons st2 elem tl).1 = some st3 ∧
      st3.size = st2.size + 1 ∧ (∀ q : Nat, q ≤ lo → st3.read q = st.read q) ∧
      ShapeIn st3 lo st3.size head ((e0 :: es).foldr SExpr.pair (SExpr.pair e t)) := by
  have hkk := hk.trans hk2
  obtain ⟨st3, a1, a2, a3, a4, a5, a6⟩ := ListSoFar.attach elem tl hS hkk
  have hS2 := hS
  obtain ⟨h1, h2, h3, h4, h5, h6⟩ := hS2
  have htl2 : tail ≤ st2.size := Nat.le_trans h2 hkk.1
  refine ⟨st3, a1, a2, a3, ?_, ?_⟩
  · intro q hq
    have hqs : q ≤ st.size := Nat.le_trans hq hlo
    rw [a4 q (Nat.le_trans hqs hkk.1) (Nat.ne_of_lt (Nat.lt_of_le_of_lt hq h1)), hkk.2 q hqs]
  · rw [a3]
    apply h6 st3 (st2.size + 1) (SExpr.pair e t) (st2.size + 1)
      (Nat.le_trans hkk.1 (Nat.le_succ _))
    · intro q hq hqt
      rw [a4 q (Nat.le_trans hq hkk.1) hqt, hkk.2 q hq]
    · exact a5
    · refine ⟨Nat.lt_succ_of_le (Nat.le_trans hlo hkk.1), Nat.le_refl _, by simp [isCons, a6],
        ?_, ?_⟩
      · rw [car, a6]
        apply ShapeIn.mono hlo (Nat.le_trans hk2.1 (Nat.le_succ _))
        apply ShapeIn.congr _ _ _ he
        intro q hq1 hq2
        rw [a4 q (Nat.le_trans hq2 hk2.1) (Nat.ne_of_gt (Nat.lt_of_le_of_lt h2 hq1)),
          hk2.2 q hq2]
      · rw [cdr, a6]
        apply ShapeIn.mono (Nat.le_trans hlo hk.1) (Nat.le_succ _)
        apply ShapeIn.congr _ _ _ ht
        intro q hq1 hq2
        rw [a4 q hq2 (Nat.ne_of_gt (Nat.lt_of_le_of_lt (Nat.le_trans h2 hk.1) hq1))]

/-- The pair of a first element and a dotted tail. -/
theorem ShapeIn.dotted_first {st st1 st2 : Store} {lo : Nat} {elem tl : Ptr} {e t : SExpr}
    (hlo : lo ≤ st.size) (hk : Keeps st st1) (hk2 : Keeps st1 st2)
    (he : ShapeIn st1 st.size st1.size elem e) (ht : ShapeIn st2 st1.size st2.size tl t) :
    ShapeIn (cons st2 elem tl).2 lo (st2.size + 1) (st2.size + 1) (SExpr.pair e t) := by
  apply ShapeIn.pair_alloc (Nat.le_trans hlo (hk.trans hk2).1)
  · apply ShapeIn.mono hlo hk2.1
    apply ShapeIn.congr _ _ _ he
    intro q _ hq2
    exact hk2.2 q hq2
  · exact ShapeIn.mono (Nat.le_trans hlo hk.1) (Nat.le_refl _) _ _ ht

/-! ## The reader on a well-formed text -/

theorem list2_shape {st : Store} {lo : Nat} {a b : Ptr} {ea eb : SExpr} (hlo : lo ≤ st.size)
    (ha : ShapeIn st lo st.size a ea) (hb : ShapeIn st lo st.size b eb) :
    Keeps st (list2 st a b).2 ∧ (list2 st a b).2.size = st.size + 2 ∧
      ShapeIn (list2 st a b).2 lo (st.size + 2) (list2 st a b).1
        (SExpr.pair ea (SExpr.pair eb SExpr.nil)) := by
  have hsz : (cons st b nil).2.size = st.size + 1 := Store.size_alloc _ _
  have h1 : ShapeIn (cons st b nil).2 lo (st.size + 1) (st.size + 1)
      (SExpr.pair eb SExpr.nil) := ShapeIn.pair_alloc hlo hb rfl
  have hk1 : Keeps st (cons st b nil).2 := Keeps.alloc _ _
  have ha1 : ShapeIn (cons st b nil).2 lo (cons st b nil).2.size a ea := by
    rw [hsz]
    apply ShapeIn.mono (Nat.le_refl _) (Nat.le_succ _)
    exact ShapeIn.congr (fun q _ hq => hk1.2 q hq) _ _ ha
  have h1' : ShapeIn (cons st b nil).2 lo (cons st b nil).2.size (cons st b nil).1
      (SExpr.pair eb SExpr.nil) := by
    rw [hsz]
    exact h1
  have h2 := ShapeIn.pair_alloc (Nat.le_trans hlo hk1.1) ha1 h1'
  rw [hsz] at h2
  have hfst : (list2 st a b).1 = st.size + 2 := by
    rw [list2, Lisp.cons, Store.alloc_fst, hsz]
  refine ⟨hk1.trans (Keeps.alloc _ _), ?_, ?_⟩
  · rw [list2, Lisp.cons, Store.size_alloc, hsz]
  · rw [hfst]
    exact h2

theorem Syn.stopsAt_quoted (ws : List Char) (y : Syn) (rest : List Char) :
    (Syn.quoted ws y).stopsAt rest = y.stopsAt rest := by
  cases rest <;> rfl

/-- The reader stops at the end of every expression before white space and before a
parenthesis. -/
theorem Syn.endsBefore_delimiter :
    ∀ (x : Syn) (c : Char), isDelimiter c = true → x.endsBefore c = true
  | Syn.atom tok, c, h => by
    rw [Syn.endsBefore]
    split
    · simp only [decide_eq_true_eq]
      intro hc
      rw [hc] at h
      exact absurd h (by decide)
    · rw [h, Bool.or_true]
  | Syn.str _, _, _ => rfl
  | Syn.quoted _ y, c, h => by
    rw [Syn.endsBefore]
    exact Syn.endsBefore_delimiter y c h
  | Syn.list _ _, _, _ => rfl

theorem Syn.stopsAt_append (x : Syn) (a b : List Char) (ha : a ≠ []) :
    x.stopsAt (a ++ b) = x.stopsAt a := by
  cases a with
  | nil => exact absurd rfl ha
  | cons c t => rfl

/-- The reader stops at the end of every expression before white space followed by a
delimiter, and before white space at the end of the text. -/
theorem Syn.stopsAt_space (x : Syn) (ws rest : List Char) (hws : ws.all isspace = true)
    (hrest : Delimited rest) : x.stopsAt (ws ++ rest) = true := by
  cases ws with
  | nil =>
    rcases hrest with h | ⟨c, r, h, hc⟩
    · rw [h]
      rfl
    · rw [h]
      exact Syn.endsBefore_delimiter x c hc
  | cons w ws =>
    simp only [List.all_cons, Bool.and_eq_true] at hws
    exact Syn.endsBefore_delimiter x w (by simp [isDelimiter, hws.1])

theorem reads_atom (tok : List Char) (hx : (atomOK tok || cutOK tok) = true) :
    ReadsSyn (Syn.atom tok) := by
  intro ord st rest n hrest hn
  obtain ⟨m, rfl⟩ : ∃ m, n = m + 1 := ⟨n - 1, by simp only [Syn.fuel] at hn; omega⟩
  rw [Bool.or_eq_true] at hx
  by_cases hdq : tok.head? = some dquoteChar
  · have hcut : cutOK tok = true := by
      rcases hx with hx | hx
      · exact absurd hdq ((atomOK_iff tok).mp hx).2.2.2.2
      · exact hx
    obtain ⟨body, rfl, hl, hb⟩ := (cutOK_iff tok).mp hcut
    have hs : skip_whitespace ((Syn.atom (dquoteChar :: body)).chars ++ rest)
        = dquoteChar :: (body ++ rest) := skip_whitespace_cons dquoteChar _ (by decide)
    rw [read_sexp_atom_step m ord st _ _ dquoteChar hs (by decide) (by decide)]
    have hne : body ≠ [] := by
      intro h
      rw [h] at hl
      cases hl
    have hread : read_atom st (dquoteChar :: (body ++ rest))
        = Read.ofRes (atom st (dquoteChar :: body)) rest := by
      cases rest with
      | nil =>
        rw [List.append_nil]
        exact read_atom_unterminated st body (Nat.le_of_eq hl) hb
      | cons d tail =>
        have hd : d ≠ dquoteChar := by
          simpa [Syn.stopsAt, Syn.endsBefore] using hrest
        exact read_atom_long st body tail d hl hb hd
    rw [hread, atom_quote_symbol st body hne hb]
    refine ⟨st.size + 1, _, rfl, Keeps.alloc _ _, ?_⟩
    rw [Store.size_alloc]
    have ht : (Syn.atom (dquoteChar :: body)).tree
        = SExpr.sym (String.mk (dquoteChar :: body)) := by
      rw [Syn.tree, atomTree, if_neg (by rw [strtod_dquote]; simp)]
    rw [ht]
    exact ⟨Nat.lt_succ_self _, Nat.le_refl _, Store.read_alloc_new st _⟩
  · have hok : atomOK tok = true := by
      rcases hx with hx | hx
      · exact hx
      · obtain ⟨body, rfl, _, _⟩ := (cutOK_iff tok).mp hx
        exact absurd rfl hdq
    have hread : read_atom st (tok ++ rest) = Read.ofRes (atom st tok) rest := by
      cases rest with
      | nil => exact read_atom_token st tok [] hok (Or.inl rfl)
      | cons d tail =>
        have hd : tok.length = 255 ∨ isDelimiter d = true := by
          simpa [Syn.stopsAt, Syn.endsBefore, hdq] using hrest
        rcases hd with hd | hd
        · exact read_atom_full st tok _ hok hd
        · exact read_atom_token st tok _ hok (Or.inr ⟨d, tail, rfl, hd⟩)
    obtain ⟨h1, _, h3, h4, h5⟩ := (atomOK_iff tok).mp hok
    cases tok with
    | nil => exact absurd rfl h1
    | cons c cs =>
      obtain ⟨d1, d2, _⟩ := isDelimiter_false (h3 c (List.mem_cons_self _ _))
      have hq : c ≠ quoteChar := fun h => h4 (by rw [h]; rfl)
      have hs : skip_whitespace ((Syn.atom (c :: cs)).chars ++ rest) = c :: (cs ++ rest) :=
        skip_whitespace_cons c _ d1
      rw [read_sexp_atom_step m ord st _ _ c hs d2 hq, ← List.cons_append, hread]
      obtain ⟨cell, ha, hsh⟩ := atom_token st (c :: cs) h1 h5
      refine ⟨st.size + 1, (st.alloc cell).2, by rw [ha]; rfl, Keeps.alloc st cell, ?_⟩
      rw [Store.size_alloc]
      exact hsh

theorem reads_str (body : List Char) (h1 : body.length ≤ 253)
    (h2 : body.all (fun c => decide (c ≠ dquoteChar)) = true) : ReadsSyn (Syn.str body) := by
  intro ord st rest n hrest hn
  obtain ⟨m, rfl⟩ : ∃ m, n = m + 1 := ⟨n - 1, by simp only [Syn.fuel] at hn; omega⟩
  have hs : skip_whitespace ((Syn.str body).chars ++ rest)
      = dquoteChar :: ((body ++ [dquoteChar]) ++ rest) :=
    skip_whitespace_cons dquoteChar _ (by decide)
  rw [read_sexp_atom_step m ord st _ _ dquoteChar hs (by decide) (by decide)]
  have := read_atom_string st body rest h1 h2
  rw [List.cons_append] at this
  rw [this]
  refine ⟨_, _, rfl, Keeps.alloc st _, ?_⟩
  rw [Store.size_alloc]
  exact ⟨Nat.lt_succ_self _, Nat.le_refl _, Store.read_alloc_new st _⟩

theorem reads_quoted (ws : List Char) (y : Syn) (hws : ws.all isspace = true)
    (hy : ReadsSyn y) : ReadsSyn (Syn.quoted ws y) := by
  intro ord st rest n hrest hn
  obtain ⟨m, rfl⟩ : ∃ m, n = m + 1 := ⟨n - 1, by simp only [Syn.fuel] at hn; omega⟩
  have hm : y.fuel ≤ m := by simp only [Syn.fuel] at hn; omega
  have hs : skip_whitespace ((Syn.quoted ws y).chars ++ rest)
      = quoteChar :: (ws ++ (y.chars ++ rest)) := by
    rw [Syn.chars, List.cons_append, List.append_assoc]
    exact skip_whitespace_cons quoteChar _ (by decide)
  rw [Syn.stopsAt_quoted] at hrest
  cases ord with
  | leftFirst =>
    obtain ⟨v, st1, hr, hk, hsh⟩ := hy ArgOrder.leftFirst (make_symbol st "quote").2 rest m
      hrest hm
    rw [← read_sexp_skip m _ _ ws _ hws] at hr
    rw [read_sexp_quote_left m st st1 _ _ rest v hs hr]
    have hq : Keeps st (make_symbol st "quote").2 := Keeps.alloc _ _
    have hqs : (make_symbol st "quote").2.size = st.size + 1 := Store.size_alloc _ _
    have hsym : ShapeIn st1 st.size st1.size (make_symbol st "quote").1
        (SExpr.sym "quote") := by
      have hq1 : (make_symbol st "quote").1 = st.size + 1 := rfl
      rw [hq1]
      refine ⟨Nat.lt_succ_self _, ?_, ?_⟩
      · exact Nat.le_trans (Nat.le_of_eq hqs.symm) hk.1
      · rw [hk.2 _ (Nat.le_of_eq hqs.symm)]
        exact Store.read_alloc_new st _
    rw [hqs] at hsh
    obtain ⟨l1, l2, l3⟩ := list2_shape (Nat.le_trans hq.1 hk.1) hsym
      (ShapeIn.mono (Nat.le_succ _) (Nat.le_refl _) _ _ hsh)
    refine ⟨_, _, rfl, (hq.trans hk).trans l1, ?_⟩
    rw [l2]
    exact l3
  | rightFirst =>
    obtain ⟨v, st1, hr, hk, hsh⟩ := hy ArgOrder.rightFirst st rest m hrest hm
    rw [← read_sexp_skip m _ _ ws _ hws] at hr
    rw [read_sexp_quote_right m st st1 _ _ rest v hs hr]
    have hq : Keeps st1 (make_symbol st1 "quote").2 := Keeps.alloc _ _
    have hqs : (make_symbol st1 "quote").2.size = st1.size + 1 := Store.size_alloc _ _
    have hsym : ShapeIn (make_symbol st1 "quote").2 st.size (make_symbol st1 "quote").2.size
        (make_symbol st1 "quote").1 (SExpr.sym "quote") :=
      ⟨Nat.lt_succ_of_le hk.1, Nat.le_of_eq hqs.symm, Store.read_alloc_new st1 _⟩
    have hv : ShapeIn (make_symbol st1 "quote").2 st.size (make_symbol st1 "quote").2.size
        v y.tree := by
      rw [hqs]
      apply ShapeIn.mono (Nat.le_refl _) (Nat.le_succ _)
      exact ShapeIn.congr (fun q _ hq2 => hq.2 q hq2) _ _ hsh
    obtain ⟨l1, l2, l3⟩ := list2_shape (Nat.le_trans hk.1 hq.1) hsym hv
    refine ⟨_, _, rfl, (hk.trans hq).trans l1, ?_⟩
    rw [l2]
    exact l3

theorem Items.wf_item (x : Syn) (ws : List Char) (r : Items) (b : Bool) :
    (Items.item x ws r).wf b = true ↔
      x.wf = true ∧ ws.all isspace = true ∧ x.stopsAt (ws ++ r.chars) = true ∧
        r.wf false = true ∧
        (b = true ∨ x.isLoneDot = false ∨ (ws ++ r.chars).head? = some '(') := by
  rw [Items.wf]
  simp only [Bool.and_eq_true, Bool.or_eq_true, Bool.not_eq_true', decide_eq_true_eq,
    and_assoc, or_assoc]

theorem Items.chars_length_pos : ∀ r : Items, 1 ≤ r.chars.length
  | Items.close => Nat.le_refl _
  | Items.dot _ _ _ => by simp [Items.chars]
  | Items.dotClose _ => by simp [Items.chars]
  | Items.item x ws r => by
    have := Items.chars_length_pos r
    simp only [Items.chars, List.length_append]
    omega

theorem Items.chars_ne_nil (r : Items) : r.chars ≠ [] := by
  intro h
  have := Items.chars_length_pos r
  rw [h] at this
  cases this

/-- The text of a list from an item on begins with a character that is not white space. -/
theorem Items.chars_nonspace (r : Items) (b : Bool) (hw : r.wf b = true) :
    ∃ c cs, r.chars = c :: cs ∧ isspace c = false := by
  cases r with
  | close => exact ⟨')', [], rfl, by decide⟩
  | dot ws1 y ws2 => exact ⟨'.', _, rfl, by decide⟩
  | dotClose ws1 => exact ⟨'.', _, rfl, by decide⟩
  | item y ws2 r2 =>
    obtain ⟨c, cs, hc, c1, _⟩ := Syn.chars_head y ((Items.wf_item y ws2 r2 b).mp hw).1
    exact ⟨c, cs ++ (ws2 ++ r2.chars), by rw [Items.chars, hc]; rfl, c1⟩

/-- The text of a list from an item after the first on, when it is not a dotted tail,
begins with a character that is not white space, and does not begin like a dotted tail. -/
theorem Items.chars_first (r : Items) (hw : r.wf false = true) (hd : r.isDotted = false) :
    ∃ c cs, r.chars = c :: cs ∧ isspace c = false ∧ ∀ s, isDot (c :: (cs ++ s)) = false := by
  cases r with
  | close =>
    refine ⟨')', [], rfl, by decide, ?_⟩
    intro s
    cases s <;> simp [isDot]
  | dot ws1 y ws2 => simp [Items.isDotted] at hd
  | dotClose ws1 => simp [Items.isDotted] at hd
  | item y ws2 r2 =>
    obtain ⟨hy, _, _, _, hdot⟩ := (Items.wf_item y ws2 r2 false).mp hw
    obtain ⟨c, cs, hc, c1, _, c3, c4⟩ := Syn.chars_head y hy
    refine ⟨c, cs ++ (ws2 ++ r2.chars), by rw [Items.chars, hc]; rfl, c1, ?_⟩
    intro s
    by_cases hl : y.isLoneDot = true
    · obtain ⟨rfl, rfl⟩ := c4 hl
      have hh : (ws2 ++ r2.chars).head? = some '(' := by
        rcases hdot with h | h | h
        · cases h
        · rw [hl] at h
          cases h
        · exact h
      cases hw2 : ws2 ++ r2.chars with
      | nil =>
        rw [hw2] at hh
        cases hh
      | cons d t =>
        rw [hw2] at hh
        simp only [List.head?_cons, Option.some.injEq] at hh
        subst hh
        simp [isDot, isspace]
    · rw [List.append_assoc]
      exact c3 (by simpa using hl) _

theorem reads_list (ws : List Char) (items : Items) (hws : ws.all isspace = true)
    (hw : items.wf true = true) (hi : ReadsItems items) :
    ReadsSyn (Syn.list ws items) := by
  intro ord st rest n _ hn
  obtain ⟨m, rfl⟩ : ∃ m, n = m + 2 := ⟨n - 2, by simp only [Syn.fuel] at hn; omega⟩
  have hm : items.fuel ≤ m := by simp only [Syn.fuel] at hn; omega
  have hs : skip_whitespace ((Syn.list ws items).chars ++ rest)
      = '(' :: (ws ++ (items.chars ++ rest)) := by
    rw [Syn.chars, List.cons_append, List.append_assoc]
    exact skip_whitespace_cons '(' _ (by decide)
  rw [read_sexp_list_step (m + 1) ord st _ _ hs]
  obtain ⟨c, cs, hc, c1⟩ := Items.chars_nonspace items true hw
  have hs2 : skip_whitespace ('(' :: (ws ++ (items.chars ++ rest))).tail
      = c :: (cs ++ rest) := by
    rw [List.tail_cons, skip_whitespace_append ws _ hws, hc]
    exact skip_whitespace_cons c _ c1
  by_cases hcl : c = ')'
  · -- the text is `)`: the list is empty
    cases items with
    | close =>
      have hcs : cs = [] := by
        have : [')'] = c :: cs := hc
        simp only [List.cons.injEq] at this
        exact this.2.symm
      rw [hcl, hcs] at hs2
      rw [read_list_close_step m ord st _ rest hs2]
      exact ⟨nil, st, rfl, Keeps.refl st, rfl⟩
    | dot ws1 y ws2 => simp [Items.wf] at hw
    | dotClose ws1 => simp [Items.wf] at hw
    | item y ws2 r2 =>
      obtain ⟨c2, cs2, hc2, _, c22, _⟩ :=
        Syn.chars_head y ((Items.wf_item y ws2 r2 true).mp hw).1
      rw [Items.chars, hc2] at hc
      simp only [List.cons_append, List.cons.injEq] at hc
      exact absurd (hc.1.trans hcl) c22
  · rw [read_list_loop_step m ord st _ _ c hs2 hcl]
    obtain ⟨v, st2, hr, hsz, hlo, hsh⟩ := hi ord st st.size nil nil [] rest m (Nat.le_refl _)
      rfl hm
    rw [hc] at hr
    exact ⟨v, st2, hr, ⟨hsz, hlo⟩, hsh⟩

theorem reads_close : ReadsItems Items.close := by
  intro ord st lo head tail es rest n hlo hS hn
  obtain ⟨m, rfl⟩ : ∃ m, n = m + 1 := ⟨n - 1, by simp only [Items.fuel] at hn; omega⟩
  exact ⟨head, st, loop_close_step m ord st head tail rest, Nat.le_refl _, fun _ _ => rfl,
    ListSoFar.finish hS⟩

theorem reads_item (x : Syn) (ws : List Char) (r : Items) (hx : x.wf = true)
    (hws : ws.all isspace = true) (hstop : x.stopsAt (ws ++ r.chars) = true)
    (hw : r.wf false = true) (hd : r.isDotted = false) (px : ReadsSyn x)
    (pr : ReadsItems r) :
    ReadsItems (Items.item x ws r) := by
  intro ord st lo head tail es rest n hlo hS hn
  obtain ⟨m, rfl⟩ : ∃ m, n = m + 1 := ⟨n - 1, by simp only [Items.fuel] at hn; omega⟩
  have hmx : x.fuel ≤ m := by simp only [Items.fuel] at hn; omega
  have hmr : r.fuel ≤ m := by simp only [Items.fuel] at hn; omega
  obtain ⟨c, cs, hc, _, c2, _⟩ := Syn.chars_head x hx
  obtain ⟨d, ds, hdc, d1, d3⟩ := Items.chars_first r hw hd
  have hch : (Items.item x ws r).chars ++ rest = x.chars ++ (ws ++ (r.chars ++ rest)) := by
    simp [Items.chars]
  have hstop2 : x.stopsAt (ws ++ (r.chars ++ rest)) = true := by
    rw [← List.append_assoc, Syn.stopsAt_append x _ rest
      (fun h => Items.chars_ne_nil r (List.append_eq_nil.mp h).2)]
    exact hstop
  obtain ⟨elem, st1, hr, hk, hsh⟩ := px ord st (ws ++ (r.chars ++ rest)) m hstop2 hmx
  have hR : skip_whitespace (ws ++ (r.chars ++ rest)) = r.chars ++ rest := by
    rw [skip_whitespace_append ws _ hws, hdc]
    exact skip_whitespace_cons d _ d1
  have hR2 : skip_whitespace (skip_whitespace (ws ++ (r.chars ++ rest))) = r.chars ++ rest := by
    rw [hR, hdc]
    exact skip_whitespace_cons d _ d1
  have hdot : isDot (skip_whitespace (ws ++ (r.chars ++ rest))) = false := by
    rw [hR, hdc]
    exact d3 rest
  rw [hch]
  rw [hc, List.cons_append] at hr ⊢
  cases es with
  | nil =>
    have hhead : head = nil := hS
    have hn1 : isNil st1 head = true := by rw [hhead]; exact isNil_nil st1
    rw [loop_first_step m ord st st1 head tail elem c _ _ c2 hr hdot hn1, hR2]
    have hsz1 : (cons st1 elem nil).2.size = st1.size + 1 := Store.size_alloc _ _
    obtain ⟨v, st2, h1, h2, h3, h4⟩ := pr ord (cons st1 elem nil).2 lo (st1.size + 1)
      (st1.size + 1) [x.tree] rest m
      (Nat.le_trans hlo (Nat.le_trans hk.1 (Nat.le_of_lt (by rw [hsz1]; exact Nat.lt_succ_self _))))
      (ListSoFar.first hlo hk hsh) hmr
    refine ⟨v, st2, h1, ?_, ?_, h4⟩
    · exact Nat.le_trans hk.1 (Nat.le_trans (by rw [hsz1]; exact Nat.le_succ _) h2)
    · intro q hq
      have hqs : q ≤ st.size := Nat.le_trans hq hlo
      rw [h3 q hq]
      exact ((Keeps.alloc st1 _).2 q (Nat.le_trans hqs hk.1)).trans (hk.2 q hqs)
  | cons e0 es =>
    obtain ⟨st3, hn1, hset, hsz3, hlo3, hS3⟩ := ListSoFar.next hlo hS hk hsh
    rw [loop_next_step m ord st st1 st3 head tail elem c _ _ c2 hr hdot hn1 hset, hR2]
    obtain ⟨v, st2, h1, h2, h3, h4⟩ := pr ord st3 lo head (st1.size + 1)
      ((e0 :: es) ++ [x.tree]) rest m
      (Nat.le_trans hlo (Nat.le_trans hk.1 (by rw [hsz3]; exact Nat.le_succ _))) hS3 hmr
    refine ⟨v, st2, h1, ?_, ?_, ?_⟩
    · exact Nat.le_trans hk.1 (Nat.le_trans (by rw [hsz3]; exact Nat.le_succ _) h2)
    · intro q hq
      rw [h3 q hq, hlo3 q hq]
    · rw [foldr_pair_append] at h4
      exact h4

/-- An item followed by a dotted tail: the reader takes the value of the expression after
the dot for the tail of the last pair. -/
theorem reads_item_dot (x : Syn) (ws ws1 : List Char) (y : Syn) (ws2 : List Char)
    (hx : x.wf = true) (hws : ws.all isspace = true)
    (hstop : x.stopsAt (ws ++ (Items.dot ws1 y ws2).chars) = true)
    (hws1 : ws1.all isspace = true) (hne1 : ws1 ≠ []) (hy : y.wf = true)
    (hws2 : ws2.all isspace = true) (px : ReadsSyn x) (py : ReadsSyn y) :
    ReadsItems (Items.item x ws (Items.dot ws1 y ws2)) := by
  intro ord st lo head tail es rest n hlo hS hn
  obtain ⟨m, rfl⟩ : ∃ m, n = m + 1 := ⟨n - 1, by simp only [Items.fuel] at hn; omega⟩
  have hmx : x.fuel ≤ m := by simp only [Items.fuel] at hn; omega
  have hmy : y.fuel ≤ m := by simp only [Items.fuel] at hn; omega
  obtain ⟨c, cs, hc, _, c2, _⟩ := Syn.chars_head x hx
  obtain ⟨e, es1, hyc, e1, _, _⟩ := Syn.chars_head y hy
  have hch : (Items.item x ws (Items.dot ws1 y ws2)).chars ++ rest
      = x.chars ++ (ws ++ ('.' :: (ws1 ++ (y.chars ++ (ws2 ++ (')' :: rest)))))) := by
    simp [Items.chars]
  have hdel : x.stopsAt (ws ++ ('.' :: (ws1 ++ (y.chars ++ (ws2 ++ (')' :: rest))))))
      = true := by
    have h1 : ws ++ ('.' :: (ws1 ++ (y.chars ++ (ws2 ++ (')' :: rest)))))
        = (ws ++ (Items.dot ws1 y ws2).chars) ++ rest := by
      simp [Items.chars]
    rw [h1, Syn.stopsAt_append x _ rest
      (fun h => Items.chars_ne_nil _ (List.append_eq_nil.mp h).2)]
    exact hstop
  obtain ⟨elem, st1, hr, hk, hsh⟩ := px ord st _ m hdel hmx
  have hR : skip_whitespace (ws ++ ('.' :: (ws1 ++ (y.chars ++ (ws2 ++ (')' :: rest))))))
      = '.' :: (ws1 ++ (y.chars ++ (ws2 ++ (')' :: rest)))) := by
    rw [skip_whitespace_append ws _ hws]
    exact skip_whitespace_cons '.' _ (by decide)
  have hdot : isDot (skip_whitespace
      (ws ++ ('.' :: (ws1 ++ (y.chars ++ (ws2 ++ (')' :: rest))))))) = true := by
    rw [hR]
    cases ws1 with
    | nil => exact absurd rfl hne1
    | cons w ws1 =>
      simp only [List.all_cons, Bool.and_eq_true] at hws1
      simp [isDot, hws1.1]
  have hdel2 : y.stopsAt (ws2 ++ (')' :: rest)) = true :=
    Syn.stopsAt_space y ws2 (')' :: rest) hws2 (Or.inr ⟨')', rest, rfl, by decide⟩)
  obtain ⟨tl, st2, hr2, hk2, hsh2⟩ := py ord st1 (ws2 ++ (')' :: rest)) m hdel2 hmy
  have hT : skip_whitespace (skip_whitespace
      (ws ++ ('.' :: (ws1 ++ (y.chars ++ (ws2 ++ (')' :: rest))))))).tail
      = y.chars ++ (ws2 ++ (')' :: rest)) := by
    rw [hR, List.tail_cons, skip_whitespace_append ws1 _ hws1, hyc]
    exact skip_whitespace_cons e _ e1
  rw [← hT] at hr2
  have hclose : skip_whitespace (ws2 ++ (')' :: rest)) = ')' :: rest := by
    rw [skip_whitespace_append ws2 _ hws2]
    exact skip_whitespace_cons ')' _ (by decide)
  rw [hch]
  rw [hc, List.cons_append] at hr ⊢
  have hsz2 : (cons st2 elem tl).2.size = st2.size + 1 := Store.size_alloc _ _
  cases es with
  | nil =>
    have hhead : head = nil := hS
    have hn2 : isNil st2 head = true := by rw [hhead]; exact isNil_nil st2
    rw [loop_dot_first_step m ord st st1 st2 head tail elem tl c _ _ _ rest c2 hr hdot hr2
      hclose hn2]
    refine ⟨_, _, rfl, ?_, ?_, ?_⟩
    · rw [hsz2]
      exact Nat.le_trans hk.1 (Nat.le_trans hk2.1 (Nat.le_succ _))
    · intro q hq
      have hqs : q ≤ st.size := Nat.le_trans hq hlo
      exact ((Keeps.alloc st2 (Cell.cons elem tl)).2 q
        (Nat.le_trans hqs (hk.trans hk2).1)).trans ((hk.trans hk2).2 q hqs)
    · rw [hsz2]
      exact ShapeIn.dotted_first hlo hk hk2 hsh hsh2
  | cons e0 es =>
    obtain ⟨st3, hn2, hset, hsz3, hlo3, hfin⟩ := ListSoFar.dotted hlo hS hk hk2 hsh hsh2
    rw [loop_dot_next_step m ord st st1 st2 st3 head tail elem tl c _ _ _ rest c2 hr hdot hr2
      hclose hn2 hset]
    refine ⟨_, _, rfl, ?_, hlo3, hfin⟩
    rw [hsz3]
    exact Nat.le_trans hk.1 (Nat.le_trans hk2.1 (Nat.le_succ _))

/-- The function `read_sexp` on a text that begins with a closing parenthesis returns Nil
and leaves the text where it is. -/
theorem read_sexp_close (n : Nat) (ord : ArgOrder) (st : Store) (rest : List Char) :
    read_sexp (n + 1) ord st (')' :: rest) = Read.ok nil st (')' :: rest) := by
  rw [read_sexp_atom_step n ord st _ rest ')' (skip_whitespace_cons ')' rest (by decide))
    (by decide) (by decide), read_atom]
  have hq : (')' : Char) ≠ dquoteChar := by decide
  simp [hq, List.takeWhile_cons, isDelimiter]

/-- An item followed by a dot and the closing parenthesis: the reader finds no expression
after the dot, and the tail of the last pair is Nil. -/
theorem reads_item_dotClose (x : Syn) (ws ws1 : List Char) (hx : x.wf = true)
    (hws : ws.all isspace = true)
    (hstop : x.stopsAt (ws ++ (Items.dotClose ws1).chars) = true)
    (hws1 : ws1.all isspace = true) (px : ReadsSyn x) :
    ReadsItems (Items.item x ws (Items.dotClose ws1)) := by
  intro ord st lo head tail es rest n hlo hS hn
  obtain ⟨m, rfl⟩ : ∃ m, n = m + 1 := ⟨n - 1, by simp only [Items.fuel] at hn; omega⟩
  have hmx : x.fuel ≤ m := by simp only [Items.fuel] at hn; omega
  obtain ⟨k, rfl⟩ : ∃ k, m = k + 1 := ⟨m - 1, by simp only [Items.fuel] at hn; omega⟩
  obtain ⟨c, cs, hc, _, c2, _⟩ := Syn.chars_head x hx
  have hch : (Items.item x ws (Items.dotClose ws1)).chars ++ rest
      = x.chars ++ (ws ++ ('.' :: (ws1 ++ (')' :: rest)))) := by
    simp [Items.chars]
  have hdel : x.stopsAt (ws ++ ('.' :: (ws1 ++ (')' :: rest)))) = true := by
    have h1 : ws ++ ('.' :: (ws1 ++ (')' :: rest)))
        = (ws ++ (Items.dotClose ws1).chars) ++ rest := by
      simp [Items.chars]
    rw [h1, Syn.stopsAt_append x _ rest
      (fun h => Items.chars_ne_nil _ (List.append_eq_nil.mp h).2)]
    exact hstop
  obtain ⟨elem, st1, hr, hk, hsh⟩ := px ord st _ (k + 1) hdel hmx
  have hR : skip_whitespace (ws ++ ('.' :: (ws1 ++ (')' :: rest))))
      = '.' :: (ws1 ++ (')' :: rest)) := by
    rw [skip_whitespace_append ws _ hws]
    exact skip_whitespace_cons '.' _ (by decide)
  have hdot : isDot (skip_whitespace (ws ++ ('.' :: (ws1 ++ (')' :: rest))))) = true := by
    rw [hR]
    cases ws1 with
    | nil => simp [isDot]
    | cons w ws1 =>
      simp only [List.all_cons, Bool.and_eq_true] at hws1
      simp [isDot, hws1.1]
  have hclose : skip_whitespace (')' :: rest) = ')' :: rest :=
    skip_whitespace_cons ')' _ (by decide)
  have hT : skip_whitespace (skip_whitespace
      (ws ++ ('.' :: (ws1 ++ (')' :: rest))))).tail = ')' :: rest := by
    rw [hR, List.tail_cons, skip_whitespace_append ws1 _ hws1]
    exact hclose
  have hr2 : read_sexp (k + 1) ord st1 (skip_whitespace (skip_whitespace
      (ws ++ ('.' :: (ws1 ++ (')' :: rest))))).tail) = Read.ok nil st1 (')' :: rest) := by
    rw [hT]
    exact read_sexp_close k ord st1 rest
  have hsh2 : ShapeIn st1 st1.size st1.size nil SExpr.nil := rfl
  rw [hch]
  rw [hc, List.cons_append] at hr ⊢
  have hsz2 : (cons st1 elem nil).2.size = st1.size + 1 := Store.size_alloc _ _
  cases es with
  | nil =>
    have hhead : head = nil := hS
    have hn2 : isNil st1 head = true := by rw [hhead]; exact isNil_nil st1
    rw [loop_dot_first_step (k + 1) ord st st1 st1 head tail elem nil c _ _ _ rest c2 hr hdot
      hr2 hclose hn2]
    refine ⟨_, _, rfl, ?_, ?_, ?_⟩
    · rw [hsz2]
      exact Nat.le_trans hk.1 (Nat.le_succ _)
    · intro q hq
      have hqs : q ≤ st.size := Nat.le_trans hq hlo
      exact ((Keeps.alloc st1 (Cell.cons elem nil)).2 q
        (Nat.le_trans hqs hk.1)).trans (hk.2 q hqs)
    · rw [hsz2]
      exact ShapeIn.dotted_first hlo hk (Keeps.refl st1) hsh hsh2
  | cons e0 es =>
    obtain ⟨st3, hn2, hset, hsz3, hlo3, hfin⟩ :=
      ListSoFar.dotted hlo hS hk (Keeps.refl st1) hsh hsh2
    rw [loop_dot_next_step (k + 1) ord st st1 st1 st3 head tail elem nil c _ _ _ rest c2 hr
      hdot hr2 hclose hn2 hset]
    refine ⟨_, _, rfl, ?_, hlo3, hfin⟩
    rw [hsz3]
    exact Nat.le_trans hk.1 (Nat.le_succ _)

mutual

/-- Every well-formed text of an expression is read whole by `read_sexp`. -/
theorem Syn.reads_syn : ∀ (x : Syn), x.wf = true → ReadsSyn x
  | Syn.atom tok, hx => reads_atom tok (by simpa [Syn.wf] using hx)
  | Syn.str body, hx => by
    have h : body.length ≤ 253 ∧ body.all (fun c => decide (c ≠ dquoteChar)) = true := by
      simpa [Syn.wf] using hx
    exact reads_str body h.1 h.2
  | Syn.quoted ws y, hx => by
    have h : ws.all isspace = true ∧ y.wf = true := by simpa [Syn.wf] using hx
    exact reads_quoted ws y h.1 (Syn.reads_syn y h.2)
  | Syn.list ws items, hx => by
    have h : ws.all isspace = true ∧ items.wf true = true := by
      rw [Syn.wf, Bool.and_eq_true] at hx
      exact hx
    exact reads_list ws items h.1 h.2 (Items.reads_items items true h.2 (by
      cases items with
      | close => rfl
      | dot _ _ _ => simp [Items.wf] at h
      | dotClose _ => simp [Items.wf] at h
      | item _ _ _ => rfl))

/-- Every well-formed text of a list from an item on is read whole by the loop of
`read_list`. -/
theorem Items.reads_items : ∀ (items : Items) (b : Bool), items.wf b = true →
    items.isDotted = false → ReadsItems items
  | Items.close, _, _, _ => reads_close
  | Items.dot _ _ _, _, _, hd => by simp [Items.isDotted] at hd
  | Items.dotClose _, _, _, hd => by simp [Items.isDotted] at hd
  | Items.item x ws Items.close, b, hw, _ => by
    obtain ⟨h1, h2, h3, h4, _⟩ := (Items.wf_item x ws Items.close b).mp hw
    exact reads_item x ws Items.close h1 h2 h3 h4 rfl (Syn.reads_syn x h1)
      (Items.reads_items Items.close false h4 rfl)
  | Items.item x ws (Items.item y ws2 r2), b, hw, _ => by
    obtain ⟨h1, h2, h3, h4, _⟩ := (Items.wf_item x ws (Items.item y ws2 r2) b).mp hw
    exact reads_item x ws (Items.item y ws2 r2) h1 h2 h3 h4 rfl (Syn.reads_syn x h1)
      (Items.reads_items (Items.item y ws2 r2) false h4 rfl)
  | Items.item x ws (Items.dot ws1 y ws2), b, hw, _ => by
    obtain ⟨h1, h2, h3, h4, _⟩ := (Items.wf_item x ws (Items.dot ws1 y ws2) b).mp hw
    have h : ((ws1 ≠ [] ∧ ws1.all isspace = true) ∧ y.wf = true) ∧
        ws2.all isspace = true := by
      simpa [Items.wf] using h4
    exact reads_item_dot x ws ws1 y ws2 h1 h2 h3 h.1.1.2 h.1.1.1 h.1.2 h.2
      (Syn.reads_syn x h1) (Syn.reads_syn y h.1.2)
  | Items.item x ws (Items.dotClose ws1), b, hw, _ => by
    obtain ⟨h1, h2, h3, h4, _⟩ := (Items.wf_item x ws (Items.dotClose ws1) b).mp hw
    have h : ws1.all isspace = true := by simpa [Items.wf] using h4
    exact reads_item_dotClose x ws ws1 h1 h2 h3 h (Syn.reads_syn x h1)

end

/-! ## `parse` on a well-formed text -/

mutual

theorem Syn.fuel_le : ∀ x : Syn, x.wf = true → x.fuel ≤ 2 * x.chars.length + 1
  | Syn.atom _, _ => by simp only [Syn.fuel]; omega
  | Syn.str _, _ => by simp only [Syn.fuel]; omega
  | Syn.quoted ws y, hx => by
    have h : ws.all isspace = true ∧ y.wf = true := by simpa [Syn.wf] using hx
    have := Syn.fuel_le y h.2
    simp only [Syn.fuel, Syn.chars, List.length_cons, List.length_append]
    omega
  | Syn.list ws items, hx => by
    have h : ws.all isspace = true ∧ items.wf true = true := by
      rw [Syn.wf, Bool.and_eq_true] at hx
      exact hx
    have := Items.fuel_le_items items true h.2
    simp only [Syn.fuel, Syn.chars, List.length_cons, List.length_append]
    omega

theorem Items.fuel_le_items : ∀ (r : Items) (b : Bool), r.wf b = true →
    r.fuel ≤ 2 * r.chars.length
  | Items.close, _, _ => by simp [Items.fuel, Items.chars]
  | Items.dot ws1 y ws2, b, hw => by
    have h : (((b = false ∧ ws1 ≠ []) ∧ ws1.all isspace = true) ∧ y.wf = true) ∧
        ws2.all isspace = true := by
      simpa [Items.wf] using hw
    have := Syn.fuel_le y h.1.2
    simp only [Items.fuel, Items.chars, List.length_cons, List.length_append,
      List.length_singleton]
    omega
  | Items.dotClose ws, _, _ => by
    simp only [Items.fuel, Items.chars, List.length_cons, List.length_append,
      List.length_singleton]
    omega
  | Items.item x ws r, b, hw => by
    obtain ⟨hx, _, _, hr, _⟩ := (Items.wf_item x ws r b).mp hw
    have h1 := Syn.fuel_le x hx
    have h2 := Items.fuel_le_items r false hr
    have h3 := Items.chars_length_pos r
    obtain ⟨c, cs, hc, _⟩ := Syn.chars_head x hx
    have h4 : 1 ≤ x.chars.length := by rw [hc]; simp
    simp only [Items.fuel, Items.chars, List.length_append]
    omega

end

/-- The reader stops at the end of every expression before white space at the end of the
text. -/
theorem Syn.stopsAt_blank (x : Syn) (ws : List Char) (hws : ws.all isspace = true) :
    x.stopsAt ws = true := by
  have := Syn.stopsAt_space x ws [] hws (Or.inl rfl)
  rw [List.append_nil] at this
  exact this

/-- The function `parse` on white space, a well-formed text and a text that the reader
stops at returns the root of a tree of new cells with the structure that the well-formed
text denotes, and leaves the cells of the heap as they were. -/
theorem parse_syn_before (x : Syn) (hx : x.wf = true) (ord : ArgOrder) (st : Store)
    (ws rest : List Char) (hws : ws.all isspace = true) (hstop : x.stopsAt rest = true) :
    ∃ v st2, parse ord st (ws ++ (x.chars ++ rest)) = Res.ok v st2 ∧ Keeps st st2 ∧
      ShapeIn st2 st.size st2.size v x.tree := by
  have hf := Syn.fuel_le x hx
  obtain ⟨v, st2, hr, hk, hsh⟩ := Syn.reads_syn x hx ord st rest
    (3 * (ws ++ (x.chars ++ rest)).length + 3) hstop
    (by simp only [List.length_append]; omega)
  exact ⟨v, st2, by rw [parse, read_sexp_skip _ _ _ ws _ hws, hr]; rfl, hk, hsh⟩

/-- The function `parse` on a well-formed text returns a value with the structure that the
text denotes, and leaves the cells of the heap as they were. -/
theorem parse_syn (x : Syn) (hx : x.wf = true) (ord : ArgOrder) (st : Store) :
    ∃ v st2, parse ord st x.chars = Res.ok v st2 ∧ Keeps st st2 ∧ HasShape st2 v x.tree := by
  obtain ⟨v, st2, hp, hk, hsh⟩ := parse_syn_before x hx ord st [] [] rfl rfl
  rw [List.nil_append, List.append_nil] at hp
  exact ⟨v, st2, hp, hk, hsh.hasShape⟩

/-- Evaluating a list whose head is the symbol `quote` returns its second element and leaves
the heap as it was. -/
theorem eval_quote (n : Nat) (ord : ArgOrder) (st : Store) (sexp env : Ptr) (e : SExpr)
    (h : HasShape st sexp (SExpr.pair (SExpr.sym "quote") (SExpr.pair e SExpr.nil))) :
    eval (n + 1) ord st sexp env = Res.ok (cadr st sexp) st ∧ HasShape st (cadr st sexp) e := by
  obtain ⟨h1, h2, _, h4, _⟩ := h
  rw [eval_succ, classify_quote st sexp _ _ ((isCons_iff st sexp).mp h1) h2]
  exact ⟨rfl, h4⟩

theorem quoteForm_chars (ws1 : List Char) (x : Syn) (ws2 : List Char) :
    (quoteForm ws1 x ws2).chars
      = "(quote ".toList ++ (ws1 ++ (x.chars ++ (ws2 ++ [')']))) := by
  have : "(quote ".toList = '(' :: ("quote".toList ++ [' ']) := rfl
  rw [this]
  simp [quoteForm, Syn.chars, Items.chars]

theorem quoteForm_wf (ws1 : List Char) (x : Syn) (ws2 : List Char) (hx : x.wf = true)
    (hdot : x.isLoneDot = false) (hws1 : ws1.all isspace = true)
    (hws2 : ws2.all isspace = true) : (quoteForm ws1 x ws2).wf = true := by
  have hq : (Syn.atom "quote".toList).wf = true := by decide
  have hx2 : (Items.item x ws2 Items.close).wf false = true := by
    rw [Items.wf_item]
    exact ⟨hx, hws2, Syn.stopsAt_space x ws2 [')'] hws2 (Or.inr ⟨')', [], rfl, by decide⟩),
      rfl, Or.inr (Or.inl hdot)⟩
  have hitems : (Items.item (Syn.atom "quote".toList) (' ' :: ws1)
      (Items.item x ws2 Items.close)).wf true = true := by
    rw [Items.wf_item]
    refine ⟨hq, ?_, ?_, hx2, Or.inl rfl⟩
    · simp only [List.all_cons, Bool.and_eq_true]
      exact ⟨by decide, hws1⟩
    · exact Syn.endsBefore_delimiter _ ' ' (by decide)
  rw [quoteForm, Syn.wf, hitems]
  rfl

theorem quoteForm_tree (ws1 : List Char) (x : Syn) (ws2 : List Char) :
    (quoteForm ws1 x ws2).tree = SExpr.list [SExpr.sym "quote", x.tree] := by
  have h : atomTree ['q', 'u', 'o', 't', 'e'] = SExpr.sym "quote" := by decide
  simp [quoteForm, Syn.tree, Items.tree, h, SExpr.list]

/-- C17 fails for some texts that hold one expression.  For the token `.`, the text `'.`
is read as `(quote .)` and the text `(quote .)` as the one-element list `(quote)`, because a
dot after an element of a list starts a dotted tail.  For a token of 256 characters, the
text with the apostrophe is read as a list of two elements and the text with `(quote ` as a
list of three, because `read_atom` takes 255 characters at a time.  For `(a . b c)`, which
`parse` reads as `(a . b)`, the first is `(quote (a . b))` and the second has a third
element `c`.  For a string literal with 255 characters between its quotes, of which
`read_atom` takes the first 254, the first is a list of two elements and the second a list
of three. -/
theorem quote_forms_differ :
    (parse ArgOrder.leftFirst Store.empty "(quote .)".toList).Yields
        (SExpr.list [SExpr.sym "quote"]) ∧
    (parse ArgOrder.leftFirst Store.empty
        (quoteChar :: dquoteChar :: (List.replicate 255 'x' ++ [dquoteChar]))).Yields
      (SExpr.list [SExpr.sym "quote",
        SExpr.sym (String.mk (dquoteChar :: List.replicate 254 'x'))]) ∧
    (parse ArgOrder.leftFirst Store.empty
        ("(quote ".toList ++ dquoteChar :: (List.replicate 255 'x' ++ [dquoteChar, ')']))).Yields
      (SExpr.list [SExpr.sym "quote",
        SExpr.sym (String.mk (dquoteChar :: List.replicate 254 'x')),
        SExpr.sym (String.mk ['x', dquoteChar])]) ∧
    ∀ ord : ArgOrder,
      (parse ord Store.empty ".".toList).Yields (SExpr.sym ".") ∧
      (parse ord Store.empty "'.".toList).Yields
        (SExpr.list [SExpr.sym "quote", SExpr.sym "."]) ∧
      (parse ord Store.empty "(quote .)".toList).Yields (SExpr.list [SExpr.sym "quote"]) ∧
      (parse ord Store.empty (List.replicate 256 'a')).Yields
        (SExpr.sym (String.mk (List.replicate 255 'a'))) ∧
      (parse ord Store.empty (quoteChar :: List.replicate 256 'a')).Yields
        (SExpr.list [SExpr.sym "quote", SExpr.sym (String.mk (List.replicate 255 'a'))]) ∧
      (parse ord Store.empty ("(quote ".toList ++ List.replicate 256 'a' ++ [')'])).Yields
        (SExpr.list [SExpr.sym "quote", SExpr.sym (String.mk (List.replicate 255 'a')),
          SExpr.sym "a"]) ∧
      (parse ord Store.empty "(a . b c)".toList).Yields
        (SExpr.pair (SExpr.sym "a") (SExpr.sym "b")) ∧
      (parse ord Store.empty "'(a . b c)".toList).Yields
        (SExpr.list [SExpr.sym "quote", SExpr.pair (SExpr.sym "a") (SExpr.sym "b")]) ∧
      (parse ord Store.empty "(quote (a . b c))".toList).Yields
        (SExpr.list [SExpr.sym "quote", SExpr.pair (SExpr.sym "a") (SExpr.sym "b"),
          SExpr.sym "c"]) := by
  refine ⟨by decide!, by decide!, by decide!, ?_⟩
  intro ord
  cases ord <;> decide!

/-- C17, amended: for every well-formed text `x` of one expression other than the lone dot
(an atom token of at most 255 characters; a string literal of at most 253 characters; an
apostrophe followed by such a text; or a parenthesised list of items with an optional
dotted tail after at least one element, where an item is such a text, a lone dot that is
the first item or stands before a parenthesis, or a part of a longer token that fills the
buffer of `read_atom`, and where white space is needed only after an atom token of fewer
than 255 characters that no parenthesis follows), alone or between white space `ws1` and
`ws2`, `parse` of an
apostrophe followed by the text and `parse` of `(quote ` followed by the text and `)` both
return a two-element list whose head is the symbol `quote` and whose second element has the
structure that `parse` of the text returns; evaluating either list in any environment
returns its second element and leaves the heap, hence the environment, as it was. -/
theorem quote_sugar (x : Syn) (hx : x.wf = true) (hdot : x.isLoneDot = false)
    (ws1 ws2 : List Char) (hws1 : ws1.all isspace = true) (hws2 : ws2.all isspace = true)
    (ord : ArgOrder) (st : Store) :
    ∃ (v1 v2 v3 : Ptr) (st1 st2 st3 : Store),
      parse ord st (quoteChar :: (ws1 ++ (x.chars ++ ws2))) = Res.ok v1 st1 ∧
      parse ord st ("(quote ".toList ++ (ws1 ++ (x.chars ++ (ws2 ++ [')']))))
        = Res.ok v2 st2 ∧
      parse ord st (ws1 ++ (x.chars ++ ws2)) = Res.ok v3 st3 ∧
      HasShape st1 v1 (SExpr.list [SExpr.sym "quote", x.tree]) ∧
      HasShape st2 v2 (SExpr.list [SExpr.sym "quote", x.tree]) ∧
      HasShape st3 v3 x.tree ∧
      ∀ (n : Nat) (ord2 : ArgOrder) (env : Ptr),
        (eval (n + 1) ord2 st1 v1 env = Res.ok (cadr st1 v1) st1 ∧
          HasShape st1 (cadr st1 v1) x.tree) ∧
        (eval (n + 1) ord2 st2 v2 env = Res.ok (cadr st2 v2) st2 ∧
          HasShape st2 (cadr st2 v2) x.tree) := by
  have hq : (Syn.quoted ws1 x).wf = true := by simp [Syn.wf, hx, hws1]
  have hstop := Syn.stopsAt_blank x ws2 hws2
  obtain ⟨v1, st1, p1, _, s1⟩ := parse_syn_before (Syn.quoted ws1 x) hq ord st [] ws2 rfl
    (by rw [Syn.stopsAt_quoted]; exact hstop)
  obtain ⟨v2, st2, p2, _, s2⟩ :=
    parse_syn (quoteForm ws1 x ws2) (quoteForm_wf ws1 x ws2 hx hdot hws1 hws2) ord st
  obtain ⟨v3, st3, p3, _, s3⟩ := parse_syn_before x hx ord st ws1 ws2 hws1 hstop
  rw [quoteForm_chars] at p2
  rw [quoteForm_tree] at s2
  have c1 : [] ++ ((Syn.quoted ws1 x).chars ++ ws2) = quoteChar :: (ws1 ++ (x.chars ++ ws2)) := by
    simp [Syn.chars]
  rw [c1] at p1
  have t1 : (Syn.quoted ws1 x).tree = SExpr.list [SExpr.sym "quote", x.tree] := by
    simp [Syn.tree, SExpr.list]
  have s1h := s1.hasShape
  rw [t1] at s1h
  exact ⟨v1, v2, v3, st1, st2, st3, p1, p2, p3, s1h, s2, s3.hasShape, fun n ord2 env =>
    ⟨eval_quote n ord2 st1 v1 env x.tree s1h, eval_quote n ord2 st2 v2 env x.tree s2⟩⟩

/-- C17, amended, on the text `((a)(b)"x"c .(d))`, in which no white space separates the
items but the last two: the two texts made of it with an apostrophe and with `(quote ` are
read as the same list; a list with a run of 256 letters is a well-formed text too, of two
tokens; and `'(a b c)` at the first prompt evaluates to the list `(a b c)`. -/
theorem quote_sugar_witness :
    sampleTight.chars = "((a)(b)".toList ++ dquoteChar :: 'x' :: dquoteChar :: "c .(d))".toList ∧
      sampleTight.tree = SExpr.list [SExpr.list [SExpr.sym "a"], SExpr.list [SExpr.sym "b"],
        SExpr.str "x", SExpr.sym "c", SExpr.sym ".", SExpr.list [SExpr.sym "d"]] ∧
      (∃ (v1 v2 v3 : Ptr) (st1 st2 st3 : Store),
        parse ArgOrder.leftFirst Store.empty (quoteChar :: ([] ++ (sampleTight.chars ++ [])))
          = Res.ok v1 st1 ∧
        parse ArgOrder.leftFirst Store.empty
          ("(quote ".toList ++ ([] ++ (sampleTight.chars ++ ([] ++ [')'])))) = Res.ok v2 st2 ∧
        parse ArgOrder.leftFirst Store.empty ([] ++ (sampleTight.chars ++ [])) = Res.ok v3 st3 ∧
        HasShape st1 v1 (SExpr.list [SExpr.sym "quote", sampleTight.tree]) ∧
        HasShape st2 v2 (SExpr.list [SExpr.sym "quote", sampleTight.tree]) ∧
        HasShape st3 v3 sampleTight.tree ∧
        ∀ (n : Nat) (ord2 : ArgOrder) (env : Ptr),
          (eval (n + 1) ord2 st1 v1 env = Res.ok (cadr st1 v1) st1 ∧
            HasShape st1 (cadr st1 v1) sampleTight.tree) ∧
          (eval (n + 1) ord2 st2 v2 env = Res.ok (cadr st2 v2) st2 ∧
            HasShape st2 (cadr st2 v2) sampleTight.tree)) ∧
      sampleRunOn.chars = '(' :: (List.replicate 256 'a' ++ [')']) ∧
      sampleRunOn.wf = true ∧ sampleRunOn.isLoneDot = false ∧
      sampleRunOn.tree = SExpr.list [SExpr.sym (String.mk (List.replicate 255 'a')),
        SExpr.sym "a"] ∧
      (∀ ordR ord : ArgOrder,
        (run 60 ordR ord ["'(a b c)"]).Yields
            (SExpr.list [SExpr.sym "a", SExpr.sym "b", SExpr.sym "c"]) ∧
          (run 60 ordR ord ["(quote (a b c))"]).Yields
            (SExpr.list [SExpr.sym "a", SExpr.sym "b", SExpr.sym "c"])) :=
  ⟨by decide, by decide,
   quote_sugar sampleTight (by decide) (by decide) [] [] (by decide) (by decide)
     ArgOrder.leftFirst Store.empty,
   by decide!, by decide!, by decide, by decide!,
   fun ordR ord => by cases ordR <;> cases ord <;> decide!⟩

/-! ## The global environment -/

/-- The symbols of the root frame, most recently bound first, are the nineteen names of
`init_global_env` in reverse source order, and the values at the same positions are the
primitives registered under them. -/
theorem globalHeap_names :
    (allSymbols globalFrames).map globalHeap.read
        = globalBindings.reverse.map (fun b => Cell.symbol b.1) ∧
      (allValues globalFrames).map globalHeap.read
        = globalBindings.reverse.map (fun b => Cell.primitive b.2) := by
  decide!

theorem aliases_registered :
    ∀ p ∈ aliases, ∃ b1 ∈ globalBindings, ∃ b2 ∈ globalBindings,
      b1.1 = p.1 ∧ b2.1 = p.2 ∧ b1.2 = b2.2 := by
  decide

/-- In every heap that keeps the cells of the first prompt, a symbol whose text is none of
the nineteen names looks up, in `GLOBAL_ENV`, to a fresh symbol `UNDEFINED`. -/
theorem global_lookup_unbound (st : Store) (hk : Keeps globalHeap st) (text : String)
    (ht : ∀ b ∈ globalBindings, b.1 ≠ text) (s : Ptr) (hs : st.read s = Cell.symbol text)
    (fuel : Nat) (hfuel : 22 ≤ fuel) :
    env_lookup fuel st GLOBAL_ENV s = Res.ofPair (make_symbol st "UNDEFINED") := by
  have henv := IsEnv.keeps_all_env hk globalFrames GLOBAL_ENV globalHeap_isEnv
  have hscan := env_lookup_scan st text s hs globalFrames GLOBAL_ENV fuel henv
    (by simpa [lookupFuel, globalFrames, allSymbols] using hfuel)
  have hnone : envScan st text globalFrames = none := by
    apply envScan_none
    intro x hx
    have hxs := allSymbols_le_size globalHeap globalFrames GLOBAL_ENV globalHeap_isEnv x hx
    have hm : globalHeap.read x ∈ (allSymbols globalFrames).map globalHeap.read :=
      List.mem_map_of_mem _ hx
    rw [globalHeap_names.1, List.mem_map] at hm
    obtain ⟨b, hb, hbx⟩ := hm
    simp only [hasText, hk.2 x hxs, ← hbx, decide_eq_false_iff_not, Cell.symbol.injEq]
    exact ht b (List.mem_reverse.mp hb)
  rw [hscan, hnone]
  rfl

/-- A call of `apply` depends on the procedure cell only through its content: two Builtin
cells with the same native function give the same result on the same arguments. -/
theorem apply_same_primitive (n : Nat) (ord : ArgOrder) (st : Store) (v1 v2 args env : Ptr)
    (f : Prim) (h1 : st.read v1 = Cell.primitive f) (h2 : st.read v2 = Cell.primitive f) :
    apply n ord st v1 args env = apply n ord st v2 args env := by
  cases n with
  | zero => rw [apply, apply]
  | succ n => rw [apply_succ, apply_succ, h1, h2]

/-- C27: `init_global_env`, run on the empty heap, returns an environment of one frame (its
parent is Nil) with exactly nineteen bindings, whose names are `+ - * / % < > <= >= eq not
cons car cdr add sub mul div mod`.  In the heap it leaves, and in every heap that adds cells
to it, the lookup of a symbol with one of these names returns the Builtin registered under
the name; the lookups of a word alias and of its operator return Builtins with the same
native function, so that `apply` of either to the same arguments gives the same result; and
the lookup of a symbol with any other text, `T` included, returns a fresh symbol
`UNDEFINED`. -/
theorem global_environment :
    init_global_env Store.empty = Res.ok GLOBAL_ENV globalHeap ∧
    IsEnv globalHeap GLOBAL_ENV globalFrames ∧
    env_parent globalHeap GLOBAL_ENV = nil ∧
    globalFrames.map (fun f => (f.1.length, f.2.length)) = [(19, 19)] ∧
    (allSymbols globalFrames).map globalHeap.read
        = globalBindings.reverse.map (fun b => Cell.symbol b.1) ∧
    globalBindings.map (fun b => b.1)
        = ["+", "-", "*", "/", "%", "<", ">", "<=", ">=", "eq", "not", "cons", "car", "cdr",
            "add", "sub", "mul", "div", "mod"] ∧
    (∀ (st : Store), Keeps globalHeap st → ∀ (fuel : Nat), 22 ≤ fuel →
      (∀ b ∈ globalBindings, ∀ s : Ptr, st.read s = Cell.symbol b.1 →
        ∃ v, env_lookup fuel st GLOBAL_ENV s = Res.ok v st ∧
          st.read v = Cell.primitive b.2 ∧ isPrimitive st v = true) ∧
      (∀ p ∈ aliases, ∀ s1 s2 : Ptr, st.read s1 = Cell.symbol p.1 →
        st.read s2 = Cell.symbol p.2 →
        ∃ v1 v2, env_lookup fuel st GLOBAL_ENV s1 = Res.ok v1 st ∧
          env_lookup fuel st GLOBAL_ENV s2 = Res.ok v2 st ∧ st.read v1 = st.read v2 ∧
          ∀ (n : Nat) (ord : ArgOrder) (args env : Ptr),
            apply n ord st v1 args env = apply n ord st v2 args env) ∧
      (∀ (text : String), (∀ b ∈ globalBindings, b.1 ≠ text) → ∀ s : Ptr,
        st.read s = Cell.symbol text →
        env_lookup fuel st GLOBAL_ENV s = Res.ofPair (make_symbol st "UNDEFINED")) ∧
      (∀ s : Ptr, st.read s = Cell.symbol "T" →
        env_lookup fuel st GLOBAL_ENV s = Res.ofPair (make_symbol st "UNDEFINED"))) ∧
    (∀ ord : ArgOrder,
      (run 40 ArgOrder.leftFirst ord ["T"]).cell = some (Cell.symbol "UNDEFINED") ∧
      (run 40 ArgOrder.leftFirst ord ["(add 2 3)"]).cell = some (Cell.number (Dbl.fin 5)) ∧
      (run 40 ArgOrder.leftFirst ord ["(+ 2 3)"]).cell = some (Cell.number (Dbl.fin 5))) := by
  refine ⟨init_global_env_eq, globalHeap_isEnv, by decide!, by decide, globalHeap_names.1,
    by decide, ?_, ?_⟩
  · intro st hk fuel hfuel
    refine ⟨?_, ?_, ?_, ?_⟩
    · intro b hb s hs
      obtain ⟨v, h1, h2⟩ := global_lookup st hk b hb s hs fuel hfuel
      exact ⟨v, h1, h2, by simp [isPrimitive, h2]⟩
    · intro p hp s1 s2 hs1 hs2
      obtain ⟨c1, hc1, c2, hc2, e1, e2, e3⟩ := aliases_registered p hp
      obtain ⟨v1, a1, a2⟩ := global_lookup st hk c1 hc1 s1 (by rw [e1]; exact hs1) fuel hfuel
      obtain ⟨v2, b1, b2⟩ := global_lookup st hk c2 hc2 s2 (by rw [e2]; exact hs2) fuel hfuel
      rw [← e3] at b2
      exact ⟨v1, v2, a1, b1, by rw [a2, b2], fun n ord args env =>
        apply_same_primitive n ord st v1 v2 args env c1.2 a2 b2⟩
    · intro text ht s hs
      exact global_lookup_unbound st hk text ht s hs fuel hfuel
    · intro s hs
      exact global_lookup_unbound st hk "T" (by decide) s hs fuel hfuel
  · intro ord
    cases ord <;> decide!

/-! ## The reader on any text -/

theorem skip_whitespace_suffix (s : List Char) : skip_whitespace s <:+ s :=
  List.dropWhile_suffix _

theorem skip_whitespace_head (s r : List Char) (c : Char) (h : skip_whitespace s = c :: r) :
    isspace c = false := by
  induction s with
  | nil => cases h
  | cons d s ih =>
    by_cases hd : isspace d = true
    · apply ih
      simpa [skip_whitespace, List.dropWhile_cons, hd] using h
    · have hd2 : isspace d = false := by simpa using hd
      rw [skip_whitespace_cons d s hd2] at h
      cases h
      exact hd2

theorem skip_whitespace_all (s : List Char) (h : s.all isspace = true) :
    skip_whitespace s = [] := by
  have := skip_whitespace_append s [] h
  rw [List.append_nil] at this
  rw [this]
  rfl

theorem suffix_length_lt {a b : List Char} {c : Char} (h : a <:+ b) : a.length < (c :: b).length :=
  Nat.lt_succ_of_le h.length_le

theorem SExpr.proper_ofDbl (d : Dbl) : (SExpr.ofDbl d).proper = true := by
  cases d <;> rfl

theorem SExpr.proper_list (es : List SExpr) (h : ∀ x ∈ es, x.proper = true) :
    (es.foldr SExpr.pair SExpr.nil).proper = true := by
  induction es with
  | nil => rfl
  | cons e es ih =>
    have h1 := h e (List.mem_cons_self _ _)
    have h2 := ih (fun x hx => h x (List.mem_cons_of_mem _ hx))
    cases es with
    | nil => simp [SExpr.proper, h1]
    | cons e2 es2 =>
      simp only [List.foldr_cons] at h2 ⊢
      simp only [SExpr.proper, h1, Bool.true_and, Bool.and_true] at h2 ⊢
      exact h2

/-- The function `atom` never runs out of fuel; it runs into undefined behaviour only on a
token that begins with a double quote; and what it returns is a fresh atom. -/
theorem SExpr.lexical_ofDbl (d : Dbl) : (SExpr.ofDbl d).lexical = true := by
  cases d <;> rfl

theorem SExpr.lexical_list (es : List SExpr) (t : SExpr) (h : ∀ x ∈ es, x.lexical = true)
    (ht : t.lexical = true) : (es.foldr SExpr.pair t).lexical = true := by
  induction es with
  | nil => exact ht
  | cons e es ih =>
    have h1 := h e (List.mem_cons_self _ _)
    have h2 := ih (fun x hx => h x (List.mem_cons_of_mem _ hx))
    simp only [List.foldr_cons, SExpr.lexical, h1, h2, Bool.and_self]

theorem atom_post (st : Store) (str : List Char) :
    atom st str ≠ Res.fuel ∧ (atom st str = Res.fault → str.head? = some dquoteChar) ∧
      ∀ v st2, atom st str = Res.ok v st2 →
        Keeps st st2 ∧ ∃ e, ShapeIn st2 st.size st2.size v e ∧ e.proper = true ∧
          (TokenMade str → e.lexical = true) := by
  by_cases h1 : (strtod str).2 = [] ∧ str ≠ []
  · rw [atom, if_pos h1]
    refine ⟨by simp [Res.ofPair], by simp [Res.ofPair], ?_⟩
    intro v st2 h
    simp only [Res.ofPair, make_number, Res.ok.injEq] at h
    obtain ⟨rfl, rfl⟩ := h
    refine ⟨Keeps.alloc _ _, SExpr.ofDbl (strtod str).1, ?_, SExpr.proper_ofDbl _,
      fun _ => SExpr.lexical_ofDbl _⟩
    rw [Store.size_alloc]
    exact ShapeIn.alloc_number st _
  · rw [atom, if_neg h1]
    by_cases h2 : str.head? = some dquoteChar ∧ str.getLast? = some dquoteChar
    · rw [if_pos h2]
      cases ht : str.tail with
      | nil => exact ⟨by simp, fun _ => h2.1, by simp⟩
      | cons b bs =>
        refine ⟨by simp [Res.ofPair], by simp [Res.ofPair], ?_⟩
        intro v st2 h
        simp only [Res.ofPair, make_string, Res.ok.injEq] at h
        obtain ⟨rfl, rfl⟩ := h
        refine ⟨Keeps.alloc _ _, SExpr.str (String.mk (b :: bs).dropLast), ?_, rfl, ?_⟩
        · rw [Store.size_alloc]
          exact ⟨Nat.lt_succ_self _, Nat.le_refl _, Store.read_alloc_new st _⟩
        · intro hm
          rcases hm with hm | ⟨_, hlen, hno⟩
          · exact absurd h2.1 ((atomOK_iff str).mp hm).2.2.2.2
          · rw [ht] at hno
            have hl : str.tail.length ≤ 254 := by
              rw [List.length_tail]
              omega
            rw [ht] at hl
            have hl2 : (b :: bs).dropLast.length ≤ 253 := by
              rw [List.length_dropLast]
              omega
            simp only [SExpr.lexical, Bool.and_eq_true, decide_eq_true_eq, List.all_eq_true]
            exact ⟨hl2, fun c hc => hno c hc⟩
    · rw [if_neg h2]
      refine ⟨by simp [Res.ofPair], by simp [Res.ofPair], ?_⟩
      intro v st2 h
      simp only [Res.ofPair, make_symbol, Res.ok.injEq] at h
      obtain ⟨rfl, rfl⟩ := h
      refine ⟨Keeps.alloc _ _, SExpr.sym (String.mk str), ?_, rfl, ?_⟩
      · rw [Store.size_alloc]
        exact ⟨Nat.lt_succ_self _, Nat.le_refl _, Store.read_alloc_new st _⟩
      · intro hm
        show symbolLexical str = true
        rw [symbolLexical, Bool.or_eq_true]
        rcases hm with hm | ⟨hhead, hlen, hno⟩
        · left
          have hne := ((atomOK_iff str).mp hm).1
          rw [Bool.and_eq_true, decide_eq_true_eq]
          exact ⟨hm, fun h => h1 ⟨h, hne⟩⟩
        · right
          simp only [Bool.and_eq_true, decide_eq_true_eq, List.all_eq_true]
          cases str with
          | nil => cases hhead
          | cons c t =>
            rw [List.tail_cons] at hno
            rcases List.eq_nil_or_concat t with ht | ⟨t2, l, ht⟩
            · subst ht
              exact absurd ⟨hhead, hhead⟩ h2
            · rw [List.concat_eq_append] at ht
              subst ht
              refine ⟨⟨⟨hhead, by simp⟩, hlen⟩, ?_⟩
              intro x hx
              rw [List.tail_cons] at hx
              rw [List.dropLast_concat] at hno
              rcases List.mem_append.mp hx with hx | hx
              · exact hno x hx
              · rw [List.mem_singleton.mp hx]
                intro hl
                apply h2
                refine ⟨hhead, ?_⟩
                rw [← List.cons_append, List.getLast?_append]
                simp [hl]

/-- A call of `atom` made by `read_atom` satisfies `ReadPost`. -/
theorem readPost_atom (n : Nat) (st : Store) (input tok rest : List Char)
    (hsuf : rest <:+ input) (hlt : rest.length < input.length)
    (hf : tok.head? = some dquoteChar → dquoteChar ∈ input) (hm : TokenMade tok) :
    ReadPost n st input (Read.ofRes (atom st tok) rest) := by
  obtain ⟨a1, a2, a3⟩ := atom_post st tok
  cases ha : atom st tok with
  | fuel => exact absurd ha a1
  | fault => exact hf (a2 ha)
  | ok v st2 =>
    obtain ⟨hk, e, hsh, hp, hl⟩ := a3 v st2 ha
    exact ⟨hk, hsuf, fun _ _ _ _ => hlt, e, hsh, fun _ => hp, hl hm⟩

theorem isDelimiter_of_not {c : Char} (h1 : isspace c = false) (h2 : c ≠ '(') (h3 : c ≠ ')') :
    isDelimiter c = false := by
  simp [isDelimiter, h1, h2, h3]

/-- The characters that `read_atom` copies after an opening double quote: at most 254, none
of them a double quote. -/
theorem quoted_body (rest : List Char) :
    ((rest.takeWhile fun d => d ≠ dquoteChar).take 254).length ≤ 254 ∧
      ∀ c ∈ (rest.takeWhile fun d => d ≠ dquoteChar).take 254, c ≠ dquoteChar := by
  refine ⟨List.length_take_le _ _, ?_⟩
  intro c hc
  have := List.mem_takeWhile_imp (List.mem_of_mem_take hc)
  simpa using this

/-- The function `read_atom` on a text that begins with a character other than white space,
`(` and the apostrophe. -/
theorem read_atom_post (n : Nat) (st : Store) (c : Char) (rest : List Char)
    (h1 : isspace c = false) (h2 : c ≠ '(') (h3 : c ≠ quoteChar) :
    ReadPost n st (c :: rest) (read_atom st (c :: rest)) := by
  rw [read_atom]
  by_cases hq : c = dquoteChar
  · subst hq
    have hmem : dquoteChar ∈ dquoteChar :: rest := List.mem_cons_self _ _
    obtain ⟨hbl, hbq⟩ := quoted_body rest
    have hm1 : TokenMade
        (dquoteChar :: (rest.takeWhile fun d => d ≠ dquoteChar).take 254) := by
      refine Or.inr ⟨rfl, ?_, ?_⟩
      · simp only [List.length_cons]
        omega
      · intro x hx
        rw [List.tail_cons] at hx
        exact hbq x (List.mem_of_mem_dropLast hx)
    simp only [if_true]
    cases hdrop : rest.drop ((rest.takeWhile fun d => d ≠ dquoteChar).take 254).length with
    | nil =>
      simp only
      exact readPost_atom n st _ _ [] List.nil_suffix (by simp) (fun _ => hmem) hm1
    | cons d rest2 =>
      have hsuf : d :: rest2 <:+ rest := by rw [← hdrop]; exact List.drop_suffix _ _
      have hsuf2 : rest2 <:+ rest := (List.suffix_cons d rest2).trans hsuf
      simp only
      by_cases hd : d = dquoteChar
      · simp only [hd, if_true]
        by_cases hl : ((rest.takeWhile fun d => d ≠ dquoteChar).take 254).length = 254
        · rw [if_pos hl]
          exact hmem
        · rw [if_neg hl]
          refine readPost_atom n st _ _ rest2 (hsuf2.trans (List.suffix_cons _ _))
            (suffix_length_lt hsuf2) (fun _ => hmem) (Or.inr ⟨rfl, ?_, ?_⟩)
          · simp only [List.length_cons, List.length_append, List.length_nil]
            omega
          · intro x hx
            rw [List.tail_cons, List.dropLast_concat] at hx
            exact hbq x hx
      · simp only [hd, if_false]
        exact readPost_atom n st _ _ (d :: rest2) (hsuf.trans (List.suffix_cons _ _))
          (suffix_length_lt hsuf) (fun _ => hmem) hm1
  · simp only [hq, if_false]
    by_cases hc : c = ')'
    · have htw : ((c :: rest).takeWhile fun d => !isDelimiter d) = [] := by
        rw [hc]
        simp [List.takeWhile_cons, isDelimiter]
      rw [htw]
      simp only [List.take_nil, if_true]
      refine ⟨Keeps.refl st, List.suffix_refl _, ?_, SExpr.nil, rfl, fun _ => rfl, rfl⟩
      intro c2 r hcr hc2
      simp only [List.cons.injEq] at hcr
      exact absurd (hcr.1 ▸ hc) hc2
    · have hdel := isDelimiter_of_not h1 h2 hc
      have htw : ((c :: rest).takeWhile fun d => !isDelimiter d)
          = c :: (rest.takeWhile fun d => !isDelimiter d) := by
        simp [List.takeWhile_cons, hdel]
      rw [htw]
      simp only [List.take_succ_cons, reduceCtorEq, if_false, List.length_cons, List.drop_succ_cons]
      apply readPost_atom
      · exact (List.drop_suffix _ _).trans (List.suffix_cons _ _)
      · exact suffix_length_lt (List.drop_suffix _ _)
      · intro h
        simp only [List.head?_cons, Option.some.injEq] at h
        exact absurd h hq
      · refine Or.inl ((atomOK_iff _).mpr ⟨by simp, ?_, ?_, ?_, ?_⟩)
        · have := List.length_take_le 254 (rest.takeWhile fun d => !isDelimiter d)
          simp only [List.length_cons]
          omega
        · intro x hx
          rcases List.mem_cons.mp hx with hx | hx
          · rw [hx]
            exact hdel
          · have := List.mem_takeWhile_imp (List.mem_of_mem_take hx)
            simpa using this
        · simp only [List.head?_cons, ne_eq, Option.some.injEq]
          exact h3
        · simp only [List.head?_cons, ne_eq, Option.some.injEq]
          exact hq

theorem isDot_mem {s : List Char} (h : isDot s = true) : '.' ∈ s := by
  cases s with
  | nil => simp [isDot] at h
  | cons c t =>
    cases t with
    | nil => simp [isDot] at h
    | cons d u =>
      simp only [isDot, Bool.and_eq_true, decide_eq_true_eq] at h
      rw [h.1]
      exact List.mem_cons_self _ _

theorem suffix_length_ne {a b : List Char} (h : a <:+ b) (hne : a ≠ b) : a.length < b.length :=
  Nat.lt_of_le_of_ne h.length_le (fun hl => hne (h.eq_of_length hl))

/-- What holds of a call on a text holds of it on a longer text of which the first is a
suffix. -/
theorem ReadPost.of_suffix {n : Nat} {st : Store} {s s2 : List Char} {r : Read}
    (h : ReadPost n st s r) (hs : s <:+ s2) : ReadPost n st s2 r := by
  cases r with
  | fuel =>
    have h1 : n < 3 * s.length + 1 := h
    have h2 := hs.length_le
    show n < 3 * s2.length + 1
    omega
  | fault => exact hs.subset h
  | ok v st2 rest =>
    obtain ⟨h1, h2, h3, e, h4, h5, h6⟩ := h
    refine ⟨h1, h2.trans hs, ?_, e, h4, fun hd => h5 (fun hm => hd (hs.subset hm)), h6⟩
    intro c2 t2 hs2 hc2
    cases s with
    | nil =>
      have : rest = [] := List.eq_nil_of_suffix_nil h2
      rw [this, hs2]
      simp
    | cons c t =>
      by_cases hc : c = ')'
      · have hne : c :: t ≠ s2 := by
          rw [hs2]
          intro heq
          simp only [List.cons.injEq] at heq
          exact hc2 (heq.1 ▸ hc)
        exact Nat.lt_of_le_of_lt h2.length_le (suffix_length_ne hs hne)
      · exact Nat.lt_of_lt_of_le (h3 c t rfl hc) hs.length_le

/-- The iteration of the loop of `read_list` that meets a dotted tail after the first
element: what it returns. -/
theorem loop_dot_first (n : Nat) (ord : ArgOrder) (st st1 st2 : Store)
    (head tail elem tl : Ptr) (c : Char) (rest0 in1 in4 : List Char) (hc : c ≠ ')')
    (he : read_sexp n ord st (c :: rest0) = Read.ok elem st1 in1)
    (hd : isDot (skip_whitespace in1) = true)
    (ht : read_sexp n ord st1 (skip_whitespace (skip_whitespace in1).tail)
      = Read.ok tl st2 in4)
    (hn : isNil st2 head = true) :
    ∃ in6, in6 <:+ in4 ∧
      read_list_loop (n + 1) ord st head tail (c :: rest0)
        = Read.ok (cons st2 elem tl).1 (cons st2 elem tl).2 in6 := by
  have hsuf := skip_whitespace_suffix in4
  cases h6 : skip_whitespace in4 with
  | nil =>
    refine ⟨[], List.nil_suffix, ?_⟩
    rw [read_list_loop]
    simp only [hc, if_false, he, Read.bind, hd, if_true, ht, h6, hn]
  | cons d r =>
    rw [h6] at hsuf
    by_cases hdc : d = ')'
    · refine ⟨r, (List.suffix_cons _ _).trans hsuf, ?_⟩
      rw [read_list_loop]
      simp only [hc, if_false, he, Read.bind, hd, if_true, ht, h6, hn, hdc]
    · refine ⟨d :: r, hsuf, ?_⟩
      rw [read_list_loop]
      simp only [hc, if_false, he, Read.bind, hd, if_true, ht, h6, hn, hdc]

/-- The iteration of the loop of `read_list` that meets a dotted tail after a further
element: what it returns. -/
theorem loop_dot_next (n : Nat) (ord : ArgOrder) (st st1 st2 st3 : Store)
    (head tail elem tl : Ptr) (c : Char) (rest0 in1 in4 : List Char) (hc : c ≠ ')')
    (he : read_sexp n ord st (c :: rest0) = Read.ok elem st1 in1)
    (hd : isDot (skip_whitespace in1) = true)
    (ht : read_sexp n ord st1 (skip_whitespace (skip_whitespace in1).tail)
      = Read.ok tl st2 in4)
    (hn : isNil st2 head = false)
    (hset : setCdr (cons st2 elem tl).2 tail (cons st2 elem tl).1 = some st3) :
    ∃ in6, in6 <:+ in4 ∧
      read_list_loop (n + 1) ord st head tail (c :: rest0) = Read.ok head st3 in6 := by
  have hsuf := skip_whitespace_suffix in4
  cases h6 : skip_whitespace in4 with
  | nil =>
    refine ⟨[], List.nil_suffix, ?_⟩
    rw [read_list_loop]
    simp only [hc, if_false, he, Read.bind, hd, if_true, ht, h6, hn, Bool.false_eq_true, hset]
  | cons d r =>
    rw [h6] at hsuf
    by_cases hdc : d = ')'
    · refine ⟨r, (List.suffix_cons _ _).trans hsuf, ?_⟩
      rw [read_list_loop]
      simp only [hc, if_false, he, Read.bind, hd, if_true, ht, h6, hn, Bool.false_eq_true,
        hset, hdc]
    · refine ⟨d :: r, hsuf, ?_⟩
      rw [read_list_loop]
      simp only [hc, if_false, he, Read.bind, hd, if_true, ht, h6, hn, Bool.false_eq_true,
        hset, hdc]

/-- One more level of calls: `read_sexp`. -/
theorem read_sexp_post_step (n : Nat)
    (hS : ∀ (ord : ArgOrder) (st : Store) (input : List Char),
      ReadPost n st input (read_sexp n ord st input))
    (hL : ∀ (ord : ArgOrder) (st : Store) (r : List Char),
      ReadPost (n + 1) st ('(' :: r) (read_list n ord st ('(' :: r)))
    (ord : ArgOrder) (st : Store) (input : List Char) :
    ReadPost (n + 1) st input (read_sexp (n + 1) ord st input) := by
  have hsuf := skip_whitespace_suffix input
  cases hs : skip_whitespace input with
  | nil =>
    rw [read_sexp, hs]
    refine ⟨Keeps.refl st, List.nil_suffix, ?_, SExpr.nil, rfl, fun _ => rfl, rfl⟩
    intro c r hcr _
    rw [hcr]
    simp
  | cons c rest =>
    rw [hs] at hsuf
    have hc := skip_whitespace_head input rest c hs
    by_cases h1 : c = '('
    · subst h1
      rw [read_sexp_list_step n ord st input rest hs]
      exact (hL ord st rest).of_suffix hsuf
    · by_cases h2 : c = quoteChar
      · subst h2
        have hrest : rest <:+ input := (List.suffix_cons _ _).trans hsuf
        have hlen : rest.length < input.length :=
          Nat.lt_of_lt_of_le (Nat.lt_succ_self _) hsuf.length_le
        cases ord with
        | leftFirst =>
          have hr := hS ArgOrder.leftFirst (make_symbol st "quote").2 rest
          cases h0 : read_sexp n ArgOrder.leftFirst (make_symbol st "quote").2 rest with
          | fuel =>
            rw [h0] at hr
            have hres : read_sexp (n + 1) ArgOrder.leftFirst st input = Read.fuel := by
              rw [read_sexp, hs]
              simp only [h1, if_false, if_true, h0, Read.bind]
            rw [hres]
            have hr2 : n < 3 * rest.length + 1 := hr
            show n + 1 < 3 * input.length + 1
            omega
          | fault =>
            rw [h0] at hr
            have hres : read_sexp (n + 1) ArgOrder.leftFirst st input = Read.fault := by
              rw [read_sexp, hs]
              simp only [h1, if_false, if_true, h0, Read.bind]
            rw [hres]
            exact hrest.subset hr
          | ok x st1 r =>
            rw [h0] at hr
            obtain ⟨hk, hsf, _, e, hsh, hp, hlx⟩ := hr
            rw [read_sexp_quote_left n st st1 input rest r x hs h0]
            have hq : Keeps st (make_symbol st "quote").2 := Keeps.alloc _ _
            have hqs : (make_symbol st "quote").2.size = st.size + 1 := Store.size_alloc _ _
            have hsym : ShapeIn st1 st.size st1.size (make_symbol st "quote").1
                (SExpr.sym "quote") := by
              have hq1 : (make_symbol st "quote").1 = st.size + 1 := rfl
              rw [hq1]
              refine ⟨Nat.lt_succ_self _, ?_, ?_⟩
              · exact Nat.le_trans (Nat.le_of_eq hqs.symm) hk.1
              · rw [hk.2 _ (Nat.le_of_eq hqs.symm)]
                exact Store.read_alloc_new st _
            rw [hqs] at hsh
            obtain ⟨l1, l2, l3⟩ := list2_shape (Nat.le_trans hq.1 hk.1) hsym
              (ShapeIn.mono (Nat.le_succ _) (Nat.le_refl _) _ _ hsh)
            refine ⟨(hq.trans hk).trans l1, hsf.trans hrest,
              fun _ _ _ _ => Nat.lt_of_le_of_lt hsf.length_le hlen,
              SExpr.pair (SExpr.sym "quote") (SExpr.pair e SExpr.nil), ?_, ?_, ?_⟩
            · rw [l2]
              exact l3
            · intro hdot
              have := hp (fun hm => hdot (hrest.subset hm))
              simp [SExpr.proper, this]
            · have hqx : (SExpr.sym "quote").lexical = true := by decide
              simp only [SExpr.lexical, hlx, Bool.and_true] at hqx ⊢
              exact hqx
        | rightFirst =>
          have hr := hS ArgOrder.rightFirst st rest
          cases h0 : read_sexp n ArgOrder.rightFirst st rest with
          | fuel =>
            rw [h0] at hr
            have hres : read_sexp (n + 1) ArgOrder.rightFirst st input = Read.fuel := by
              rw [read_sexp, hs]
              simp only [h1, if_false, if_true, h0, Read.bind]
            rw [hres]
            have hr2 : n < 3 * rest.length + 1 := hr
            show n + 1 < 3 * input.length + 1
            omega
          | fault =>
            rw [h0] at hr
            have hres : read_sexp (n + 1) ArgOrder.rightFirst st input = Read.fault := by
              rw [read_sexp, hs]
              simp only [h1, if_false, if_true, h0, Read.bind]
            rw [hres]
            exact hrest.subset hr
          | ok x st1 r =>
            rw [h0] at hr
            obtain ⟨hk, hsf, _, e, hsh, hp, hlx⟩ := hr
            rw [read_sexp_quote_right n st st1 input rest r x hs h0]
            have hq : Keeps st1 (make_symbol st1 "quote").2 := Keeps.alloc _ _
            have hqs : (make_symbol st1 "quote").2.size = st1.size + 1 := Store.size_alloc _ _
            have hsym : ShapeIn (make_symbol st1 "quote").2 st.size
                (make_symbol st1 "quote").2.size (make_symbol st1 "quote").1
                (SExpr.sym "quote") :=
              ⟨Nat.lt_succ_of_le hk.1, Nat.le_of_eq hqs.symm, Store.read_alloc_new st1 _⟩
            have hv : ShapeIn (make_symbol st1 "quote").2 st.size
                (make_symbol st1 "quote").2.size x e := by
              rw [hqs]
              apply ShapeIn.mono (Nat.le_refl _) (Nat.le_succ _)
              exact ShapeIn.congr (fun q _ hq2 => hq.2 q hq2) _ _ hsh
            obtain ⟨l1, l2, l3⟩ := list2_shape (Nat.le_trans hk.1 hq.1) hsym hv
            refine ⟨(hk.trans hq).trans l1, hsf.trans hrest,
              fun _ _ _ _ => Nat.lt_of_le_of_lt hsf.length_le hlen,
              SExpr.pair (SExpr.sym "quote") (SExpr.pair e SExpr.nil), ?_, ?_, ?_⟩
            · rw [l2]
              exact l3
            · intro hdot
              have := hp (fun hm => hdot (hrest.subset hm))
              simp [SExpr.proper, this]
            · have hqx : (SExpr.sym "quote").lexical = true := by decide
              simp only [SExpr.lexical, hlx, Bool.and_true] at hqx ⊢
              exact hqx
      · rw [read_sexp_atom_step n ord st input rest c hs h1 h2]
        exact (read_atom_post (n + 1) st c rest hc h1 h2).of_suffix hsuf

/-- One more level of calls: `read_list`. -/
theorem read_list_post_step (n : Nat)
    (hLo : ∀ (ord : ArgOrder) (st : Store) (lo : Nat) (head tail : Ptr) (es : List SExpr)
      (input : List Char), lo ≤ st.size → ListSoFar st lo head tail es →
      LoopPost n st lo es input (read_list_loop n ord st head tail input))
    (ord : ArgOrder) (st : Store) (r : List Char) :
    ReadPost (n + 2) st ('(' :: r) (read_list (n + 1) ord st ('(' :: r)) := by
  have hsuf := skip_whitespace_suffix r
  have key : ∀ (s : List Char) (res : Read), s <:+ r → LoopPost n st st.size [] s res →
      ReadPost (n + 2) st ('(' :: r) res := by
    intro s res hs hp
    cases res with
    | fuel =>
      have h1 : n < 3 * s.length + 2 := hp
      have h2 := hs.length_le
      show n + 2 < 3 * ('(' :: r).length + 1
      simp only [List.length_cons]
      omega
    | fault => exact List.mem_cons_of_mem _ (hs.subset hp)
    | ok v st2 rest =>
      obtain ⟨h1, h2, h3, e, h4, h5, h6⟩ := hp
      refine ⟨⟨h1, h2⟩, (h3.trans hs).trans (List.suffix_cons _ _),
        fun _ _ _ _ => suffix_length_lt (h3.trans hs), e, h4, ?_,
        h6 (fun _ hx => by cases hx)⟩
      intro hdot
      exact h5 (fun hm => hdot (List.mem_cons_of_mem _ (hs.subset hm)))
        (fun _ hx => by cases hx)
  cases hs : skip_whitespace r with
  | nil =>
    have hres : read_list (n + 1) ord st ('(' :: r)
        = read_list_loop n ord st nil nil [] := by
      rw [read_list]
      simp only [List.tail_cons, hs]
    rw [hres]
    exact key [] _ List.nil_suffix (hLo ord st st.size nil nil [] [] (Nat.le_refl _) rfl)
  | cons c rest =>
    rw [hs] at hsuf
    by_cases hc : c = ')'
    · subst hc
      rw [read_list_close_step n ord st ('(' :: r) rest hs]
      exact ⟨Keeps.refl st, ((List.suffix_cons _ _).trans hsuf).trans (List.suffix_cons _ _),
        fun _ _ _ _ => suffix_length_lt ((List.suffix_cons _ _).trans hsuf), SExpr.nil, rfl,
        fun _ => rfl, rfl⟩
    · rw [read_list_loop_step n ord st ('(' :: r) rest c hs hc]
      exact key (c :: rest) _ hsuf
        (hLo ord st st.size nil nil [] (c :: rest) (Nat.le_refl _) rfl)

/-- One more level of calls: the loop of `read_list`. -/
theorem loop_post_step (n : Nat)
    (hS : ∀ (ord : ArgOrder) (st : Store) (input : List Char),
      ReadPost n st input (read_sexp n ord st input))
    (hLo : ∀ (ord : ArgOrder) (st : Store) (lo : Nat) (head tail : Ptr) (es : List SExpr)
      (input : List Char), lo ≤ st.size → ListSoFar st lo head tail es →
      LoopPost n st lo es input (read_list_loop n ord st head tail input))
    (ord : ArgOrder) (st : Store) (lo : Nat) (head tail : Ptr) (es : List SExpr)
    (input : List Char) (hlo : lo ≤ st.size) (hList : ListSoFar st lo head tail es) :
    LoopPost (n + 1) st lo es input (read_list_loop (n + 1) ord st head tail input) := by
  cases input with
  | nil =>
    rw [read_list_loop]
    exact ⟨Nat.le_refl _, fun _ _ => rfl, List.suffix_refl _, _, ListSoFar.finish hList,
      fun _ h => SExpr.proper_list es h, fun h => SExpr.lexical_list es SExpr.nil h rfl⟩
  | cons c rest0 =>
    by_cases hc : c = ')'
    · subst hc
      rw [loop_close_step]
      exact ⟨Nat.le_refl _, fun _ _ => rfl, List.suffix_cons _ _, _, ListSoFar.finish hList,
        fun _ h => SExpr.proper_list es h, fun h => SExpr.lexical_list es SExpr.nil h rfl⟩
    · have hr := hS ord st (c :: rest0)
      cases he : read_sexp n ord st (c :: rest0) with
      | fuel =>
        rw [he] at hr
        have hres : read_list_loop (n + 1) ord st head tail (c :: rest0) = Read.fuel := by
          rw [read_list_loop]
          simp only [hc, if_false, he, Read.bind]
        rw [hres]
        have h1 : n < 3 * (c :: rest0).length + 1 := hr
        show n + 1 < 3 * (c :: rest0).length + 2
        omega
      | fault =>
        rw [he] at hr
        have hres : read_list_loop (n + 1) ord st head tail (c :: rest0) = Read.fault := by
          rw [read_list_loop]
          simp only [hc, if_false, he, Read.bind]
        rw [hres]
        exact hr
      | ok elem st1 in1 =>
        rw [he] at hr
        obtain ⟨hk, hsf, hstrict, e, hsh, hp, hlx⟩ := hr
        have hlt : in1.length < (c :: rest0).length := hstrict c rest0 rfl hc
        have hsk1 : skip_whitespace in1 <:+ c :: rest0 := (skip_whitespace_suffix _).trans hsf
        have hsk1l : (skip_whitespace in1).length ≤ in1.length :=
          (skip_whitespace_suffix _).length_le
        by_cases hd : isDot (skip_whitespace in1) = true
        · -- a dotted tail
          have hdotmem : '.' ∈ c :: rest0 := hsk1.subset (isDot_mem hd)
          have hin3 : skip_whitespace (skip_whitespace in1).tail <:+ c :: rest0 :=
            ((skip_whitespace_suffix _).trans (List.tail_suffix _)).trans hsk1
          have hin3l : (skip_whitespace (skip_whitespace in1).tail).length ≤ in1.length :=
            Nat.le_trans ((skip_whitespace_suffix _).trans (List.tail_suffix _)).length_le hsk1l
          have hr2 := hS ord st1 (skip_whitespace (skip_whitespace in1).tail)
          cases ht : read_sexp n ord st1 (skip_whitespace (skip_whitespace in1).tail) with
          | fuel =>
            rw [ht] at hr2
            have hres : read_list_loop (n + 1) ord st head tail (c :: rest0) = Read.fuel := by
              rw [read_list_loop]
              simp only [hc, if_false, he, Read.bind, hd, if_true, ht]
            rw [hres]
            have h1 : n < 3 * (skip_whitespace (skip_whitespace in1).tail).length + 1 := hr2
            show n + 1 < 3 * (c :: rest0).length + 2
            omega
          | fault =>
            rw [ht] at hr2
            have hres : read_list_loop (n + 1) ord st head tail (c :: rest0) = Read.fault := by
              rw [read_list_loop]
              simp only [hc, if_false, he, Read.bind, hd, if_true, ht]
            rw [hres]
            exact hin3.subset hr2
          | ok tl st2 in4 =>
            rw [ht] at hr2
            obtain ⟨hk2, hsf2, _, t, hsh2, _, hlt2⟩ := hr2
            have hsz2 : (cons st2 elem tl).2.size = st2.size + 1 := Store.size_alloc _ _
            cases es with
            | nil =>
              have hhead : head = nil := hList
              have hn2 : isNil st2 head = true := by rw [hhead]; exact isNil_nil st2
              obtain ⟨in6, h6, hres⟩ := loop_dot_first n ord st st1 st2 head tail elem tl c
                rest0 in1 in4 hc he hd ht hn2
              rw [hres]
              refine ⟨?_, ?_, (h6.trans hsf2).trans hin3, SExpr.pair e t, ?_,
                fun hdot => absurd hdotmem hdot,
                fun _ => by simp only [SExpr.lexical, hlx, hlt2, Bool.and_self]⟩
              · rw [hsz2]
                exact Nat.le_trans hk.1 (Nat.le_trans hk2.1 (Nat.le_succ _))
              · intro q hq
                have hqs : q ≤ st.size := Nat.le_trans hq hlo
                exact ((Keeps.alloc st2 (Cell.cons elem tl)).2 q
                  (Nat.le_trans hqs (hk.trans hk2).1)).trans ((hk.trans hk2).2 q hqs)
              · rw [hsz2]
                exact ShapeIn.dotted_first hlo hk hk2 hsh hsh2
            | cons e0 es =>
              obtain ⟨st3, hn2, hset, hsz3, hlo3, hfin⟩ :=
                ListSoFar.dotted hlo hList hk hk2 hsh hsh2
              obtain ⟨in6, h6, hres⟩ := loop_dot_next n ord st st1 st2 st3 head tail elem tl c
                rest0 in1 in4 hc he hd ht hn2 hset
              rw [hres]
              refine ⟨?_, hlo3, (h6.trans hsf2).trans hin3, _, hfin,
                fun hdot => absurd hdotmem hdot,
                fun hes => SExpr.lexical_list (e0 :: es) (SExpr.pair e t) hes
                  (by simp only [SExpr.lexical, hlx, hlt2, Bool.and_self])⟩
              rw [hsz3]
              exact Nat.le_trans hk.1 (Nat.le_trans hk2.1 (Nat.le_succ _))
        · -- a further element
          have hd2 : isDot (skip_whitespace in1) = false := by simpa using hd
          have hnext : skip_whitespace (skip_whitespace in1) <:+ c :: rest0 :=
            (skip_whitespace_suffix _).trans hsk1
          have hnextl : (skip_whitespace (skip_whitespace in1)).length ≤ in1.length :=
            Nat.le_trans (skip_whitespace_suffix _).length_le hsk1l
          have finish : ∀ (stN : Store) (hd0 tl0 : Ptr) (res : Read),
              st.size ≤ stN.size → (∀ q : Nat, q ≤ lo → stN.read q = st.read q) →
              LoopPost n stN lo (es ++ [e]) (skip_whitespace (skip_whitespace in1)) res →
              LoopPost (n + 1) st lo es (c :: rest0) res := by
            intro stN hd0 tl0 res hszN hloN hpost
            cases res with
            | fuel =>
              have h1 : n < 3 * (skip_whitespace (skip_whitespace in1)).length + 2 := hpost
              show n + 1 < 3 * (c :: rest0).length + 2
              omega
            | fault => exact hnext.subset hpost
            | ok v st2 rest =>
              obtain ⟨h1, h2, h3, e2, h4, h5, h6⟩ := hpost
              refine ⟨Nat.le_trans hszN h1, fun q hq => by rw [h2 q hq, hloN q hq],
                h3.trans hnext, e2, h4, ?_, ?_⟩
              · intro hdot hes
                apply h5 (fun hm => hdot (hnext.subset hm))
                intro x hx
                rcases List.mem_append.mp hx with hx | hx
                · exact hes x hx
                · rw [List.mem_singleton.mp hx]
                  exact hp hdot
              · intro hes
                apply h6
                intro x hx
                rcases List.mem_append.mp hx with hx | hx
                · exact hes x hx
                · rw [List.mem_singleton.mp hx]
                  exact hlx
          cases es with
          | nil =>
            have hhead : head = nil := hList
            have hn1 : isNil st1 head = true := by rw [hhead]; exact isNil_nil st1
            rw [loop_first_step n ord st st1 head tail elem c rest0 in1 hc he hd2 hn1]
            have hsz1 : (cons st1 elem nil).2.size = st1.size + 1 := Store.size_alloc _ _
            apply finish (cons st1 elem nil).2 nil nil
            · rw [hsz1]
              exact Nat.le_trans hk.1 (Nat.le_succ _)
            · intro q hq
              have hqs : q ≤ st.size := Nat.le_trans hq hlo
              exact ((Keeps.alloc st1 _).2 q (Nat.le_trans hqs hk.1)).trans (hk.2 q hqs)
            · exact hLo ord (cons st1 elem nil).2 lo (st1.size + 1) (st1.size + 1) [e] _
                (Nat.le_trans hlo (Nat.le_trans hk.1 (by rw [hsz1]; exact Nat.le_succ _)))
                (ListSoFar.first hlo hk hsh)
          | cons e0 es =>
            obtain ⟨st3, hn1, hset, hsz3, hlo3, hS3⟩ := ListSoFar.next hlo hList hk hsh
            rw [loop_next_step n ord st st1 st3 head tail elem c rest0 in1 hc he hd2 hn1 hset]
            apply finish st3 nil nil
            · rw [hsz3]
              exact Nat.le_trans hk.1 (Nat.le_succ _)
            · exact hlo3
            · exact hLo ord st3 lo head (st1.size + 1) ((e0 :: es) ++ [e]) _
                (Nat.le_trans hlo (Nat.le_trans hk.1 (by rw [hsz3]; exact Nat.le_succ _))) hS3

/-- What the three functions of the reader do on any text, with any fuel. -/
theorem reader_post : ∀ n : Nat,
    (∀ (ord : ArgOrder) (st : Store) (input : List Char),
      ReadPost n st input (read_sexp n ord st input)) ∧
    (∀ (ord : ArgOrder) (st : Store) (r : List Char),
      ReadPost (n + 1) st ('(' :: r) (read_list n ord st ('(' :: r))) ∧
    (∀ (ord : ArgOrder) (st : Store) (lo : Nat) (head tail : Ptr) (es : List SExpr)
      (input : List Char), lo ≤ st.size → ListSoFar st lo head tail es →
      LoopPost n st lo es input (read_list_loop n ord st head tail input)) := by
  intro n
  induction n with
  | zero =>
    refine ⟨?_, ?_, ?_⟩
    · intro ord st input
      rw [read_sexp]
      exact Nat.succ_pos _
    · intro ord st r
      rw [read_list]
      show 0 + 1 < 3 * ('(' :: r).length + 1
      simp only [List.length_cons]
      omega
    · intro ord st lo head tail es input _ _
      rw [read_list_loop]
      exact Nat.succ_pos _
  | succ n ih =>
    obtain ⟨hS, hL, hLo⟩ := ih
    exact ⟨read_sexp_post_step n hS hL, read_list_post_step n hLo, loop_post_step n hS hLo⟩

/-! ## `parse` on any text -/

/-- The fuel that `parse` gives `read_sexp` is enough for every text; `parse` runs into
undefined behaviour only on a text that holds a double quote; and what it returns is the
root of a tree of new cells, with well-formed lists when the text holds no dot. -/
theorem parse_post (ord : ArgOrder) (st : Store) (input : List Char) :
    parse ord st input ≠ Res.fuel ∧ (parse ord st input = Res.fault → dquoteChar ∈ input) ∧
      ∀ v st2, parse ord st input = Res.ok v st2 →
        Keeps st st2 ∧ ∃ e, HasShape st2 v e ∧ ('.' ∉ input → e.proper = true) := by
  have h := (reader_post (3 * input.length + 3)).1 ord st input
  rw [parse]
  cases hr : read_sexp (3 * input.length + 3) ord st input with
  | fuel =>
    rw [hr] at h
    have h1 : 3 * input.length + 3 < 3 * input.length + 1 := h
    omega
  | fault =>
    rw [hr] at h
    exact ⟨by simp [Read.toRes], fun _ => h, by simp [Read.toRes]⟩
  | ok v st2 rest =>
    rw [hr] at h
    obtain ⟨hk, _, _, e, hsh, hp, _⟩ := h
    refine ⟨by simp [Read.toRes], by simp [Read.toRes], ?_⟩
    intro v2 st3 heq
    simp only [Read.toRes, Res.ok.injEq] at heq
    obtain ⟨rfl, rfl⟩ := heq
    exact ⟨hk, e, hsh.hasShape, hp⟩

/-- Every value that `parse` returns is the root of a tree of new cells in which every
Symbol has the text of a token of the reader and every String the text of a string
literal. -/
theorem parse_lexical (ord : ArgOrder) (st : Store) (input : List Char) (v : Ptr)
    (st2 : Store) (hp : parse ord st input = Res.ok v st2) :
    Keeps st st2 ∧ ∃ e, ShapeIn st2 st.size st2.size v e ∧ e.lexical = true := by
  have h := (reader_post (3 * input.length + 3)).1 ord st input
  rw [parse] at hp
  cases hr : read_sexp (3 * input.length + 3) ord st input with
  | fuel => rw [hr] at hp; simp [Read.toRes] at hp
  | fault => rw [hr] at hp; simp [Read.toRes] at hp
  | ok v1 st1 rest =>
    rw [hr] at h hp
    simp only [Read.toRes, Res.ok.injEq] at hp
    obtain ⟨rfl, rfl⟩ := hp
    obtain ⟨hk, _, _, e, hsh, _, hl⟩ := h
    exact ⟨hk, e, hsh, hl⟩

/-- On a text without a double quote, `parse` returns. -/
theorem parse_returns (ord : ArgOrder) (st : Store) (input : List Char)
    (h : dquoteChar ∉ input) : ∃ v st2, parse ord st input = Res.ok v st2 ∧ Keeps st st2 := by
  obtain ⟨h1, h2, h3⟩ := parse_post ord st input
  cases hr : parse ord st input with
  | fuel => exact absurd hr h1
  | fault => exact absurd (h2 hr) h
  | ok v st2 => exact ⟨v, st2, rfl, (h3 v st2 hr).1⟩

/-- In a value with the structure of a tree whose lists are well formed, every reachable
pair has a tail that is a pair or Nil. -/
theorem HasShape.reach_proper {st : Store} {p q : Ptr} (hr : Reach st p q) :
    ∀ e : SExpr, HasShape st p e → e.proper = true → isCons st q = true →
      isCons st (cdr st q) = true ∨ isNil st (cdr st q) = true := by
  induction hr with
  | here p =>
    intro e hsh hp hc
    rw [isCons_iff] at hc
    cases e with
    | pair a d =>
      obtain ⟨_, _, hd⟩ := hsh
      cases d with
      | pair a2 d2 => exact Or.inl hd.1
      | nil =>
        right
        have : (cdr st p) = nil ∨ st.read (cdr st p) = Cell.nil := Or.inr hd
        simp only [isNil, Bool.or_eq_true, decide_eq_true_eq]
        exact Or.inr (by rw [show st.read (cdr st p) = Cell.nil from hd])
      | num _ => simp [SExpr.proper] at hp
      | sym _ => simp [SExpr.proper] at hp
      | str _ => simp [SExpr.proper] at hp
      | inf _ => simp [SExpr.proper] at hp
      | nan => simp [SExpr.proper] at hp
    | nil => rw [show st.read p = Cell.nil from hsh] at hc; cases hc
    | num _ => rw [show st.read p = _ from hsh] at hc; cases hc
    | sym _ => rw [show st.read p = _ from hsh] at hc; cases hc
    | str _ => rw [show st.read p = _ from hsh] at hc; cases hc
    | inf _ => rw [show st.read p = _ from hsh] at hc; cases hc
    | nan => rw [show st.read p = _ from hsh] at hc; cases hc
  | head p q hcp _ ih =>
    intro e hsh hp hc
    rw [isCons_iff] at hcp
    cases e with
    | pair a d =>
      have ha : a.proper = true := by
        simp only [SExpr.proper, Bool.and_eq_true] at hp
        exact hp.1.1
      exact ih a hsh.2.1 ha hc
    | nil => rw [show st.read p = Cell.nil from hsh] at hcp; cases hcp
    | num _ => rw [show st.read p = _ from hsh] at hcp; cases hcp
    | sym _ => rw [show st.read p = _ from hsh] at hcp; cases hcp
    | str _ => rw [show st.read p = _ from hsh] at hcp; cases hcp
    | inf _ => rw [show st.read p = _ from hsh] at hcp; cases hcp
    | nan => rw [show st.read p = _ from hsh] at hcp; cases hcp
  | tail p q hcp _ ih =>
    intro e hsh hp hc
    rw [isCons_iff] at hcp
    cases e with
    | pair a d =>
      have hd : d.proper = true := by
        simp only [SExpr.proper, Bool.and_eq_true] at hp
        exact hp.1.2
      exact ih d hsh.2.2 hd hc
    | nil => rw [show st.read p = Cell.nil from hsh] at hcp; cases hcp
    | num _ => rw [show st.read p = _ from hsh] at hcp; cases hcp
    | sym _ => rw [show st.read p = _ from hsh] at hcp; cases hcp
    | str _ => rw [show st.read p = _ from hsh] at hcp; cases hcp
    | inf _ => rw [show st.read p = _ from hsh] at hcp; cases hcp
    | nan => rw [show st.read p = _ from hsh] at hcp; cases hcp

/-! ## The limits of the buffer of `read_atom` -/

/-- On the token that is a lone double quote, `atom` writes before the start of a copy of
the empty text. -/
theorem atom_lone_dquote (st : Store) : atom st [dquoteChar] = Res.fault := by
  have hs := strtod_dquote []
  have h1 : ¬ ((strtod [dquoteChar]).2 = [] ∧ [dquoteChar] ≠ []) := by
    rw [hs]
    simp
  rw [atom, if_neg h1, if_pos ⟨rfl, rfl⟩]
  rfl

/-- A string literal with exactly 254 characters between its quotes: `read_atom` stores the
closing quote in `buffer[255]` and the terminating NUL in `buffer[256]`, past the end of
`char buffer[256]`. -/
theorem read_atom_overflow (st : Store) (body rest : List Char) (hlen : body.length = 254)
    (hb : dquoteChar ∉ body) :
    read_atom st (dquoteChar :: (body ++ dquoteChar :: rest)) = Read.fault := by
  rw [read_atom]
  simp only [if_true, takeWhile_body body rest hb]
  rw [List.take_of_length_le (Nat.le_of_eq hlen), List.drop_left]
  simp only [if_true]
  rw [if_pos hlen]

theorem parse_atom_step (ord : ArgOrder) (st : Store) (c : Char) (rest : List Char)
    (h0 : isspace c = false) (h1 : c ≠ '(') (h2 : c ≠ quoteChar) :
    parse ord st (c :: rest) = (read_atom st (c :: rest)).toRes := by
  rw [parse, show 3 * (c :: rest).length + 3 = (3 * (c :: rest).length + 2) + 1 from rfl,
    read_sexp_atom_step _ ord st (c :: rest) rest c (skip_whitespace_cons c rest h0) h1 h2]

theorem parse_lone_dquote (ord : ArgOrder) (st : Store) :
    parse ord st [dquoteChar] = Res.fault := by
  rw [parse_atom_step ord st dquoteChar [] (by decide) (by decide) (by decide),
    read_atom_unterminated st [] (by decide) (by simp), atom_lone_dquote]
  rfl

theorem parse_overflow (ord : ArgOrder) (st : Store) (body rest : List Char)
    (hlen : body.length = 254) (hb : dquoteChar ∉ body) :
    parse ord st (dquoteChar :: (body ++ dquoteChar :: rest)) = Res.fault := by
  rw [parse_atom_step ord st dquoteChar _ (by decide) (by decide) (by decide),
    read_atom_overflow st body rest hlen hb]
  rfl

theorem parse_blank (ord : ArgOrder) (st : Store) (input : List Char)
    (h : input.all isspace = true) : parse ord st input = Res.ok nil st := by
  rw [parse, show 3 * input.length + 3 = (3 * input.length + 2) + 1 from rfl, read_sexp,
    skip_whitespace_all input h]
  rfl

theorem parse_empty_list (ord : ArgOrder) (st : Store) :
    parse ord st ['(', ')'] = Res.ok nil st := by
  rw [parse, show 3 * ['(', ')'].length + 3 = 8 + 1 from rfl,
    read_sexp_list_step 8 ord st _ [')'] (skip_whitespace_cons '(' _ (by decide)),
    read_list_close_step 7 ord st ['(', ')'] [] (skip_whitespace_cons ')' [] (by decide))]
  rfl

/-- The function `parse` reads one expression: on a well-formed text followed by white
space and anything more, it returns a value with the structure that the text denotes. -/
theorem parse_syn_then_more (x : Syn) (hx : x.wf = true) (ord : ArgOrder) (st : Store)
    (w : Char) (u : List Char) (hw : isspace w = true) :
    ∃ v st2, parse ord st (x.chars ++ w :: u) = Res.ok v st2 ∧ Keeps st st2 ∧
      HasShape st2 v x.tree := by
  obtain ⟨v, st2, hp, hk, hsh⟩ := parse_syn_before x hx ord st [] (w :: u) rfl
    (Syn.endsBefore_delimiter x w (by simp [isDelimiter, hw]))
  rw [List.nil_append] at hp
  exact ⟨v, st2, hp, hk, hsh.hasShape⟩

/-- On a text that begins with a double quote followed by 255 or more characters other
than double quotes, `parse` returns the Symbol of the quote and of the first 254 of these
characters, whatever follows. -/
theorem parse_long_literal (ord : ArgOrder) (st : Store) (body rest : List Char)
    (hlen : 255 ≤ body.length) (hb : dquoteChar ∉ body) :
    ∃ v st2, parse ord st (dquoteChar :: (body ++ rest)) = Res.ok v st2 ∧ Keeps st st2 ∧
      st2.read v = Cell.symbol (String.mk (dquoteChar :: body.take 254)) := by
  rw [parse_atom_step ord st dquoteChar (body ++ rest) (by decide) (by decide) (by decide)]
  cases hdr : body.drop 254 with
  | nil =>
    have := List.drop_eq_nil_iff.mp hdr
    omega
  | cons d tail =>
    have hd : d ≠ dquoteChar := by
      intro h
      apply hb
      have : d ∈ body.drop 254 := by rw [hdr]; exact List.mem_cons_self _ _
      exact h ▸ List.mem_of_mem_drop this
    have hpre : dquoteChar ∉ body.take 254 := fun h => hb (List.mem_of_mem_take h)
    have hplen : (body.take 254).length = 254 := by
      rw [List.length_take]
      omega
    have hpne : body.take 254 ≠ [] := by
      intro h
      rw [h] at hplen
      cases hplen
    have hin : dquoteChar :: (body ++ rest)
        = dquoteChar :: (body.take 254 ++ d :: (tail ++ rest)) := by
      have hbody : body = body.take 254 ++ (d :: tail) := by
        rw [← hdr, List.take_append_drop]
      conv_lhs => rw [hbody]
      simp only [List.append_assoc, List.cons_append]
    rw [hin, read_atom_long st (body.take 254) (tail ++ rest) d hplen hpre hd,
      atom_quote_symbol st (body.take 254) hpne hpre]
    exact ⟨_, _, rfl, Keeps.alloc _ _, Store.read_alloc_new st _⟩

/-- On an unterminated string literal, a double quote followed by one or more characters
other than double quotes, `parse` returns the Symbol of the quote and of the first 254 of
these characters. -/
theorem parse_unterminated (ord : ArgOrder) (st : Store) (body : List Char) (hne : body ≠ [])
    (hb : dquoteChar ∉ body) :
    ∃ v st2, parse ord st (dquoteChar :: body) = Res.ok v st2 ∧ Keeps st st2 ∧
      st2.read v = Cell.symbol (String.mk (dquoteChar :: body.take 254)) := by
  by_cases hl : body.length ≤ 254
  · rw [parse_atom_step ord st dquoteChar body (by decide) (by decide) (by decide),
      read_atom_unterminated st body hl hb, atom_quote_symbol st body hne hb,
      List.take_of_length_le hl]
    exact ⟨_, _, rfl, Keeps.alloc _ _, Store.read_alloc_new st _⟩
  · have := parse_long_literal ord st body [] (by omega) hb
    rw [List.append_nil] at this
    exact this

/-! ## Atom tokens and string literals -/

/-- The function `read_atom` on a run of at most 255 characters, none of them white space
or a parenthesis, that does not begin with a double quote and is followed by a delimiter or
by nothing: the token is the whole run. -/
theorem read_atom_run (st : Store) (tok rest : List Char) (h1 : tok ≠ [])
    (h2 : tok.length ≤ 255) (h3 : ∀ c ∈ tok, isDelimiter c = false)
    (h5 : tok.head? ≠ some dquoteChar) (hrest : Delimited rest) :
    read_atom st (tok ++ rest) = Read.ofRes (atom st tok) rest := by
  have htw : ((tok ++ rest).takeWhile fun d => !isDelimiter d) = tok := by
    apply takeWhile_token
    · intro c hc
      simp [h3 c hc]
    · rcases hrest with h | ⟨c, r, h, hc⟩
      · exact Or.inl h
      · exact Or.inr ⟨c, r, h, by simp [hc]⟩
  cases tok with
  | nil => exact absurd rfl h1
  | cons c cs =>
    have hc : c ≠ dquoteChar := fun h => h5 (by rw [h]; rfl)
    have htw2 : ((c :: (cs ++ rest)).takeWhile fun d => !isDelimiter d) = c :: cs := htw
    simp only [List.cons_append, read_atom, hc, if_false, htw2]
    rw [List.take_of_length_le h2]
    simp only [reduceCtorEq, if_false]
    congr 1
    rw [← List.cons_append, List.drop_left]

/-- The function `parse` on such a run: what `atom` makes of the whole run. -/
theorem parse_run (ord : ArgOrder) (st : Store) (r : List Char) (h1 : r ≠ [])
    (h2 : r.length ≤ 255) (h3 : ∀ c ∈ r, isDelimiter c = false)
    (h4 : r.head? ≠ some quoteChar) (h5 : r.head? ≠ some dquoteChar) :
    parse ord st r = atom st r := by
  cases r with
  | nil => exact absurd rfl h1
  | cons c cs =>
    obtain ⟨d1, d2, _⟩ := isDelimiter_false (h3 c (List.mem_cons_self _ _))
    have hq : c ≠ quoteChar := fun h => h4 (by rw [h]; rfl)
    rw [parse_atom_step ord st c cs d1 d2 hq]
    have := read_atom_run st (c :: cs) [] h1 h2 h3 h5 (Or.inl rfl)
    rw [List.append_nil] at this
    rw [this]
    cases atom st (c :: cs) <;> rfl

/-- The function `parse` on a run of more than 255 characters, none of them white space or
a parenthesis, that begins with neither an apostrophe nor a double quote: what `atom` makes
of its first 255 characters. -/
theorem parse_long_run (ord : ArgOrder) (st : Store) (r : List Char) (h2 : 255 < r.length)
    (h3 : ∀ c ∈ r, isDelimiter c = false) (h4 : r.head? ≠ some quoteChar)
    (h5 : r.head? ≠ some dquoteChar) :
    parse ord st r = atom st (r.take 255) := by
  cases r with
  | nil => simp at h2
  | cons c cs =>
    obtain ⟨d1, d2, _⟩ := isDelimiter_false (h3 c (List.mem_cons_self _ _))
    have hq : c ≠ quoteChar := fun h => h4 (by rw [h]; rfl)
    have hc : c ≠ dquoteChar := fun h => h5 (by rw [h]; rfl)
    have htw : ((c :: cs).takeWhile fun d => !isDelimiter d) = c :: cs := by
      have := takeWhile_token (fun d => !isDelimiter d) (c :: cs) []
        (fun x hx => by simp [h3 x hx]) (Or.inl rfl)
      rw [List.append_nil] at this
      exact this
    rw [parse_atom_step ord st c cs d1 d2 hq, read_atom]
    simp only [hc, if_false, htw]
    have hne : List.take 255 (c :: cs) ≠ [] := by simp
    rw [if_neg hne]
    cases atom st (List.take 255 (c :: cs)) <;> rfl

/-- The function `atom` on a token that does not begin with a double quote: a Number when
`strtod` consumes the whole token, a Symbol with the text of the token otherwise. -/
theorem atom_run (st : Store) (r : List Char) (h1 : r ≠ [])
    (h5 : r.head? ≠ some dquoteChar) :
    atom st r = Res.ok (st.size + 1)
      (st.alloc (if (strtod r).2 = [] then Cell.number (strtod r).1
        else Cell.symbol (String.mk r))).2 := by
  by_cases hn : (strtod r).2 = []
  · simp [atom, hn, h1, Res.ofPair, make_number, Store.alloc_fst]
  · simp [atom, hn, h5, Res.ofPair, make_symbol, Store.alloc_fst]

/-! ## Decimal numerals -/

theorem isdigit_props (c : Char) (h : isdigit c = true) :
    isspace c = false ∧ c ≠ '-' ∧ c ≠ '+' ∧ tolower c = c ∧ c ≠ 'i' ∧ c ≠ 'n' ∧ c ≠ 'x' ∧
      c ≠ '.' ∧ isDelimiter c = false ∧ c ≠ quoteChar ∧ c ≠ dquoteChar := by
  have hn : 48 ≤ c.toNat ∧ c.toNat ≤ 57 := by simpa [isdigit] using h
  have key : ∀ d : Char, ¬ (48 ≤ d.toNat ∧ d.toNat ≤ 57) → c ≠ d := by
    intro d hd heq
    rw [heq] at hn
    exact hd hn
  have hsp : isspace c = false := by
    simp only [isspace, Bool.or_eq_false_iff, decide_eq_false_iff_not, Bool.and_eq_false_iff]
    omega
  refine ⟨hsp, key _ (by decide), key _ (by decide), ?_, key _ (by decide), key _ (by decide),
    key _ (by decide), key _ (by decide), ?_, key _ (by decide), key _ (by decide)⟩
  · have : ¬ (65 ≤ c.toNat ∧ c.toNat ≤ 90) := by omega
    simp [tolower, this]
  · exact isDelimiter_of_not hsp (key _ (by decide)) (key _ (by decide))

theorem readSpecial_digit (c : Char) (s : List Char) (h : isdigit c = true) :
    readSpecial (c :: s) = none := by
  obtain ⟨_, _, _, hl, hi, hn, _⟩ := isdigit_props c h
  have t1 : "infinity".toList = ['i', 'n', 'f', 'i', 'n', 'i', 't', 'y'] := rfl
  have t2 : "inf".toList = ['i', 'n', 'f'] := rfl
  have t3 : "nan".toList = ['n', 'a', 'n'] := rfl
  have e1 := afterWord_mismatch 'i' c ['n', 'f', 'i', 'n', 'i', 't', 'y'] s (by rw [hl]; exact hi)
  have e2 := afterWord_mismatch 'i' c ['n', 'f'] s (by rw [hl]; exact hi)
  have e3 := afterWord_mismatch 'n' c ['a', 'n'] s (by rw [hl]; exact hn)
  simp only [readSpecial, t1, t2, t3, e1, e2, e3]

theorem takeWhile_all (p : Char → Bool) (l : List Char) (h : ∀ c ∈ l, p c = true) :
    l.takeWhile p = l ∧ l.dropWhile p = [] := by
  induction l with
  | nil => exact ⟨rfl, rfl⟩
  | cons c l ih =>
    have hc := h c (List.mem_cons_self _ _)
    have := ih (fun x hx => h x (List.mem_cons_of_mem _ hx))
    simp [List.takeWhile_cons, List.dropWhile_cons, hc, this.1, this.2]

/-- A decimal numeral without point or exponent, as `readMantissa` reads it. -/
theorem readMantissa_digits (ds : List Char) (hne : ds ≠ [])
    (hd : ∀ c ∈ ds, isdigit c = true) :
    readMantissa 10 isdigit 'e' 10 ds = some ((readDigits 10 ds : ℚ), []) := by
  obtain ⟨h1, h2⟩ := takeWhile_all isdigit ds hd
  simp [readMantissa, h1, h2, hne, readExponent, scale]

/-- An integer of magnitude at most `2 ^ 53` is a double. -/
theorem Dbl.round_int (i : Int) (h : i.natAbs ≤ 2 ^ 53) : Dbl.round (i : ℚ) = Dbl.fin i := by
  unfold Dbl.round
  rw [if_pos]
  exact ⟨Rat.den_intCast i, by rw [Rat.num_intCast]; exact h⟩

/-- The function `strtod` on a run of decimal digits: the double nearest to the number they
denote, the whole run consumed. -/
theorem strtod_digits (ds : List Char) (hne : ds ≠ []) (hd : ∀ c ∈ ds, isdigit c = true) :
    strtod ds = (Dbl.round (readDigits 10 ds), []) := by
  cases ds with
  | nil => exact absurd rfl hne
  | cons c cs =>
    have hc := hd c (List.mem_cons_self _ _)
    obtain ⟨p1, p2, p3, _, _, _, _, _, _, _, _⟩ := isdigit_props c hc
    have hs := readSpecial_digit c cs hc
    have hm := readMantissa_digits (c :: cs) hne hd
    cases cs with
    | nil => simp [strtod, List.dropWhile_cons, p1, p2, p3, hs, hm]
    | cons x r =>
      obtain ⟨_, _, _, q4, _, _, q7, _, _, _, _⟩ :=
        isdigit_props x (hd x (List.mem_cons_of_mem _ (List.mem_cons_self _ _)))
      simp [strtod, List.dropWhile_cons, p1, p2, p3, hs, hm, q4, q7]

/-- The function `strtod` on a minus sign followed by a run of decimal digits. -/
theorem strtod_neg_digits (ds : List Char) (hne : ds ≠ [])
    (hd : ∀ c ∈ ds, isdigit c = true) :
    strtod ('-' :: ds) = (Dbl.round (-(readDigits 10 ds : ℚ)), []) := by
  cases ds with
  | nil => exact absurd rfl hne
  | cons c cs =>
    have hc := hd c (List.mem_cons_self _ _)
    have hs := readSpecial_digit c cs hc
    have hm := readMantissa_digits (c :: cs) hne hd
    have hsp : isspace '-' = false := by decide
    cases cs with
    | nil => simp [strtod, List.dropWhile_cons, hsp, hs, hm]
    | cons x r =>
      obtain ⟨_, _, _, q4, _, _, q7, _, _, _, _⟩ :=
        isdigit_props x (hd x (List.mem_cons_of_mem _ (List.mem_cons_self _ _)))
      simp [strtod, List.dropWhile_cons, hsp, hs, hm, q4, q7]

/-! ## What `printf("%d")` writes, read back -/

theorem digitChar_props : ∀ n, n < 10 →
    isdigit (digitChar n) = true ∧ digitValue (digitChar n) = n := by
  decide

theorem readDigits_append (base : Nat) (xs : List Char) (c : Char) :
    readDigits base (xs ++ [c]) = base * readDigits base xs + digitValue c := by
  simp [readDigits, List.foldl_append]

/-- The decimal digits of a number that has at most `f` digits: a run of digits, not empty,
that denotes the number. -/
theorem decimalDigits_spec : ∀ (f n : Nat), 0 < f → n < 10 ^ f →
    decimalDigits f n ≠ [] ∧ (∀ c ∈ decimalDigits f n, isdigit c = true) ∧
      readDigits 10 (decimalDigits f n) = n ∧ (decimalDigits f n).length ≤ f := by
  intro f
  induction f with
  | zero => intro n h; exact absurd h (Nat.lt_irrefl _)
  | succ f ih =>
    intro n _ hn
    by_cases h10 : n < 10
    · obtain ⟨d1, d2⟩ := digitChar_props n h10
      rw [decimalDigits, if_pos h10]
      refine ⟨by simp, ?_, ?_, by simp⟩
      · intro c hc
        rw [List.mem_singleton.mp hc]
        exact d1
      · simp [readDigits, d2]
    · have hf : 0 < f := by
        rcases Nat.eq_zero_or_pos f with h0 | h0
        · rw [h0] at hn
          exact absurd hn h10
        · exact h0
      have hdiv : n / 10 < 10 ^ f := by
        rw [Nat.div_lt_iff_lt_mul (by decide)]
        rw [Nat.pow_succ] at hn
        exact hn
      obtain ⟨i1, i2, i3, i4⟩ := ih (n / 10) hf hdiv
      obtain ⟨d1, d2⟩ := digitChar_props (n % 10) (Nat.mod_lt _ (by decide))
      rw [decimalDigits, if_neg h10]
      refine ⟨by simp, ?_, ?_, ?_⟩
      · intro c hc
        rcases List.mem_append.mp hc with h | h
        · exact i2 c h
        · rw [List.mem_singleton.mp h]
          exact d1
      · rw [readDigits_append, i3, d2]
        exact Nat.div_add_mod n 10
      · simp only [List.length_append, List.length_singleton]
        omega

/-- What `printf("%d")` writes for an `int` is an atom token that `strtod` reads back whole,
as the same number. -/
theorem printInt_spec (i : Int) (h1 : Dbl.INT_MIN ≤ i) (h2 : i ≤ Dbl.INT_MAX) :
    strtod (printInt i) = (Dbl.fin (i : ℚ), []) ∧ tokenOK (printInt i) = true := by
  have hb : i.natAbs < 10 ^ 10 := by
    simp only [Dbl.INT_MIN, Dbl.INT_MAX] at h1 h2
    omega
  have h53 : i.natAbs ≤ 2 ^ 53 := by
    simp only [Dbl.INT_MIN, Dbl.INT_MAX] at h1 h2
    omega
  obtain ⟨s1, s2, s3, s4⟩ := decimalDigits_spec 10 i.natAbs (by decide) hb
  have hdel : ∀ c ∈ decimalDigits 10 i.natAbs, isDelimiter c = false :=
    fun c hc => (isdigit_props c (s2 c hc)).2.2.2.2.2.2.2.2.1
  have hhead : ∃ c cs, decimalDigits 10 i.natAbs = c :: cs ∧ isdigit c = true := by
    cases hds : decimalDigits 10 i.natAbs with
    | nil => exact absurd hds s1
    | cons c cs => exact ⟨c, cs, rfl, s2 c (by rw [hds]; exact List.mem_cons_self _ _)⟩
  obtain ⟨c, cs, hcs, hc⟩ := hhead
  obtain ⟨_, _, _, _, _, _, _, p8, _, p10, p11⟩ := isdigit_props c hc
  by_cases hneg : i < 0
  · rw [printInt, if_pos hneg]
    refine ⟨?_, ?_⟩
    · rw [strtod_neg_digits _ s1 s2, s3]
      have hz : -((i.natAbs : Nat) : ℚ) = ((i : Int) : ℚ) := by
        have hz : i = -(i.natAbs : Int) := by omega
        conv_rhs => rw [hz]
        rw [Int.cast_neg, Int.cast_natCast]
      rw [hz, Dbl.round_int i h53]
    · rw [tokenOK_iff]
      refine ⟨by simp, ?_, ?_, by simp [quoteChar], by simp [dquoteChar], ?_⟩
      · simp only [List.length_cons]
        omega
      · intro d hd
        rcases List.mem_cons.mp hd with h | h
        · rw [h]
          decide
        · exact hdel d h
      · simp only [ne_eq, List.cons.injEq, not_and]
        intro h
        exact absurd h (by decide)
  · rw [printInt, if_neg hneg]
    refine ⟨?_, ?_⟩
    · rw [strtod_digits _ s1 s2, s3]
      have hz : ((i.natAbs : Nat) : ℚ) = ((i : Int) : ℚ) := by
        have hz : i = (i.natAbs : Int) := by omega
        conv_rhs => rw [hz]
        exact (Int.cast_natCast _).symm
      rw [hz, Dbl.round_int i h53]
    · rw [tokenOK_iff, hcs]
      refine ⟨by simp, ?_, ?_, ?_, ?_, ?_⟩
      · rw [← hcs]
        omega
      · rw [← hcs]
        exact hdel
      · simp only [List.head?_cons, ne_eq, Option.some.injEq]
        exact p10
      · simp only [List.head?_cons, ne_eq, Option.some.injEq]
        exact p11
      · simp only [ne_eq, List.cons.injEq, not_and]
        intro h
        exact absurd h p8

theorem atomTree_printInt (i : Int) (h1 : Dbl.INT_MIN ≤ i) (h2 : i ≤ Dbl.INT_MAX) :
    atomTree (printInt i) = SExpr.num (i : ℚ) := by
  rw [atomTree, (printInt_spec i h1 h2).1]
  rfl

/-! ## The text that the printer writes -/

theorem separator_spec (d : SExpr) (x : Syn) :
    (separator d).all isspace = true ∧ x.stopsAt (separator d ++ (renderTail d).chars) = true := by
  have hsp : x.endsBefore ' ' = true := Syn.endsBefore_delimiter x ' ' (by decide)
  have hcl : x.endsBefore ')' = true := Syn.endsBefore_delimiter x ')' (by decide)
  cases d with
  | nil => exact ⟨rfl, hcl⟩
  | pair a d2 => exact ⟨rfl, hsp⟩
  | num q => exact ⟨rfl, hsp⟩
  | sym s => exact ⟨rfl, hsp⟩
  | str s => exact ⟨rfl, hsp⟩
  | inf b => exact ⟨rfl, hsp⟩
  | nan => exact ⟨rfl, hsp⟩

theorem SExpr.printable_pair (a d : SExpr) (h : (SExpr.pair a d).printable = true) :
    a.printable = true ∧ d.printable = true ∧
      ∀ s d2, d = SExpr.pair (SExpr.sym s) d2 → s.toList ≠ ['.'] := by
  simp only [SExpr.printable, SExpr.intNumbers, SExpr.readable, SExpr.noDotElement,
    Bool.and_eq_true] at h ⊢
  obtain ⟨⟨⟨h1, h2⟩, h3, h4⟩, ⟨h5, h6⟩, h7⟩ := h
  refine ⟨⟨⟨h1, h3⟩, h5⟩, ⟨⟨h2, h4⟩, h6⟩, ?_⟩
  intro s d2 hd
  subst hd
  simpa using h7

theorem renderAtom_num (q : ℚ) (h : (SExpr.num q).printable = true) :
    (renderAtom (SExpr.num q)).wf = true ∧ (renderAtom (SExpr.num q)).tree = SExpr.num q ∧
      (renderAtom (SExpr.num q)).isLoneDot = false := by
  simp only [SExpr.printable, SExpr.intNumbers, SExpr.readable, SExpr.noDotElement,
    Bool.and_eq_true, decide_eq_true_eq, and_true] at h
  obtain ⟨h1, h2⟩ := h
  have ht := (tokenOK_atomOK _).mp (printInt_spec q.num h1.2 h2).2
  refine ⟨?_, ?_, ?_⟩
  · rw [renderAtom, Syn.wf, ht.1]
    rfl
  · rw [renderAtom, Syn.tree, atomTree_printInt q.num h1.2 h2,
      Rat.coe_int_num_of_den_eq_one h1.1]
  · rw [renderAtom, Syn.isLoneDot, decide_eq_false_iff_not]
    exact ht.2

theorem renderAtom_sym (s : String) (h : (SExpr.sym s).printable = true) :
    (renderAtom (SExpr.sym s)).wf = true ∧ (renderAtom (SExpr.sym s)).tree = SExpr.sym s := by
  simp only [SExpr.printable, SExpr.intNumbers, SExpr.readable, SExpr.noDotElement,
    Bool.and_eq_true, Bool.or_eq_true, decide_eq_true_eq, true_and, and_true] at h
  rw [renderAtom, Syn.wf, Syn.tree, atomTree, Bool.or_eq_true]
  rcases h with h | h
  · exact ⟨Or.inl h.1, by rw [if_neg h.2]; rfl⟩
  · refine ⟨Or.inr h, ?_⟩
    obtain ⟨body, hb, _, _⟩ := (cutOK_iff _).mp h
    have hs := strtod_dquote body
    rw [← hb] at hs
    rw [if_neg (by rw [hs, hb]; simp)]
    rfl

theorem renderAtom_str (s : String) (h : (SExpr.str s).printable = true) :
    (renderAtom (SExpr.str s)).wf = true ∧ (renderAtom (SExpr.str s)).tree = SExpr.str s := by
  simp only [SExpr.printable, SExpr.intNumbers, SExpr.readable, SExpr.noDotElement,
    Bool.and_eq_true, decide_eq_true_eq, true_and, and_true] at h
  refine ⟨?_, rfl⟩
  simp only [renderAtom, Syn.wf, Bool.and_eq_true, decide_eq_true_eq]
  exact h

/-- The text that the printer writes for a tree is not the lone dot, unless the tree is the
Symbol `.`. -/
theorem render_isLoneDot (a : SExpr) (h : a.printable = true)
    (hs : ∀ s, a = SExpr.sym s → s.toList ≠ ['.']) : (render a).isLoneDot = false := by
  cases a with
  | nil => rfl
  | pair a1 d1 => rfl
  | num q => rw [render]; exact (renderAtom_num q h).2.2
  | sym s =>
    rw [render, renderAtom, Syn.isLoneDot, decide_eq_false_iff_not]
    exact hs s rfl
  | str s => rfl
  | inf b => rfl
  | nan => rfl

/-- For a tree that the printer and the reader agree on, the text that the printer writes is
well formed and denotes the tree. -/
theorem render_spec : ∀ e : SExpr, e.printable = true →
    (render e).wf = true ∧ (render e).tree = e ∧
      ((∀ s d, e = SExpr.pair (SExpr.sym s) d → s.toList ≠ ['.']) →
        (renderTail e).wf false = true) ∧
      (renderTail e).tree = e := by
  intro e
  induction e with
  | nil => intro _; exact ⟨rfl, rfl, fun _ => rfl, rfl⟩
  | num q =>
    intro h
    obtain ⟨h1, h2, _⟩ := renderAtom_num q h
    refine ⟨by rw [render]; exact h1, by rw [render]; exact h2, fun _ => ?_, ?_⟩
    · simp [renderTail, Items.wf, h1, isspace]
    · rw [renderTail, Items.tree]
      exact h2
  | sym s =>
    intro h
    obtain ⟨h1, h2⟩ := renderAtom_sym s h
    refine ⟨by rw [render]; exact h1, by rw [render]; exact h2, fun _ => ?_, ?_⟩
    · simp [renderTail, Items.wf, h1, isspace]
    · rw [renderTail, Items.tree]
      exact h2
  | str s =>
    intro h
    obtain ⟨h1, h2⟩ := renderAtom_str s h
    refine ⟨by rw [render]; exact h1, by rw [render]; exact h2, fun _ => ?_, ?_⟩
    · simp [renderTail, Items.wf, h1, isspace]
    · rw [renderTail, Items.tree]
      exact h2
  | inf b => intro h; simp [SExpr.printable, SExpr.intNumbers] at h
  | nan => intro h; simp [SExpr.printable, SExpr.intNumbers] at h
  | pair a d iha ihd =>
    intro h
    obtain ⟨ha, hd, hdot⟩ := SExpr.printable_pair a d h
    obtain ⟨a1, a2, _, _⟩ := iha ha
    obtain ⟨_, _, d3, d4⟩ := ihd hd
    obtain ⟨s1, s2⟩ := separator_spec d (render a)
    have hitems : ∀ b : Bool, (b = true ∨ (render a).isLoneDot = false) →
        (Items.item (render a) (separator d) (renderTail d)).wf b = true := by
      intro b hb
      rw [Items.wf_item]
      refine ⟨a1, s1, s2, d3 hdot, ?_⟩
      rcases hb with hb | hb
      · exact Or.inl hb
      · exact Or.inr (Or.inl hb)
    have htree : (Items.item (render a) (separator d) (renderTail d)).tree
        = SExpr.pair a d := by
      rw [Items.tree, a2, d4]
    refine ⟨?_, ?_, ?_, ?_⟩
    · rw [render, Syn.wf, hitems true (Or.inl rfl)]
      rfl
    · rw [render, Syn.tree]
      exact htree
    · intro hne
      rw [renderTail]
      apply hitems false
      right
      apply render_isLoneDot a ha
      intro s hs
      exact hne s d (by rw [hs])
    · rw [renderTail]
      exact htree

/-- A tree whose Symbols and Strings have the texts of tokens of the reader, none of them
the Symbol of a string literal without a closing quote that ends before the buffer is full,
has Symbols and Strings that the reader takes whole. -/
theorem SExpr.lexical_readable : ∀ e : SExpr, e.lexical = true → e.noOpenString = true →
    e.readable = true := by
  intro e
  induction e with
  | pair a d iha ihd =>
    intro h1 h2
    simp only [SExpr.lexical, SExpr.noOpenString, Bool.and_eq_true] at h1 h2
    simp only [SExpr.readable, Bool.and_eq_true]
    exact ⟨iha h1.1 h2.1, ihd h1.2 h2.2⟩
  | sym s =>
    intro h1 h2
    simp only [SExpr.lexical, symbolLexical, SExpr.noOpenString, Bool.and_eq_true,
      Bool.or_eq_true, decide_eq_true_eq] at h1 h2
    simp only [SExpr.readable, cutOK, Bool.and_eq_true, Bool.or_eq_true, decide_eq_true_eq]
    rcases h1 with h1 | ⟨⟨⟨h3, _⟩, _⟩, h5⟩
    · exact Or.inl h1
    · rcases h2 with h2 | h2
      · exact absurd h3 h2
      · exact Or.inr ⟨⟨h3, h2⟩, h5⟩
  | str s => intro h1 _; exact h1
  | nil => intro _ _; rfl
  | num q => intro _ _; rfl
  | inf b => intro _ _; rfl
  | nan => intro _ _; rfl

/-- A Symbol that the reader makes of a string literal without a closing quote, alone in a
text, is read back as it is. -/
theorem parse_open_symbol (ord : ArgOrder) (st : Store) (s : String)
    (hl : (SExpr.sym s).lexical = true) (ho : (SExpr.sym s).noOpenString = false) :
    ∃ v st2, parse ord st s.toList = Res.ok v st2 ∧ Keeps st st2 ∧
      HasShape st2 v (SExpr.sym s) := by
  simp only [SExpr.lexical, symbolLexical, SExpr.noOpenString, Bool.and_eq_true,
    Bool.or_eq_true, Bool.or_eq_false_iff, decide_eq_true_eq, decide_eq_false_iff_not,
    List.all_eq_true, not_not] at hl ho
  rcases hl with hl | ⟨⟨⟨h1, h2⟩, h3⟩, h4⟩
  · exact absurd ho.1 ((atomOK_iff _).mp hl.1).2.2.2.2
  · cases hs : s.toList with
    | nil => rw [hs] at h1; cases h1
    | cons c body =>
      rw [hs] at h1 h2 h3 h4 ho
      simp only [List.head?_cons, Option.some.injEq] at h1
      subst h1
      simp only [List.length_cons, List.tail_cons] at h2 h3 h4 ho
      have hne : body ≠ [] := by
        intro h
        rw [h] at h2
        simp at h2
      have hb : dquoteChar ∉ body := fun h => h4 dquoteChar h rfl
      obtain ⟨v, st2, hp, hk, hr⟩ := parse_unterminated ord st body hne hb
      rw [List.take_of_length_le (by omega), ← hs] at hr
      exact ⟨v, st2, hp, hk, hr⟩

theorem SExpr.size_pos (e : SExpr) : 1 ≤ e.size := by
  cases e <;> simp [SExpr.size]

theorem toInt_of_int (q : ℚ) (h1 : q.den = 1) (h2 : Dbl.INT_MIN ≤ q.num)
    (h3 : q.num ≤ Dbl.INT_MAX) :
    Dbl.toInt (Dbl.fin q) = some q.num ∧ Dbl.eqb (Dbl.fin q) (Dbl.ofInt q.num) = true := by
  refine ⟨?_, ?_⟩
  · simp [Dbl.toInt, h1, h2, h3]
  · simp [Dbl.eqb, Dbl.ofInt, Rat.coe_int_num_of_den_eq_one h1]

/-- The function `print_sexp` on an atom or Nil of a tree that the printer and the reader
agree on. -/
theorem print_atom (g : Dbl → List Char) (st : Store) (p : Ptr) (e : SExpr) (n : Nat)
    (hsh : HasShape st p e) (hp : e.intNumbers = true) (hne : ∀ a d, e ≠ SExpr.pair a d) :
    print_sexp (n + 1) g st p = Out.text (render e).chars := by
  cases e with
  | pair a d => exact absurd rfl (hne a d)
  | nil =>
    have hr : st.read p = Cell.nil := hsh
    rw [print_sexp, if_pos ((isNil_iff st p).mpr hr)]
    rfl
  | num q =>
    have hr : st.read p = Cell.number (Dbl.fin q) := hsh
    have hnil : isNil st p = false := by rw [isNil_eq_false_iff, hr]; simp
    simp only [SExpr.intNumbers, Bool.and_eq_true, decide_eq_true_eq] at hp
    obtain ⟨t1, t2⟩ := toInt_of_int q hp.1.1 hp.1.2 hp.2
    rw [print_sexp]
    simp only [hnil, Bool.false_eq_true, if_false, hr, t1, t2, if_true]
    rfl
  | sym s =>
    have hr : st.read p = Cell.symbol s := hsh
    have hnil : isNil st p = false := by rw [isNil_eq_false_iff, hr]; simp
    rw [print_sexp]
    simp only [hnil, Bool.false_eq_true, if_false, hr]
    rfl
  | str s =>
    have hr : st.read p = Cell.string s := hsh
    have hnil : isNil st p = false := by rw [isNil_eq_false_iff, hr]; simp
    rw [print_sexp]
    simp only [hnil, Bool.false_eq_true, if_false, hr]
    rfl
  | inf b => simp [SExpr.intNumbers] at hp
  | nan => simp [SExpr.intNumbers] at hp

theorem HasShape.atom_not_cons {st : Store} {p : Ptr} {e : SExpr} (hsh : HasShape st p e)
    (hne : ∀ a d, e ≠ SExpr.pair a d) : isCons st p = false := by
  cases e with
  | pair a d => exact absurd rfl (hne a d)
  | nil => rw [isCons, show st.read p = Cell.nil from hsh]
  | num q => rw [isCons, show st.read p = _ from hsh]
  | sym s => rw [isCons, show st.read p = _ from hsh]
  | str s => rw [isCons, show st.read p = _ from hsh]
  | inf b => rw [isCons, show st.read p = _ from hsh]
  | nan => rw [isCons, show st.read p = _ from hsh]

/-- The function `print_sexp` on a value with the structure of a tree that the printer and
the reader agree on writes the text `render` of the tree; the loop over a list writes that
text without the parentheses. -/
theorem print_spec (g : Dbl → List Char) (st : Store) : ∀ (e : SExpr) (p : Ptr),
    HasShape st p e → e.intNumbers = true →
    (∀ n, 2 * e.size ≤ n → print_sexp n g st p = Out.text (render e).chars) ∧
      (∀ n, 2 * e.size ≤ n + 1 → isCons st p = true →
        ∃ t, print_list n g st p = Out.text t ∧ t ++ [')'] = (renderTail e).chars) := by
  intro e
  induction e with
  | pair a d iha ihd =>
    intro p hsh hp
    simp only [SExpr.intNumbers, Bool.and_eq_true] at hp
    obtain ⟨hc, ha, hd⟩ := hsh
    have ia := iha (car st p) ha hp.1
    have id := ihd (cdr st p) hd hp.2
    have hsa := SExpr.size_pos a
    have hsd := SExpr.size_pos d
    have part2 : ∀ n, 2 * (SExpr.pair a d).size ≤ n + 1 →
        ∃ t, print_list n g st p = Out.text t ∧
          t ++ [')'] = (renderTail (SExpr.pair a d)).chars := by
      intro n hn
      simp only [SExpr.size] at hn
      obtain ⟨m, rfl⟩ : ∃ m, n = m + 1 := ⟨n - 1, by omega⟩
      have h1 := ia.1 m (by omega)
      rw [renderTail, Items.chars]
      cases d with
      | nil =>
        have hnil : isNil st (cdr st p) = true := (isNil_iff st _).mpr hd
        refine ⟨(render a).chars, ?_, by simp [separator, renderTail, Items.chars]⟩
        rw [print_list, h1]
        simp only [Out.bind, hnil, if_true]
      | pair a2 d2 =>
        have hc2 : isCons st (cdr st p) = true := hd.1
        have hnil : isNil st (cdr st p) = false := isCons_not_nil st _ hc2
        obtain ⟨t2, h2, h3⟩ := id.2 m (by simp only [SExpr.size] at hn ⊢; omega) hc2
        refine ⟨(render a).chars ++ ' ' :: t2, ?_, ?_⟩
        · rw [print_list, h1]
          simp only [Out.bind, hnil, Bool.false_eq_true, if_false, hc2, if_true, h2]
        · rw [← h3]
          simp [separator]
      | num q =>
        have hnc := HasShape.atom_not_cons hd (by intro _ _ h; cases h)
        have hnil : isNil st (cdr st p) = false := by
          rw [isNil_eq_false_iff, show st.read (cdr st p) = _ from hd]; simp
        have h2 := id.1 m (by simp only [SExpr.size] at hn ⊢; omega)
        refine ⟨(render a).chars ++ ' ' :: '.' :: ' ' :: (render (SExpr.num q)).chars, ?_, ?_⟩
        · rw [print_list, h1]
          simp only [Out.bind, hnil, Bool.false_eq_true, if_false, hnc, h2]
        · simp [separator, renderTail, render, Items.chars]
      | sym s =>
        have hnc := HasShape.atom_not_cons hd (by intro _ _ h; cases h)
        have hnil : isNil st (cdr st p) = false := by
          rw [isNil_eq_false_iff, show st.read (cdr st p) = _ from hd]; simp
        have h2 := id.1 m (by simp only [SExpr.size] at hn ⊢; omega)
        refine ⟨(render a).chars ++ ' ' :: '.' :: ' ' :: (render (SExpr.sym s)).chars, ?_, ?_⟩
        · rw [print_list, h1]
          simp only [Out.bind, hnil, Bool.false_eq_true, if_false, hnc, h2]
        · simp [separator, renderTail, render, Items.chars]
      | str s =>
        have hnc := HasShape.atom_not_cons hd (by intro _ _ h; cases h)
        have hnil : isNil st (cdr st p) = false := by
          rw [isNil_eq_false_iff, show st.read (cdr st p) = _ from hd]; simp
        have h2 := id.1 m (by simp only [SExpr.size] at hn ⊢; omega)
        refine ⟨(render a).chars ++ ' ' :: '.' :: ' ' :: (render (SExpr.str s)).chars, ?_, ?_⟩
        · rw [print_list, h1]
          simp only [Out.bind, hnil, Bool.false_eq_true, if_false, hnc, h2]
        · simp [separator, renderTail, render, Items.chars]
      | inf b => simp [SExpr.intNumbers] at hp
      | nan => simp [SExpr.intNumbers] at hp
    refine ⟨?_, fun n hn _ => part2 n hn⟩
    intro n hn
    obtain ⟨m, rfl⟩ : ∃ m, n = m + 1 := ⟨n - 1, by simp only [SExpr.size] at hn; omega⟩
    obtain ⟨t, h2, h3⟩ := part2 m hn
    have hnil : isNil st p = false := isCons_not_nil st p hc
    have hr := (isCons_iff st p).mp hc
    rw [print_sexp]
    simp only [hnil, Bool.false_eq_true, if_false]
    rw [hr]
    simp only [h2, Out.bind]
    rw [render, Syn.chars, ← renderTail, ← h3]
    rfl
  | nil =>
    intro p hsh hp
    refine ⟨?_, ?_⟩
    · intro n hn
      obtain ⟨m, rfl⟩ : ∃ m, n = m + 1 := ⟨n - 1, by simp only [SExpr.size] at hn; omega⟩
      exact print_atom g st p _ m hsh hp (by intro _ _ h; cases h)
    · intro n _ hc
      rw [HasShape.atom_not_cons hsh (by intro _ _ h; cases h)] at hc
      cases hc
  | num q =>
    intro p hsh hp
    refine ⟨?_, ?_⟩
    · intro n hn
      obtain ⟨m, rfl⟩ : ∃ m, n = m + 1 := ⟨n - 1, by simp only [SExpr.size] at hn; omega⟩
      exact print_atom g st p _ m hsh hp (by intro _ _ h; cases h)
    · intro n _ hc
      rw [HasShape.atom_not_cons hsh (by intro _ _ h; cases h)] at hc
      cases hc
  | sym s =>
    intro p hsh hp
    refine ⟨?_, ?_⟩
    · intro n hn
      obtain ⟨m, rfl⟩ : ∃ m, n = m + 1 := ⟨n - 1, by simp only [SExpr.size] at hn; omega⟩
      exact print_atom g st p _ m hsh hp (by intro _ _ h; cases h)
    · intro n _ hc
      rw [HasShape.atom_not_cons hsh (by intro _ _ h; cases h)] at hc
      cases hc
  | str s =>
    intro p hsh hp
    refine ⟨?_, ?_⟩
    · intro n hn
      obtain ⟨m, rfl⟩ : ∃ m, n = m + 1 := ⟨n - 1, by simp only [SExpr.size] at hn; omega⟩
      exact print_atom g st p _ m hsh hp (by intro _ _ h; cases h)
    · intro n _ hc
      rw [HasShape.atom_not_cons hsh (by intro _ _ h; cases h)] at hc
      cases hc
  | inf b => intro p _ hp; simp [SExpr.intNumbers] at hp
  | nan => intro p _ hp; simp [SExpr.intNumbers] at hp

/-! ## The reader on what the printer writes -/

theorem ShapeIn.of_keeps {st st2 : Store} {lo hi : Nat} (hk : Keeps st st2) (hhi : hi ≤ st.size)
    (e : SExpr) (p : Ptr) (h : ShapeIn st lo hi p e) : ShapeIn st2 lo hi p e :=
  ShapeIn.congr (fun q _ hq => hk.2 q (Nat.le_trans hq hhi)) e p h

/-- A cell is the root of at most one tree. -/
theorem HasShape.unique {st : Store} :
    ∀ (e e2 : SExpr) (p : Ptr), HasShape st p e → HasShape st p e2 → e = e2 := by
  intro e
  induction e with
  | pair a d iha ihd =>
    intro e2 p h1 h2
    have hc := (isCons_iff st p).mp h1.1
    cases e2 with
    | pair a2 d2 => rw [iha a2 _ h1.2.1 h2.2.1, ihd d2 _ h1.2.2 h2.2.2]
    | nil => have h : st.read p = _ := h2; rw [hc] at h; cases h
    | num q => have h : st.read p = _ := h2; rw [hc] at h; cases h
    | sym s => have h : st.read p = _ := h2; rw [hc] at h; cases h
    | str s => have h : st.read p = _ := h2; rw [hc] at h; cases h
    | inf b => have h : st.read p = _ := h2; rw [hc] at h; cases h
    | nan => have h : st.read p = _ := h2; rw [hc] at h; cases h
  | nil =>
    intro e2 p h1 h2
    have h : st.read p = _ := h1
    cases e2 with
    | pair a2 d2 => have hc := (isCons_iff st p).mp h2.1; rw [h] at hc; cases hc
    | nil => rfl
    | num q => have h3 : st.read p = _ := h2; rw [h] at h3; cases h3
    | sym s => have h3 : st.read p = _ := h2; rw [h] at h3; cases h3
    | str s => have h3 : st.read p = _ := h2; rw [h] at h3; cases h3
    | inf b => have h3 : st.read p = _ := h2; rw [h] at h3; cases h3
    | nan => have h3 : st.read p = _ := h2; rw [h] at h3; cases h3
  | num x =>
    intro e2 p h1 h2
    have h : st.read p = _ := h1
    cases e2 with
    | pair a2 d2 => have hc := (isCons_iff st p).mp h2.1; rw [h] at hc; cases hc
    | nil => have h3 : st.read p = _ := h2; rw [h] at h3; cases h3
    | num q => have h3 : st.read p = _ := h2; rw [h] at h3; cases h3; rfl
    | sym s => have h3 : st.read p = _ := h2; rw [h] at h3; cases h3
    | str s => have h3 : st.read p = _ := h2; rw [h] at h3; cases h3
    | inf b => have h3 : st.read p = _ := h2; rw [h] at h3; cases h3
    | nan => have h3 : st.read p = _ := h2; rw [h] at h3; cases h3
  | sym x =>
    intro e2 p h1 h2
    have h : st.read p = _ := h1
    cases e2 with
    | pair a2 d2 => have hc := (isCons_iff st p).mp h2.1; rw [h] at hc; cases hc
    | nil => have h3 : st.read p = _ := h2; rw [h] at h3; cases h3
    | num q => have h3 : st.read p = _ := h2; rw [h] at h3; cases h3
    | sym s => have h3 : st.read p = _ := h2; rw [h] at h3; cases h3; rfl
    | str s => have h3 : st.read p = _ := h2; rw [h] at h3; cases h3
    | inf b => have h3 : st.read p = _ := h2; rw [h] at h3; cases h3
    | nan => have h3 : st.read p = _ := h2; rw [h] at h3; cases h3
  | str x =>
    intro e2 p h1 h2
    have h : st.read p = _ := h1
    cases e2 with
    | pair a2 d2 => have hc := (isCons_iff st p).mp h2.1; rw [h] at hc; cases hc
    | nil => have h3 : st.read p = _ := h2; rw [h] at h3; cases h3
    | num q => have h3 : st.read p = _ := h2; rw [h] at h3; cases h3
    | sym s => have h3 : st.read p = _ := h2; rw [h] at h3; cases h3
    | str s => have h3 : st.read p = _ := h2; rw [h] at h3; cases h3; rfl
    | inf b => have h3 : st.read p = _ := h2; rw [h] at h3; cases h3
    | nan => have h3 : st.read p = _ := h2; rw [h] at h3; cases h3
  | inf x =>
    intro e2 p h1 h2
    have h : st.read p = _ := h1
    cases e2 with
    | pair a2 d2 => have hc := (isCons_iff st p).mp h2.1; rw [h] at hc; cases hc
    | nil => have h3 : st.read p = _ := h2; rw [h] at h3; cases h3
    | num q => have h3 : st.read p = _ := h2; rw [h] at h3; cases h3
    | sym s => have h3 : st.read p = _ := h2; rw [h] at h3; cases h3
    | str s => have h3 : st.read p = _ := h2; rw [h] at h3; cases h3
    | inf b => have h3 : st.read p = _ := h2; rw [h] at h3; cases h3; rfl
    | nan => have h3 : st.read p = _ := h2; rw [h] at h3; cases h3
  | nan =>
    intro e2 p h1 h2
    have h : st.read p = _ := h1
    cases e2 with
    | pair a2 d2 => have hc := (isCons_iff st p).mp h2.1; rw [h] at hc; cases hc
    | nil => have h3 : st.read p = _ := h2; rw [h] at h3; cases h3
    | num q => have h3 : st.read p = _ := h2; rw [h] at h3; cases h3
    | sym s => have h3 : st.read p = _ := h2; rw [h] at h3; cases h3
    | str s => have h3 : st.read p = _ := h2; rw [h] at h3; cases h3
    | inf b => have h3 : st.read p = _ := h2; rw [h] at h3; cases h3
    | nan => rfl

/-- Two values with the structure of the same tree have the same shape, and their atoms at
corresponding positions are `eq`, when the tree holds no NaN. -/
theorem SameAt.of_shapes (st : Store) : ∀ (e : SExpr) (p q : Ptr), HasShape st p e →
    HasShape st q e → e.intNumbers = true → SameAt st e p q := by
  intro e
  induction e with
  | pair a d iha ihd =>
    intro p q hp hq hn
    simp only [SExpr.intNumbers, Bool.and_eq_true] at hn
    exact ⟨hp.1, hq.1, iha _ _ hp.2.1 hq.2.1 hn.1, ihd _ _ hp.2.2 hq.2.2 hn.2⟩
  | nil =>
    intro p q hp hq _
    exact ⟨(isNil_iff st p).mpr hp, (isNil_iff st q).mpr hq⟩
  | num x =>
    intro p q hp hq _
    have h1 : st.read p = Cell.number (Dbl.fin x) := hp
    have h2 : st.read q = Cell.number (Dbl.fin x) := hq
    have n1 : isNil st p = false := by rw [isNil_eq_false_iff, h1]; simp
    have n2 : isNil st q = false := by rw [isNil_eq_false_iff, h2]; simp
    refine ⟨n1, by rw [isCons, h1], ?_⟩
    simp [eq, n1, n2, h1, h2, Dbl.eqb]
  | sym s =>
    intro p q hp hq _
    have h1 : st.read p = Cell.symbol s := hp
    have h2 : st.read q = Cell.symbol s := hq
    have n1 : isNil st p = false := by rw [isNil_eq_false_iff, h1]; simp
    have n2 : isNil st q = false := by rw [isNil_eq_false_iff, h2]; simp
    refine ⟨n1, by rw [isCons, h1], ?_⟩
    simp [eq, n1, n2, h1, h2]
  | str s =>
    intro p q hp hq _
    have h1 : st.read p = Cell.string s := hp
    have h2 : st.read q = Cell.string s := hq
    have n1 : isNil st p = false := by rw [isNil_eq_false_iff, h1]; simp
    have n2 : isNil st q = false := by rw [isNil_eq_false_iff, h2]; simp
    refine ⟨n1, by rw [isCons, h1], ?_⟩
    simp [eq, n1, n2, h1, h2]
  | inf b => intro _ _ _ _ hn; simp [SExpr.intNumbers] at hn
  | nan => intro _ _ _ _ hn; simp [SExpr.intNumbers] at hn

/-- What `print_sexp` writes for the value of a call that returns a tree whose numbers are
integers in the range of `int`. -/
theorem printed_of_yields (g : Dbl → List Char) (n : Nat) (r : Res) (e : SExpr)
    (h : r.Yields e) (hp : e.intNumbers = true) (hn : 2 * e.size ≤ n) :
    printed n g r = Out.text (render e).chars := by
  cases r with
  | ok v st => exact (print_spec g st e v h hp).1 n hn
  | fault => exact absurd h (by simp [Res.Yields])
  | fuel => exact absurd h (by simp [Res.Yields])

/-- The cast `(int)` of `print_sexp` on a Number outside the range of `int`. -/
theorem printed_out_of_range (g : Dbl → List Char) (n : Nat) (r : Res) (q : ℚ)
    (h : r.Yields (SExpr.num q)) (hq : Dbl.toInt (Dbl.fin q) = none) :
    printed (n + 1) g r = Out.fault := by
  cases r with
  | ok v st =>
    have hr : st.read v = Cell.number (Dbl.fin q) := h
    have hnil : isNil st v = false := by rw [isNil_eq_false_iff, hr]; simp
    rw [printed, print_sexp]
    simp only [hnil, Bool.false_eq_true, if_false, hr, hq]
  | fault => exact absurd h (by simp [Res.Yields])
  | fuel => exact absurd h (by simp [Res.Yields])

/-- The cast `(int)` of `print_sexp` on the Number NaN. -/
theorem printed_nan (g : Dbl → List Char) (n : Nat) (r : Res) (h : r.Yields SExpr.nan) :
    printed (n + 1) g r = Out.fault := by
  cases r with
  | ok v st =>
    have hr : st.read v = Cell.number Dbl.nan := h
    have hnil : isNil st v = false := by rw [isNil_eq_false_iff, hr]; simp
    have hq : Dbl.toInt Dbl.nan = none := rfl
    rw [printed, print_sexp]
    simp only [hnil, Bool.false_eq_true, if_false, hr, hq]
  | fault => exact absurd h (by simp [Res.Yields])
  | fuel => exact absurd h (by simp [Res.Yields])

/-- C26 fails on four kinds of text.  In `(a .(b))` the dot is followed by a parenthesis, so
the reader takes it for a Symbol and returns a list of three elements; `print_sexp` writes
it as `(a . (b))`, which the reader takes for a dotted tail and returns as the list `(a b)`
of two elements.  For the numeral `12345678901`, which does not fit in an `int`, the cast
`(int)` of `print_sexp` is undefined, whatever `%g` writes; and so it is for the token
`nan`, which `strtod` reads as the Number NaN.  In `("ab`, with a string literal that has
no closing quote, the reader returns a list of the Symbol of the three characters `"ab`;
`print_sexp` writes it as `("ab)`, in which the reader takes the parenthesis for a part of
the literal and returns the Symbol of the four characters `"ab)`. -/
theorem round_trip_fails :
    (parse ArgOrder.leftFirst Store.empty "(a .(b))".toList).Yields
        (SExpr.list [SExpr.sym "a", SExpr.sym ".", SExpr.list [SExpr.sym "b"]]) ∧
      (∀ (g : Dbl → List Char) (n : Nat), 18 ≤ n →
        printed n g (parse ArgOrder.leftFirst Store.empty "(a .(b))".toList)
          = Out.text "(a . (b))".toList) ∧
      (∀ (ord : ArgOrder) (st : Store), ∃ v st2,
        parse ord st "(a . (b))".toList = Res.ok v st2 ∧
          HasShape st2 v (SExpr.list [SExpr.sym "a", SExpr.sym "b"])) ∧
      (parse ArgOrder.leftFirst Store.empty "12345678901".toList).Yields
        (SExpr.num 12345678901) ∧
      (∀ (g : Dbl → List Char) (n : Nat),
        printed (n + 1) g (parse ArgOrder.leftFirst Store.empty "12345678901".toList)
          = Out.fault) ∧
      (parse ArgOrder.leftFirst Store.empty "nan".toList).Yields SExpr.nan ∧
      (∀ (g : Dbl → List Char) (n : Nat),
        printed (n + 1) g (parse ArgOrder.leftFirst Store.empty "nan".toList) = Out.fault) ∧
      (parse ArgOrder.leftFirst Store.empty ['(', dquoteChar, 'a', 'b']).Yields
        (SExpr.list [SExpr.sym (String.mk [dquoteChar, 'a', 'b'])]) ∧
      (∀ (g : Dbl → List Char) (n : Nat), 6 ≤ n →
        printed n g (parse ArgOrder.leftFirst Store.empty ['(', dquoteChar, 'a', 'b'])
          = Out.text ['(', dquoteChar, 'a', 'b', ')']) ∧
      (parse ArgOrder.leftFirst Store.empty ['(', dquoteChar, 'a', 'b', ')']).Yields
        (SExpr.list [SExpr.sym (String.mk [dquoteChar, 'a', 'b', ')'])]) := by
  have h1 : (parse ArgOrder.leftFirst Store.empty "(a .(b))".toList).Yields
      (SExpr.list [SExpr.sym "a", SExpr.sym ".", SExpr.list [SExpr.sym "b"]]) := by decide!
  have h2 : (parse ArgOrder.leftFirst Store.empty "12345678901".toList).Yields
      (SExpr.num 12345678901) := by decide!
  have h3 : (parse ArgOrder.leftFirst Store.empty "nan".toList).Yields SExpr.nan := by decide!
  have h4 : (parse ArgOrder.leftFirst Store.empty ['(', dquoteChar, 'a', 'b']).Yields
      (SExpr.list [SExpr.sym (String.mk [dquoteChar, 'a', 'b'])]) := by decide!
  refine ⟨h1, ?_, ?_, h2, ?_, h3, ?_, h4, ?_, by decide!⟩
  · intro g n hn
    rw [printed_of_yields g n _ _ h1 (by decide) (by simpa [SExpr.list, SExpr.size] using hn)]
    decide
  · intro ord st
    have hwf : (Syn.list [] (Items.item (Syn.atom ['a']) [' '] (Items.dot [' ']
        (Syn.list [] (Items.item (Syn.atom ['b']) [] Items.close)) []))).wf = true := by decide
    obtain ⟨v, st2, hp, _, hs⟩ := parse_syn _ hwf ord st
    exact ⟨v, st2, hp, hs⟩
  · intro g n
    exact printed_out_of_range g n _ _ h2 (by decide)
  · intro g n
    exact printed_nan g n _ h3
  · intro g n hn
    rw [printed_of_yields g n _ _ h4 (by decide) (by simpa [SExpr.list, SExpr.size] using hn)]
    decide

/-- C26, amended: let `parse` return a value `v` on a text, any text.  Then `v` has the
structure of a tree `e`.  When every Number of `e` is an integer in the range of `int`, no
list of `e` has the Symbol `.` as an element after the first, and no Symbol inside a pair
of `e` begins with a double quote and has fewer than 255 characters (the Symbol that the
reader makes of a string literal without a closing quote), then `print_sexp` writes for `v`
the text `render` of `e`, whatever `%g` writes; and `parse` of that text returns a value
`v2` with the same structure, so that `v` and `v2` have the same shape, Nil where the other
has Nil and a pair where the other has a pair, and their atoms at corresponding positions
are `eq`. -/
theorem reader_round_trip (input : List Char) (ord : ArgOrder) (st : Store)
    (g : Dbl → List Char) (v : Ptr) (st2 : Store) (hp : parse ord st input = Res.ok v st2) :
    (∃ e : SExpr, HasShape st2 v e) ∧
      ∀ e : SExpr, HasShape st2 v e → e.intNumbers = true → e.noDotElement = true →
        e.noOpenInside = true →
        (∀ n, 2 * e.size ≤ n → print_sexp n g st2 v = Out.text (render e).chars) ∧
          ∃ (v2 : Ptr) (st3 : Store),
            parse ord st2 (render e).chars = Res.ok v2 st3 ∧
            HasShape st3 v e ∧ HasShape st3 v2 e ∧ SameAt st3 e v v2 := by
  obtain ⟨_, e0, s1, hlex⟩ := parse_lexical ord st input v st2 hp
  refine ⟨⟨e0, s1.hasShape⟩, ?_⟩
  intro e hsh hint hdot hopen
  have he : e = e0 := HasShape.unique e e0 v hsh s1.hasShape
  subst he
  have again : ∀ (v2 : Ptr) (st3 : Store), parse ord st2 (render e).chars = Res.ok v2 st3 →
      Keeps st2 st3 → HasShape st3 v2 e →
      (∀ n, 2 * e.size ≤ n → print_sexp n g st2 v = Out.text (render e).chars) ∧
        ∃ (v2 : Ptr) (st3 : Store),
          parse ord st2 (render e).chars = Res.ok v2 st3 ∧
          HasShape st3 v e ∧ HasShape st3 v2 e ∧ SameAt st3 e v v2 := by
    intro v2 st3 p2 k2 s2
    have s3 : HasShape st3 v e := (ShapeIn.of_keeps k2 (Nat.le_refl _) _ _ s1).hasShape
    exact ⟨(print_spec g st2 e v hsh hint).1, v2, st3, p2, s3, s2,
      SameAt.of_shapes st3 e v v2 s3 s2 hint⟩
  by_cases hall : e.noOpenString = true
  · have hpr : e.printable = true := by
      rw [SExpr.printable, hint, SExpr.lexical_readable e hlex hall, hdot]
      rfl
    obtain ⟨r1, r2, _, _⟩ := render_spec e hpr
    obtain ⟨v2, st3, p2, k2, s2⟩ := parse_syn (render e) r1 ord st2
    rw [r2] at s2
    exact again v2 st3 p2 k2 s2
  · cases e with
    | sym s =>
      obtain ⟨v2, st3, p2, k2, s2⟩ := parse_open_symbol ord st2 s hlex (by simpa using hall)
      exact again v2 st3 p2 k2 s2
    | pair a d => exact absurd hopen hall
    | nil => exact absurd rfl hall
    | num q => exact absurd rfl hall
    | str t => exact absurd rfl hall
    | inf b => exact absurd rfl hall
    | nan => exact absurd rfl hall

/-- C26, amended, on the text `((a)(b)"x"1e-400 (c`, with no white space between its lists,
a numeral that is read as zero and two lists that the end of the text closes: its value is
the list `((a) (b) "x" 0 (c))`, which `print_sexp` writes so and the reader reads back; and
on `(1 . 2)`, `(a "b c" (1 -2) ())` and `"ab`, a string literal without a closing quote,
which `print_sexp` writes back as they are. -/
theorem reader_round_trip_witness :
    (parse ArgOrder.leftFirst Store.empty sampleLoose).Yields sampleLooseTree ∧
      sampleLooseTree.intNumbers = true ∧ sampleLooseTree.noDotElement = true ∧
      sampleLooseTree.noOpenInside = true ∧
      (render sampleLooseTree).chars
        = "((a) (b) ".toList ++ dquoteChar :: 'x' :: dquoteChar :: " 0 (c))".toList ∧
      (∃ (v : Ptr) (st2 : Store),
        parse ArgOrder.leftFirst Store.empty sampleLoose = Res.ok v st2 ∧
        (∃ e : SExpr, HasShape st2 v e) ∧
        ∀ e : SExpr, HasShape st2 v e → e.intNumbers = true → e.noDotElement = true →
          e.noOpenInside = true →
          (∀ n, 2 * e.size ≤ n →
            print_sexp n (fun _ => []) st2 v = Out.text (render e).chars) ∧
            ∃ (v2 : Ptr) (st3 : Store),
              parse ArgOrder.leftFirst st2 (render e).chars = Res.ok v2 st3 ∧
              HasShape st3 v e ∧ HasShape st3 v2 e ∧ SameAt st3 e v v2) ∧
      printed 40 (fun _ => []) (parse ArgOrder.leftFirst Store.empty sampleLoose)
        = Out.text (render sampleLooseTree).chars ∧
      printed 30 (fun _ => []) (parse ArgOrder.leftFirst Store.empty "(1 . 2)".toList)
        = Out.text "(1 . 2)".toList ∧
      printed 30 (fun _ => []) (parse ArgOrder.leftFirst Store.empty sampleRoundTrip.chars)
        = Out.text sampleRoundTrip.chars ∧
      printed 30 (fun _ => []) (parse ArgOrder.leftFirst Store.empty [dquoteChar, 'a', 'b'])
        = Out.text [dquoteChar, 'a', 'b'] := by
  have hy : (parse ArgOrder.leftFirst Store.empty sampleLoose).Yields sampleLooseTree := by
    decide!
  refine ⟨hy, by decide, by decide, by decide, by decide!, ?_, by decide!, by decide!,
    by decide!, by decide!⟩
  cases h : parse ArgOrder.leftFirst Store.empty sampleLoose with
  | ok v st2 =>
    exact ⟨v, st2, rfl,
      reader_round_trip sampleLoose ArgOrder.leftFirst Store.empty (fun _ => []) v st2 h⟩
  | fault => rw [h] at hy; exact hy.elim
  | fuel => rw [h] at hy; exact hy.elim

/-! ## Atom tokens, string literals, dotted tails -/

/-- C24 fails for a run of more than 255 characters and for the words that `strtod` takes
for numbers.  Of a run of 256 letters `a`, `parse` returns the Symbol of the first 255,
because `read_atom` stops when its buffer is full; of every run of more than 255
characters it returns what `atom` makes of the first 255.  The runs `nan`, `inf` and
`-infinity` are read as the Numbers NaN and infinity, not as Symbols. -/
theorem atom_token_truncated :
    (parse ArgOrder.leftFirst Store.empty (List.replicate 256 'a')).Yields
        (SExpr.sym (String.mk (List.replicate 255 'a'))) ∧
      (parse ArgOrder.leftFirst Store.empty "nan".toList).Yields SExpr.nan ∧
      (parse ArgOrder.leftFirst Store.empty "inf".toList).Yields (SExpr.inf false) ∧
      (parse ArgOrder.leftFirst Store.empty "-infinity".toList).Yields (SExpr.inf true) ∧
      (∀ (ord : ArgOrder) (st : Store) (r : List Char), 255 < r.length →
        (∀ c ∈ r, isDelimiter c = false) → r.head? ≠ some quoteChar →
        r.head? ≠ some dquoteChar → parse ord st r = atom st (r.take 255)) := by
  refine ⟨by decide!, by decide!, by decide!, by decide!, ?_⟩
  intro ord st r h2 h3 h4 h5
  exact parse_long_run ord st r h2 h3 h4 h5

/-- C24, amended: for every run `r` of at most 255 characters, not empty, none of them white
space or a parenthesis, whose first character is neither an apostrophe nor a double quote,
`parse` returns one new atom built from the whole run: the Number that `strtod` reads when
it consumes the whole run, and the Symbol whose text is `r` otherwise.  For a run of decimal
digits that Number is the double nearest to the number they denote, which is that number
itself up to `2 ^ 53`. -/
theorem atom_token_whole (r : List Char) (hne : r ≠ []) (hlen : r.length ≤ 255)
    (hdel : ∀ c ∈ r, isDelimiter c = false) (hq : r.head? ≠ some quoteChar)
    (hdq : r.head? ≠ some dquoteChar) (ord : ArgOrder) (st : Store) :
    ∃ v st2, parse ord st r = Res.ok v st2 ∧ Keeps st st2 ∧ st2.size = st.size + 1 ∧
      ((strtod r).2 = [] → st2.read v = Cell.number (strtod r).1) ∧
      ((strtod r).2 ≠ [] → st2.read v = Cell.symbol (String.mk r)) ∧
      ((∀ c ∈ r, isdigit c = true) →
        st2.read v = Cell.number (Dbl.round (readDigits 10 r)) ∧
        (readDigits 10 r ≤ 2 ^ 53 → st2.read v = Cell.number (Dbl.fin (readDigits 10 r)))) := by
  have hp := parse_run ord st r hne hlen hdel hq hdq
  rw [atom_run st r hne hdq] at hp
  have hrd : ∀ c : Cell, (st.alloc c).2.read (st.size + 1) = c := Store.read_alloc_new st
  refine ⟨_, _, hp, Keeps.alloc _ _, Store.size_alloc _ _, ?_, ?_, ?_⟩
  · intro h
    rw [hrd, if_pos h]
  · intro h
    rw [hrd, if_neg h]
  · intro h
    have hs := strtod_digits r hne h
    rw [hrd, if_pos (by rw [hs]), hs]
    refine ⟨rfl, fun h53 => ?_⟩
    have hr := Dbl.round_int (readDigits 10 r : Nat) (by rw [Int.natAbs_ofNat]; exact h53)
    rw [Int.cast_natCast] at hr
    rw [hr]

/-- C24, amended, on the runs `12abc` (a numeric prefix followed by letters: a Symbol), `42`
and `-1.5e2` (Numbers), `.` (a Symbol), and on numerals that are not doubles:
`9007199254740993`, which is `2 ^ 53 + 1`, is read as `2 ^ 53`, `0.1` as the double nearest
to one tenth, `1e400` as infinity and `1e-400` as zero. -/
theorem atom_token_whole_witness :
    (∃ v st2, parse ArgOrder.leftFirst Store.empty "12abc".toList = Res.ok v st2 ∧
      Keeps Store.empty st2 ∧ st2.size = Store.empty.size + 1 ∧
      ((strtod "12abc".toList).2 = [] → st2.read v = Cell.number (strtod "12abc".toList).1) ∧
      ((strtod "12abc".toList).2 ≠ [] →
        st2.read v = Cell.symbol (String.mk "12abc".toList)) ∧
      ((∀ c ∈ "12abc".toList, isdigit c = true) →
        st2.read v = Cell.number (Dbl.round (readDigits 10 "12abc".toList)) ∧
        (readDigits 10 "12abc".toList ≤ 2 ^ 53 →
          st2.read v = Cell.number (Dbl.fin (readDigits 10 "12abc".toList))))) ∧
      (strtod "12abc".toList).2 = "abc".toList ∧
      (parse ArgOrder.leftFirst Store.empty "12abc".toList).Yields (SExpr.sym "12abc") ∧
      (parse ArgOrder.leftFirst Store.empty "42".toList).Yields (SExpr.num 42) ∧
      (parse ArgOrder.leftFirst Store.empty "-1.5e2".toList).Yields (SExpr.num (-150)) ∧
      (parse ArgOrder.leftFirst Store.empty ".".toList).Yields (SExpr.sym ".") ∧
      (parse ArgOrder.leftFirst Store.empty "9007199254740993".toList).Yields
        (SExpr.num 9007199254740992) ∧
      (parse ArgOrder.leftFirst Store.empty "0.1".toList).Yields
        (SExpr.num (3602879701896397 / 36028797018963968)) ∧
      (parse ArgOrder.leftFirst Store.empty "1e400".toList).Yields (SExpr.inf false) ∧
      (parse ArgOrder.leftFirst Store.empty "1e-400".toList).Yields (SExpr.num 0) :=
  ⟨atom_token_whole "12abc".toList (by decide) (by decide) (by decide) (by decide) (by decide)
     ArgOrder.leftFirst Store.empty,
   by decide!, by decide!, by decide!, by decide!, by decide!, by decide!, by decide!,
   by decide!, by decide!⟩

/-- C25 fails for a text of more than 253 characters.  Of a string literal with 255 letters
`x` between its quotes, `read_atom` takes the opening quote and 254 letters, which `atom`
makes a Symbol; and so for every text of 255 or more characters between the quotes. -/
theorem string_literal_truncated :
    (parse ArgOrder.leftFirst Store.empty
        (dquoteChar :: (List.replicate 255 'x' ++ [dquoteChar]))).Yields
      (SExpr.sym (String.mk (dquoteChar :: List.replicate 254 'x'))) ∧
      (∀ (ord : ArgOrder) (st : Store) (s : List Char), 255 ≤ s.length → dquoteChar ∉ s →
        ∃ v st2, parse ord st (dquoteChar :: (s ++ [dquoteChar])) = Res.ok v st2 ∧
          st2.read v = Cell.symbol (String.mk (dquoteChar :: s.take 254))) := by
  refine ⟨by decide!, ?_⟩
  intro ord st s hlen hs
  obtain ⟨v, st2, hp, _, hr⟩ := parse_long_literal ord st s [dquoteChar] hlen hs
  exact ⟨v, st2, hp, hr⟩

/-- C25, amended: for every text `s` of at most 253 characters that holds no double quote,
`parse` of a double quote, `s` and a double quote returns one new String whose content is
`s`. -/
theorem string_literal_read (s : List Char) (hs : dquoteChar ∉ s) (hlen : s.length ≤ 253)
    (ord : ArgOrder) (st : Store) :
    ∃ v st2, parse ord st (dquoteChar :: (s ++ [dquoteChar])) = Res.ok v st2 ∧
      Keeps st st2 ∧ st2.size = st.size + 1 ∧ st2.read v = Cell.string (String.mk s) := by
  have hall : s.all (fun c => decide (c ≠ dquoteChar)) = true := by
    rw [List.all_eq_true]
    intro c hc
    simp only [decide_eq_true_eq]
    intro h
    exact hs (h ▸ hc)
  have h := read_atom_string st s [] hlen hall
  rw [List.append_nil] at h
  rw [parse_atom_step ord st dquoteChar _ (by decide) (by decide) (by decide), h]
  exact ⟨_, _, rfl, Keeps.alloc _ _, Store.size_alloc _ _, Store.read_alloc_new st _⟩

/-- C25, amended, on a text with white space, parentheses, digits and a backslash, and on
the empty text. -/
theorem string_literal_read_witness :
    (∃ v st2, parse ArgOrder.leftFirst Store.empty
        (dquoteChar :: (sampleString ++ [dquoteChar])) = Res.ok v st2 ∧
      Keeps Store.empty st2 ∧ st2.size = Store.empty.size + 1 ∧
      st2.read v = Cell.string (String.mk sampleString)) ∧
      (parse ArgOrder.leftFirst Store.empty [dquoteChar, dquoteChar]).Yields (SExpr.str "") :=
  ⟨string_literal_read sampleString (by decide) (by decide) ArgOrder.leftFirst Store.empty,
   by decide!⟩

theorem dottedItems_chars (toks : List (List Char × List Char)) (ws1 b ws2 : List Char) :
    (Syn.list [] (dottedItems toks ws1 b ws2)).chars = dottedText toks ws1 b ws2 := by
  have h : (dottedItems toks ws1 b ws2).chars
      = toks.foldr (fun a s => a.1 ++ (a.2 ++ s)) ('.' :: (ws1 ++ (b ++ (ws2 ++ [')'])))) := by
    induction toks with
    | nil => rfl
    | cons a rest ih => rw [dottedItems, Items.chars, ih]; rfl
  rw [Syn.chars, h]
  rfl

theorem dottedItems_tree (toks : List (List Char × List Char)) (ws1 b ws2 : List Char) :
    (Syn.list [] (dottedItems toks ws1 b ws2)).tree = dottedTree toks b := by
  have h : (dottedItems toks ws1 b ws2).tree = dottedTree toks b := by
    induction toks with
    | nil => rfl
    | cons a rest ih =>
      rw [dottedItems, Items.tree, ih]
      rfl
  rw [Syn.tree, h]

theorem dottedItems_wf (toks : List (List Char × List Char)) (ws1 b ws2 : List Char)
    (hne : toks ≠ [])
    (htok : ∀ a ∈ toks, tokenOK a.1 = true ∧ a.2 ≠ [] ∧ a.2.all isspace = true)
    (hws1 : ws1 ≠ [] ∧ ws1.all isspace = true) (hb : tokenOK b = true)
    (hws2 : ws2.all isspace = true) :
    (Syn.list [] (dottedItems toks ws1 b ws2)).wf = true := by
  have hatom : ∀ t : List Char, tokenOK t = true →
      (Syn.atom t).wf = true ∧ (Syn.atom t).isLoneDot = false := by
    intro t ht
    obtain ⟨h1, h2⟩ := (tokenOK_atomOK t).mp ht
    refine ⟨?_, ?_⟩
    · rw [Syn.wf, h1]
      rfl
    · rw [Syn.isLoneDot, decide_eq_false_iff_not]
      exact h2
  have h : ∀ first : Bool, (first = false ∨ toks ≠ []) →
      (dottedItems toks ws1 b ws2).wf first = true := by
    clear hne
    induction toks with
    | nil =>
      intro first hf
      rcases hf with hf | hf
      · subst hf
        simp [dottedItems, Items.wf, (hatom b hb).1, hws1.1, hws1.2, hws2]
      · exact absurd rfl hf
    | cons a rest ih =>
      intro first _
      obtain ⟨h1, h2, h3⟩ := htok a (List.mem_cons_self _ _)
      have hrest := ih (fun x hx => htok x (List.mem_cons_of_mem _ hx)) false (Or.inl rfl)
      rw [dottedItems, Items.wf_item]
      refine ⟨(hatom a.1 h1).1, h3, ?_, hrest, Or.inr (Or.inl (hatom a.1 h1).2)⟩
      rw [Syn.stopsAt_append _ _ _ h2]
      exact Syn.stopsAt_blank _ _ h3
  rw [Syn.wf, h true (Or.inr hne)]
  rfl

/-- C23 fails for a token of more than 255 characters and for the token `.`.  With 256
letters `a` for the first token, `(a...a . b)` is read as a chain of two pairs, the first
255 letters and then one more, not of one.  And `(a . . b)` is read as the single pair of
`a` and the Symbol `.`, not as the chain of `a`, `.` and the tail `b`. -/
theorem dotted_tail_long_token :
    (parse ArgOrder.leftFirst Store.empty
        ('(' :: (List.replicate 256 'a' ++ " . b)".toList))).Yields
      (SExpr.pair (SExpr.sym (String.mk (List.replicate 255 'a')))
        (SExpr.pair (SExpr.sym "a") (SExpr.sym "b"))) ∧
      (parse ArgOrder.leftFirst Store.empty "(a . . b)".toList).Yields
        (SExpr.pair (SExpr.sym "a") (SExpr.sym ".")) := by
  decide!

/-- C23, amended: for one or more atom tokens `a1 ... an` and an atom token `b`, each of at
most 255 characters and none the lone dot, each `ai` followed by white space, and the dot
followed by white space, `parse` of `(a1 ... an . b)` returns the chain of `n` pairs whose
heads are the values of `a1 ... an` in order and whose last tail is the value of `b`
itself; the value of a token is what `parse` returns for the token alone. -/
theorem dotted_tail (toks : List (List Char × List Char)) (ws1 b ws2 : List Char)
    (hne : toks ≠ [])
    (htok : ∀ a ∈ toks, tokenOK a.1 = true ∧ a.2 ≠ [] ∧ a.2.all isspace = true)
    (hws1 : ws1 ≠ [] ∧ ws1.all isspace = true) (hb : tokenOK b = true)
    (hws2 : ws2.all isspace = true) (ord : ArgOrder) (st : Store) :
    (∃ v st2, parse ord st (dottedText toks ws1 b ws2) = Res.ok v st2 ∧ Keeps st st2 ∧
      HasShape st2 v (dottedTree toks b)) ∧
      (∀ a ∈ toks, (parse ord st a.1).Yields (atomTree a.1)) ∧
      (parse ord st b).Yields (atomTree b) := by
  have value : ∀ t : List Char, tokenOK t = true → (parse ord st t).Yields (atomTree t) := by
    intro t ht
    have hw : (Syn.atom t).wf = true := by
      rw [Syn.wf, ((tokenOK_atomOK t).mp ht).1]
      rfl
    obtain ⟨v, st2, hp, _, hs⟩ := parse_syn (Syn.atom t) hw ord st
    rw [show (Syn.atom t).chars = t from rfl] at hp
    rw [hp]
    exact hs
  refine ⟨?_, fun a ha => value a.1 (htok a ha).1, value b hb⟩
  obtain ⟨v, st2, hp, hk, hs⟩ := parse_syn _ (dottedItems_wf toks ws1 b ws2 hne htok hws1 hb hws2)
    ord st
  rw [dottedItems_chars] at hp
  rw [dottedItems_tree] at hs
  exact ⟨v, st2, hp, hk, hs⟩

/-- C23, amended, on the texts `(1 . 2)`, a single pair of the Numbers 1 and 2, and
`(a b . c)`. -/
theorem dotted_tail_witness :
    dottedText [(['1'], [' '])] [' '] ['2'] [] = "(1 . 2)".toList ∧
      dottedTree [(['1'], [' '])] ['2'] = SExpr.pair (SExpr.num 1) (SExpr.num 2) ∧
      ((∃ v st2, parse ArgOrder.leftFirst Store.empty
            (dottedText [(['1'], [' '])] [' '] ['2'] []) = Res.ok v st2 ∧
          Keeps Store.empty st2 ∧ HasShape st2 v (dottedTree [(['1'], [' '])] ['2'])) ∧
        (∀ a ∈ [(['1'], [' '])],
          (parse ArgOrder.leftFirst Store.empty a.1).Yields (atomTree a.1)) ∧
        (parse ArgOrder.leftFirst Store.empty ['2']).Yields (atomTree ['2'])) ∧
      (∀ ord : ArgOrder,
        (parse ord Store.empty "(1 . 2)".toList).Yields
            (SExpr.pair (SExpr.num 1) (SExpr.num 2)) ∧
          (parse ord Store.empty "(a b . c)".toList).Yields
            (SExpr.pair (SExpr.sym "a") (SExpr.pair (SExpr.sym "b") (SExpr.sym "c")))) :=
  ⟨by decide, by decide!,
   dotted_tail [(['1'], [' '])] [' '] ['2'] [] (by decide) (by decide) (by decide) (by decide)
     (by decide) ArgOrder.leftFirst Store.empty,
   fun ord => by cases ord <;> decide!⟩

/-! ## The reader on any text: totality and well-formed lists -/

/-- C21: the reader is total but for two texts of string literals.  On the text that is a
lone double quote, `atom` writes before the start of a buffer, and on a string literal with
exactly 254 characters between its quotes `read_atom` writes past the end of `buffer`: the
claim fails there.  The rest of it holds: the fuel that `parse` gives is never exhausted (it
terminates on every text); on every text without a double quote (empty, with unbalanced
parentheses, a lone apostrophe) it returns a value; on an unterminated string literal of
more than the quote it returns a Symbol; it returns Nil for a text of white space only and
for `()`; and on a well-formed text followed by white space and anything more it returns a
value with the same structure as on the text alone. -/
theorem reader_total_but_for_quotes :
    (∀ (ord : ArgOrder) (st : Store), parse ord st [dquoteChar] = Res.fault) ∧
      (∀ (ord : ArgOrder) (st : Store) (body rest : List Char), body.length = 254 →
        dquoteChar ∉ body →
        parse ord st (dquoteChar :: (body ++ dquoteChar :: rest)) = Res.fault) ∧
      (∀ (ord : ArgOrder) (st : Store) (input : List Char),
        parse ord st input ≠ Res.fuel) ∧
      (∀ (ord : ArgOrder) (st : Store) (input : List Char), dquoteChar ∉ input →
        ∃ v st2, parse ord st input = Res.ok v st2 ∧ Keeps st st2) ∧
      (∀ (ord : ArgOrder) (st : Store) (body : List Char), body ≠ [] → dquoteChar ∉ body →
        ∃ v st2, parse ord st (dquoteChar :: body) = Res.ok v st2 ∧ Keeps st st2 ∧
          st2.read v = Cell.symbol (String.mk (dquoteChar :: body.take 254))) ∧
      (∀ (ord : ArgOrder) (st : Store) (input : List Char), input.all isspace = true →
        parse ord st input = Res.ok nil st) ∧
      (∀ (ord : ArgOrder) (st : Store), parse ord st "()".toList = Res.ok nil st) ∧
      (∀ (ord : ArgOrder) (st : Store) (x : Syn), x.wf = true →
        ∀ (w : Char) (u : List Char), isspace w = true →
          (parse ord st (x.chars ++ w :: u)).Yields x.tree ∧
            (parse ord st x.chars).Yields x.tree) ∧
      (∀ ord : ArgOrder,
        (parse ord Store.empty "(a (b".toList).Yields
            (SExpr.list [SExpr.sym "a", SExpr.list [SExpr.sym "b"]]) ∧
          (parse ord Store.empty (dquoteChar :: "abc".toList)).Yields
            (SExpr.sym (String.mk (dquoteChar :: "abc".toList))) ∧
          (parse ord Store.empty [quoteChar]).Yields
            (SExpr.list [SExpr.sym "quote", SExpr.nil]) ∧
          parse ord Store.empty ")".toList = Res.ok nil Store.empty ∧
          (parse ord Store.empty "(a b) c".toList).Yields
            (SExpr.list [SExpr.sym "a", SExpr.sym "b"])) := by
  refine ⟨parse_lone_dquote, parse_overflow, fun ord st input => (parse_post ord st input).1,
    parse_returns, parse_unterminated, parse_blank, parse_empty_list, ?_, ?_⟩
  · intro ord st x hx w u hw
    obtain ⟨v1, st1, p1, _, s1⟩ := parse_syn_then_more x hx ord st w u hw
    obtain ⟨v2, st2, p2, _, s2⟩ := parse_syn x hx ord st
    rw [p1, p2]
    exact ⟨s1, s2⟩
  · intro ord
    cases ord <;> decide!

/-- C22: on a text that holds no dot, `parse` terminates, returns a value when the text
holds no double quote, and every value it returns has the structure of a tree in which every
pair has a tail that is a pair or Nil; hence every pair reachable from the value has a tail
that is a pair or Nil.  Nothing is asked of the parentheses or of the end of the text. -/
theorem reader_lists_well_formed (ord : ArgOrder) (st : Store) (input : List Char)
    (hdot : '.' ∉ input) :
    parse ord st input ≠ Res.fuel ∧
      (dquoteChar ∉ input → ∃ v st2, parse ord st input = Res.ok v st2) ∧
      ∀ v st2, parse ord st input = Res.ok v st2 →
        (∃ e, HasShape st2 v e ∧ e.proper = true) ∧
          ∀ p, Reach st2 v p → isCons st2 p = true →
            isCons st2 (cdr st2 p) = true ∨ isNil st2 (cdr st2 p) = true := by
  obtain ⟨h1, _, h3⟩ := parse_post ord st input
  refine ⟨h1, ?_, ?_⟩
  · intro hq
    obtain ⟨v, st2, hp, _⟩ := parse_returns ord st input hq
    exact ⟨v, st2, hp⟩
  · intro v st2 hp
    obtain ⟨_, e, hsh, hpr⟩ := h3 v st2 hp
    exact ⟨⟨e, hsh, hpr hdot⟩, fun p hr hc => HasShape.reach_proper hr e hsh (hpr hdot) hc⟩

/-- C22 on the truncated text `(a (b c) ((d` and on `'(x)) y`, with a parenthesis too
many. -/
theorem reader_lists_well_formed_witness :
    (parse ArgOrder.leftFirst Store.empty "(a (b c) ((d".toList ≠ Res.fuel ∧
      (dquoteChar ∉ "(a (b c) ((d".toList →
        ∃ v st2, parse ArgOrder.leftFirst Store.empty "(a (b c) ((d".toList = Res.ok v st2) ∧
      ∀ v st2, parse ArgOrder.leftFirst Store.empty "(a (b c) ((d".toList = Res.ok v st2 →
        (∃ e, HasShape st2 v e ∧ e.proper = true) ∧
          ∀ p, Reach st2 v p → isCons st2 p = true →
            isCons st2 (cdr st2 p) = true ∨ isNil st2 (cdr st2 p) = true) ∧
      (∀ ord : ArgOrder,
        (parse ord Store.empty "(a (b c) ((d".toList).Yields
            (SExpr.list [SExpr.sym "a", SExpr.list [SExpr.sym "b", SExpr.sym "c"],
              SExpr.list [SExpr.list [SExpr.sym "d"]]]) ∧
          (parse ord Store.empty "'(x)) y".toList).Yields
            (SExpr.list [SExpr.sym "quote", SExpr.list [SExpr.sym "x"]])) :=
  ⟨reader_lists_well_formed ArgOrder.leftFirst Store.empty "(a (b c) ((d".toList (by decide),
   fun ord => by cases ord <;> decide!⟩

end Lisp
